import Mathlib

/-!
The ISC memory context (`lib/isc/mem.c`).

A shallow embedding of the size-classed allocator of `lib/isc/mem.c` and
theorems about it.  A last section of definitions embeds `lwres_hstrerror` of
`lib/lwres/herror.c`.

Modelling conventions.

* Addresses are natural numbers; a pointer that may be `NULL` is an
  `Option Nat`.
* A free list (a chain of `element`s linked through the freed memory itself)
  is the list of the addresses on the chain, head first.  Each table indexed
  by a size (`freelists`, `stats`) is a function of the index.
* The backing allocator (`memalloc`, `memfree`, `arg`) is a list of the
  answers it will give to the coming requests together with a log of the calls
  made so far.  Quantifying over the answers covers every allocator.
* `REQUIRE` and `INSIST` stop the process: an operation that trips one returns
  `Except.error Fault.assertion`.  Behaviour that C leaves undefined (an index
  outside a table, a `NULL` dereference, a division by zero) is
  `Except.error Fault.undefined`.
* Widths are those of an LP64 platform (`int` and `unsigned int` 32 bits,
  `size_t` and `unsigned long` 64 bits).  `quantize` keeps its machine
  arithmetic: it stores a `size_t` sum in an `int`, which a request of 2 GiB
  already overflows.  Unsigned decrements and subtractions wrap below zero as
  in C, and so do the additions to `freefrags`, a counter that the code can
  take below zero (see `more_frags_chop`).  The reference count of a context
  and the counter `gets` of a pool are `unsigned int` and wrap at `2 ^ 32`; the
  other counters of a pool wrap in their decrements (`wdec32`).  The sizes of
  the two tables that `isc_mem_createx` asks for are `size_t` products and
  wrap.  The sum `size + ALIGNMENT_SIZE` of `isc__mem_allocate` is taken on the
  argument of the caller and wraps.
* The sums of byte counts (`total + size`, `inuse + new_size`,
  `64 * mem_target`, also where a quota test compares them) and the increments
  of the `unsigned long` counters `gets`, `totalgets` and `blocks` are taken in
  the naturals.  They are the values of the code as long as they stay below
  `2 ^ 64`, which they do whenever the blocks of the backing allocator are
  real memory.  Beyond that the code wraps and the model does not: a theorem
  on a single call that states such a sum has the bound among its hypotheses,
  and `mem_get_large_wrap` is the large path of a get with its sums computed
  modulo `2 ^ 64`, where the quota test lets a request pass whose size makes
  `total + size` wrap.
* The sizes that configure a context (`max_size`, `mem_target`) are taken to
  fit the `int` and `unsigned int` variables that loop over them.
* The idle list `basic_blocks` is the list of the addresses
  `chunk + k * mem_target` at which `more_basic_blocks` stores its links.  With
  a `mem_target` of at least 8 bytes, the size of a link, this is the chain in
  memory.  `isc_mem_createx` also accepts a smaller `mem_target`; the links
  then overlap, the last one is stored partly behind the chunk, and the chain
  in memory is not that list.
* A pool (`isc_mempool_t`) is passed to its functions together with the
  context it belongs to (`mpctx->mctx`), and both are returned.
* Of the contents of the memory handed out only the `size_info` words that
  `isc__mem_allocate` writes are modelled, as a function of the address.
* The blocks that callers hold are not part of the C state.  Where a theorem
  speaks of them (`held_run`), the run carries the list of the pointers
  returned and not yet put back, each with the size asked for; the functions
  of the context never read this list.
* Locking (`LOCK`/`UNLOCK`) has no effect on the modelled state and is left
  out; `ISC_MEM_CHECKOVERRUN` is not defined in this file, so `check_overrun`
  is compiled out.
* `ISC_MEM_FILL` is defined: a get ends with `memset (ret, 0xbe, new_size)` and
  a put begins with `memset (mem, 0xde, new_size)`.  The contents of memory are
  not modelled, so these stores are left out.  They write the `new_size` bytes
  of the block handed out or given back.  For a class not above `mem_target`
  these bytes lie inside the fragment.  A class above `mem_target` (there is
  one whenever `max_size` exceeds `mem_target + 8`) is chopped from a basic
  block that is too short for it: the stores then run into the basic block
  behind it, or behind the chunk, and overwrite the link kept there, so from
  the first get of such a class on the lists of the model need not be the
  chains in memory.
-/

namespace IscMem

/-! ## Constants -/

def DEF_MAX_SIZE : Nat := 1100
def DEF_MEM_TARGET : Nat := 4096
def ALIGNMENT_SIZE : Nat := 8
def NUM_BASIC_BLOCKS : Nat := 64
def TABLE_INCREMENT : Nat := 1024
def MEM_MAGIC : Nat := 0x4D656d43

/-- Width of `int`. -/
def INT_BITS : Nat := 32
/-- Width of `unsigned int`. -/
def UINT_BITS : Nat := 32
def UINT_MAX : Nat := 2 ^ UINT_BITS - 1
/-- Width of `size_t` and of `unsigned long`. -/
def SIZE_BITS : Nat := 64
/-- Size of a pointer (`sizeof (element *)`, `sizeof (unsigned char *)`). -/
def SIZEOF_POINTER : Nat := 8
/-- Size of `struct stats`: four `unsigned long` fields. -/
def SIZEOF_STATS : Nat := 32

/-! ## Machine arithmetic -/

/-- Conversion of an unsigned value to `int`: the low 32 bits, read in two's
complement. -/
def to_int (x : Nat) : Int :=
  if x % 2 ^ INT_BITS < 2 ^ (INT_BITS - 1) then ((x % 2 ^ INT_BITS : Nat) : Int)
  else ((x % 2 ^ INT_BITS : Nat) : Int) - ((2 ^ INT_BITS : Nat) : Int)

/-- Conversion of an `int` to `size_t`: reduction modulo `2 ^ 64`. -/
def to_size (i : Int) : Nat := (i % ((2 ^ SIZE_BITS : Nat) : Int)).toNat

/-- Unsigned subtraction `a - b`, wrapping below zero. -/
def wsub (a b : Nat) : Nat := if b ≤ a then a - b else a + 2 ^ SIZE_BITS - b

/-- Unsigned decrement `x--`, wrapping below zero. -/
def wdec (x : Nat) : Nat := wsub x 1

/-- Unsigned addition `a + b`, wrapping at `2 ^ 64`. -/
def wadd (a b : Nat) : Nat := (a + b) % 2 ^ SIZE_BITS

/-! ## Types -/

/-- What stops an operation. -/
inductive Fault where
  /-- A `REQUIRE` or `INSIST` failed. -/
  | assertion
  /-- Undefined behaviour in C. -/
  | undefined
  deriving DecidableEq, Repr

/-- The record `struct stats`. -/
structure stats where
  gets : Nat
  totalgets : Nat
  blocks : Nat
  freefrags : Nat
  deriving DecidableEq, Repr

/-- One call of the backing allocator. -/
inductive BackingCall where
  /-- The call `(memalloc)(arg, size)` and what it returned. -/
  | alloc (size : Nat) (ret : Option Nat)
  /-- The call `(memfree)(arg, ptr)`. -/
  | free (ptr : Option Nat)
  deriving DecidableEq, Repr

/-- The backing allocator `memalloc`/`memfree`/`arg`: the answers to the coming
`memalloc` calls (none is `NULL`; when the list is used up every further call
answers `NULL`) and the calls made so far, oldest first. -/
structure Backing where
  responses : List (Option Nat)
  log : List BackingCall
  deriving DecidableEq, Repr

/-- The call `(ctx->memalloc)(ctx->arg, size)`. -/
def memalloc (b : Backing) (size : Nat) : Option Nat × Backing :=
  match b.responses with
  | [] => (none, { b with log := b.log ++ [BackingCall.alloc size none] })
  | r :: rs => (r, { responses := rs, log := b.log ++ [BackingCall.alloc size r] })

/-- The call `(ctx->memfree)(ctx->arg, ptr)`. -/
def memfree (b : Backing) (ptr : Option Nat) : Backing :=
  { b with log := b.log ++ [BackingCall.free ptr] }

/-- The record `struct isc_mem`.  `self`, `freelists_ptr`, `stats_ptr` and
`basic_table_ptr` are the addresses of the structure and of its three tables;
`basic_table` lists the recorded arena chunks. -/
structure isc_mem where
  magic : Nat
  ondestroy : List Nat
  backing : Backing
  max_size : Nat
  mem_target : Nat
  freelists : Nat → List Nat
  basic_blocks : List Nat
  basic_table : List Nat
  basic_table_count : Nat
  basic_table_size : Nat
  lowest : Option Nat
  highest : Option Nat
  checkfree : Bool
  trysplit : Bool
  stats : Nat → stats
  references : Nat
  quota : Nat
  total : Nat
  inuse : Nat
  pools : List Nat
  self : Nat
  freelists_ptr : Nat
  stats_ptr : Nat
  basic_table_ptr : Option Nat

/-- The macro `VALID_CONTEXT(c)`. -/
def VALID_CONTEXT (c : isc_mem) : Prop := c.magic = MEM_MAGIC

instance (c : isc_mem) : Decidable (VALID_CONTEXT c) := by
  unfold VALID_CONTEXT; infer_instance

/-- The type `isc_result_t`, the values this file returns. -/
inductive isc_result where
  | ISC_R_SUCCESS
  | ISC_R_NOMEMORY
  | ISC_R_UNEXPECTED
  deriving DecidableEq, Repr

/-! ## Private inline functions -/

/-- The function `quantize` (mem.c 157-171).  `temp` is an `int`; the sum is taken in
`size_t`, stored in `temp`, and the `int` result is converted back to
`size_t`.  `%` on `int` truncates towards zero. -/
def quantize (size : Nat) : Nat :=
  if size = 0 then ALIGNMENT_SIZE
  else
    let temp : Int := to_int ((size + (ALIGNMENT_SIZE - 1)) % 2 ^ SIZE_BITS)
    to_size (temp - Int.tmod temp (ALIGNMENT_SIZE : Nat))

/-- The store `table[i] = g (table[i])`. -/
def modify {α : Type} (table : Nat → α) (i : Nat) (g : α → α) : Nat → α :=
  fun k => if k = i then g (table i) else table k

/-- The statements `s.gets++; s.totalgets++`. -/
def stats.count_get (s : stats) : stats :=
  { s with gets := s.gets + 1, totalgets := s.totalgets + 1 }

/-- The statement `s.gets--`. -/
def stats.gets_dec (s : stats) : stats := { s with gets := wdec s.gets }

/-- The statement `s.blocks++`. -/
def stats.blocks_inc (s : stats) : stats := { s with blocks := s.blocks + 1 }

/-- The statement `s.freefrags += n`. -/
def stats.freefrags_add (s : stats) (n : Nat) : stats :=
  { s with freefrags := wadd s.freefrags n }

/-- The statement `s.freefrags--`. -/
def stats.freefrags_dec (s : stats) : stats := { s with freefrags := wdec s.freefrags }

/-- The function `split` (mem.c 173-200): unlink the head of free list `size`, link its first
`new_size` bytes into list `new_size` and the rest into list
`size - new_size`. -/
def split (ctx : isc_mem) (size new_size : Nat) : Except Fault isc_mem :=
  match ctx.freelists size with
  | [] => Except.error Fault.undefined
  | ptr :: rest =>
    let ctx1 : isc_mem :=
      { ctx with
        freelists := modify ctx.freelists size (fun _ => rest)
        stats := modify ctx.stats size stats.freefrags_dec }
    let ctx2 : isc_mem :=
      { ctx1 with
        freelists := modify ctx1.freelists new_size (fun l => ptr :: l)
        stats := modify ctx1.stats new_size (fun s => s.freefrags_add 1) }
    let remaining_size := wsub size new_size
    Except.ok
      { ctx2 with
        freelists := modify ctx2.freelists remaining_size (fun l => (ptr + new_size) :: l)
        stats := modify ctx2.stats remaining_size (fun s => s.freefrags_add 1) }

/-- The values `i` takes in `for (i = start; i < stop; i += ALIGNMENT_SIZE)`. -/
def loop_indices (start stop : Nat) : List Nat :=
  List.range' start ((stop - start + (ALIGNMENT_SIZE - 1)) / ALIGNMENT_SIZE) ALIGNMENT_SIZE

/-- The body `if (ctx->freelists[i] != NULL)` run over the indices of a loop:
the first index whose free list is not empty.  `freelists` has `max_size`
slots; reading one beyond them is undefined. -/
def find_frag (ctx : isc_mem) : List Nat → Except Fault (Option Nat)
  | [] => Except.ok none
  | i :: rest =>
    if ctx.max_size ≤ i then Except.error Fault.undefined
    else if ctx.freelists i = [] then find_frag ctx rest
    else Except.ok (some i)

/-- The two loops of `try_split` (mem.c 213-233): the class whose head fragment
is to be split, if there is one. -/
def split_candidate (ctx : isc_mem) (new_size : Nat) : Except Fault (Option Nat) :=
  let doubled_size := new_size * 2
  match find_frag ctx (loop_indices doubled_size ctx.max_size) with
  | Except.error e => Except.error e
  | Except.ok (some i) => Except.ok (some i)
  | Except.ok none => find_frag ctx (loop_indices (new_size + ALIGNMENT_SIZE) doubled_size)

/-- The function `try_split` (mem.c 202-236). -/
def try_split (ctx : isc_mem) (new_size : Nat) : Except Fault (Bool × isc_mem) :=
  if ctx.trysplit = false then Except.ok (false, ctx)
  else
    match split_candidate ctx new_size with
    | Except.error e => Except.error e
    | Except.ok none => Except.ok (false, ctx)
    | Except.ok (some i) =>
      match split ctx i new_size with
      | Except.error e => Except.error e
      | Except.ok c => Except.ok (true, c)

/-- The table step of `more_basic_blocks` (mem.c 257-272), after the
`INSIST`: when the chunk table is full, replace it by one `TABLE_INCREMENT`
entries longer.  The flag is false when the allocation of the new table
fails. -/
def more_basic_blocks_table (ctx : isc_mem) : Bool × isc_mem :=
  if ctx.basic_table_count = ctx.basic_table_size then
    let table_size := ctx.basic_table_size + TABLE_INCREMENT
    match memalloc ctx.backing (table_size * SIZEOF_POINTER) with
    | (none, b) => (false, { ctx with backing := b })
    | (some table, b) =>
      let b1 := if ctx.basic_table_size ≠ 0 then memfree b ctx.basic_table_ptr else b
      (true, { ctx with backing := b1, basic_table_ptr := some table,
                        basic_table_size := table_size })
  else (true, ctx)

/-- The chunk step of `more_basic_blocks` (mem.c 274-301): ask the backing
allocator for a chunk, record it and slice it into basic blocks. -/
def more_basic_blocks_chunk (ctx : isc_mem) : Bool × isc_mem :=
  let increment := NUM_BASIC_BLOCKS * ctx.mem_target
  match memalloc ctx.backing (NUM_BASIC_BLOCKS * ctx.mem_target) with
  | (none, b) => (false, { ctx with backing := b })
  | (some new, b) =>
    let first := new
    let last := first + NUM_BASIC_BLOCKS * ctx.mem_target - 1
    (true,
      { ctx with
        backing := b
        total := ctx.total + increment
        basic_table := ctx.basic_table.take ctx.basic_table_count ++ [new]
        basic_table_count := ctx.basic_table_count + 1
        lowest :=
          match ctx.lowest with
          | none => some first
          | some l => if first < l then some first else some l
        highest := if last > ctx.highest.getD 0 then some last else ctx.highest
        basic_blocks :=
          (List.range NUM_BASIC_BLOCKS).map (fun k => new + k * ctx.mem_target) })

/-- The function `more_basic_blocks` (mem.c 238-302). -/
def more_basic_blocks (ctx : isc_mem) : Except Fault (Bool × isc_mem) :=
  let increment := NUM_BASIC_BLOCKS * ctx.mem_target
  if ctx.quota ≠ 0 ∧ ctx.total + increment > ctx.quota then Except.ok (false, ctx)
  else if ctx.basic_table_size < ctx.basic_table_count then Except.error Fault.assertion
  else
    match more_basic_blocks_table ctx with
    | (false, ctx1) => Except.ok (false, ctx1)
    | (true, ctx1) => Except.ok (more_basic_blocks_chunk ctx1)

/-- The second half of `more_frags` (mem.c 332-356): pop an idle basic block
and chop it into fragments of `new_size` bytes.  `frags` is an `int` and the
loop runs `frags - 1` times, so the list built has one fragment even when
`frags` is 0.  A `new_size` of 0 is a division by zero. -/
def more_frags_chop (ctx : isc_mem) (new_size : Nat) : Except Fault (Bool × isc_mem) :=
  match ctx.basic_blocks with
  | [] => Except.error Fault.undefined
  | new :: rest =>
    if new_size = 0 then Except.error Fault.undefined
    else
      let total_size := ctx.mem_target
      let frags := total_size / new_size
      Except.ok (true,
        { ctx with
          basic_blocks := rest
          stats := modify ctx.stats new_size (fun s => s.blocks_inc.freefrags_add frags)
          freelists := modify ctx.freelists new_size
            (fun _ => (List.range (max frags 1)).map (fun k => new + k * new_size)) })

/-- The function `more_frags` (mem.c 304-357). -/
def more_frags (ctx : isc_mem) (new_size : Nat) : Except Fault (Bool × isc_mem) :=
  if ctx.basic_blocks = [] then
    match more_basic_blocks ctx with
    | Except.error e => Except.error e
    | Except.ok (false, ctx1) => try_split ctx1 new_size
    | Except.ok (true, ctx1) => more_frags_chop ctx1 new_size
  else more_frags_chop ctx new_size

/-- The tail of `mem_getunlocked` (mem.c 396-411): pop the head of free list
`new_size` and count it. -/
def mem_get_pop (ctx : isc_mem) (size new_size : Nat) : Except Fault (Option Nat × isc_mem) :=
  match ctx.freelists new_size with
  | [] => Except.error Fault.undefined
  | ret :: rest =>
    Except.ok (some ret,
      { ctx with
        freelists := modify ctx.freelists new_size (fun _ => rest)
        stats := modify (modify ctx.stats size stats.count_get) new_size stats.freefrags_dec
        inuse := ctx.inuse + new_size })

/-- The large path of `mem_getunlocked` (mem.c 364-386), the sums of bytes
taken in the naturals. -/
def mem_get_large (ctx : isc_mem) (size : Nat) : Option Nat × isc_mem :=
  if ctx.quota ≠ 0 ∧ ctx.total + size > ctx.quota then (none, ctx)
  else
    match memalloc ctx.backing size with
    | (none, b) => (none, { ctx with backing := b })
    | (some ret, b) =>
      (some ret,
        { ctx with
          backing := b
          total := ctx.total + size
          inuse := ctx.inuse + size
          stats := modify ctx.stats ctx.max_size stats.count_get })

/-- The large path of `mem_getunlocked` (mem.c 364-386) with its three sums
of `size_t` kept as the machine computes them: `ctx->total + size` of the
quota test and the updates `ctx->total += size` and `ctx->inuse += size` wrap
at `2 ^ 64`.  It is `mem_get_large` wherever `total + size` and `inuse + size`
are below `2 ^ 64`. -/
def mem_get_large_wrap (ctx : isc_mem) (size : Nat) : Option Nat × isc_mem :=
  if ctx.quota ≠ 0 ∧ wadd ctx.total size > ctx.quota then (none, ctx)
  else
    match memalloc ctx.backing size with
    | (none, b) => (none, { ctx with backing := b })
    | (some ret, b) =>
      (some ret,
        { ctx with
          backing := b
          total := wadd ctx.total size
          inuse := wadd ctx.inuse size
          stats := modify ctx.stats ctx.max_size stats.count_get })

/-- The function `mem_getunlocked` (mem.c 359-421).  The result is the pointer returned
(none for `NULL`) and the context afterwards. -/
def mem_getunlocked (ctx : isc_mem) (size : Nat) : Except Fault (Option Nat × isc_mem) :=
  let new_size := quantize size
  if size ≥ ctx.max_size ∨ new_size ≥ ctx.max_size then Except.ok (mem_get_large ctx size)
  else if ctx.freelists new_size = [] then
    match more_frags ctx new_size with
    | Except.error e => Except.error e
    | Except.ok (false, ctx1) => Except.ok (none, ctx1)
    | Except.ok (true, ctx1) => mem_get_pop ctx1 size new_size
  else mem_get_pop ctx size new_size

/-- The function `mem_putunlocked` (mem.c 423-466).  On the small path `stats[size]` is read
with `size` not known to be below `max_size`: the table has `max_size + 1`
slots and an index beyond them is undefined. -/
def mem_putunlocked (ctx : isc_mem) (mem : Nat) (size : Nat) : Except Fault isc_mem :=
  let new_size := quantize size
  if size = ctx.max_size ∨ new_size ≥ ctx.max_size then
    let b := memfree ctx.backing (some mem)
    if (ctx.stats ctx.max_size).gets = 0 then Except.error Fault.assertion
    else if ¬ size ≤ ctx.total then Except.error Fault.assertion
    else
      Except.ok
        { ctx with
          backing := b
          stats := modify ctx.stats ctx.max_size stats.gets_dec
          inuse := wsub ctx.inuse size
          total := wsub ctx.total size }
  else if ctx.max_size < size then Except.error Fault.undefined
  else if (ctx.stats size).gets = 0 then Except.error Fault.assertion
  else
    Except.ok
      { ctx with
        freelists := modify ctx.freelists new_size (fun l => mem :: l)
        stats := modify (modify ctx.stats size stats.gets_dec) new_size
          (fun s => s.freefrags_add 1)
        inuse := wsub ctx.inuse new_size }

/-! ## Public functions -/

/-- The function `isc_mem_createx` (mem.c 488-555).  `sizeof_ctx` is `sizeof (isc_mem_t)`
and `mutex_ok` tells whether `isc_mutex_init` succeeds.  The result is the
status, the context stored in `*ctxp` on success, and the backing allocator
afterwards.  The sizes of the two tables are `size_t` products and wrap. -/
def isc_mem_createx (sizeof_ctx init_max_size target_size : Nat) (b : Backing)
    (mutex_ok : Bool) : isc_result × Option isc_mem × Backing :=
  match memalloc b sizeof_ctx with
  | (none, b1) => (isc_result.ISC_R_NOMEMORY, none, b1)
  | (some ctx, b1) =>
    let max_size := if init_max_size = 0 then DEF_MAX_SIZE else init_max_size
    let mem_target := if target_size = 0 then DEF_MEM_TARGET else target_size
    match memalloc b1 (max_size * SIZEOF_POINTER % 2 ^ SIZE_BITS) with
    | (none, b2) => (isc_result.ISC_R_NOMEMORY, none, memfree b2 (some ctx))
    | (some freelists, b2) =>
      match memalloc b2 ((max_size + 1) % 2 ^ SIZE_BITS * SIZEOF_STATS % 2 ^ SIZE_BITS) with
      | (none, b3) =>
        (isc_result.ISC_R_NOMEMORY, none, memfree (memfree b3 (some freelists)) (some ctx))
      | (some stats, b3) =>
        if mutex_ok = false then
          (isc_result.ISC_R_UNEXPECTED, none,
            memfree (memfree (memfree b3 (some stats)) (some freelists)) (some ctx))
        else
          (isc_result.ISC_R_SUCCESS,
            some
              { magic := MEM_MAGIC
                ondestroy := []
                backing := b3
                max_size := max_size
                mem_target := mem_target
                freelists := fun _ => []
                basic_blocks := []
                basic_table := []
                basic_table_count := 0
                basic_table_size := 0
                lowest := none
                highest := none
                checkfree := true
                trysplit := false
                stats := fun _ => { gets := 0, totalgets := 0, blocks := 0, freefrags := 0 }
                references := 1
                quota := 0
                total := 0
                inuse := 0
                pools := []
                self := ctx
                freelists_ptr := freelists
                stats_ptr := stats
                basic_table_ptr := none },
            b3)

/-- What is left of a context after `destroy`: the backing allocator, with the
releases logged, and the waiters handed to `isc_ondestroy_notify`. -/
structure Destroyed where
  backing : Backing
  notified : List Nat
  deriving DecidableEq, Repr

/-- The loop `for (i = 0; i <= ctx->max_size; i++) INSIST(ctx->stats[i].gets == 0)`
of `destroy`: true when some `INSIST` fails.  The index is an `unsigned int`;
`max_size` is taken to fit one. -/
def destroy_leak (ctx : isc_mem) : Bool :=
  (List.range (ctx.max_size + 1)).any (fun i => decide ((ctx.stats i).gets ≠ 0))

/-- The function `destroy` (mem.c 566-600).  The structure is released at the end, so the
store `ctx->magic = 0` leaves no trace in the result. -/
def destroy (ctx : isc_mem) : Except Fault Destroyed :=
  if ctx.pools ≠ [] then Except.error Fault.assertion
  else if ctx.references ≠ 0 then Except.error Fault.assertion
  else if ctx.checkfree = true ∧ destroy_leak ctx = true then Except.error Fault.assertion
  else
    let b1 := (ctx.basic_table.take ctx.basic_table_count).foldl
      (fun b chunk => memfree b (some chunk)) ctx.backing
    let b2 := memfree b1 (some ctx.freelists_ptr)
    let b3 := memfree b2 (some ctx.stats_ptr)
    let b4 := memfree b3 ctx.basic_table_ptr
    let ondest := ctx.ondestroy
    let b5 := memfree b4 (some ctx.self)
    Except.ok { backing := b5, notified := ondest }

/-- The function `isc_mem_attach` (mem.c 602-612): the context afterwards and the handle
stored in `*targetp`.  `references` is an `unsigned int`: `source->references++`
wraps at `2 ^ 32`. -/
def isc_mem_attach (source : isc_mem) : Except Fault (isc_mem × Nat) :=
  if ¬ VALID_CONTEXT source then Except.error Fault.assertion
  else
    Except.ok ({ source with references := (source.references + 1) % 2 ^ UINT_BITS },
      source.self)

/-- What became of a context after a detach. -/
inductive Life where
  /-- The context is still there. -/
  | alive (ctx : isc_mem)
  /-- The context was torn down by `destroy`. -/
  | destroyed (d : Destroyed)

/-- Outcome of `isc_mem_detach` and of `isc_mem_destroy`: the value left in
the caller's handle `*ctxp` and what became of the context. -/
structure Released where
  handle : Option Nat
  life : Life

/-- The function `isc_mem_detach` (mem.c 614-634). -/
def isc_mem_detach (ctx : isc_mem) : Except Fault Released :=
  if ¬ VALID_CONTEXT ctx then Except.error Fault.assertion
  else if ¬ ctx.references > 0 then Except.error Fault.assertion
  else
    let ctx1 := { ctx with references := wdec ctx.references }
    if ctx1.references = 0 then
      (destroy ctx1).map (fun d => { handle := none, life := Life.destroyed d })
    else Except.ok { handle := none, life := Life.alive ctx1 }

/-- The function `isc_mem_destroy` (mem.c 636-661). -/
def isc_mem_destroy (ctx : isc_mem) : Except Fault Released :=
  if ¬ VALID_CONTEXT ctx then Except.error Fault.assertion
  else if ¬ ctx.references = 1 then Except.error Fault.assertion
  else
    let ctx1 := { ctx with references := wdec ctx.references }
    if ctx1.references = 0 then
      (destroy ctx1).map (fun d => { handle := none, life := Life.destroyed d })
    else Except.ok { handle := none, life := Life.alive ctx1 }

/-- The function `isc__mem_get` (mem.c 686-697). -/
def isc__mem_get (ctx : isc_mem) (size : Nat) : Except Fault (Option Nat × isc_mem) :=
  if ¬ VALID_CONTEXT ctx then Except.error Fault.assertion
  else mem_getunlocked ctx size

/-- The function `isc__mem_put` (mem.c 714-721). -/
def isc__mem_put (ctx : isc_mem) (mem : Nat) (size : Nat) : Except Fault isc_mem :=
  if ¬ VALID_CONTEXT ctx then Except.error Fault.assertion
  else mem_putunlocked ctx mem size

/-- The function `isc_mem_setdestroycheck` (mem.c 920-928). -/
def isc_mem_setdestroycheck (ctx : isc_mem) (flag : Bool) : Except Fault isc_mem :=
  if ¬ VALID_CONTEXT ctx then Except.error Fault.assertion
  else Except.ok { ctx with checkfree := flag }

/-- The function `isc_mem_setsplit` (mem.c 930-938). -/
def isc_mem_setsplit (ctx : isc_mem) (flag : Bool) : Except Fault isc_mem :=
  if ¬ VALID_CONTEXT ctx then Except.error Fault.assertion
  else Except.ok { ctx with trysplit := flag }

/-- The function `isc_mem_setquota` (mem.c 945-953). -/
def isc_mem_setquota (ctx : isc_mem) (quota : Nat) : Except Fault isc_mem :=
  if ¬ VALID_CONTEXT ctx then Except.error Fault.assertion
  else Except.ok { ctx with quota := quota }

/-- The function `isc_mem_getquota` (mem.c 955-967). -/
def isc_mem_getquota (ctx : isc_mem) : Except Fault Nat :=
  if ¬ VALID_CONTEXT ctx then Except.error Fault.assertion
  else Except.ok ctx.quota

/-- The function `isc_mem_inuse` (mem.c 969-981). -/
def isc_mem_inuse (ctx : isc_mem) : Except Fault Nat :=
  if ¬ VALID_CONTEXT ctx then Except.error Fault.assertion
  else Except.ok ctx.inuse

/-! ## Sequences of calls -/

/-- A call of `isc__mem_get` or of `isc__mem_put`. -/
inductive Op where
  | get (size : Nat)
  | put (mem : Nat) (size : Nat)
  deriving DecidableEq, Repr

/-- The context after one call. -/
def step (ctx : isc_mem) : Op → Except Fault isc_mem
  | Op.get size => (isc__mem_get ctx size).map Prod.snd
  | Op.put mem size => isc__mem_put ctx mem size

/-- The context after a sequence of calls, first call first. -/
def run (ctx : isc_mem) : List Op → Except Fault isc_mem
  | [] => Except.ok ctx
  | op :: ops =>
    match step ctx op with
    | Except.error e => Except.error e
    | Except.ok c => run c ops

/-- The large-request test of `mem_getunlocked`. -/
def get_large (max_size size : Nat) : Prop := size ≥ max_size ∨ quantize size ≥ max_size

instance (max_size size : Nat) : Decidable (get_large max_size size) := by
  unfold get_large; infer_instance

/-- The large-request test of `mem_putunlocked`. -/
def put_large (max_size size : Nat) : Prop := size = max_size ∨ quantize size ≥ max_size

instance (max_size size : Nat) : Decidable (put_large max_size size) := by
  unfold put_large; infer_instance

/-- The statistics slot a get of `size` counts in. -/
def get_slot (max_size size : Nat) : Nat := if get_large max_size size then max_size else size

/-- The statistics slot a put of `size` counts in. -/
def put_slot (max_size size : Nat) : Nat := if put_large max_size size then max_size else size

/-- The number of puts of a sequence that count in slot `k`. -/
def puts_to (max_size k : Nat) : List Op → Nat
  | [] => 0
  | Op.get _ :: ops => puts_to max_size k ops
  | Op.put _ size :: ops =>
    (if k = put_slot max_size size then 1 else 0) + puts_to max_size k ops

/-- A call on the small path of `mem_getunlocked` or of `mem_putunlocked`. -/
def small_op (max_size : Nat) : Op → Prop
  | Op.get size => ¬ get_large max_size size
  | Op.put _ size => ¬ put_large max_size size

instance (max_size : Nat) (op : Op) : Decidable (small_op max_size op) := by
  cases op <;> unfold small_op <;> infer_instance

/-- A call of `isc_mem_attach` or of `isc_mem_detach`. -/
inductive RefOp where
  | attach
  | detach
  deriving DecidableEq, Repr

/-- One attach or detach.  A call on a context that `destroy` has released
uses freed memory. -/
def ref_step : Life → RefOp → Except Fault Life
  | Life.destroyed _, _ => Except.error Fault.undefined
  | Life.alive ctx, RefOp.attach => (isc_mem_attach ctx).map (fun r => Life.alive r.1)
  | Life.alive ctx, RefOp.detach => (isc_mem_detach ctx).map (fun r => r.life)

/-- A sequence of attaches and detaches, first call first. -/
def ref_run (l : Life) : List RefOp → Except Fault Life
  | [] => Except.ok l
  | op :: ops =>
    match ref_step l op with
    | Except.error e => Except.error e
    | Except.ok l1 => ref_run l1 ops

/-- The number of attaches in a sequence. -/
def attaches (ops : List RefOp) : Nat := ops.count RefOp.attach

/-- The number of detaches in a sequence. -/
def detaches (ops : List RefOp) : Nat := ops.count RefOp.detach

/-! ## Contexts for the examples -/

/-- A backing allocator with five blocks to give. -/
def example_backing : Backing :=
  { responses := [some 4096, some 8192, some 12288, some 16384, some 65536], log := [] }

/-- The context `isc_mem_createx` makes from `example_backing` with
`init_max_size` 64 and `target_size` 128, the structure taking 200 bytes. -/
def example_ctx : isc_mem :=
  { magic := MEM_MAGIC
    ondestroy := []
    backing :=
      { responses := [some 16384, some 65536]
        log := [BackingCall.alloc 200 (some 4096), BackingCall.alloc 512 (some 8192),
                BackingCall.alloc 2080 (some 12288)] }
    max_size := 64
    mem_target := 128
    freelists := fun _ => []
    basic_blocks := []
    basic_table := []
    basic_table_count := 0
    basic_table_size := 0
    lowest := none
    highest := none
    checkfree := true
    trysplit := false
    stats := fun _ => { gets := 0, totalgets := 0, blocks := 0, freefrags := 0 }
    references := 1
    quota := 0
    total := 0
    inuse := 0
    pools := []
    self := 4096
    freelists_ptr := 8192
    stats_ptr := 12288
    basic_table_ptr := none }

/-- The context after a first `mem_getunlocked (example_ctx, 8)`: the arena has
grown by one chunk and one basic block is chopped into fragments of 8
bytes. -/
def example_grown : isc_mem :=
  match mem_getunlocked example_ctx 8 with
  | Except.ok (_, c) => c
  | Except.error _ => example_ctx

/-! ## Relations between the context before and after a call -/

/-- The fields that no get and no put writes. -/
structure same_config (c c' : isc_mem) : Prop where
  magic : c'.magic = c.magic
  ondestroy : c'.ondestroy = c.ondestroy
  max_size : c'.max_size = c.max_size
  mem_target : c'.mem_target = c.mem_target
  checkfree : c'.checkfree = c.checkfree
  trysplit : c'.trysplit = c.trysplit
  references : c'.references = c.references
  quota : c'.quota = c.quota
  pools : c'.pools = c.pools
  self : c'.self = c.self
  freelists_ptr : c'.freelists_ptr = c.freelists_ptr
  stats_ptr : c'.stats_ptr = c.stats_ptr

/-- The counters `gets` and `totalgets` of every slot are the same. -/
def same_gets (c c' : isc_mem) : Prop :=
  ∀ k, (c'.stats k).gets = (c.stats k).gets ∧ (c'.stats k).totalgets = (c.stats k).totalgets

/-- The fields that arena growth leaves alone: `c'` has the free lists, the
statistics and `inuse` of `c`. -/
structure same_frags (c c' : isc_mem) : Prop where
  freelists : c'.freelists = c.freelists
  stats : c'.stats = c.stats
  inuse : c'.inuse = c.inuse

/-- The arena is the same in `c'` as in `c`: the bytes drawn, the chunks
recorded and the idle basic blocks. -/
structure same_arena (c c' : isc_mem) : Prop where
  total : c'.total = c.total
  basic_blocks : c'.basic_blocks = c.basic_blocks
  basic_table : c'.basic_table = c.basic_table
  basic_table_count : c'.basic_table_count = c.basic_table_count
  lowest : c'.lowest = c.lowest
  highest : c'.highest = c.highest

/-- A sequence of calls on `example_ctx`. -/
def example_ops : List Op := [Op.get 8, Op.get 5, Op.put 65536 8, Op.get 100, Op.get 8]

/-- The context after `example_ops`. -/
def example_final : isc_mem :=
  match run example_ctx example_ops with
  | Except.ok c => c
  | Except.error _ => example_ctx

/-- The function `destroy` finds nothing to object to in `ctx` once its reference count is
zero: no pool is attached and, when leak checking is on, no slot has `gets`
left. -/
def teardown_ready (ctx : isc_mem) : Prop :=
  ctx.pools = [] ∧ ¬ (ctx.checkfree = true ∧ destroy_leak ctx = true)

/-- A context as `isc_mem_createx` leaves it. -/
structure fresh (c : isc_mem) : Prop where
  magic : c.magic = MEM_MAGIC
  mem_target_pos : 0 < c.mem_target
  freelists : c.freelists = fun _ => []
  basic_blocks : c.basic_blocks = []
  basic_table : c.basic_table = []
  basic_table_count : c.basic_table_count = 0
  basic_table_size : c.basic_table_size = 0
  lowest : c.lowest = none
  highest : c.highest = none
  checkfree : c.checkfree = true
  trysplit : c.trysplit = false
  stats : c.stats = fun _ => { gets := 0, totalgets := 0, blocks := 0, freefrags := 0 }
  references : c.references = 1
  quota : c.quota = 0
  total : c.total = 0
  inuse : c.inuse = 0
  pools : c.pools = []

/-- The context `example_ctx` with its quota set to one arena chunk (64 blocks of 128
bytes). -/
def example_quota : isc_mem := { example_ctx with quota := 8192 }

/-- A backing allocator with three blocks to give: enough for
`isc_mem_createx`, nothing for the arena. -/
def example_backing_short : Backing :=
  { responses := [some 4096, some 8192, some 12288], log := [] }

/-- The context `isc_mem_createx` makes from `example_backing_short`, with its
quota set to one arena chunk. -/
def example_quota_short : isc_mem :=
  { example_quota with backing := { example_ctx.backing with responses := [] } }

/-! ## Fragments in existence -/

/-- The fragments of class `c` held by callers, counted from a statistics
table of `max_size` small slots: `gets` summed over the small sizes whose
class is `c`. -/
def outstanding_of (max_size : Nat) (st : Nat → stats) (c : Nat) : Nat :=
  ((List.range max_size).map (fun s => if quantize s = c then (st s).gets else 0)).sum

/-- The fragments of class `c` held by callers. -/
def outstanding (ctx : isc_mem) (c : Nat) : Nat := outstanding_of ctx.max_size ctx.stats c

/-- The fragments of class `c` in existence: those on the free list of the
class and those held by callers. -/
def frags (ctx : isc_mem) (c : Nat) : Nat := (ctx.freelists c).length + outstanding ctx c

/-- The context `example_quota` with fragment splitting switched on. -/
def example_split : isc_mem := { example_quota with trysplit := true }

/-- The context after the first 129 calls of `example_split_ops`, before the
get that splits. -/
def example_split_before : isc_mem :=
  match run example_split (List.replicate 128 (Op.get 56) ++ [Op.put 65536 56]) with
  | Except.ok c => c
  | Except.error _ => example_split

/-- The function `isc_mem_valid` (mem.c 822-836). -/
def isc_mem_valid (ctx : isc_mem) (ptr : Nat) : Except Fault Bool :=
  if ¬ VALID_CONTEXT ctx then Except.error Fault.assertion
  else
    match ctx.lowest, ctx.highest with
    | some lowest, some highest => Except.ok (decide (ptr ≥ lowest ∧ ptr ≤ highest))
    | some lowest, none => Except.ok (decide (ptr ≥ lowest ∧ ptr ≤ 0))
    | none, _ => Except.ok false

/-- A call of one of the public functions that work on a context alone. -/
inductive Call where
  | get (size : Nat)
  | put (mem : Nat) (size : Nat)
  | setquota (quota : Nat)
  | setsplit (flag : Bool)
  | setdestroycheck (flag : Bool)
  deriving DecidableEq, Repr

/-- The context after one call. -/
def call_step (ctx : isc_mem) : Call → Except Fault isc_mem
  | Call.get size => (isc__mem_get ctx size).map Prod.snd
  | Call.put mem size => isc__mem_put ctx mem size
  | Call.setquota quota => isc_mem_setquota ctx quota
  | Call.setsplit flag => isc_mem_setsplit ctx flag
  | Call.setdestroycheck flag => isc_mem_setdestroycheck ctx flag

/-- The context after a sequence of calls, first call first. -/
def call_run (ctx : isc_mem) : List Call → Except Fault isc_mem
  | [] => Except.ok ctx
  | c :: cs =>
    match call_step ctx c with
    | Except.error e => Except.error e
    | Except.ok c1 => call_run c1 cs

/-! ## Memory pools -/

def MEMPOOL_MAGIC : Nat := 0x4D454d70

/-- Decrement `x--` of an `unsigned int`, wrapping below zero. -/
def wdec32 (x : Nat) : Nat := if x = 0 then UINT_MAX else x - 1

/-- The record `struct isc_mempool`.  The context `mctx` of the pool is passed
to each function next to the pool; `link` is the place of `self`, the address
of the structure, in the list `pools` of the context.  `name` holds the
characters before the terminating zero. -/
structure isc_mempool where
  magic : Nat
  lock : Option Nat
  items : List Nat
  size : Nat
  maxalloc : Nat
  allocated : Nat
  freecount : Nat
  freemax : Nat
  fillcount : Nat
  gets : Nat
  name : List Nat
  self : Nat
  deriving DecidableEq, Repr

/-- The macro `VALID_MEMPOOL(c)`. -/
def VALID_MEMPOOL (c : isc_mempool) : Prop := c.magic = MEMPOOL_MAGIC

instance (c : isc_mempool) : Decidable (VALID_MEMPOOL c) := by
  unfold VALID_MEMPOOL; infer_instance

/-- The loop of `mempool_releaseall` (mem.c 1132-1138) over the items of the
private free list: each is put back to the context and counted off. -/
def mempool_release_items (size : Nat) :
    List Nat → Nat → isc_mem → Except Fault (Nat × isc_mem)
  | [], freecount, mctx => Except.ok (freecount, mctx)
  | item :: next, freecount, mctx =>
    match mem_putunlocked mctx item size with
    | Except.error e => Except.error e
    | Except.ok mctx1 =>
      if ¬ freecount > 0 then Except.error Fault.assertion
      else mempool_release_items size next (wdec32 freecount) mctx1

/-- The function `mempool_releaseall` (mem.c 1118-1139).  It walks the list and leaves
the field `items` as it was. -/
def mempool_releaseall (mpctx : isc_mempool) (mctx : isc_mem) :
    Except Fault (isc_mempool × isc_mem) :=
  if mpctx.freecount = 0 then Except.ok (mpctx, mctx)
  else if mpctx.items = [] then Except.error Fault.assertion
  else
    match mempool_release_items mpctx.size mpctx.items mpctx.freecount mctx with
    | Except.error e => Except.error e
    | Except.ok (freecount, mctx1) => Except.ok ({ mpctx with freecount := freecount }, mctx1)

/-- The function `isc_mempool_create` (mem.c 1141-1183).  `sizeof_pool` is
`sizeof(isc_mempool_t)`.  The result is the status, the pool stored in
`*mpctxp` on success, and the context afterwards. -/
def isc_mempool_create (sizeof_pool : Nat) (mctx : isc_mem) (size : Nat) :
    Except Fault (isc_result × Option isc_mempool × isc_mem) :=
  if ¬ VALID_CONTEXT mctx then Except.error Fault.assertion
  else if ¬ size > 0 then Except.error Fault.assertion
  else
    match mem_getunlocked mctx sizeof_pool with
    | Except.error e => Except.error e
    | Except.ok (none, mctx1) => Except.ok (isc_result.ISC_R_NOMEMORY, none, mctx1)
    | Except.ok (some mpctx, mctx1) =>
      Except.ok (isc_result.ISC_R_SUCCESS,
        some
          { magic := MEMPOOL_MAGIC
            lock := none
            size := size
            maxalloc := UINT_MAX
            allocated := 0
            freecount := 0
            freemax := 1
            fillcount := 1
            gets := 0
            name := []
            items := []
            self := mpctx },
        { mctx1 with pools := mctx1.pools ++ [mpctx] })

/-- The function `isc_mempool_setname` (mem.c 1185-1202), with `ISC_MEMPOOL_NAMES`
on: the first 15 characters of the name. -/
def isc_mempool_setname (mpctx : isc_mempool) (name : List Nat) : isc_mempool :=
  { mpctx with name := name.take 15 }

/-- The function `isc_mempool_destroy` (mem.c 1204-1244): the value left in the
handle `*mpctxp` and the context afterwards. -/
def isc_mempool_destroy (sizeof_pool : Nat) (mpctx : isc_mempool) (mctx : isc_mem) :
    Except Fault (Option Nat × isc_mem) :=
  if ¬ VALID_MEMPOOL mpctx then Except.error Fault.assertion
  else if ¬ mpctx.allocated = 0 then Except.error Fault.assertion
  else
    match mempool_releaseall mpctx mctx with
    | Except.error e => Except.error e
    | Except.ok (mp1, mctx1) =>
      let mctx2 := { mctx1 with pools := mctx1.pools.erase mp1.self }
      match mem_putunlocked mctx2 mp1.self sizeof_pool with
      | Except.error e => Except.error e
      | Except.ok mctx3 => Except.ok (none, mctx3)

/-- The function `isc_mempool_associatelock` (mem.c 1246-1253). -/
def isc_mempool_associatelock (mpctx : isc_mempool) (lock : Option Nat) :
    Except Fault isc_mempool :=
  if ¬ VALID_MEMPOOL mpctx then Except.error Fault.assertion
  else if mpctx.lock ≠ none then Except.error Fault.assertion
  else if lock = none then Except.error Fault.assertion
  else Except.ok { mpctx with lock := lock }

/-- The loop of `isc__mempool_get` that fills the private free list (mem.c
1294-1301), with `n` rounds to go. -/
def mempool_fill : Nat → isc_mempool → isc_mem → Except Fault (isc_mempool × isc_mem)
  | 0, mpctx, mctx => Except.ok (mpctx, mctx)
  | n + 1, mpctx, mctx =>
    match mem_getunlocked mctx mpctx.size with
    | Except.error e => Except.error e
    | Except.ok (none, mctx1) => Except.ok (mpctx, mctx1)
    | Except.ok (some item, mctx1) =>
      mempool_fill n
        { mpctx with items := item :: mpctx.items, freecount := mpctx.freecount + 1 } mctx1

/-- The statements that hand out the head `item` of the private free list:
`items = item->next; freecount--; gets++; allocated++`.  `gets` is an
`unsigned int` that only grows: `gets++` wraps at `2 ^ 32`.  `allocated` is
below `maxalloc` here, so `allocated++` stays in range. -/
def mempool_take (mpctx : isc_mempool) (next : List Nat) : isc_mempool :=
  { mpctx with
    items := next
    freecount := wdec32 mpctx.freecount
    gets := (mpctx.gets + 1) % 2 ^ UINT_BITS
    allocated := mpctx.allocated + 1 }

/-- The function `isc__mempool_get` (mem.c 1255-1321): the item returned (none for
`NULL`), the pool and the context afterwards. -/
def isc__mempool_get (mpctx : isc_mempool) (mctx : isc_mem) :
    Except Fault (Option Nat × isc_mempool × isc_mem) :=
  if ¬ VALID_MEMPOOL mpctx then Except.error Fault.assertion
  else if mpctx.allocated ≥ mpctx.maxalloc then Except.ok (none, mpctx, mctx)
  else
    match mpctx.items with
    | item :: next =>
      if ¬ mpctx.freecount > 0 then Except.error Fault.assertion
      else Except.ok (some item, mempool_take mpctx next, mctx)
    | [] =>
      match mempool_fill mpctx.fillcount mpctx mctx with
      | Except.error e => Except.error e
      | Except.ok (mp1, mctx1) =>
        match mp1.items with
        | [] => Except.ok (none, mp1, mctx1)
        | item :: next => Except.ok (some item, mempool_take mp1 next, mctx1)

/-- The function `isc__mempool_put` (mem.c 1323-1359). -/
def isc__mempool_put (mpctx : isc_mempool) (mem : Nat) (mctx : isc_mem) :
    Except Fault (isc_mempool × isc_mem) :=
  if ¬ VALID_MEMPOOL mpctx then Except.error Fault.assertion
  else if ¬ mpctx.allocated > 0 then Except.error Fault.assertion
  else
    let mp1 := { mpctx with allocated := wdec32 mpctx.allocated }
    if mp1.freecount ≥ mp1.freemax then
      match isc__mem_put mctx mem mp1.size with
      | Except.error e => Except.error e
      | Except.ok mctx1 => Except.ok (mp1, mctx1)
    else
      Except.ok ({ mp1 with freecount := mp1.freecount + 1, items := mem :: mp1.items }, mctx)

/-- The function `isc_mempool_setfreemax` (mem.c 1387-1398). -/
def isc_mempool_setfreemax (mpctx : isc_mempool) (limit : Nat) : Except Fault isc_mempool :=
  if ¬ VALID_MEMPOOL mpctx then Except.error Fault.assertion
  else Except.ok { mpctx with freemax := limit }

/-- The function `isc_mempool_getfreemax` (mem.c 1400-1415). -/
def isc_mempool_getfreemax (mpctx : isc_mempool) : Except Fault Nat :=
  if ¬ VALID_MEMPOOL mpctx then Except.error Fault.assertion
  else Except.ok mpctx.freemax

/-- The function `isc_mempool_getfreecount` (mem.c 1417-1432). -/
def isc_mempool_getfreecount (mpctx : isc_mempool) : Except Fault Nat :=
  if ¬ VALID_MEMPOOL mpctx then Except.error Fault.assertion
  else Except.ok mpctx.freecount

/-- The function `isc_mempool_setmaxalloc` (mem.c 1434-1447). -/
def isc_mempool_setmaxalloc (mpctx : isc_mempool) (limit : Nat) : Except Fault isc_mempool :=
  if ¬ limit > 0 then Except.error Fault.assertion
  else if ¬ VALID_MEMPOOL mpctx then Except.error Fault.assertion
  else Except.ok { mpctx with maxalloc := limit }

/-- The function `isc_mempool_getmaxalloc` (mem.c 1449-1464). -/
def isc_mempool_getmaxalloc (mpctx : isc_mempool) : Except Fault Nat :=
  if ¬ VALID_MEMPOOL mpctx then Except.error Fault.assertion
  else Except.ok mpctx.maxalloc

/-- The function `isc_mempool_getallocated` (mem.c 1466-1481). -/
def isc_mempool_getallocated (mpctx : isc_mempool) : Except Fault Nat :=
  if ¬ VALID_MEMPOOL mpctx then Except.error Fault.assertion
  else Except.ok mpctx.allocated

/-- The function `isc_mempool_setfillcount` (mem.c 1483-1495). -/
def isc_mempool_setfillcount (mpctx : isc_mempool) (limit : Nat) : Except Fault isc_mempool :=
  if ¬ limit > 0 then Except.error Fault.assertion
  else if ¬ VALID_MEMPOOL mpctx then Except.error Fault.assertion
  else Except.ok { mpctx with fillcount := limit }

/-- The function `isc_mempool_getfillcount` (mem.c 1497-1512). -/
def isc_mempool_getfillcount (mpctx : isc_mempool) : Except Fault Nat :=
  if ¬ VALID_MEMPOOL mpctx then Except.error Fault.assertion
  else Except.ok mpctx.fillcount

/-- The private free list or the context has an item for the pool: the list is
not empty, or it is empty, the context serves a get of the item size and the
filling loop runs through. -/
def pool_supplied (mpctx : isc_mempool) (mctx : isc_mem) : Prop :=
  (mpctx.items ≠ [] ∧ 0 < mpctx.freecount) ∨
  (mpctx.items = [] ∧ 0 < mpctx.fillcount ∧
    (∃ item mctx1, mem_getunlocked mctx mpctx.size = Except.ok (some item, mctx1)) ∧
    ∃ r, mempool_fill mpctx.fillcount mpctx mctx = Except.ok r)

/-! ## A pool for the examples -/

/-- A backing allocator with six blocks to give. -/
def example_backing_long : Backing :=
  { responses := [some 4096, some 8192, some 12288, some 16384, some 20480, some 65536]
    log := [] }

/-- The context `isc_mem_createx` makes from `example_backing_long` with
`init_max_size` 64 and `target_size` 128. -/
def example_pool_ctx : isc_mem :=
  { example_ctx with
    backing :=
      { responses := [some 16384, some 20480, some 65536]
        log := example_ctx.backing.log } }

/-- The pool of 16-byte items that `isc_mempool_create` makes on
`example_pool_ctx`, the pool structure taking 96 bytes. -/
def example_pool : isc_mempool :=
  { magic := MEMPOOL_MAGIC
    lock := none
    items := []
    size := 16
    maxalloc := UINT_MAX
    allocated := 0
    freecount := 0
    freemax := 1
    fillcount := 1
    gets := 0
    name := []
    self := 16384 }

/-- The context after the creation of `example_pool`. -/
def example_pool_mctx : isc_mem :=
  match isc_mempool_create 96 example_pool_ctx 16 with
  | Except.ok (_, _, m) => m
  | Except.error _ => example_pool_ctx

/-- The pool `example_pool` with `maxalloc` set to 2. -/
def example_pool2 : isc_mempool := { example_pool with maxalloc := 2 }

/-- The pool and the context after the get numbered `n` (from 1) of two gets
on `example_pool2`. -/
def example_pool_after : Nat → isc_mempool × isc_mem
  | 0 => (example_pool2, example_pool_mctx)
  | n + 1 =>
    match isc__mempool_get (example_pool_after n).1 (example_pool_after n).2 with
    | Except.ok (_, p, m) => (p, m)
    | Except.error _ => example_pool_after n

/-- The pool and the context after two gets on `example_pool2` and a put of
the first item. -/
def example_pool_put : isc_mempool × isc_mem :=
  match isc__mempool_put (example_pool_after 2).1 65536 (example_pool_after 2).2 with
  | Except.ok r => r
  | Except.error _ => example_pool_after 2

/-! ## Sizes beyond the range of `int` -/

/-- The context after `mem_getunlocked (example_ctx, 4294967296)`: a large
request, served by the backing allocator at 16384. -/
def example_huge : isc_mem :=
  match mem_getunlocked example_ctx 4294967296 with
  | Except.ok (_, c) => c
  | Except.error _ => example_ctx

/-! ## Size classes above `mem_target` -/

/-- The context `isc_mem_createx` makes from `example_backing` with
`init_max_size` 200 and `target_size` 128: the classes 136 to 192 are larger
than a basic block. -/
def example_wide : isc_mem :=
  match isc_mem_createx 200 200 128 example_backing true with
  | (_, some c, _) => c
  | (_, none, _) => example_ctx

/-- Sixty-three gets of 128 bytes, each taking one basic block, and a get of
136 bytes, which takes the last block of the chunk. -/
def example_wide_calls : List Call := List.replicate 63 (Call.get 128) ++ [Call.get 136]

/-- The context after `example_wide_calls` on `example_wide`. -/
def example_wide_final : isc_mem :=
  match call_run example_wide example_wide_calls with
  | Except.ok c => c
  | Except.error _ => example_wide

/-! ## The address range of the arena -/

/-- The address `lo` is the minimum first-byte address of the chunks. -/
def is_lowest (chunks : List Nat) (lo : Nat) : Prop :=
  lo ∈ chunks ∧ ∀ c, c ∈ chunks → lo ≤ c

/-- The address `hi` is the maximum last-byte address of the chunks, the last
byte of a chunk at `c` being `c + NUM_BASIC_BLOCKS * mem_target - 1`. -/
def is_highest (mem_target : Nat) (chunks : List Nat) (hi : Nat) : Prop :=
  (∃ c, c ∈ chunks ∧ hi = c + NUM_BASIC_BLOCKS * mem_target - 1) ∧
  ∀ c, c ∈ chunks → c + NUM_BASIC_BLOCKS * mem_target - 1 ≤ hi

/-- The fields `lowest` and `highest` of a context agree with its chunk
table: both are `NULL` while the table is empty, and afterwards they are the
minimum first-byte and the maximum last-byte address of the recorded chunks. -/
def arena_bounds (ctx : isc_mem) : Prop :=
  ctx.magic = MEM_MAGIC ∧ 0 < ctx.mem_target ∧
  ctx.basic_table_count = ctx.basic_table.length ∧
  ((ctx.basic_table = [] ∧ ctx.lowest = none ∧ ctx.highest = none) ∨
    ∃ lo hi, ctx.lowest = some lo ∧ ctx.highest = some hi ∧
      is_lowest ctx.basic_table lo ∧ is_highest ctx.mem_target ctx.basic_table hi)

/-! ## The quota -/

/-- A call of `isc_mem_setquota` on `ctx` sets the quota to 0 (no quota) or to
a value not below `total`; other calls are free. -/
def quota_guard (ctx : isc_mem) : Call → Prop
  | Call.setquota quota => quota = 0 ∨ ctx.total ≤ quota
  | _ => True

/-- Along the run of `calls` from `ctx`, every `isc_mem_setquota` sets the
quota to 0 or to a value not below `total` at the time of the call. -/
def quota_respected (ctx : isc_mem) : List Call → Prop
  | [] => True
  | c :: cs =>
    quota_guard ctx c ∧
    match call_step ctx c with
    | Except.ok c1 => quota_respected c1 cs
    | Except.error _ => True

/-- Two calls on `example_ctx`: a get that grows the arena by one chunk, then
a quota below the bytes already drawn. -/
def example_quota_calls : List Call := [Call.get 8, Call.setquota 100]

/-- Calls on `example_ctx` in which the quota is only ever set to 0 or to a
value not below `total`. -/
def example_kept_calls : List Call :=
  [Call.get 8, Call.setquota 8192, Call.get 5, Call.put 65536 8, Call.setquota 0,
    Call.setquota 9000]

/-- Calls on `example_pool_ctx` that use up the 64 basic blocks of a first
chunk, two fragments of 56 bytes to a block, and draw a second chunk. -/
def example_two_chunks_calls : List Call := List.replicate 129 (Call.get 56)

/-- The context after `example_two_chunks_calls` on `example_pool_ctx`. -/
def example_two_chunks : isc_mem :=
  match call_run example_pool_ctx example_two_chunks_calls with
  | Except.ok c => c
  | Except.error _ => example_pool_ctx

/-- The function `isc__mem_allocate` (mem.c 843-853).  `info` holds the `size_info`
words by address; the result is the pointer returned (none for `NULL`), the
context and the `size_info` words afterwards.  `&si[1]` is `ALIGNMENT_SIZE`
bytes past `si`. -/
def isc__mem_allocate (ctx : isc_mem) (info : Nat → Nat) (size : Nat) :
    Except Fault (Option Nat × isc_mem × (Nat → Nat)) :=
  let size1 := wadd size ALIGNMENT_SIZE
  match isc__mem_get ctx size1 with
  | Except.error e => Except.error e
  | Except.ok (none, ctx1) => Except.ok (none, ctx1, info)
  | Except.ok (some si, ctx1) =>
    Except.ok (some (si + ALIGNMENT_SIZE), ctx1, modify info si (fun _ => size1))

/-- The function `isc__mem_free` (mem.c 869-875).  A pointer less than
`ALIGNMENT_SIZE` has no `size_info` before it. -/
def isc__mem_free (ctx : isc_mem) (info : Nat → Nat) (ptr : Nat) : Except Fault isc_mem :=
  if ptr < ALIGNMENT_SIZE then Except.error Fault.undefined
  else
    let si := ptr - ALIGNMENT_SIZE
    isc__mem_put ctx si (info si)

/-- The `size_info` words and the context after `isc__mem_allocate (example_ctx, 8)`
with all words zero before. -/
def example_allocated : isc_mem × (Nat → Nat) :=
  match isc__mem_allocate example_ctx (fun _ => 0) 8 with
  | Except.ok (_, c, info) => (c, info)
  | Except.error _ => (example_ctx, fun _ => 0)

/-- The context after `isc__mem_free` of the pointer 65544 that
`isc__mem_allocate (example_ctx, 8)` returned. -/
def example_freed : isc_mem :=
  match isc__mem_free example_allocated.1 example_allocated.2 65544 with
  | Except.ok c => c
  | Except.error _ => example_allocated.1

/-! ## Sequences of calls on a pool -/

/-- A call on a pool, or a call `mem` that another user makes on the context
of the pool. -/
inductive PoolCall where
  | get
  | put (mem : Nat)
  | setfreemax (limit : Nat)
  | setfillcount (limit : Nat)
  | setmaxalloc (limit : Nat)
  | mem (c : Call)
  deriving DecidableEq, Repr

/-- The pool and its context after one call. -/
def pool_step (s : isc_mempool × isc_mem) : PoolCall → Except Fault (isc_mempool × isc_mem)
  | PoolCall.get => (isc__mempool_get s.1 s.2).map Prod.snd
  | PoolCall.put mem => isc__mempool_put s.1 mem s.2
  | PoolCall.setfreemax limit => (isc_mempool_setfreemax s.1 limit).map (fun p => (p, s.2))
  | PoolCall.setfillcount limit => (isc_mempool_setfillcount s.1 limit).map (fun p => (p, s.2))
  | PoolCall.setmaxalloc limit => (isc_mempool_setmaxalloc s.1 limit).map (fun p => (p, s.2))
  | PoolCall.mem c => (call_step s.2 c).map (fun m => (s.1, m))

/-- The pool and its context after a sequence of calls, first call first. -/
def pool_run (s : isc_mempool × isc_mem) : List PoolCall → Except Fault (isc_mempool × isc_mem)
  | [] => Except.ok s
  | c :: cs =>
    match pool_step s c with
    | Except.error e => Except.error e
    | Except.ok s1 => pool_run s1 cs

/-- Successive gets of `size` bytes on the context `m` return the addresses
`got`, in this order, and leave the context `m'`. -/
def gets_served (size : Nat) : isc_mem → List Nat → isc_mem → Prop
  | m, [], m' => m' = m
  | m, item :: rest, m' =>
    ∃ m1, mem_getunlocked m size = Except.ok (some item, m1) ∧ gets_served size m1 rest m'

/-- Puts of `size` bytes on the context for each address of a list, in the
order of the list. -/
def mem_put_all (size : Nat) : List Nat → isc_mem → Except Fault isc_mem
  | [], m => Except.ok m
  | item :: next, m =>
    match mem_putunlocked m item size with
    | Except.error e => Except.error e
    | Except.ok m1 => mem_put_all size next m1

/-- The table `h_errlist` (herror.c 80-86). -/
def h_errlist : List String :=
  ["Resolver Error 0 (no error)",
   "Unknown host",
   "Host name lookup failure",
   "Unknown server error",
   "No address associated with name"]

/-- The variable `h_nerr` (herror.c 88): the number of entries of `h_errlist`. -/
def h_nerr : Int := (h_errlist.length : Int)

/-- The function `lwres_hstrerror` (herror.c 104-111).  An index outside
`h_errlist` is undefined. -/
def lwres_hstrerror (err : Int) : Except Fault String :=
  if err < 0 then Except.ok "Resolver internal error"
  else if err < h_nerr then
    match h_errlist.get? err.toNat with
    | some s => Except.ok s
    | none => Except.error Fault.undefined
  else Except.ok "Unknown resolver error"

/-- The filling loop of `isc__mempool_get`, set for `n` rounds, ends behind
the gets that returned `got` and left the context `m'`: a further get returned
`NULL` and left `m1`, or `n` items are there and `m1` is `m'`. -/
def fill_ends (size n : Nat) (got : List Nat) (m' m1 : isc_mem) : Prop :=
  (got.length < n ∧ mem_getunlocked m' size = Except.ok (none, m1)) ∨
  (got.length = n ∧ m1 = m')

/-- The context `example_wide` after `more_basic_blocks`: one chunk at 65536,
its 64 basic blocks of 128 bytes idle. -/
def example_wide_grown : isc_mem :=
  match more_basic_blocks example_wide with
  | Except.ok (_, c) => c
  | Except.error _ => example_wide

/-- The context `example_wide_grown` after a basic block is chopped for the
class 136. -/
def example_wide_chopped : isc_mem :=
  match more_frags_chop example_wide_grown 136 with
  | Except.ok (_, c) => c
  | Except.error _ => example_wide_grown

/-- The context `example_ctx` with a quota below one arena chunk and fragment
splitting switched on. -/
def example_tight : isc_mem := { example_ctx with quota := 1, trysplit := true }

/-! ## More examples -/

/-- Calls on `example_wide`: a get of 136 bytes and the put of the block. -/
def example_wide_pair : List Call := [Call.get 136, Call.put 65536 136]

/-- Calls on `example_ctx` with no `isc_mem_setsplit`: a quota of one arena
chunk, 128 gets of 56 bytes that use up the chunk, and the put of one of the
fragments. -/
def example_unsplit_calls : List Call :=
  Call.setquota 8192 :: (List.replicate 128 (Call.get 56) ++ [Call.put 65536 56])

/-- The context after `example_unsplit_calls` on `example_ctx`. -/
def example_unsplit : isc_mem :=
  match call_run example_ctx example_unsplit_calls with
  | Except.ok c => c
  | Except.error _ => example_ctx

/-! ## Blocks held by callers -/

/-- The context after one call, together with the blocks that callers hold:
a get that returns a pointer adds the pointer with the size asked for, a put
removes one entry with its pointer and size. -/
def held_step (s : isc_mem × List (Nat × Nat)) : Call →
    Except Fault (isc_mem × List (Nat × Nat))
  | Call.get size =>
    match isc__mem_get s.1 size with
    | Except.error e => Except.error e
    | Except.ok (none, c) => Except.ok (c, s.2)
    | Except.ok (some p, c) => Except.ok (c, (p, size) :: s.2)
  | Call.put mem size => (isc__mem_put s.1 mem size).map (fun c => (c, s.2.erase (mem, size)))
  | Call.setquota quota => (isc_mem_setquota s.1 quota).map (fun c => (c, s.2))
  | Call.setsplit flag => (isc_mem_setsplit s.1 flag).map (fun c => (c, s.2))
  | Call.setdestroycheck flag => (isc_mem_setdestroycheck s.1 flag).map (fun c => (c, s.2))

/-- The context and the blocks held after a sequence of calls, first call
first. -/
def held_run (s : isc_mem × List (Nat × Nat)) : List Call →
    Except Fault (isc_mem × List (Nat × Nat))
  | [] => Except.ok s
  | c :: cs =>
    match held_step s c with
    | Except.error e => Except.error e
    | Except.ok s1 => held_run s1 cs

/-- A put gives back a block that a caller holds, with the size of its get;
other calls are free. -/
def put_guard (s : isc_mem × List (Nat × Nat)) : Call → Prop
  | Call.put mem size => (mem, size) ∈ s.2
  | _ => True

/-- Along the run of `calls` from `s`, every put gives back a block held at
the time of the call, with the size of its get. -/
def puts_matched (s : isc_mem × List (Nat × Nat)) : List Call → Prop
  | [] => True
  | c :: cs =>
    put_guard s c ∧
    match held_step s c with
    | Except.ok s1 => puts_matched s1 cs
    | Except.error _ => True

/-- Calls on `example_pool_ctx`: two small gets of one class, a large get, the
put of the first block and a get that takes its fragment again. -/
def example_held_calls : List Call :=
  [Call.get 8, Call.get 5, Call.get 100, Call.put 20480 8, Call.get 3]

/-- The context and the blocks held after `example_held_calls` on
`example_pool_ctx`. -/
def example_held : isc_mem × List (Nat × Nat) :=
  match held_run (example_pool_ctx, []) example_held_calls with
  | Except.ok s => s
  | Except.error _ => (example_pool_ctx, [])

/-- The pool of items of 4294967296 bytes that `isc_mempool_create` makes on
`example_pool_ctx`. -/
def example_pool_giant : isc_mempool := { example_pool with size := 4294967296 }

/-- Calls on `example_pool_giant`: a get and the put of the item. -/
def example_giant_calls : List PoolCall := [PoolCall.get, PoolCall.put 20480]

/-- The pool `example_pool_giant` and its context after `example_giant_calls`:
nothing is handed out and one item is on the private free list. -/
def example_pool_giant_idle : isc_mempool × isc_mem :=
  match pool_run (example_pool_giant, example_pool_mctx) example_giant_calls with
  | Except.ok s => s
  | Except.error _ => (example_pool_giant, example_pool_mctx)


/-! ## The pieces of the arena -/

/-- The byte range `[x.1, x.1 + x.2)` holds the address `a`. -/
def covers (x : Nat × Nat) (a : Nat) : Bool := decide (x.1 ≤ a ∧ a < x.1 + x.2)

/-- Two byte ranges, each given by its first byte and its length, have no
byte in common. -/
def ranges_disjoint (x y : Nat × Nat) : Prop :=
  x.2 = 0 ∨ y.2 = 0 ∨ x.1 + x.2 ≤ y.1 ∨ y.1 + y.2 ≤ x.1

instance (x y : Nat × Nat) : Decidable (ranges_disjoint x y) := by
  unfold ranges_disjoint; infer_instance

/-- The fragments on the free lists, each with its class as length. -/
def free_pieces (ctx : isc_mem) : List (Nat × Nat) :=
  (List.range ctx.max_size).flatMap (fun c => (ctx.freelists c).map (fun p => (p, c)))

/-- The small blocks that callers hold, each with the class of its size as
length. -/
def held_pieces (max_size : Nat) (held : List (Nat × Nat)) : List (Nat × Nat) :=
  (held.filter (fun x => decide (¬ get_large max_size x.2))).map
    (fun x => (x.1, quantize x.2))

/-- The idle basic blocks, each `mem_target` bytes long. -/
def idle_pieces (ctx : isc_mem) : List (Nat × Nat) :=
  ctx.basic_blocks.map (fun b => (b, ctx.mem_target))

/-- The fragments on the free lists, the small blocks held and the idle basic
blocks. -/
def pieces (ctx : isc_mem) (held : List (Nat × Nat)) : List (Nat × Nat) :=
  free_pieces ctx ++ (held_pieces ctx.max_size held ++ idle_pieces ctx)

/-- The byte range `x` lies inside one arena chunk of the context. -/
def in_chunk (ctx : isc_mem) (x : Nat × Nat) : Prop :=
  ∃ ch, ch ∈ ctx.basic_table ∧ ch ≤ x.1 ∧
    x.1 + x.2 ≤ ch + NUM_BASIC_BLOCKS * ctx.mem_target

/-- The arena chunks of the context, each `NUM_BASIC_BLOCKS * mem_target`
bytes long, have no byte in common: the backing allocator gave out blocks
that do not overlap. -/
def chunks_apart (ctx : isc_mem) : Prop :=
  ctx.basic_table.Pairwise (fun c d =>
    ranges_disjoint (c, NUM_BASIC_BLOCKS * ctx.mem_target)
      (d, NUM_BASIC_BLOCKS * ctx.mem_target))

/-- The number of fragments on the free lists of the classes below
`max_size` that hold the address `a`. -/
def free_cover (max_size : Nat) (fl : Nat → List Nat) (a : Nat) : Nat :=
  ((List.range max_size).map (fun c => (fl c).countP (fun p => covers (p, c) a))).sum

/-- The number of small blocks held that hold the address `a`. -/
def held_cover (max_size : Nat) (held : List (Nat × Nat)) (a : Nat) : Nat :=
  held.countP (fun x => decide (¬ get_large max_size x.2) && covers (x.1, quantize x.2) a)

/-- The number of idle basic blocks that hold the address `a`. -/
def idle_cover (mem_target : Nat) (blocks : List Nat) (a : Nat) : Nat :=
  blocks.countP (fun b => covers (b, mem_target) a)

/-- The number of pieces that hold the address `a`. -/
def cover (ctx : isc_mem) (held : List (Nat × Nat)) (a : Nat) : Nat :=
  (pieces ctx held).countP (fun x => covers x a)

/-- The arena is tidy: no class is larger than a basic block, the free lists
of the classes from `max_size` on are empty, every piece lies inside one
arena chunk, and no address is in two pieces. -/
structure tidy (ctx : isc_mem) (held : List (Nat × Nat)) : Prop where
  bound : ctx.max_size ≤ ctx.mem_target
  beyond : ∀ c, ctx.max_size ≤ c → ctx.freelists c = []
  free_in : ∀ c p, c < ctx.max_size → p ∈ ctx.freelists c → in_chunk ctx (p, c)
  held_in : ∀ p s, (p, s) ∈ held → ¬ get_large ctx.max_size s → in_chunk ctx (p, quantize s)
  idle_in : ∀ b, b ∈ ctx.basic_blocks → in_chunk ctx (b, ctx.mem_target)
  once : ∀ a, free_cover ctx.max_size ctx.freelists a + held_cover ctx.max_size held a
    + idle_cover ctx.mem_target ctx.basic_blocks a ≤ 1


/-! ## The items a pool has drawn from its context -/

/-- The bytes that a get of `size` adds to `inuse`: the size itself on the
large path and its class on the small one. -/
def get_unit (max_size size : Nat) : Nat :=
  if get_large max_size size then size else quantize size

/-- A call on the pool itself, not one of another user of its context. -/
def pool_only : PoolCall → Prop
  | PoolCall.mem _ => False
  | _ => True

/-- The books of a pool of items of `size` bytes on a context with `max_size`,
against the counters `g0` and the bytes `i0` that the context had when the
pool was made: the slot of the item size has counted `allocated + freecount`
more gets than puts, no other slot has moved, and `inuse` has grown by as
many items. -/
structure pool_books (size max_size : Nat) (g0 : Nat → Nat) (i0 : Nat)
    (s : isc_mempool × isc_mem) : Prop where
  size_eq : s.1.size = size
  max_eq : s.2.max_size = max_size
  count : s.1.freecount = s.1.items.length
  gets : ∀ k, (s.2.stats k).gets = g0 k +
    (if k = get_slot max_size size then s.1.allocated + s.1.freecount else 0)
  inuse : s.2.inuse = i0 + (s.1.allocated + s.1.freecount) * get_unit max_size size


/-! ## The counter `freefrags` and the free lists -/

/-- The counter `freefrags` of every class is the number of fragments on the
free list of the class, in the arithmetic of `unsigned long`. -/
def freefrags_agree (ctx : isc_mem) : Prop :=
  ∀ c, (ctx.stats c).freefrags = (ctx.freelists c).length % 2 ^ SIZE_BITS

/-! ## Examples at the limits of the arithmetic -/

/-- The largest value of a `size_t`. -/
def SIZE_MAX : Nat := 2 ^ SIZE_BITS - 1

/-- Two calls on `example_ctx`: a get that draws one arena chunk of 8192
bytes, then a quota of 10000 bytes. -/
def example_metered_calls : List Call := [Call.get 8, Call.setquota 10000]

/-- The context after `example_metered_calls` on `example_ctx`. -/
def example_metered : isc_mem :=
  match call_run example_ctx example_metered_calls with
  | Except.ok c => c
  | Except.error _ => example_ctx

/-- The context `isc_mem_createx` makes from `example_backing` with
`init_max_size` 64 and `target_size` 4: a basic block is shorter than the
pointer that links it. -/
def example_narrow : isc_mem :=
  match isc_mem_createx 200 64 4 example_backing true with
  | (_, some c, _) => c
  | (_, none, _) => example_ctx

/-- The context `example_narrow` after `more_basic_blocks`. -/
def example_narrow_grown : isc_mem :=
  match more_basic_blocks example_narrow with
  | Except.ok (_, c) => c
  | Except.error _ => example_narrow

/-- Calls on `example_wide`: a get of 136 bytes, a class above `mem_target`,
between two gets from other classes, each block put back but the first. -/
def example_overlap_calls : List Call :=
  [Call.get 8, Call.get 136, Call.put 65664 136, Call.get 16, Call.put 65792 16]

/-- The context after `example_overlap_calls` on `example_wide`. -/
def example_overlap : isc_mem :=
  match call_run example_wide example_overlap_calls with
  | Except.ok c => c
  | Except.error _ => example_wide

/-! # Theorems -/

/-! ## Quantization -/

/-- Below `2 ^ 31 - 7` the `int` holds the sum and `quantize` rounds up to the
next multiple of `ALIGNMENT_SIZE`. -/
theorem quantize_small (n : Nat) (h0 : 0 < n) (h : n + 7 < 2 ^ 31) :
    quantize n = (n + 7) / 8 * 8 := by
  unfold quantize to_int to_size
  simp only [ALIGNMENT_SIZE, INT_BITS, SIZE_BITS]
  have h1 : n ≠ 0 := by omega
  simp only [h1, if_false]
  have h2 : (n + (8 - 1)) % 2 ^ 64 = n + 7 := by omega
  have h3 : (n + 7) % 2 ^ 32 = n + 7 := by omega
  rw [h2, h3]
  have h4 : n + 7 < 2 ^ (32 - 1) := by omega
  simp only [h4, if_true]
  have h5 : Int.tmod ((n + 7 : Nat) : Int) ((8 : Nat) : Int) = (((n + 7) % 8 : Nat) : Int) := by
    rw [Int.tmod_eq_emod] <;> omega
  rw [h5]
  omega

theorem quantize_zero : quantize 0 = 8 := by decide

/-- In the range where the `int` holds the sum, `quantize n` is the smallest
multiple of 8 that is at least `n`. -/
theorem quantize_small_least (n : Nat) (h0 : 0 < n) (h : n + 7 < 2 ^ 31) :
    8 ∣ quantize n ∧ n ≤ quantize n ∧ ∀ m, 8 ∣ m → n ≤ m → quantize n ≤ m := by
  rw [quantize_small n h0 h]
  refine ⟨Nat.dvd_mul_left 8 _, by omega, fun m hm hle => ?_⟩
  obtain ⟨k, rfl⟩ := hm
  omega

/-- In that range `quantize` is idempotent. -/
theorem quantize_small_idempotent (n : Nat) (h : n + 14 < 2 ^ 31) :
    quantize (quantize n) = quantize n := by
  by_cases h0 : n = 0
  · subst h0; decide
  · have e := quantize_small n (by omega) (by omega)
    rw [quantize_small (quantize n) (by rw [e]; omega) (by rw [e]; omega), e]
    omega

/-- C1: `quantize` does not return the smallest multiple of 8 that is at least
`n` for every `n`: for a request of `2 ^ 32` bytes the sum `n + 7` does not
fit the `int` it is stored in, and the result is 0. -/
theorem quantize_two_pow_32 : quantize 4294967296 = 0 := by decide

/-- C2: `quantize` is not idempotent on every size: for a request of `2 ^ 31`
bytes the `int` is negative, `%` truncates towards zero, and each
application adds another 8. -/
theorem quantize_not_idempotent :
    quantize 2147483648 = 18446744071562067976 ∧
    quantize (quantize 2147483648) = 18446744071562067984 := by decide

/-! ## The example context -/

theorem example_ctx_created :
    isc_mem_createx 200 64 128 example_backing true
      = (isc_result.ISC_R_SUCCESS, some example_ctx, example_ctx.backing) := rfl

/-! ## Stores into the tables -/

theorem modify_apply {α : Type} (t : Nat → α) (i : Nat) (g : α → α) (k : Nat) :
    modify t i g k = if k = i then g (t i) else t k := rfl

theorem modify_same {α : Type} (t : Nat → α) (i : Nat) (g : α → α) :
    modify t i g i = g (t i) := by
  simp [modify]

theorem modify_other {α : Type} (t : Nat → α) (i : Nat) (g : α → α) (k : Nat) (h : k ≠ i) :
    modify t i g k = t k := by
  simp [modify, h]

theorem modify_gets (g : stats → stats) (h : ∀ s, (g s).gets = s.gets)
    (t : Nat → stats) (i k : Nat) : (modify t i g k).gets = (t k).gets := by
  unfold modify
  split
  · next hk => rw [h, hk]
  · rfl

theorem modify_totalgets (g : stats → stats) (h : ∀ s, (g s).totalgets = s.totalgets)
    (t : Nat → stats) (i k : Nat) : (modify t i g k).totalgets = (t k).totalgets := by
  unfold modify
  split
  · next hk => rw [h, hk]
  · rfl

theorem modify_freefrags (g : stats → stats) (h : ∀ s, (g s).freefrags = s.freefrags)
    (t : Nat → stats) (i k : Nat) : (modify t i g k).freefrags = (t k).freefrags := by
  unfold modify
  split
  · next hk => rw [h, hk]
  · rfl

/-! ## Large requests -/

theorem mem_get_large_wrap_eq (ctx : isc_mem) (size : Nat)
    (htotal : ctx.total + size < 2 ^ SIZE_BITS) (hinuse : ctx.inuse + size < 2 ^ SIZE_BITS) :
    mem_get_large_wrap ctx size = mem_get_large ctx size := by
  unfold mem_get_large_wrap mem_get_large wadd
  rw [Nat.mod_eq_of_lt htotal, Nat.mod_eq_of_lt hinuse]

theorem mem_get_large_wrap_quota (ctx : isc_mem) (size : Nat)
    (hq : ctx.quota ≠ 0 ∧ wadd ctx.total size > ctx.quota) :
    mem_get_large_wrap ctx size = (none, ctx) := by
  unfold mem_get_large_wrap
  rw [if_pos hq]

/-- C4: with `total + size` and `inuse + size` in the range of a `size_t`, a
large get that the quota admits and the backing allocator serves returns the
block of the backing allocator, leaves the free lists, the idle basic blocks
and every `freefrags` counter as they were, adds `size` to `total` and to
`inuse`, and counts one get in slot `max_size`; the sums of the code, computed
modulo `2 ^ 64` (`mem_get_large_wrap`), give the same context. -/
theorem large_get_served (ctx : isc_mem) (size p : Nat) (b : Backing)
    (hlarge : size ≥ ctx.max_size ∨ quantize size ≥ ctx.max_size)
    (hquota : ctx.quota = 0 ∨ ctx.total + size ≤ ctx.quota)
    (htotal : ctx.total + size < 2 ^ SIZE_BITS)
    (hinuse : ctx.inuse + size < 2 ^ SIZE_BITS)
    (halloc : memalloc ctx.backing size = (some p, b)) :
    ∃ ctx', mem_getunlocked ctx size = Except.ok (some p, ctx') ∧
      mem_get_large_wrap ctx size = (some p, ctx') ∧
      ctx'.backing = b ∧
      ctx'.freelists = ctx.freelists ∧
      ctx'.basic_blocks = ctx.basic_blocks ∧
      (∀ k, (ctx'.stats k).freefrags = (ctx.stats k).freefrags) ∧
      ctx'.total = ctx.total + size ∧
      ctx'.inuse = ctx.inuse + size ∧
      (ctx'.stats ctx.max_size).gets = (ctx.stats ctx.max_size).gets + 1 ∧
      (ctx'.stats ctx.max_size).totalgets = (ctx.stats ctx.max_size).totalgets + 1 := by
  have hq : ¬ (ctx.quota ≠ 0 ∧ ctx.total + size > ctx.quota) := by
    rintro ⟨h1, h2⟩
    rcases hquota with h | h
    · exact h1 h
    · omega
  have hl : mem_get_large ctx size = (some p,
      { ctx with
        backing := b
        total := ctx.total + size
        inuse := ctx.inuse + size
        stats := modify ctx.stats ctx.max_size stats.count_get }) := by
    unfold mem_get_large
    simp only [hq, if_false, halloc]
  have heq : mem_getunlocked ctx size = Except.ok (some p,
      { ctx with
        backing := b
        total := ctx.total + size
        inuse := ctx.inuse + size
        stats := modify ctx.stats ctx.max_size stats.count_get }) := by
    unfold mem_getunlocked
    simp only [hlarge, if_true, hl]
  refine ⟨_, heq, ?_, rfl, rfl, rfl, ?_, rfl, rfl, ?_, ?_⟩
  · rw [mem_get_large_wrap_eq ctx size htotal hinuse, hl]
  · intro k
    exact modify_freefrags stats.count_get (fun _ => rfl) ctx.stats ctx.max_size k
  · simp [modify_same, stats.count_get]
  · simp [modify_same, stats.count_get]

theorem large_get_served_witness :
    ((100 ≥ example_ctx.max_size ∨ quantize 100 ≥ example_ctx.max_size) ∧
      (example_ctx.quota = 0 ∨ example_ctx.total + 100 ≤ example_ctx.quota) ∧
      example_ctx.total + 100 < 2 ^ SIZE_BITS ∧ example_ctx.inuse + 100 < 2 ^ SIZE_BITS ∧
      memalloc example_ctx.backing 100
        = (some 16384, (memalloc example_ctx.backing 100).2)) ∧
    ∃ ctx', mem_getunlocked example_ctx 100 = Except.ok (some 16384, ctx') ∧
      mem_get_large_wrap example_ctx 100 = (some 16384, ctx') ∧
      ctx'.backing = (memalloc example_ctx.backing 100).2 ∧
      ctx'.freelists = example_ctx.freelists ∧
      ctx'.basic_blocks = example_ctx.basic_blocks ∧
      (∀ k, (ctx'.stats k).freefrags = (example_ctx.stats k).freefrags) ∧
      ctx'.total = example_ctx.total + 100 ∧
      ctx'.inuse = example_ctx.inuse + 100 ∧
      (ctx'.stats example_ctx.max_size).gets = (example_ctx.stats example_ctx.max_size).gets + 1 ∧
      (ctx'.stats example_ctx.max_size).totalgets
        = (example_ctx.stats example_ctx.max_size).totalgets + 1 :=
  ⟨⟨by decide, by decide, by decide, by decide, rfl⟩,
    large_get_served example_ctx 100 16384 _ (by decide) (by decide) (by decide) (by decide)
      rfl⟩

/-- With a quota set and `total + size` in the range of a `size_t`, a large
get that would take `total` past the quota returns `NULL` and changes nothing:
the backing allocator is not called, and `total`, `inuse`, the statistics and
the free lists stay as they were; the test of the code, computed modulo
`2 ^ 64`, fires as well. -/
theorem large_get_over_quota (ctx : isc_mem) (size : Nat)
    (hquota : ctx.quota > 0)
    (hlarge : size ≥ ctx.max_size ∨ quantize size ≥ ctx.max_size)
    (htotal : ctx.total + size < 2 ^ SIZE_BITS)
    (hover : ctx.total + size > ctx.quota) :
    mem_getunlocked ctx size = Except.ok (none, ctx) ∧
    mem_get_large_wrap ctx size = (none, ctx) := by
  have hq : ctx.quota ≠ 0 ∧ ctx.total + size > ctx.quota := ⟨by omega, hover⟩
  constructor
  · unfold mem_getunlocked mem_get_large
    rw [if_pos hlarge, if_pos hq]
  · apply mem_get_large_wrap_quota
    unfold wadd
    rw [Nat.mod_eq_of_lt htotal]
    exact hq

theorem large_get_over_quota_witness :
    ({ example_ctx with quota := 50 }.quota > 0 ∧
      (100 ≥ { example_ctx with quota := 50 }.max_size ∨
        quantize 100 ≥ { example_ctx with quota := 50 }.max_size) ∧
      { example_ctx with quota := 50 }.total + 100 < 2 ^ SIZE_BITS ∧
      { example_ctx with quota := 50 }.total + 100 > { example_ctx with quota := 50 }.quota) ∧
    mem_getunlocked { example_ctx with quota := 50 } 100
      = Except.ok (none, { example_ctx with quota := 50 }) ∧
    mem_get_large_wrap { example_ctx with quota := 50 } 100
      = (none, { example_ctx with quota := 50 }) :=
  ⟨⟨by decide, by decide, by decide, by decide⟩,
    large_get_over_quota { example_ctx with quota := 50 } 100
      (by decide) (by decide) (by decide) (by decide)⟩

/-- C5: on the context made with `init_max_size` 64 and `target_size` 128, after
a get of 8 bytes (`total` 8192) and with the quota set to 10000, a get of
`SIZE_MAX` bytes is a large request and `total + size` is above the quota; yet
the sum of the test `ctx->total + size > ctx->quota` is a `size_t` and wraps
to 8191, so the test does not fire and the large path goes on to call the
backing allocator with `SIZE_MAX` bytes. -/
theorem quota_test_wraps :
    call_run example_ctx example_metered_calls = Except.ok example_metered ∧
    example_metered.max_size = 64 ∧ example_metered.total = 8192 ∧
    example_metered.quota = 10000 ∧
    SIZE_MAX = 18446744073709551615 ∧
    get_large example_metered.max_size SIZE_MAX ∧
    example_metered.total + SIZE_MAX > example_metered.quota ∧
    wadd example_metered.total SIZE_MAX = 8191 ∧
    ¬ (example_metered.quota ≠ 0 ∧
      wadd example_metered.total SIZE_MAX > example_metered.quota) ∧
    (mem_get_large_wrap example_metered SIZE_MAX).2.backing.log
      = example_metered.backing.log ++ [BackingCall.alloc SIZE_MAX none] ∧
    (mem_get_large_wrap example_metered SIZE_MAX).2.backing ≠ example_metered.backing :=
  ⟨rfl, rfl, rfl, rfl, by decide, by decide, by decide, by decide, by decide, by decide,
    by decide⟩

/-! ## Requests served from a free list -/

theorem mem_get_pop_cons (ctx : isc_mem) (size new_size p : Nat) (rest : List Nat)
    (hfl : ctx.freelists new_size = p :: rest) :
    mem_get_pop ctx size new_size = Except.ok (some p,
      { ctx with
        freelists := modify ctx.freelists new_size (fun _ => rest)
        stats := modify (modify ctx.stats size stats.count_get) new_size stats.freefrags_dec
        inuse := ctx.inuse + new_size }) := by
  unfold mem_get_pop
  simp only [hfl]

theorem mem_getunlocked_nonempty (ctx : isc_mem) (size : Nat)
    (hsmall : ¬ (size ≥ ctx.max_size ∨ quantize size ≥ ctx.max_size))
    (hne : ctx.freelists (quantize size) ≠ []) :
    mem_getunlocked ctx size = mem_get_pop ctx size (quantize size) := by
  unfold mem_getunlocked
  simp only [hsmall, hne, if_false]

/-- C6: whatever the quota is set to, a small get whose class free list is not
empty returns the head of that list. -/
theorem mem_get_from_freelist (ctx : isc_mem) (quota s p : Nat) (rest : List Nat)
    (hvalid : VALID_CONTEXT ctx)
    (hs : s < ctx.max_size) (hqs : quantize s < ctx.max_size)
    (hfl : ctx.freelists (quantize s) = p :: rest) :
    ∃ c1 ctx', isc_mem_setquota ctx quota = Except.ok c1 ∧
      c1.quota = quota ∧ c1.total = ctx.total ∧
      mem_getunlocked c1 s = Except.ok (some p, ctx') ∧
      ctx'.freelists (quantize s) = rest := by
  have hsmall : ¬ (s ≥ ctx.max_size ∨ quantize s ≥ ctx.max_size) := by omega
  have h1 : isc_mem_setquota ctx quota = Except.ok { ctx with quota := quota } := by
    unfold isc_mem_setquota
    rw [if_neg (not_not.mpr hvalid)]
  have hne : ({ ctx with quota := quota } : isc_mem).freelists (quantize s) ≠ [] := by
    simp [hfl]
  have h2 := mem_getunlocked_nonempty { ctx with quota := quota } s hsmall hne
  rw [mem_get_pop_cons { ctx with quota := quota } s (quantize s) p rest hfl] at h2
  exact ⟨_, _, h1, rfl, rfl, h2, by simp [modify_same]⟩

theorem mem_get_from_freelist_witness :
    (VALID_CONTEXT example_grown ∧ 5 < example_grown.max_size ∧
      quantize 5 < example_grown.max_size ∧
      example_grown.freelists (quantize 5) = 65544 :: (example_grown.freelists 8).tail) ∧
    ∃ c1 ctx', isc_mem_setquota example_grown 1 = Except.ok c1 ∧
      c1.quota = 1 ∧ c1.total = example_grown.total ∧
      mem_getunlocked c1 5 = Except.ok (some 65544, ctx') ∧
      ctx'.freelists (quantize 5) = (example_grown.freelists 8).tail :=
  ⟨⟨by decide, by decide, by decide, by decide⟩,
    mem_get_from_freelist example_grown 1 5 65544 _ (by decide) (by decide) (by decide)
      (by decide)⟩

/-! ## Teardown -/

theorem destroy_leak_iff (ctx : isc_mem) :
    destroy_leak ctx = true ↔ ∃ i, i ≤ ctx.max_size ∧ (ctx.stats i).gets ≠ 0 := by
  unfold destroy_leak
  simp only [List.any_eq_true, List.mem_range, decide_eq_true_eq]
  constructor
  · rintro ⟨i, hi, h⟩
    exact ⟨i, by omega, h⟩
  · rintro ⟨i, hi, h⟩
    exact ⟨i, by omega, h⟩

/-- C9: once the reference count is zero, `destroy` stops on an assertion
exactly when a pool is still attached, or leak checking is on and some slot
`0..max_size` has `gets` not zero; with leak checking off and no pool attached
it completes, whatever the `gets` counters hold. -/
theorem destroy_assertion_iff (ctx : isc_mem) (href : ctx.references = 0) :
    (destroy ctx = Except.error Fault.assertion ↔
      (ctx.pools ≠ [] ∨
        (ctx.checkfree = true ∧ ∃ i, i ≤ ctx.max_size ∧ (ctx.stats i).gets ≠ 0))) ∧
    (ctx.checkfree = false → ctx.pools = [] → ∃ d, destroy ctx = Except.ok d) := by
  constructor
  · unfold destroy
    by_cases hp : ctx.pools ≠ []
    · simp [hp]
    · rw [if_neg hp, if_neg (not_not.mpr href)]
      by_cases hl : ctx.checkfree = true ∧ destroy_leak ctx = true
      · rw [if_pos hl]
        have := (destroy_leak_iff ctx).mp hl.2
        simp only [true_iff]
        exact Or.inr ⟨hl.1, this⟩
      · rw [if_neg hl]
        simp only [false_iff, reduceCtorEq]
        rintro (h | ⟨h1, h2⟩)
        · exact hp h
        · exact hl ⟨h1, (destroy_leak_iff ctx).mpr h2⟩
  · intro hc hp
    unfold destroy
    simp [hp, href, hc]

theorem destroy_assertion_iff_witness :
    { example_grown with references := 0 }.references = 0 ∧
    ((destroy { example_grown with references := 0 } = Except.error Fault.assertion ↔
      ({ example_grown with references := 0 }.pools ≠ [] ∨
        ({ example_grown with references := 0 }.checkfree = true ∧
          ∃ i, i ≤ { example_grown with references := 0 }.max_size ∧
            ({ example_grown with references := 0 }.stats i).gets ≠ 0))) ∧
    ({ example_grown with references := 0 }.checkfree = false →
      { example_grown with references := 0 }.pools = [] →
      ∃ d, destroy { example_grown with references := 0 } = Except.ok d)) :=
  ⟨rfl, destroy_assertion_iff { example_grown with references := 0 } rfl⟩


/-! ## What the private functions leave alone -/

theorem same_config_refl (c : isc_mem) : same_config c c := by
  constructor <;> rfl

theorem same_config_trans {a b c : isc_mem} (h1 : same_config a b) (h2 : same_config b c) :
    same_config a c :=
  ⟨h2.magic.trans h1.magic, h2.ondestroy.trans h1.ondestroy, h2.max_size.trans h1.max_size,
    h2.mem_target.trans h1.mem_target, h2.checkfree.trans h1.checkfree,
    h2.trysplit.trans h1.trysplit, h2.references.trans h1.references,
    h2.quota.trans h1.quota, h2.pools.trans h1.pools, h2.self.trans h1.self,
    h2.freelists_ptr.trans h1.freelists_ptr, h2.stats_ptr.trans h1.stats_ptr⟩

theorem same_gets_refl (c : isc_mem) : same_gets c c := fun _ => ⟨rfl, rfl⟩

theorem same_gets_trans {a b c : isc_mem} (h1 : same_gets a b) (h2 : same_gets b c) :
    same_gets a c :=
  fun k => ⟨(h2 k).1.trans (h1 k).1, (h2 k).2.trans (h1 k).2⟩

theorem same_gets_of_stats {c c' : isc_mem} (h : c'.stats = c.stats) : same_gets c c' := by
  intro k; rw [h]; exact ⟨rfl, rfl⟩

theorem same_arena_refl (c : isc_mem) : same_arena c c := by
  constructor <;> rfl

theorem same_arena_trans {a b c : isc_mem} (h1 : same_arena a b) (h2 : same_arena b c) :
    same_arena a c :=
  ⟨h2.total.trans h1.total, h2.basic_blocks.trans h1.basic_blocks,
    h2.basic_table.trans h1.basic_table, h2.basic_table_count.trans h1.basic_table_count,
    h2.lowest.trans h1.lowest, h2.highest.trans h1.highest⟩

theorem split_frame {ctx c' : isc_mem} {size new_size : Nat}
    (h : split ctx size new_size = Except.ok c') :
    same_config ctx c' ∧ same_gets ctx c' ∧ same_arena ctx c' ∧ c'.inuse = ctx.inuse ∧
      c'.backing = ctx.backing := by
  unfold split at h
  split at h
  · simp at h
  · simp only [Except.ok.injEq] at h
    subst h
    refine ⟨by constructor <;> rfl, ?_, by constructor <;> rfl, rfl, rfl⟩
    intro k
    dsimp only
    constructor
    · rw [modify_gets (fun s => s.freefrags_add 1) (fun _ => rfl),
        modify_gets (fun s => s.freefrags_add 1) (fun _ => rfl),
        modify_gets stats.freefrags_dec (fun _ => rfl)]
    · rw [modify_totalgets (fun s => s.freefrags_add 1) (fun _ => rfl),
        modify_totalgets (fun s => s.freefrags_add 1) (fun _ => rfl),
        modify_totalgets stats.freefrags_dec (fun _ => rfl)]

theorem try_split_frame {ctx c' : isc_mem} {new_size : Nat} {r : Bool}
    (h : try_split ctx new_size = Except.ok (r, c')) :
    same_config ctx c' ∧ same_gets ctx c' ∧ same_arena ctx c' ∧ c'.inuse = ctx.inuse ∧
      c'.backing = ctx.backing := by
  unfold try_split at h
  split at h
  · simp only [Except.ok.injEq, Prod.mk.injEq] at h
    obtain ⟨-, rfl⟩ := h
    exact ⟨same_config_refl _, same_gets_refl _, same_arena_refl _, rfl, rfl⟩
  · split at h
    · simp at h
    · simp only [Except.ok.injEq, Prod.mk.injEq] at h
      obtain ⟨-, rfl⟩ := h
      exact ⟨same_config_refl _, same_gets_refl _, same_arena_refl _, rfl, rfl⟩
    · split at h
      · simp at h
      · next c hs =>
        simp only [Except.ok.injEq, Prod.mk.injEq] at h
        obtain ⟨-, rfl⟩ := h
        exact split_frame hs

theorem try_split_off {ctx : isc_mem} (new_size : Nat) (h : ctx.trysplit = false) :
    try_split ctx new_size = Except.ok (false, ctx) := by
  unfold try_split
  rw [if_pos h]

theorem more_basic_blocks_table_frame {ctx c' : isc_mem} {r : Bool}
    (h : more_basic_blocks_table ctx = (r, c')) :
    same_config ctx c' ∧ same_frags ctx c' ∧ same_arena ctx c' := by
  unfold more_basic_blocks_table at h
  by_cases hc : ctx.basic_table_count = ctx.basic_table_size
  · rw [if_pos hc] at h
    dsimp only at h
    generalize memalloc ctx.backing ((ctx.basic_table_size + TABLE_INCREMENT) * SIZEOF_POINTER)
      = m at h
    obtain ⟨o, b⟩ := m
    cases o <;>
    · simp only [Prod.mk.injEq] at h
      obtain ⟨-, rfl⟩ := h
      exact ⟨by constructor <;> rfl, by constructor <;> rfl, by constructor <;> rfl⟩
  · rw [if_neg hc] at h
    simp only [Prod.mk.injEq] at h
    obtain ⟨-, rfl⟩ := h
    exact ⟨by constructor <;> rfl, by constructor <;> rfl, by constructor <;> rfl⟩

theorem more_basic_blocks_chunk_frame {ctx c' : isc_mem} {r : Bool}
    (h : more_basic_blocks_chunk ctx = (r, c')) :
    same_config ctx c' ∧ same_frags ctx c' ∧
      (r = false → same_arena ctx c') ∧
      (r = true → c'.total = ctx.total + NUM_BASIC_BLOCKS * ctx.mem_target ∧
        c'.basic_table_count = ctx.basic_table_count + 1 ∧ c'.basic_blocks ≠ []) := by
  unfold more_basic_blocks_chunk at h
  dsimp only at h
  generalize memalloc ctx.backing (NUM_BASIC_BLOCKS * ctx.mem_target) = m at h
  obtain ⟨o, b⟩ := m
  cases o
  · simp only [Prod.mk.injEq] at h
    obtain ⟨rfl, rfl⟩ := h
    exact ⟨by constructor <;> rfl, by constructor <;> rfl,
      fun _ => by constructor <;> rfl, fun h => by simp at h⟩
  · simp only [Prod.mk.injEq] at h
    obtain ⟨rfl, rfl⟩ := h
    refine ⟨by constructor <;> rfl, by constructor <;> rfl, fun h => by simp at h,
      fun _ => ⟨rfl, rfl, ?_⟩⟩
    simp [NUM_BASIC_BLOCKS, List.range_succ]

theorem more_basic_blocks_frame {ctx c' : isc_mem} {r : Bool}
    (h : more_basic_blocks ctx = Except.ok (r, c')) :
    same_config ctx c' ∧ same_frags ctx c' ∧
      (r = false → same_arena ctx c') ∧
      (r = true → (ctx.quota = 0 ∨ ctx.total + NUM_BASIC_BLOCKS * ctx.mem_target ≤ ctx.quota) ∧
        c'.total = ctx.total + NUM_BASIC_BLOCKS * ctx.mem_target ∧
        c'.basic_table_count = ctx.basic_table_count + 1 ∧ c'.basic_blocks ≠ []) := by
  unfold more_basic_blocks at h
  by_cases hq : ctx.quota ≠ 0 ∧ ctx.total + NUM_BASIC_BLOCKS * ctx.mem_target > ctx.quota
  · rw [if_pos hq] at h
    simp only [Except.ok.injEq, Prod.mk.injEq] at h
    obtain ⟨rfl, rfl⟩ := h
    exact ⟨same_config_refl _, by constructor <;> rfl, fun _ => same_arena_refl _,
      fun h => by simp at h⟩
  · rw [if_neg hq] at h
    by_cases hi : ctx.basic_table_size < ctx.basic_table_count
    · rw [if_pos hi] at h
      simp at h
    · rw [if_neg hi] at h
      cases ht : more_basic_blocks_table ctx with
      | mk r1 ctx1 =>
        rw [ht] at h
        obtain ⟨h1, h2, h3⟩ := more_basic_blocks_table_frame ht
        cases r1
        · simp only [Except.ok.injEq, Prod.mk.injEq] at h
          obtain ⟨rfl, rfl⟩ := h
          exact ⟨h1, h2, fun _ => h3, fun h => by simp at h⟩
        · simp only [Except.ok.injEq] at h
          obtain ⟨k1, k2, k3, k4⟩ := more_basic_blocks_chunk_frame h
          refine ⟨same_config_trans h1 k1, ⟨k2.freelists.trans h2.freelists,
            k2.stats.trans h2.stats, k2.inuse.trans h2.inuse⟩,
            fun hr => same_arena_trans h3 (k3 hr), fun hr => ?_⟩
          obtain ⟨e1, e2, e3⟩ := k4 hr
          rw [h1.mem_target, h3.total] at e1
          rw [h3.basic_table_count] at e2
          refine ⟨?_, e1, e2, e3⟩
          by_cases hz : ctx.quota = 0
          · exact Or.inl hz
          · right
            by_contra hlt
            exact hq ⟨hz, by omega⟩

theorem more_frags_chop_inv {ctx c' : isc_mem} {new_size : Nat} {r : Bool}
    (h : more_frags_chop ctx new_size = Except.ok (r, c')) :
    ∃ new rest, ctx.basic_blocks = new :: rest ∧ new_size ≠ 0 ∧ r = true ∧
      c' = { ctx with
        basic_blocks := rest
        stats := modify ctx.stats new_size
          (fun s => s.blocks_inc.freefrags_add (ctx.mem_target / new_size))
        freelists := modify ctx.freelists new_size
          (fun _ => (List.range (max (ctx.mem_target / new_size) 1)).map
            (fun k => new + k * new_size)) } := by
  unfold more_frags_chop at h
  cases hb : ctx.basic_blocks with
  | nil => rw [hb] at h; simp at h
  | cons new rest =>
    rw [hb] at h
    dsimp only at h
    by_cases hz : new_size = 0
    · rw [if_pos hz] at h; simp at h
    · rw [if_neg hz] at h
      simp only [Except.ok.injEq, Prod.mk.injEq] at h
      exact ⟨new, rest, rfl, hz, h.1.symm, h.2.symm⟩

theorem more_frags_chop_frame {ctx c' : isc_mem} {new_size : Nat} {r : Bool}
    (h : more_frags_chop ctx new_size = Except.ok (r, c')) :
    same_config ctx c' ∧ same_gets ctx c' ∧ c'.total = ctx.total ∧
      c'.basic_table_count = ctx.basic_table_count ∧ c'.inuse = ctx.inuse := by
  obtain ⟨new, rest, -, -, -, rfl⟩ := more_frags_chop_inv h
  refine ⟨by constructor <;> rfl, ?_, rfl, rfl, rfl⟩
  intro k
  constructor
  · exact modify_gets (fun s => s.blocks_inc.freefrags_add (ctx.mem_target / new_size))
      (fun _ => rfl) _ _ _
  · exact modify_totalgets (fun s => s.blocks_inc.freefrags_add (ctx.mem_target / new_size))
      (fun _ => rfl) _ _ _

theorem more_frags_frame {ctx c' : isc_mem} {new_size : Nat} {r : Bool}
    (h : more_frags ctx new_size = Except.ok (r, c')) :
    same_config ctx c' ∧ same_gets ctx c' ∧ c'.inuse = ctx.inuse := by
  unfold more_frags at h
  by_cases hb : ctx.basic_blocks = []
  · rw [if_pos hb] at h
    cases hm : more_basic_blocks ctx with
    | error e => rw [hm] at h; simp at h
    | ok p =>
      obtain ⟨r1, ctx1⟩ := p
      rw [hm] at h
      obtain ⟨h1, h2, -, -⟩ := more_basic_blocks_frame hm
      have hg : same_gets ctx ctx1 := same_gets_of_stats h2.stats
      cases r1
      · obtain ⟨k1, k2, -, k4, -⟩ := try_split_frame h
        exact ⟨same_config_trans h1 k1, same_gets_trans hg k2, k4.trans h2.inuse⟩
      · obtain ⟨k1, k2, -, -, k5⟩ := more_frags_chop_frame h
        exact ⟨same_config_trans h1 k1, same_gets_trans hg k2, k5.trans h2.inuse⟩
  · rw [if_neg hb] at h
    obtain ⟨k1, k2, -, -, k5⟩ := more_frags_chop_frame h
    exact ⟨k1, k2, k5⟩

/-! ## Gets, puts and the outstanding counters -/

theorem mem_get_pop_inv {ctx c' : isc_mem} {size new_size : Nat} {r : Option Nat}
    (h : mem_get_pop ctx size new_size = Except.ok (r, c')) :
    ∃ p rest, ctx.freelists new_size = p :: rest ∧ r = some p ∧
      c' = { ctx with
        freelists := modify ctx.freelists new_size (fun _ => rest)
        stats := modify (modify ctx.stats size stats.count_get) new_size stats.freefrags_dec
        inuse := ctx.inuse + new_size } := by
  unfold mem_get_pop at h
  cases hb : ctx.freelists new_size with
  | nil => rw [hb] at h; simp at h
  | cons p rest =>
    rw [hb] at h
    simp only [Except.ok.injEq, Prod.mk.injEq] at h
    exact ⟨p, rest, rfl, h.1.symm, h.2.symm⟩

theorem count_get_gets (t : Nat → stats) (i k : Nat) :
    (modify t i stats.count_get k).gets = (t k).gets + (if k = i then 1 else 0) ∧
    (modify t i stats.count_get k).totalgets = (t k).totalgets + (if k = i then 1 else 0) := by
  unfold modify
  by_cases hk : k = i
  · subst hk; simp [stats.count_get]
  · simp [hk]

/-- What a get does to the counters `gets` and `totalgets`: a get that returns
a pointer adds one to both in its slot, a get that returns `NULL` changes
neither. -/
theorem mem_getunlocked_counts {ctx c' : isc_mem} {size : Nat} {r : Option Nat}
    (h : mem_getunlocked ctx size = Except.ok (r, c')) :
    same_config ctx c' ∧
    ∀ k, (c'.stats k).gets = (ctx.stats k).gets +
          (if r.isSome = true ∧ k = get_slot ctx.max_size size then 1 else 0) ∧
        (c'.stats k).totalgets = (ctx.stats k).totalgets +
          (if r.isSome = true ∧ k = get_slot ctx.max_size size then 1 else 0) := by
  unfold mem_getunlocked at h
  by_cases hl : size ≥ ctx.max_size ∨ quantize size ≥ ctx.max_size
  · have hslot : get_slot ctx.max_size size = ctx.max_size := by
      unfold get_slot get_large; rw [if_pos hl]
    rw [if_pos hl] at h
    simp only [Except.ok.injEq] at h
    unfold mem_get_large at h
    by_cases hq : ctx.quota ≠ 0 ∧ ctx.total + size > ctx.quota
    · rw [if_pos hq] at h
      simp only [Prod.mk.injEq] at h
      obtain ⟨rfl, rfl⟩ := h
      exact ⟨same_config_refl _, fun k => by simp⟩
    · rw [if_neg hq] at h
      generalize memalloc ctx.backing size = m at h
      obtain ⟨o, b⟩ := m
      cases o
      · simp only [Prod.mk.injEq] at h
        obtain ⟨rfl, rfl⟩ := h
        exact ⟨by constructor <;> rfl, fun k => by simp⟩
      · simp only [Prod.mk.injEq] at h
        obtain ⟨rfl, rfl⟩ := h
        refine ⟨by constructor <;> rfl, fun k => ?_⟩
        rw [hslot]
        simpa using count_get_gets ctx.stats ctx.max_size k
  · have hslot : get_slot ctx.max_size size = size := by
      unfold get_slot get_large; rw [if_neg hl]
    rw [if_neg hl] at h
    have hpop : ∀ c1 : isc_mem, same_config ctx c1 → same_gets ctx c1 →
        mem_get_pop c1 size (quantize size) = Except.ok (r, c') →
        same_config ctx c' ∧
        ∀ k, (c'.stats k).gets = (ctx.stats k).gets +
              (if r.isSome = true ∧ k = get_slot ctx.max_size size then 1 else 0) ∧
            (c'.stats k).totalgets = (ctx.stats k).totalgets +
              (if r.isSome = true ∧ k = get_slot ctx.max_size size then 1 else 0) := by
      intro c1 hc hg hp
      obtain ⟨p, rest, -, rfl, rfl⟩ := mem_get_pop_inv hp
      refine ⟨same_config_trans hc (by constructor <;> rfl), fun k => ?_⟩
      rw [hslot]
      dsimp only
      rw [modify_gets stats.freefrags_dec (fun _ => rfl),
        modify_totalgets stats.freefrags_dec (fun _ => rfl)]
      have := count_get_gets c1.stats size k
      rw [(hg k).1, (hg k).2] at this
      simpa using this
    by_cases he : ctx.freelists (quantize size) = []
    · rw [if_pos he] at h
      cases hm : more_frags ctx (quantize size) with
      | error e => rw [hm] at h; simp at h
      | ok p =>
        obtain ⟨r1, ctx1⟩ := p
        rw [hm] at h
        obtain ⟨h1, h2, -⟩ := more_frags_frame hm
        cases r1
        · simp only [Except.ok.injEq, Prod.mk.injEq] at h
          obtain ⟨rfl, rfl⟩ := h
          refine ⟨h1, fun k => ?_⟩
          simpa using h2 k
        · exact hpop ctx1 h1 h2 h
    · rw [if_neg he] at h
      exact hpop ctx (same_config_refl _) (same_gets_refl _) h

theorem wdec_pos {x : Nat} (h : x ≠ 0) : wdec x + 1 = x := by
  unfold wdec wsub
  rw [if_pos (by omega)]
  omega

theorem wsub_le {a b : Nat} (h : b ≤ a) : wsub a b = a - b := by
  unfold wsub
  rw [if_pos h]

theorem gets_dec_gets (t : Nat → stats) (i k : Nat) (h : (t i).gets ≠ 0) :
    (modify t i stats.gets_dec k).gets + (if k = i then 1 else 0) = (t k).gets ∧
    (modify t i stats.gets_dec k).totalgets = (t k).totalgets := by
  unfold modify
  by_cases hk : k = i
  · subst hk
    rw [if_pos rfl, if_pos rfl]
    exact ⟨wdec_pos h, rfl⟩
  · simp [hk]

theorem mem_putunlocked_inv {ctx c' : isc_mem} {mem size : Nat}
    (h : mem_putunlocked ctx mem size = Except.ok c') :
    (put_large ctx.max_size size ∧ (ctx.stats ctx.max_size).gets ≠ 0 ∧ size ≤ ctx.total ∧
      c' = { ctx with
        backing := memfree ctx.backing (some mem)
        stats := modify ctx.stats ctx.max_size stats.gets_dec
        inuse := wsub ctx.inuse size
        total := wsub ctx.total size }) ∨
    (¬ put_large ctx.max_size size ∧ size < ctx.max_size ∧ (ctx.stats size).gets ≠ 0 ∧
      c' = { ctx with
        freelists := modify ctx.freelists (quantize size) (fun l => mem :: l)
        stats := modify (modify ctx.stats size stats.gets_dec) (quantize size)
          (fun s => s.freefrags_add 1)
        inuse := wsub ctx.inuse (quantize size) }) := by
  unfold mem_putunlocked at h
  dsimp only at h
  by_cases hl : size = ctx.max_size ∨ quantize size ≥ ctx.max_size
  · rw [if_pos hl] at h
    left
    by_cases hg : (ctx.stats ctx.max_size).gets = 0
    · rw [if_pos hg] at h; simp at h
    · rw [if_neg hg] at h
      by_cases ht : ¬ size ≤ ctx.total
      · rw [if_pos ht] at h; simp at h
      · rw [if_neg ht] at h
        simp only [Except.ok.injEq] at h
        exact ⟨hl, hg, not_not.mp ht, h.symm⟩
  · rw [if_neg hl] at h
    right
    by_cases hb : ctx.max_size < size
    · rw [if_pos hb] at h; simp at h
    · rw [if_neg hb] at h
      by_cases hg : (ctx.stats size).gets = 0
      · rw [if_pos hg] at h; simp at h
      · rw [if_neg hg] at h
        simp only [Except.ok.injEq] at h
        refine ⟨hl, ?_, hg, h.symm⟩
        have : size ≠ ctx.max_size := fun e => hl (Or.inl e)
        omega

/-- What a put does to the counters `gets` and `totalgets`: it takes one from
`gets` in its slot and leaves `totalgets` alone. -/
theorem mem_putunlocked_counts {ctx c' : isc_mem} {mem size : Nat}
    (h : mem_putunlocked ctx mem size = Except.ok c') :
    same_config ctx c' ∧
    ∀ k, (c'.stats k).gets + (if k = put_slot ctx.max_size size then 1 else 0)
          = (ctx.stats k).gets ∧
        (c'.stats k).totalgets = (ctx.stats k).totalgets := by
  rcases mem_putunlocked_inv h with ⟨hl, hg, -, rfl⟩ | ⟨hl, -, hg, rfl⟩
  · have hslot : put_slot ctx.max_size size = ctx.max_size := by
      unfold put_slot; rw [if_pos hl]
    refine ⟨by constructor <;> rfl, fun k => ?_⟩
    rw [hslot]
    exact gets_dec_gets ctx.stats ctx.max_size k hg
  · have hslot : put_slot ctx.max_size size = size := by
      unfold put_slot; rw [if_neg hl]
    refine ⟨by constructor <;> rfl, fun k => ?_⟩
    rw [hslot]
    dsimp only
    rw [modify_gets (fun s => s.freefrags_add 1) (fun _ => rfl),
      modify_totalgets (fun s => s.freefrags_add 1) (fun _ => rfl)]
    exact gets_dec_gets ctx.stats size k hg

theorem step_get_valid {ctx : isc_mem} (size : Nat) (hv : VALID_CONTEXT ctx) :
    step ctx (Op.get size) = (mem_getunlocked ctx size).map Prod.snd := by
  show (isc__mem_get ctx size).map Prod.snd = _
  unfold isc__mem_get
  rw [if_neg (not_not.mpr hv)]

theorem step_put_valid {ctx : isc_mem} (mem size : Nat) (hv : VALID_CONTEXT ctx) :
    step ctx (Op.put mem size) = mem_putunlocked ctx mem size := by
  show isc__mem_put ctx mem size = _
  unfold isc__mem_put
  rw [if_neg (not_not.mpr hv)]

theorem step_invalid {ctx : isc_mem} (op : Op) (hv : ¬ VALID_CONTEXT ctx) :
    step ctx op = Except.error Fault.assertion := by
  cases op with
  | get size =>
    show (isc__mem_get ctx size).map Prod.snd = _
    unfold isc__mem_get
    rw [if_pos hv]
    rfl
  | put mem size =>
    show isc__mem_put ctx mem size = _
    unfold isc__mem_put
    rw [if_pos hv]

theorem step_valid_of_ok {ctx c' : isc_mem} {op : Op} (h : step ctx op = Except.ok c') :
    VALID_CONTEXT ctx := by
  by_contra hv
  rw [step_invalid op hv] at h
  simp at h

theorem step_counts {ctx c' : isc_mem} {op : Op} (h : step ctx op = Except.ok c') :
    same_config ctx c' ∧
    ∀ k, (c'.stats k).gets + puts_to ctx.max_size k [op] + (ctx.stats k).totalgets
        = (c'.stats k).totalgets + (ctx.stats k).gets := by
  have hv := step_valid_of_ok h
  cases op with
  | get size =>
    rw [step_get_valid size hv] at h
    cases hg : mem_getunlocked ctx size with
    | error e => rw [hg] at h; simp [Except.map] at h
    | ok p =>
      obtain ⟨r, c1⟩ := p
      rw [hg] at h
      simp only [Except.map, Except.ok.injEq] at h
      subst h
      obtain ⟨h1, h2⟩ := mem_getunlocked_counts hg
      refine ⟨h1, fun k => ?_⟩
      obtain ⟨e1, e2⟩ := h2 k
      simp only [puts_to]
      omega
  | put mem size =>
    rw [step_put_valid mem size hv] at h
    obtain ⟨h1, h2⟩ := mem_putunlocked_counts h
    refine ⟨h1, fun k => ?_⟩
    obtain ⟨e1, e2⟩ := h2 k
    simp only [puts_to]
    omega

theorem run_counts {ops : List Op} : ∀ {ctx c' : isc_mem}, run ctx ops = Except.ok c' →
    same_config ctx c' ∧
    ∀ k, (c'.stats k).gets + puts_to ctx.max_size k ops + (ctx.stats k).totalgets
        = (c'.stats k).totalgets + (ctx.stats k).gets := by
  induction ops with
  | nil =>
    intro ctx c' h
    simp only [run, Except.ok.injEq] at h
    subst h
    exact ⟨same_config_refl _, fun k => by simp [puts_to]; omega⟩
  | cons op ops ih =>
    intro ctx c' h
    unfold run at h
    cases hs : step ctx op with
    | error e => rw [hs] at h; simp at h
    | ok c1 =>
      rw [hs] at h
      obtain ⟨h1, h2⟩ := step_counts hs
      obtain ⟨k1, k2⟩ := ih h
      refine ⟨same_config_trans h1 k1, fun k => ?_⟩
      have e1 := h2 k
      have e2 := k2 k
      rw [h1.max_size] at e2
      have e3 : puts_to ctx.max_size k (op :: ops)
          = puts_to ctx.max_size k [op] + puts_to ctx.max_size k ops := by
        cases op <;> simp [puts_to]
      omega

/-! ## Creation -/

theorem createx_success_inv {sizeof_ctx init_max_size target_size : Nat} {b b' : Backing}
    {mutex_ok : Bool} {ctx0 : isc_mem}
    (h : isc_mem_createx sizeof_ctx init_max_size target_size b mutex_ok
      = (isc_result.ISC_R_SUCCESS, some ctx0, b')) :
    ∃ p1 p2 p3, ctx0 =
      { magic := MEM_MAGIC
        ondestroy := []
        backing := b'
        max_size := if init_max_size = 0 then DEF_MAX_SIZE else init_max_size
        mem_target := if target_size = 0 then DEF_MEM_TARGET else target_size
        freelists := fun _ => []
        basic_blocks := []
        basic_table := []
        basic_table_count := 0
        basic_table_size := 0
        lowest := none
        highest := none
        checkfree := true
        trysplit := false
        stats := fun _ => { gets := 0, totalgets := 0, blocks := 0, freefrags := 0 }
        references := 1
        quota := 0
        total := 0
        inuse := 0
        pools := []
        self := p1
        freelists_ptr := p2
        stats_ptr := p3
        basic_table_ptr := none } := by
  unfold isc_mem_createx at h
  generalize memalloc b sizeof_ctx = m1 at h
  obtain ⟨o1, b1⟩ := m1
  cases o1 with
  | none => simp at h
  | some p1 =>
    dsimp only at h
    generalize memalloc b1 _ = m2 at h
    obtain ⟨o2, b2⟩ := m2
    cases o2 with
    | none => simp at h
    | some p2 =>
      dsimp only at h
      generalize memalloc b2 _ = m3 at h
      obtain ⟨o3, b3⟩ := m3
      cases o3 with
      | none => simp at h
      | some p3 =>
        dsimp only at h
        by_cases hm : mutex_ok = false
        · rw [if_pos hm] at h; simp at h
        · rw [if_neg hm] at h
          simp only [Prod.mk.injEq, Option.some.injEq, true_and] at h
          obtain ⟨h1, h2⟩ := h
          subst h2
          exact ⟨p1, p2, p3, h1.symm⟩

/-- C3: from creation on, after every sequence of gets and puts that runs
through, the counter `gets` of every slot (slot `s` for a small size `s`, slot
`max_size` for the large ones) is `totalgets` of that slot less the number of
puts made to the slot, and that number of puts is at most `totalgets`. -/
theorem outstanding_counter (sizeof_ctx init_max_size target_size : Nat) (b b' : Backing)
    (mutex_ok : Bool) (ctx0 ctx : isc_mem) (ops : List Op)
    (hcreate : isc_mem_createx sizeof_ctx init_max_size target_size b mutex_ok
      = (isc_result.ISC_R_SUCCESS, some ctx0, b'))
    (hrun : run ctx0 ops = Except.ok ctx) (k : Nat) :
    puts_to ctx0.max_size k ops ≤ (ctx.stats k).totalgets ∧
    (ctx.stats k).gets = (ctx.stats k).totalgets - puts_to ctx0.max_size k ops := by
  obtain ⟨p1, p2, p3, rfl⟩ := createx_success_inv hcreate
  obtain ⟨-, h2⟩ := run_counts hrun
  have := h2 k
  dsimp only at this
  dsimp only
  omega

theorem outstanding_counter_witness :
    (isc_mem_createx 200 64 128 example_backing true
        = (isc_result.ISC_R_SUCCESS, some example_ctx, example_ctx.backing) ∧
      run example_ctx example_ops = Except.ok example_final) ∧
    puts_to example_ctx.max_size 8 example_ops ≤ (example_final.stats 8).totalgets ∧
    (example_final.stats 8).gets
      = (example_final.stats 8).totalgets - puts_to example_ctx.max_size 8 example_ops :=
  ⟨⟨rfl, rfl⟩,
    outstanding_counter 200 64 128 example_backing example_ctx.backing true example_ctx
      example_final example_ops rfl rfl 8⟩

/-! ## Reference counting -/

theorem destroy_ready {ctx : isc_mem} (hr : teardown_ready ctx) (h0 : ctx.references = 0) :
    ∃ d, destroy ctx = Except.ok d := by
  unfold destroy
  rw [if_neg (not_not.mpr hr.1), if_neg (not_not.mpr h0), if_neg hr.2]
  exact ⟨_, rfl⟩

theorem detach_at_zero (ctx : isc_mem) (h : ctx.references = 0) :
    isc_mem_detach ctx = Except.error Fault.assertion := by
  unfold isc_mem_detach
  by_cases hv : VALID_CONTEXT ctx
  · rw [if_neg (not_not.mpr hv), if_pos (by omega)]
  · rw [if_pos hv]

theorem ref_step_attach_wrap {ctx : isc_mem} (hv : VALID_CONTEXT ctx) :
    ref_step (Life.alive ctx) RefOp.attach
      = Except.ok (Life.alive
          { ctx with references := (ctx.references + 1) % 2 ^ UINT_BITS }) := by
  show (isc_mem_attach ctx).map _ = _
  unfold isc_mem_attach
  rw [if_neg (not_not.mpr hv)]
  rfl

theorem ref_step_attach {ctx : isc_mem} (hv : VALID_CONTEXT ctx)
    (hb : ctx.references + 1 < 2 ^ UINT_BITS) :
    ref_step (Life.alive ctx) RefOp.attach
      = Except.ok (Life.alive { ctx with references := ctx.references + 1 }) := by
  rw [ref_step_attach_wrap hv, Nat.mod_eq_of_lt hb]

theorem ref_step_detach_last {ctx : isc_mem} (hv : VALID_CONTEXT ctx)
    (h1 : ctx.references = 1) :
    ref_step (Life.alive ctx) RefOp.detach
      = (destroy { ctx with references := 0 }).map Life.destroyed := by
  show (isc_mem_detach ctx).map _ = _
  unfold isc_mem_detach
  rw [if_neg (not_not.mpr hv), if_neg (by omega)]
  have hw : wdec ctx.references = 0 := by rw [h1]; rfl
  dsimp only
  rw [if_pos hw, hw]
  cases destroy { ctx with references := 0 } <;> rfl

theorem ref_step_detach_more {ctx : isc_mem} (hv : VALID_CONTEXT ctx)
    (h1 : 1 < ctx.references) :
    ref_step (Life.alive ctx) RefOp.detach
      = Except.ok (Life.alive { ctx with references := ctx.references - 1 }) := by
  show (isc_mem_detach ctx).map _ = _
  unfold isc_mem_detach
  rw [if_neg (not_not.mpr hv), if_neg (by omega)]
  have hw : wdec ctx.references = ctx.references - 1 := by
    unfold wdec; exact wsub_le (by omega)
  dsimp only
  rw [hw, if_neg (by omega)]
  rfl

theorem ref_run_destroyed {d : Destroyed} {ops : List RefOp} {l : Life}
    (h : ref_run (Life.destroyed d) ops = Except.ok l) : ops = [] ∧ l = Life.destroyed d := by
  cases ops with
  | nil =>
    simp only [ref_run, Except.ok.injEq] at h
    exact ⟨rfl, h.symm⟩
  | cons op ops =>
    simp [ref_run, ref_step] at h

theorem attaches_cons_attach (ops : List RefOp) :
    attaches (RefOp.attach :: ops) = attaches ops + 1 := by
  simp [attaches]

theorem attaches_cons_detach (ops : List RefOp) :
    attaches (RefOp.detach :: ops) = attaches ops := by
  simp [attaches]

theorem detaches_cons_attach (ops : List RefOp) :
    detaches (RefOp.attach :: ops) = detaches ops := by
  simp [detaches]

theorem detaches_cons_detach (ops : List RefOp) :
    detaches (RefOp.detach :: ops) = detaches ops + 1 := by
  simp [detaches]

/-- While a context lives its reference count is the number of attachments
less the number of detaches, and it is torn down by the detach that makes the
two equal. -/
theorem ref_run_count {ops : List RefOp} : ∀ {ctx : isc_mem} {l : Life},
    VALID_CONTEXT ctx → 0 < ctx.references →
    ctx.references + attaches ops < 2 ^ UINT_BITS →
    ref_run (Life.alive ctx) ops = Except.ok l →
    (∀ c, l = Life.alive c →
      detaches ops < ctx.references + attaches ops ∧
      c.references + detaches ops = ctx.references + attaches ops) ∧
    (∀ d, l = Life.destroyed d →
      detaches ops = ctx.references + attaches ops ∧
      ∃ pre, ops = pre ++ [RefOp.detach]) := by
  induction ops with
  | nil =>
    intro ctx l hv hr _ h
    simp only [ref_run, Except.ok.injEq] at h
    subst h
    refine ⟨fun c hc => ?_, fun d hd => by simp at hd⟩
    simp only [Life.alive.injEq] at hc
    subst hc
    simp [attaches, detaches, hr]
  | cons op ops ih =>
    intro ctx l hv hr hb h
    unfold ref_run at h
    cases op with
    | attach =>
      rw [attaches_cons_attach] at hb
      rw [ref_step_attach hv (by omega)] at h
      dsimp only at h
      obtain ⟨i1, i2⟩ := @ih { ctx with references := ctx.references + 1 } l hv
        (by simp) (by dsimp only; omega) h
      rw [attaches_cons_attach, detaches_cons_attach]
      refine ⟨fun c hc => ?_, fun d hd => ?_⟩
      · have := i1 c hc
        dsimp only at this
        omega
      · obtain ⟨e, pre, hpre⟩ := i2 d hd
        dsimp only at e
        exact ⟨by omega, RefOp.attach :: pre, by rw [hpre]; rfl⟩
    | detach =>
      rw [attaches_cons_detach] at hb
      rw [attaches_cons_detach, detaches_cons_detach]
      by_cases h1 : ctx.references = 1
      · rw [ref_step_detach_last hv h1] at h
        cases hd : destroy { ctx with references := 0 } with
        | error e => rw [hd] at h; simp [Except.map] at h
        | ok d0 =>
          rw [hd] at h
          simp only [Except.map] at h
          obtain ⟨rfl, rfl⟩ := ref_run_destroyed h
          refine ⟨fun c hc => by simp at hc, fun d _ => ?_⟩
          exact ⟨by simp [attaches, detaches, h1], [], rfl⟩
      · rw [ref_step_detach_more hv (by omega)] at h
        dsimp only at h
        obtain ⟨i1, i2⟩ := @ih { ctx with references := ctx.references - 1 } l hv
          (by simp; omega) (by dsimp only; omega) h
        refine ⟨fun c hc => ?_, fun d hd => ?_⟩
        · have := i1 c hc
          dsimp only at this
          omega
        · obtain ⟨e, pre, hpre⟩ := i2 d hd
          dsimp only at e
          exact ⟨by omega, RefOp.detach :: pre, by rw [hpre]; rfl⟩

/-- A sequence in which no detach but the last brings the number of detaches
up to the number of attachments runs through. -/
theorem ref_run_total {ops : List RefOp} : ∀ {ctx : isc_mem},
    VALID_CONTEXT ctx → 0 < ctx.references → teardown_ready ctx →
    ctx.references + attaches ops < 2 ^ UINT_BITS →
    (∀ pre suf, ops = pre ++ suf → suf ≠ [] → detaches pre < ctx.references + attaches pre) →
    ∃ l, ref_run (Life.alive ctx) ops = Except.ok l := by
  induction ops with
  | nil => intro ctx _ _ _ _ _; exact ⟨_, rfl⟩
  | cons op ops ih =>
    intro ctx hv hr ht hb hp
    unfold ref_run
    cases op with
    | attach =>
      rw [attaches_cons_attach] at hb
      rw [ref_step_attach hv (by omega)]
      dsimp only
      apply @ih { ctx with references := ctx.references + 1 } hv (by simp) ht
        (by dsimp only; omega)
      intro pre suf he hs
      have := hp (RefOp.attach :: pre) suf (by rw [he]; rfl) hs
      rw [attaches_cons_attach, detaches_cons_attach] at this
      dsimp only
      omega
    | detach =>
      rw [attaches_cons_detach] at hb
      by_cases h1 : ctx.references = 1
      · rw [ref_step_detach_last hv h1]
        have hops : ops = [] := by
          by_contra hne
          have := hp [RefOp.detach] ops rfl hne
          simp [attaches, detaches, h1] at this
        obtain ⟨d, hd⟩ := @destroy_ready { ctx with references := 0 } ht rfl
        rw [hd, hops]
        exact ⟨_, rfl⟩
      · rw [ref_step_detach_more hv (by omega)]
        dsimp only
        apply @ih { ctx with references := ctx.references - 1 } hv (by simp; omega) ht
          (by dsimp only; omega)
        intro pre suf he hs
        have := hp (RefOp.detach :: pre) suf (by rw [he]; rfl) hs
        rw [attaches_cons_detach, detaches_cons_detach] at this
        dsimp only
        omega

theorem createx_teardown_ready {sizeof_ctx init_max_size target_size : Nat} {b b' : Backing}
    {mutex_ok : Bool} {ctx0 : isc_mem}
    (h : isc_mem_createx sizeof_ctx init_max_size target_size b mutex_ok
      = (isc_result.ISC_R_SUCCESS, some ctx0, b')) :
    VALID_CONTEXT ctx0 ∧ ctx0.references = 1 ∧ teardown_ready ctx0 := by
  obtain ⟨p1, p2, p3, rfl⟩ := createx_success_inv h
  refine ⟨rfl, rfl, rfl, ?_⟩
  rintro ⟨-, hl⟩
  obtain ⟨i, -, hi⟩ := (destroy_leak_iff _).mp hl
  exact hi rfl

/-- While the count stays below `2 ^ 32`, the range of `unsigned int`: with the
creation counted as the first attachment, a context that has had `N`
attachments lives, with reference count `N` less the number of detaches, as
long as fewer than `N` detaches were made, and is torn down by the detach that
is the `N`-th; every such sequence of calls runs through; and
`isc_mem_detach` on a reference count of zero stops on its assertion instead
of decrementing. -/
theorem attach_detach_count (sizeof_ctx init_max_size target_size : Nat) (b b' : Backing)
    (mutex_ok : Bool) (ctx0 : isc_mem)
    (hcreate : isc_mem_createx sizeof_ctx init_max_size target_size b mutex_ok
      = (isc_result.ISC_R_SUCCESS, some ctx0, b')) :
    (∀ ops l, 1 + attaches ops < 2 ^ UINT_BITS →
      ref_run (Life.alive ctx0) ops = Except.ok l →
      (∀ c, l = Life.alive c →
        detaches ops < 1 + attaches ops ∧
        c.references = 1 + attaches ops - detaches ops) ∧
      (∀ d, l = Life.destroyed d →
        detaches ops = 1 + attaches ops ∧ ∃ pre, ops = pre ++ [RefOp.detach])) ∧
    (∀ ops, 1 + attaches ops < 2 ^ UINT_BITS →
      (∀ pre suf, ops = pre ++ suf → suf ≠ [] → detaches pre < 1 + attaches pre) →
      ∃ l, ref_run (Life.alive ctx0) ops = Except.ok l) ∧
    (∀ ctx, ctx.references = 0 → isc_mem_detach ctx = Except.error Fault.assertion) := by
  obtain ⟨hv, h1, ht⟩ := createx_teardown_ready hcreate
  refine ⟨fun ops l hb h => ?_, fun ops hb hp => ?_, detach_at_zero⟩
  · obtain ⟨i1, i2⟩ := ref_run_count hv (by omega) (by rw [h1]; exact hb) h
    rw [h1] at i1 i2
    refine ⟨fun c hc => ?_, i2⟩
    have := i1 c hc
    omega
  · apply ref_run_total hv (by omega) ht (by rw [h1]; exact hb)
    rw [h1]
    exact hp

theorem ref_run_attaches (n : Nat) : ∀ (ctx : isc_mem) (ops : List RefOp),
    VALID_CONTEXT ctx → ctx.references < 2 ^ UINT_BITS →
    ref_run (Life.alive ctx) (List.replicate n RefOp.attach ++ ops)
      = ref_run (Life.alive
          { ctx with references := (ctx.references + n) % 2 ^ UINT_BITS }) ops := by
  induction n with
  | zero =>
    intro ctx ops _ hb
    rw [List.replicate_zero, List.nil_append, Nat.add_zero, Nat.mod_eq_of_lt hb]
  | succ n ih =>
    intro ctx ops hv hb
    rw [List.replicate_succ, List.cons_append]
    show (match ref_step (Life.alive ctx) RefOp.attach with
      | Except.error e => Except.error e
      | Except.ok l1 => ref_run l1 (List.replicate n RefOp.attach ++ ops)) = _
    rw [ref_step_attach_wrap hv]
    dsimp only
    rw [ih { ctx with references := (ctx.references + 1) % 2 ^ UINT_BITS } ops hv
      (Nat.mod_lt _ (by decide))]
    dsimp only
    have e : ((ctx.references + 1) % 2 ^ UINT_BITS + n) % 2 ^ UINT_BITS
        = (ctx.references + (n + 1)) % 2 ^ UINT_BITS := by
      rw [Nat.add_mod, Nat.mod_mod, ← Nat.add_mod]
      congr 1
      omega
    rw [e]

/-- C10: the reference count is an `unsigned int` that `isc_mem_attach`
increments without a test.  On the context made with `init_max_size` 64 and
`target_size` 128 (one reference, from the creation): after `2 ^ 32 - 1`
attaches the count is 0 and the first detach stops on `INSIST(references > 0)`,
with `2 ^ 32` attachments outstanding; after `2 ^ 32` attaches the count is 1
again and the first detach tears the context down, with `2 ^ 32` attachments
still outstanding. -/
theorem attach_count_wraps :
    isc_mem_createx 200 64 128 example_backing true
      = (isc_result.ISC_R_SUCCESS, some example_ctx, example_ctx.backing) ∧
    example_ctx.references = 1 ∧
    ref_run (Life.alive example_ctx) (List.replicate (2 ^ 32 - 1) RefOp.attach)
      = Except.ok (Life.alive { example_ctx with references := 0 }) ∧
    ref_run (Life.alive example_ctx) (List.replicate (2 ^ 32 - 1) RefOp.attach ++ [RefOp.detach])
      = Except.error Fault.assertion ∧
    ref_run (Life.alive example_ctx) (List.replicate (2 ^ 32) RefOp.attach)
      = Except.ok (Life.alive example_ctx) ∧
    ∃ d, ref_run (Life.alive example_ctx) (List.replicate (2 ^ 32) RefOp.attach ++ [RefOp.detach])
      = Except.ok (Life.destroyed d) := by
  have e0 : (example_ctx.references + (2 ^ 32 - 1)) % 2 ^ UINT_BITS = 0 := by decide
  have e1 : (example_ctx.references + 2 ^ 32) % 2 ^ UINT_BITS = 1 := by decide
  have hb : example_ctx.references < 2 ^ UINT_BITS := by decide
  refine ⟨rfl, rfl, ?_, ?_, ?_, ?_⟩
  · rw [← List.append_nil (List.replicate (2 ^ 32 - 1) RefOp.attach),
      ref_run_attaches (2 ^ 32 - 1) example_ctx [] rfl hb, e0]
    rfl
  · rw [ref_run_attaches (2 ^ 32 - 1) example_ctx [RefOp.detach] rfl hb, e0]
    rfl
  · rw [← List.append_nil (List.replicate (2 ^ 32) RefOp.attach),
      ref_run_attaches (2 ^ 32) example_ctx [] rfl hb, e1]
    rfl
  · rw [ref_run_attaches (2 ^ 32) example_ctx [RefOp.detach] rfl hb, e1]
    exact ⟨_, rfl⟩

/-! ## One arena chunk under a quota -/

theorem more_frags_arena {ctx c' : isc_mem} {new_size : Nat} {r : Bool}
    (h : more_frags ctx new_size = Except.ok (r, c')) :
    (c'.total = ctx.total ∧ c'.basic_table_count = ctx.basic_table_count) ∨
    (c'.total = ctx.total + NUM_BASIC_BLOCKS * ctx.mem_target ∧
      c'.basic_table_count = ctx.basic_table_count + 1 ∧
      (ctx.quota = 0 ∨ ctx.total + NUM_BASIC_BLOCKS * ctx.mem_target ≤ ctx.quota)) := by
  unfold more_frags at h
  by_cases hb : ctx.basic_blocks = []
  · rw [if_pos hb] at h
    cases hm : more_basic_blocks ctx with
    | error e => rw [hm] at h; simp at h
    | ok p =>
      obtain ⟨r1, ctx1⟩ := p
      rw [hm] at h
      obtain ⟨-, -, h3, h4⟩ := more_basic_blocks_frame hm
      cases r1
      · obtain ⟨-, -, k3, -, -⟩ := try_split_frame h
        have a := h3 rfl
        exact Or.inl ⟨k3.total.trans a.total, k3.basic_table_count.trans a.basic_table_count⟩
      · obtain ⟨-, -, k3, k4, -⟩ := more_frags_chop_frame h
        obtain ⟨a1, a2, a3, -⟩ := h4 rfl
        exact Or.inr ⟨k3.trans a2, k4.trans a3, a1⟩
  · rw [if_neg hb] at h
    obtain ⟨-, -, k3, k4, -⟩ := more_frags_chop_frame h
    exact Or.inl ⟨k3, k4⟩

theorem mem_getunlocked_arena {ctx c' : isc_mem} {size : Nat} {r : Option Nat}
    (hs : ¬ get_large ctx.max_size size)
    (h : mem_getunlocked ctx size = Except.ok (r, c')) :
    (c'.total = ctx.total ∧ c'.basic_table_count = ctx.basic_table_count) ∨
    (c'.total = ctx.total + NUM_BASIC_BLOCKS * ctx.mem_target ∧
      c'.basic_table_count = ctx.basic_table_count + 1 ∧
      (ctx.quota = 0 ∨ ctx.total + NUM_BASIC_BLOCKS * ctx.mem_target ≤ ctx.quota)) := by
  unfold mem_getunlocked at h
  unfold get_large at hs
  rw [if_neg hs] at h
  have hpop : ∀ c1 : isc_mem, mem_get_pop c1 size (quantize size) = Except.ok (r, c') →
      c'.total = c1.total ∧ c'.basic_table_count = c1.basic_table_count := by
    intro c1 hp
    obtain ⟨p, rest, -, -, rfl⟩ := mem_get_pop_inv hp
    exact ⟨rfl, rfl⟩
  by_cases he : ctx.freelists (quantize size) = []
  · rw [if_pos he] at h
    cases hm : more_frags ctx (quantize size) with
    | error e => rw [hm] at h; simp at h
    | ok p =>
      obtain ⟨r1, ctx1⟩ := p
      rw [hm] at h
      have ha := more_frags_arena hm
      cases r1
      · simp only [Except.ok.injEq, Prod.mk.injEq] at h
        obtain ⟨-, rfl⟩ := h
        exact ha
      · obtain ⟨e1, e2⟩ := hpop ctx1 h
        rw [e1, e2]
        exact ha
  · rw [if_neg he] at h
    exact Or.inl (hpop ctx h)

/-- A small get draws an arena chunk only when the free list of its class
and the idle list are both empty. -/
theorem mem_getunlocked_grew {ctx c' : isc_mem} {size : Nat} {r : Option Nat}
    (hs : ¬ get_large ctx.max_size size)
    (h : mem_getunlocked ctx size = Except.ok (r, c'))
    (hne : c'.basic_table_count ≠ ctx.basic_table_count) :
    ctx.freelists (quantize size) = [] ∧ ctx.basic_blocks = [] := by
  unfold mem_getunlocked at h
  unfold get_large at hs
  rw [if_neg hs] at h
  have hpop : ∀ c1 : isc_mem, mem_get_pop c1 size (quantize size) = Except.ok (r, c') →
      c'.basic_table_count = c1.basic_table_count := by
    intro c1 hp
    obtain ⟨p, rest, -, -, rfl⟩ := mem_get_pop_inv hp
    rfl
  by_cases he : ctx.freelists (quantize size) = []
  · refine ⟨he, ?_⟩
    by_contra hb
    rw [if_pos he] at h
    cases hm : more_frags ctx (quantize size) with
    | error e => rw [hm] at h; simp at h
    | ok p =>
      obtain ⟨r1, ctx1⟩ := p
      rw [hm] at h
      have hc : ctx1.basic_table_count = ctx.basic_table_count := by
        unfold more_frags at hm
        rw [if_neg hb] at hm
        exact (more_frags_chop_frame hm).2.2.2.1
      cases r1
      · simp only [Except.ok.injEq, Prod.mk.injEq] at h
        obtain ⟨-, rfl⟩ := h
        exact hne hc
      · exact hne ((hpop ctx1 h).trans hc)
  · rw [if_neg he] at h
    exact absurd (hpop ctx h) hne

theorem step_small_arena {ctx c' : isc_mem} {op : Op}
    (hs : small_op ctx.max_size op) (h : step ctx op = Except.ok c') :
    same_config ctx c' ∧
    ((c'.total = ctx.total ∧ c'.basic_table_count = ctx.basic_table_count) ∨
    (c'.total = ctx.total + NUM_BASIC_BLOCKS * ctx.mem_target ∧
      c'.basic_table_count = ctx.basic_table_count + 1 ∧
      (ctx.quota = 0 ∨ ctx.total + NUM_BASIC_BLOCKS * ctx.mem_target ≤ ctx.quota))) := by
  refine ⟨(step_counts h).1, ?_⟩
  have hv := step_valid_of_ok h
  cases op with
  | get size =>
    rw [step_get_valid size hv] at h
    cases hg : mem_getunlocked ctx size with
    | error e => rw [hg] at h; simp [Except.map] at h
    | ok p =>
      obtain ⟨r, c1⟩ := p
      rw [hg] at h
      simp only [Except.map, Except.ok.injEq] at h
      subst h
      exact mem_getunlocked_arena hs hg
  | put mem size =>
    rw [step_put_valid mem size hv] at h
    rcases mem_putunlocked_inv h with ⟨hl, -, -, -⟩ | ⟨-, -, -, rfl⟩
    · exact absurd hl hs
    · exact Or.inl ⟨rfl, rfl⟩

theorem run_small_one_chunk {ops : List Op} : ∀ {ctx c' : isc_mem},
    (∀ op ∈ ops, small_op ctx.max_size op) → run ctx ops = Except.ok c' →
    ctx.quota ≠ 0 → ctx.quota < 2 * (NUM_BASIC_BLOCKS * ctx.mem_target) →
    ((ctx.total = 0 ∧ ctx.basic_table_count = 0) ∨
      (ctx.total = NUM_BASIC_BLOCKS * ctx.mem_target ∧ ctx.basic_table_count = 1)) →
    same_config ctx c' ∧
    ((c'.total = 0 ∧ c'.basic_table_count = 0) ∨
      (c'.total = NUM_BASIC_BLOCKS * ctx.mem_target ∧ c'.basic_table_count = 1)) := by
  induction ops with
  | nil =>
    intro ctx c' _ h _ _ hi
    simp only [run, Except.ok.injEq] at h
    subst h
    exact ⟨same_config_refl _, hi⟩
  | cons op ops ih =>
    intro ctx c' hs h hq hlt hi
    unfold run at h
    cases hst : step ctx op with
    | error e => rw [hst] at h; simp at h
    | ok c1 =>
      rw [hst] at h
      obtain ⟨k1, k2⟩ := step_small_arena (hs op (List.mem_cons_self _ _)) hst
      have hs1 : ∀ op' ∈ ops, small_op c1.max_size op' := by
        intro op' hm
        rw [k1.max_size]
        exact hs op' (List.mem_cons_of_mem _ hm)
      have hi1 : (c1.total = 0 ∧ c1.basic_table_count = 0) ∨
          (c1.total = NUM_BASIC_BLOCKS * c1.mem_target ∧ c1.basic_table_count = 1) := by
        rw [k1.mem_target]
        rcases k2 with ⟨e1, e2⟩ | ⟨e1, e2, e3⟩
        · rw [e1, e2]; exact hi
        · rcases e3 with e3 | e3
          · exact absurd e3 hq
          · rcases hi with ⟨i1, i2⟩ | ⟨i1, i2⟩
            · right; omega
            · omega
      obtain ⟨j1, j2⟩ := ih hs1 h (by rw [k1.quota]; exact hq)
        (by rw [k1.quota, k1.mem_target]; exact hlt) hi1
      rw [k1.mem_target] at j2
      exact ⟨same_config_trans k1 j1, j2⟩

theorem mem_getunlocked_refused {ctx : isc_mem} {s : Nat}
    (hs : ¬ get_large ctx.max_size s)
    (hq : ctx.quota ≠ 0) (hfull : ctx.total + NUM_BASIC_BLOCKS * ctx.mem_target > ctx.quota)
    (hoff : ctx.trysplit = false)
    (he : ctx.freelists (quantize s) = []) (hb : ctx.basic_blocks = []) :
    mem_getunlocked ctx s = Except.ok (none, ctx) := by
  unfold get_large at hs
  unfold mem_getunlocked
  rw [if_neg hs, if_pos he]
  have h1 : more_basic_blocks ctx = Except.ok (false, ctx) := by
    unfold more_basic_blocks
    rw [if_pos ⟨hq, hfull⟩]
  have h2 : more_frags ctx (quantize s) = Except.ok (false, ctx) := by
    unfold more_frags
    rw [if_pos hb, h1]
    exact try_split_off _ hoff
  rw [h2]

theorem createx_fresh {sizeof_ctx init_max_size target_size : Nat} {b b' : Backing}
    {mutex_ok : Bool} {ctx0 : isc_mem}
    (h : isc_mem_createx sizeof_ctx init_max_size target_size b mutex_ok
      = (isc_result.ISC_R_SUCCESS, some ctx0, b')) : fresh ctx0 := by
  obtain ⟨p1, p2, p3, rfl⟩ := createx_success_inv h
  refine ⟨rfl, ?_, rfl, rfl, rfl, rfl, rfl, rfl, rfl, rfl, rfl, rfl, rfl, rfl, rfl, rfl, rfl⟩
  dsimp only
  split
  · decide
  · omega

theorem setquota_valid {ctx : isc_mem} (quota : Nat) (hv : VALID_CONTEXT ctx) :
    isc_mem_setquota ctx quota = Except.ok { ctx with quota := quota } := by
  unfold isc_mem_setquota
  rw [if_neg (not_not.mpr hv)]

theorem more_basic_blocks_first {ctx : isc_mem} {t p : Nat} {rest : List (Option Nat)}
    (hc : ctx.basic_table_count = 0) (hz : ctx.basic_table_size = 0)
    (hq : ctx.quota = 0 ∨ ctx.total + NUM_BASIC_BLOCKS * ctx.mem_target ≤ ctx.quota)
    (hresp : ctx.backing.responses = some t :: some p :: rest) :
    ∃ c1, more_basic_blocks ctx = Except.ok (true, c1) ∧
      c1.total = ctx.total + NUM_BASIC_BLOCKS * ctx.mem_target ∧ c1.basic_table = [p] ∧
      c1.basic_table_count = 1 := by
  have hq' : ¬ (ctx.quota ≠ 0 ∧ ctx.total + NUM_BASIC_BLOCKS * ctx.mem_target > ctx.quota) := by
    rintro ⟨h1, h2⟩
    rcases hq with h | h
    · exact h1 h
    · omega
  have ht : more_basic_blocks_table ctx = (true,
      { ctx with
        backing :=
          { responses := some p :: rest
            log := ctx.backing.log ++
              [BackingCall.alloc ((ctx.basic_table_size + TABLE_INCREMENT) * SIZEOF_POINTER)
                (some t)] }
        basic_table_ptr := some t
        basic_table_size := ctx.basic_table_size + TABLE_INCREMENT }) := by
    unfold more_basic_blocks_table
    rw [if_pos (by rw [hc, hz])]
    unfold memalloc
    rw [hresp]
    dsimp only
    rw [if_neg (not_not.mpr hz)]
  unfold more_basic_blocks
  dsimp only
  rw [if_neg hq', if_neg (by omega), ht]
  dsimp only
  unfold more_basic_blocks_chunk memalloc
  dsimp only
  refine ⟨_, rfl, rfl, ?_, ?_⟩
  · dsimp only; rw [hc]; rfl
  · dsimp only; rw [hc]

/-- C7, amended: on a fresh context with a quota `Q` between one arena chunk
`C = 64 * mem_target` and two, the first arena growth succeeds when the backing
allocator supplies the chunk table and the chunk; along every sequence of small
gets and puts no second chunk is acquired (`total` stays at most `C`); once the
arena has grown, a get for a class whose free list is empty, with no idle basic
block, returns `NULL` and changes nothing; and a get for a class whose free
list holds a fragment returns the head of that list. -/
theorem one_chunk_under_quota (sizeof_ctx init_max_size target_size : Nat) (b b' : Backing)
    (mutex_ok : Bool) (ctx0 ctxQ : isc_mem) (Q : Nat)
    (hcreate : isc_mem_createx sizeof_ctx init_max_size target_size b mutex_ok
      = (isc_result.ISC_R_SUCCESS, some ctx0, b'))
    (hset : isc_mem_setquota ctx0 Q = Except.ok ctxQ)
    (hlo : NUM_BASIC_BLOCKS * ctx0.mem_target ≤ Q)
    (hhi : Q < 2 * (NUM_BASIC_BLOCKS * ctx0.mem_target)) :
    (∀ t p rest, ctxQ.backing.responses = some t :: some p :: rest →
      ∃ c1, more_basic_blocks ctxQ = Except.ok (true, c1) ∧
        c1.total = NUM_BASIC_BLOCKS * ctx0.mem_target ∧ c1.basic_table = [p] ∧
        c1.basic_table_count = 1) ∧
    (∀ ops ctx, (∀ op ∈ ops, small_op ctx0.max_size op) → run ctxQ ops = Except.ok ctx →
      ctx.total ≤ NUM_BASIC_BLOCKS * ctx0.mem_target ∧ ctx.basic_table_count ≤ 1 ∧
      (∀ s, ¬ get_large ctx.max_size s →
        ctx.total = NUM_BASIC_BLOCKS * ctx0.mem_target →
        ctx.freelists (quantize s) = [] → ctx.basic_blocks = [] →
        mem_getunlocked ctx s = Except.ok (none, ctx)) ∧
      (∀ s p rest, ¬ get_large ctx.max_size s → ctx.freelists (quantize s) = p :: rest →
        ∃ c', mem_getunlocked ctx s = Except.ok (some p, c'))) := by
  have hf := createx_fresh hcreate
  rw [setquota_valid Q hf.magic] at hset
  simp only [Except.ok.injEq] at hset
  subst hset
  have hQ : Q ≠ 0 := by
    have : 0 < NUM_BASIC_BLOCKS * ctx0.mem_target := Nat.mul_pos (by decide) hf.mem_target_pos
    omega
  constructor
  · intro t p rest hresp
    have := @more_basic_blocks_first { ctx0 with quota := Q } t p rest hf.basic_table_count
      hf.basic_table_size (Or.inr (by dsimp only; rw [hf.total]; omega)) hresp
    obtain ⟨c1, e1, e2, e3, e4⟩ := this
    refine ⟨c1, e1, ?_, e3, e4⟩
    rw [e2]
    dsimp only
    rw [hf.total, Nat.zero_add]
  · intro ops ctx hsmall hrun
    obtain ⟨hc, hi⟩ := @run_small_one_chunk ops { ctx0 with quota := Q } ctx
      hsmall hrun hQ hhi (Or.inl ⟨hf.total, hf.basic_table_count⟩)
    dsimp only at hi
    refine ⟨by omega, by omega, fun s hs htot he hb => ?_, fun s p rest hs hfl => ?_⟩
    · apply mem_getunlocked_refused hs
      · rw [hc.quota]; exact hQ
      · rw [hc.quota, hc.mem_target, htot]
        dsimp only
        omega
      · rw [hc.trysplit]; exact hf.trysplit
      · exact he
      · exact hb
    · have hne : ctx.freelists (quantize s) ≠ [] := by rw [hfl]; simp
      unfold get_large at hs
      rw [mem_getunlocked_nonempty ctx s hs hne, mem_get_pop_cons ctx s (quantize s) p rest hfl]
      exact ⟨_, rfl⟩

theorem one_chunk_under_quota_witness :
    (isc_mem_createx 200 64 128 example_backing true
        = (isc_result.ISC_R_SUCCESS, some example_ctx, example_ctx.backing) ∧
      isc_mem_setquota example_ctx 8192 = Except.ok example_quota ∧
      NUM_BASIC_BLOCKS * example_ctx.mem_target ≤ 8192 ∧
      8192 < 2 * (NUM_BASIC_BLOCKS * example_ctx.mem_target)) ∧
    ((∀ t p rest, example_quota.backing.responses = some t :: some p :: rest →
      ∃ c1, more_basic_blocks example_quota = Except.ok (true, c1) ∧
        c1.total = NUM_BASIC_BLOCKS * example_ctx.mem_target ∧ c1.basic_table = [p] ∧
        c1.basic_table_count = 1) ∧
    (∀ ops ctx, (∀ op ∈ ops, small_op example_ctx.max_size op) →
      run example_quota ops = Except.ok ctx →
      ctx.total ≤ NUM_BASIC_BLOCKS * example_ctx.mem_target ∧ ctx.basic_table_count ≤ 1 ∧
      (∀ s, ¬ get_large ctx.max_size s →
        ctx.total = NUM_BASIC_BLOCKS * example_ctx.mem_target →
        ctx.freelists (quantize s) = [] → ctx.basic_blocks = [] →
        mem_getunlocked ctx s = Except.ok (none, ctx)) ∧
      (∀ s p rest, ¬ get_large ctx.max_size s → ctx.freelists (quantize s) = p :: rest →
        ∃ c', mem_getunlocked ctx s = Except.ok (some p, c')))) :=
  ⟨⟨rfl, rfl, by decide, by decide⟩,
    one_chunk_under_quota 200 64 128 example_backing example_ctx.backing true example_ctx
      example_quota 8192 rfl rfl (by decide) (by decide)⟩

/-- C7 as stated fails on the fresh context itself, with the quota at one
arena chunk.  The free list of class 8 is empty, there is no idle basic block
and no fragment to split, yet the get does not return `NULL`: the arena grows
and the get is served.  And when the backing allocator has nothing left, that
first arena growth is refused. -/
theorem one_chunk_as_stated_fails :
    isc_mem_createx 200 64 128 example_backing true
      = (isc_result.ISC_R_SUCCESS, some example_ctx, example_ctx.backing) ∧
    isc_mem_setquota example_ctx 8192 = Except.ok example_quota ∧
    NUM_BASIC_BLOCKS * example_ctx.mem_target ≤ 8192 ∧
    8192 < 2 * (NUM_BASIC_BLOCKS * example_ctx.mem_target) ∧
    run example_quota [] = Except.ok example_quota ∧
    ¬ get_large example_quota.max_size 8 ∧
    (∀ c, example_quota.freelists c = []) ∧
    example_quota.basic_blocks = [] ∧
    (∃ c', mem_getunlocked example_quota 8 = Except.ok (some 65536, c')) ∧
    isc_mem_createx 200 64 128 example_backing_short true
      = (isc_result.ISC_R_SUCCESS, some { example_quota_short with quota := 0 },
          example_quota_short.backing) ∧
    isc_mem_setquota { example_quota_short with quota := 0 } 8192
      = Except.ok example_quota_short ∧
    (∃ c', more_basic_blocks example_quota_short = Except.ok (false, c')) :=
  ⟨rfl, rfl, by decide, by decide, rfl, by decide, fun _ => rfl, rfl, ⟨_, rfl⟩, rfl, rfl,
    ⟨_, rfl⟩⟩

/-! ## Fragments are split and never merged -/

theorem sum_range_add (f g h : Nat → Nat) (n : Nat) (hp : ∀ s, s < n → f s = g s + h s) :
    ((List.range n).map f).sum = ((List.range n).map g).sum + ((List.range n).map h).sum := by
  induction n with
  | zero => simp
  | succ n ih =>
    rw [List.range_succ, List.map_append, List.map_append, List.map_append, List.sum_append,
      List.sum_append, List.sum_append, ih (fun s hs => hp s (by omega))]
    simp only [List.map_cons, List.map_nil, List.sum_cons, List.sum_nil, Nat.add_zero]
    rw [hp n (by omega)]
    omega

theorem sum_range_congr (f g : Nat → Nat) (n : Nat) (hp : ∀ s, s < n → f s = g s) :
    ((List.range n).map f).sum = ((List.range n).map g).sum := by
  have := sum_range_add f g (fun _ => 0) n (fun s hs => by rw [hp s hs]; rfl)
  rw [this]
  simp

theorem sum_range_single (n j v : Nat) :
    ((List.range n).map (fun s => if s = j then v else 0)).sum = if j < n then v else 0 := by
  induction n with
  | zero => simp
  | succ n ih =>
    rw [List.range_succ, List.map_append, List.sum_append, ih]
    simp only [List.map_cons, List.map_nil, List.sum_cons, List.sum_nil, Nat.add_zero]
    by_cases h1 : j < n
    · rw [if_pos h1, if_neg (by omega), if_pos (by omega)]
      rfl
    · rw [if_neg h1]
      by_cases h2 : n = j
      · rw [if_pos h2, if_pos (by omega)]; omega
      · rw [if_neg h2, if_neg (by omega)]

theorem split_inv {ctx c' : isc_mem} {size new_size : Nat}
    (h : split ctx size new_size = Except.ok c') :
    ∃ ptr rest, ctx.freelists size = ptr :: rest ∧
      c'.freelists = modify (modify (modify ctx.freelists size (fun _ => rest)) new_size
        (fun l => ptr :: l)) (wsub size new_size) (fun l => (ptr + new_size) :: l) ∧
      c'.stats = modify (modify (modify ctx.stats size stats.freefrags_dec) new_size
        (fun s => s.freefrags_add 1)) (wsub size new_size) (fun s => s.freefrags_add 1) := by
  unfold split at h
  cases hb : ctx.freelists size with
  | nil => rw [hb] at h; simp at h
  | cons ptr rest =>
    rw [hb] at h
    simp only [Except.ok.injEq] at h
    subst h
    exact ⟨ptr, rest, rfl, rfl, rfl⟩

theorem find_frag_some {ctx : isc_mem} {i : Nat} : ∀ {l : List Nat},
    find_frag ctx l = Except.ok (some i) →
    i ∈ l ∧ i < ctx.max_size ∧ ctx.freelists i ≠ [] := by
  intro l
  induction l with
  | nil => intro h; simp [find_frag] at h
  | cons j rest ih =>
    intro h
    unfold find_frag at h
    by_cases h1 : ctx.max_size ≤ j
    · rw [if_pos h1] at h; simp at h
    · rw [if_neg h1] at h
      by_cases h2 : ctx.freelists j = []
      · rw [if_pos h2] at h
        obtain ⟨a, b, c⟩ := ih h
        exact ⟨List.mem_cons_of_mem _ a, b, c⟩
      · rw [if_neg h2] at h
        simp only [Except.ok.injEq, Option.some.injEq] at h
        subst h
        exact ⟨List.mem_cons_self _ _, by omega, h2⟩

theorem loop_indices_ge {start stop i : Nat} (h : i ∈ loop_indices start stop) : start ≤ i := by
  unfold loop_indices at h
  rw [List.mem_range'] at h
  obtain ⟨k, -, rfl⟩ := h
  omega

theorem split_candidate_some {ctx : isc_mem} {ns i : Nat}
    (h : split_candidate ctx ns = Except.ok (some i)) :
    ns ≤ i ∧ i < ctx.max_size ∧ ctx.freelists i ≠ [] := by
  unfold split_candidate at h
  dsimp only at h
  cases h1 : find_frag ctx (loop_indices (ns * 2) ctx.max_size) with
  | error e => rw [h1] at h; simp at h
  | ok o =>
    rw [h1] at h
    cases o with
    | some j =>
      simp only [Except.ok.injEq, Option.some.injEq] at h
      subst h
      obtain ⟨a, b, c⟩ := find_frag_some h1
      have := loop_indices_ge a
      exact ⟨by omega, b, c⟩
    | none =>
      dsimp only at h
      obtain ⟨a, b, c⟩ := find_frag_some h
      have := loop_indices_ge a
      exact ⟨by omega, b, c⟩

theorem try_split_inv {ctx c' : isc_mem} {ns : Nat} {r : Bool}
    (h : try_split ctx ns = Except.ok (r, c')) :
    (r = false ∧ c' = ctx) ∨
    (r = true ∧ ctx.trysplit ≠ false ∧
      ∃ i, split_candidate ctx ns = Except.ok (some i) ∧ split ctx i ns = Except.ok c') := by
  unfold try_split at h
  by_cases ht : ctx.trysplit = false
  · rw [if_pos ht] at h
    simp only [Except.ok.injEq, Prod.mk.injEq] at h
    exact Or.inl ⟨h.1.symm, h.2.symm⟩
  · rw [if_neg ht] at h
    cases h1 : split_candidate ctx ns with
    | error e => rw [h1] at h; simp at h
    | ok o =>
      rw [h1] at h
      cases o with
      | none =>
        simp only [Except.ok.injEq, Prod.mk.injEq] at h
        exact Or.inl ⟨h.1.symm, h.2.symm⟩
      | some i =>
        dsimp only at h
        cases h2 : split ctx i ns with
        | error e => rw [h2] at h; simp at h
        | ok c =>
          rw [h2] at h
          simp only [Except.ok.injEq, Prod.mk.injEq] at h
          obtain ⟨rfl, rfl⟩ := h
          exact Or.inr ⟨rfl, ht, i, rfl, h2⟩

theorem wadd_wadd_one (x : Nat) : wadd (wadd x 1) 1 = (x + 2) % 2 ^ 64 := by
  unfold wadd
  simp only [SIZE_BITS]
  omega

theorem wadd_small {a b : Nat} (h : a + b < 2 ^ 64) : wadd a b = a + b := by
  unfold wadd
  simp only [SIZE_BITS]
  omega

theorem split_freefrags {ctx c' : isc_mem} {A B : Nat}
    (h : split ctx A B = Except.ok c') (hB : 0 < B) (hlt : B < A) :
    (c'.stats A).freefrags = wdec (ctx.stats A).freefrags ∧
    (0 < (ctx.stats A).freefrags → (c'.stats A).freefrags + 1 = (ctx.stats A).freefrags) ∧
    (c'.stats B).freefrags
      = ((ctx.stats B).freefrags + (if A - B = B then 2 else 1)) % 2 ^ 64 ∧
    (c'.stats (A - B)).freefrags
      = ((ctx.stats (A - B)).freefrags + (if A - B = B then 2 else 1)) % 2 ^ 64 ∧
    (∀ k, k ≠ A → k ≠ B → k ≠ A - B → (c'.stats k).freefrags = (ctx.stats k).freefrags) := by
  obtain ⟨ptr, rest, -, -, e2⟩ := split_inv h
  rw [e2, wsub_le (Nat.le_of_lt hlt)]
  have hA1 : A ≠ A - B := by omega
  have hA2 : A ≠ B := by omega
  have hBA : B ≠ A := by omega
  have hRA : A - B ≠ A := by omega
  have e0 : (modify (modify (modify ctx.stats A stats.freefrags_dec) B
      (fun s => s.freefrags_add 1)) (A - B) (fun s => s.freefrags_add 1) A).freefrags
      = wdec (ctx.stats A).freefrags := by
    rw [modify_other _ _ _ _ hA1, modify_other _ _ _ _ hA2, modify_same]
    rfl
  have hone : ∀ x : Nat, wadd x 1 = (x + 1) % 2 ^ 64 := fun x => rfl
  refine ⟨e0, fun hpos => ?_, ?_, ?_, fun k h1 h2 h3 => ?_⟩
  · rw [e0]
    exact wdec_pos (by omega)
  · by_cases hr : A - B = B
    · rw [if_pos hr, hr, modify_same, modify_same, modify_other _ _ _ _ hBA]
      exact wadd_wadd_one _
    · rw [if_neg hr, modify_other _ _ _ _ (fun e => hr e.symm), modify_same,
        modify_other _ _ _ _ hBA]
      exact hone _
  · by_cases hr : A - B = B
    · rw [if_pos hr, hr, modify_same, modify_same, modify_other _ _ _ _ hBA]
      exact wadd_wadd_one _
    · rw [if_neg hr, modify_same, modify_other _ _ _ _ hr, modify_other _ _ _ _ hRA]
      exact hone _
  · rw [modify_other _ _ _ _ h3, modify_other _ _ _ _ h2, modify_other _ _ _ _ h1]

set_option maxRecDepth 100000

theorem wdec_one : wdec 1 = 0 := by decide

theorem detach_last {ctx : isc_mem} (hv : VALID_CONTEXT ctx) (h1 : ctx.references = 1) :
    isc_mem_detach ctx = (destroy { ctx with references := 0 }).map
      (fun d => { handle := none, life := Life.destroyed d }) := by
  unfold isc_mem_detach
  rw [if_neg (not_not.mpr hv), if_neg (by omega)]
  have hw : wdec ctx.references = 0 := by rw [h1]; exact wdec_one
  dsimp only
  rw [if_pos hw, hw]

theorem destroy_last {ctx : isc_mem} (hv : VALID_CONTEXT ctx) (h1 : ctx.references = 1) :
    isc_mem_destroy ctx = (destroy { ctx with references := 0 }).map
      (fun d => { handle := none, life := Life.destroyed d }) := by
  unfold isc_mem_destroy
  rw [if_neg (not_not.mpr hv), if_neg (not_not.mpr h1)]
  have hw : wdec ctx.references = 0 := by rw [h1]; exact wdec_one
  dsimp only
  rw [if_pos hw, hw]

/-- C11: on a valid context `isc_mem_destroy` fails its `REQUIRE` whenever the
reference count is not 1; when the count is 1 it does what `isc_mem_detach`
does: the count goes to zero, `destroy` tears the context down and the handle
is cleared.  So, on a context that `destroy` accepts, it stops on an assertion
exactly when the count is not 1. -/
theorem destroy_single_owner (ctx : isc_mem) (hv : VALID_CONTEXT ctx) :
    (ctx.references ≠ 1 → isc_mem_destroy ctx = Except.error Fault.assertion) ∧
    (ctx.references = 1 →
      isc_mem_destroy ctx = isc_mem_detach ctx ∧
      isc_mem_destroy ctx = (destroy { ctx with references := 0 }).map
        (fun d => { handle := none, life := Life.destroyed d })) ∧
    (teardown_ready ctx →
      (isc_mem_destroy ctx = Except.error Fault.assertion ↔ ctx.references ≠ 1) ∧
      (ctx.references = 1 →
        ∃ d, isc_mem_destroy ctx = Except.ok { handle := none, life := Life.destroyed d })) := by
  have hne : ctx.references ≠ 1 → isc_mem_destroy ctx = Except.error Fault.assertion := by
    intro h
    unfold isc_mem_destroy
    rw [if_neg (not_not.mpr hv), if_pos h]
  have hok : teardown_ready ctx → ctx.references = 1 →
      ∃ d, isc_mem_destroy ctx = Except.ok { handle := none, life := Life.destroyed d } := by
    intro ht h1
    obtain ⟨d, hd⟩ := @destroy_ready { ctx with references := 0 } ht rfl
    rw [destroy_last hv h1, hd]
    exact ⟨d, rfl⟩
  refine ⟨hne, fun h1 => ⟨?_, destroy_last hv h1⟩, fun ht => ⟨⟨fun he h1 => ?_, hne⟩, hok ht⟩⟩
  · rw [destroy_last hv h1, detach_last hv h1]
  · obtain ⟨d, hd⟩ := hok ht h1
    rw [hd] at he
    simp at he

theorem destroy_single_owner_witness :
    VALID_CONTEXT example_ctx ∧
    ((example_ctx.references ≠ 1 →
      isc_mem_destroy example_ctx = Except.error Fault.assertion) ∧
    (example_ctx.references = 1 →
      isc_mem_destroy example_ctx = isc_mem_detach example_ctx ∧
      isc_mem_destroy example_ctx = (destroy { example_ctx with references := 0 }).map
        (fun d => { handle := none, life := Life.destroyed d })) ∧
    (teardown_ready example_ctx →
      (isc_mem_destroy example_ctx = Except.error Fault.assertion ↔
        example_ctx.references ≠ 1) ∧
      (example_ctx.references = 1 →
        ∃ d, isc_mem_destroy example_ctx
          = Except.ok { handle := none, life := Life.destroyed d }))) :=
  ⟨rfl, destroy_single_owner example_ctx rfl⟩

/-! ## Pools: the ceiling on outstanding items -/

theorem wdec32_pos {x : Nat} (h : 0 < x) : wdec32 x = x - 1 := by
  unfold wdec32
  rw [if_neg (by omega)]

theorem setmaxalloc_ok {p : isc_mempool} {m : Nat} (hm : 1 ≤ m) (hv : VALID_MEMPOOL p) :
    isc_mempool_setmaxalloc p m = Except.ok { p with maxalloc := m } := by
  unfold isc_mempool_setmaxalloc
  rw [if_neg (by omega), if_neg (not_not.mpr hv)]

theorem pool_get_depleted {p : isc_mempool} (mctx : isc_mem) (hv : VALID_MEMPOOL p)
    (h : p.allocated ≥ p.maxalloc) :
    isc__mempool_get p mctx = Except.ok (none, p, mctx) := by
  unfold isc__mempool_get
  rw [if_neg (not_not.mpr hv), if_pos h]

theorem mempool_fill_keeps {n : Nat} : ∀ {p p1 : isc_mempool} {m m1 : isc_mem},
    mempool_fill n p m = Except.ok (p1, m1) →
    p1.magic = p.magic ∧ p1.maxalloc = p.maxalloc ∧ p1.allocated = p.allocated ∧
    p1.freemax = p.freemax ∧ p1.fillcount = p.fillcount ∧ p1.size = p.size ∧
    p1.gets = p.gets ∧
    p1.freecount + p.items.length = p.freecount + p1.items.length ∧
    p.items.length ≤ p1.items.length := by
  induction n with
  | zero =>
    intro p p1 m m1 h
    simp only [mempool_fill, Except.ok.injEq, Prod.mk.injEq] at h
    obtain ⟨rfl, -⟩ := h
    exact ⟨rfl, rfl, rfl, rfl, rfl, rfl, rfl, rfl, Nat.le_refl _⟩
  | succ n ih =>
    intro p p1 m m1 h
    unfold mempool_fill at h
    cases hg : mem_getunlocked m p.size with
    | error e => rw [hg] at h; simp at h
    | ok r =>
      obtain ⟨o, m2⟩ := r
      rw [hg] at h
      cases o with
      | none =>
        simp only [Except.ok.injEq, Prod.mk.injEq] at h
        obtain ⟨rfl, -⟩ := h
        exact ⟨rfl, rfl, rfl, rfl, rfl, rfl, rfl, rfl, Nat.le_refl _⟩
      | some item =>
        dsimp only at h
        obtain ⟨a1, a2, a3, a4, a5, a6, a7, a8, a9⟩ := ih h
        dsimp only at a1 a2 a3 a4 a5 a6 a7 a8 a9
        simp only [List.length_cons] at a8 a9
        exact ⟨a1, a2, a3, a4, a5, a6, a7, by omega, by omega⟩

theorem mempool_fill_first {n : Nat} {p p1 : isc_mempool} {m m1 m2 : isc_mem} {item : Nat}
    (hn : 0 < n) (hg : mem_getunlocked m p.size = Except.ok (some item, m2))
    (h : mempool_fill n p m = Except.ok (p1, m1)) : p1.items ≠ [] := by
  cases n with
  | zero => omega
  | succ k =>
    unfold mempool_fill at h
    rw [hg] at h
    dsimp only at h
    obtain ⟨-, -, -, -, -, -, -, -, a9⟩ := mempool_fill_keeps h
    simp only [List.length_cons] at a9
    intro he
    rw [he] at a9
    simp at a9

/-- A pool below its ceiling that has an item at hand, or a context that
supplies one, hands an item out and counts it. -/
theorem pool_get_supplied {p : isc_mempool} {mctx : isc_mem} (hv : VALID_MEMPOOL p)
    (hlt : p.allocated < p.maxalloc) (hs : pool_supplied p mctx) :
    ∃ item p' mctx', isc__mempool_get p mctx = Except.ok (some item, p', mctx') ∧
      VALID_MEMPOOL p' ∧ p'.allocated = p.allocated + 1 ∧ p'.maxalloc = p.maxalloc ∧
      p'.gets = (p.gets + 1) % 2 ^ UINT_BITS := by
  unfold isc__mempool_get
  rw [if_neg (not_not.mpr hv), if_neg (by omega)]
  rcases hs with ⟨hne, hfc⟩ | ⟨he, hfill, ⟨item, m2, hg⟩, ⟨r, hr⟩⟩
  · cases hi : p.items with
    | nil => exact absurd hi hne
    | cons item next =>
      dsimp only
      rw [if_neg (not_not.mpr hfc)]
      exact ⟨item, _, _, rfl, hv, rfl, rfl, rfl⟩
  · rw [he]
    dsimp only
    obtain ⟨p1, m1⟩ := r
    rw [hr]
    dsimp only
    have hne := mempool_fill_first hfill hg hr
    obtain ⟨a1, a2, a3, -, -, -, a7, -, -⟩ := mempool_fill_keeps hr
    cases hi : p1.items with
    | nil => exact absurd hi hne
    | cons it next =>
      dsimp only
      refine ⟨it, _, _, rfl, ?_, ?_, ?_, ?_⟩
      · show p1.magic = MEMPOOL_MAGIC
        rw [a1]; exact hv
      · show p1.allocated + 1 = p.allocated + 1
        rw [a3]
      · show p1.maxalloc = p.maxalloc
        exact a2
      · show (p1.gets + 1) % 2 ^ UINT_BITS = (p.gets + 1) % 2 ^ UINT_BITS
        rw [a7]

theorem pool_put_inv {p p' : isc_mempool} {mctx mctx' : isc_mem} {mem : Nat}
    (h : isc__mempool_put p mem mctx = Except.ok (p', mctx')) :
    VALID_MEMPOOL p ∧ 0 < p.allocated ∧
    ((p.freecount ≥ p.freemax ∧ isc__mem_put mctx mem p.size = Except.ok mctx' ∧
        p' = { p with allocated := p.allocated - 1 }) ∨
      (p.freecount < p.freemax ∧ mctx' = mctx ∧
        p' = { p with
          allocated := p.allocated - 1
          freecount := p.freecount + 1
          items := mem :: p.items })) := by
  unfold isc__mempool_put at h
  by_cases hv : VALID_MEMPOOL p
  · rw [if_neg (not_not.mpr hv)] at h
    by_cases ha : p.allocated > 0
    · rw [if_neg (not_not.mpr ha)] at h
      dsimp only at h
      rw [wdec32_pos ha] at h
      refine ⟨hv, ha, ?_⟩
      by_cases hf : p.freecount ≥ p.freemax
      · rw [if_pos hf] at h
        left
        cases hp : isc__mem_put mctx mem p.size with
        | error e => rw [hp] at h; simp at h
        | ok m1 =>
          rw [hp] at h
          simp only [Except.ok.injEq, Prod.mk.injEq] at h
          obtain ⟨rfl, rfl⟩ := h
          exact ⟨hf, rfl, rfl⟩
      · rw [if_neg hf] at h
        right
        simp only [Except.ok.injEq, Prod.mk.injEq] at h
        obtain ⟨rfl, rfl⟩ := h
        exact ⟨by omega, rfl, rfl⟩
    · rw [if_pos ha] at h; simp at h
  · rw [if_pos hv] at h; simp at h

/-- C12: with `maxalloc` set to `m >= 1`, a get on a pool with at least `m`
items outstanding returns `NULL` and changes neither the pool nor the context.
So with `m = 2`, starting with nothing outstanding and a private list or a
context that supplies items: two gets succeed, the third returns `NULL`, and
after one put the next get succeeds. -/
theorem pool_maxalloc (p : isc_mempool) (m : Nat) (hm : 1 ≤ m) (hv : VALID_MEMPOOL p) :
    ∃ p0, isc_mempool_setmaxalloc p m = Except.ok p0 ∧ p0.maxalloc = m ∧
      (∀ mctx, p0.allocated ≥ m → isc__mempool_get p0 mctx = Except.ok (none, p0, mctx)) ∧
      (m = 2 → p0.allocated = 0 → ∀ mctx0, pool_supplied p0 mctx0 →
        ∃ i1 p1 mctx1, isc__mempool_get p0 mctx0 = Except.ok (some i1, p1, mctx1) ∧
          (pool_supplied p1 mctx1 →
            ∃ i2 p2 mctx2, isc__mempool_get p1 mctx1 = Except.ok (some i2, p2, mctx2) ∧
              isc__mempool_get p2 mctx2 = Except.ok (none, p2, mctx2) ∧
              ∀ mem p3 mctx3, isc__mempool_put p2 mem mctx2 = Except.ok (p3, mctx3) →
                pool_supplied p3 mctx3 →
                ∃ i4 p4 mctx4,
                  isc__mempool_get p3 mctx3 = Except.ok (some i4, p4, mctx4))) := by
  refine ⟨{ p with maxalloc := m }, setmaxalloc_ok hm hv, rfl, ?_, ?_⟩
  · intro mctx h
    exact pool_get_depleted mctx hv h
  · intro h2 h0 mctx0 hs0
    have hv0 : VALID_MEMPOOL ({ p with maxalloc := m } : isc_mempool) := hv
    obtain ⟨i1, p1, mctx1, g1, v1, a1, m1, -⟩ :=
      pool_get_supplied hv0 (by dsimp only at h0 ⊢; omega) hs0
    refine ⟨i1, p1, mctx1, g1, fun hs1 => ?_⟩
    dsimp only at a1 m1 h0
    obtain ⟨i2, p2, mctx2, g2, v2, a2, m2, -⟩ := pool_get_supplied v1 (by omega) hs1
    refine ⟨i2, p2, mctx2, g2, pool_get_depleted mctx2 v2 (by omega), ?_⟩
    intro mem p3 mctx3 hput hs3
    have hp3 : VALID_MEMPOOL p3 ∧ p3.allocated = p2.allocated - 1 ∧ p3.maxalloc = p2.maxalloc := by
      obtain ⟨-, -, hcase⟩ := pool_put_inv hput
      rcases hcase with ⟨-, -, rfl⟩ | ⟨-, -, rfl⟩
      · exact ⟨v2, rfl, rfl⟩
      · exact ⟨v2, rfl, rfl⟩
    obtain ⟨v3, a3, m3⟩ := hp3
    obtain ⟨i4, p4, mctx4, g4, -⟩ := pool_get_supplied v3 (by omega) hs3
    exact ⟨i4, p4, mctx4, g4⟩

theorem example_pool2_supplied : pool_supplied example_pool2 example_pool_mctx :=
  Or.inr ⟨rfl, by decide, ⟨_, _, rfl⟩, ⟨_, rfl⟩⟩

theorem example_pool_after_one_supplied :
    pool_supplied (example_pool_after 1).1 (example_pool_after 1).2 :=
  Or.inr ⟨rfl, by decide, ⟨_, _, rfl⟩, ⟨_, rfl⟩⟩

theorem example_pool_put_supplied : pool_supplied example_pool_put.1 example_pool_put.2 :=
  Or.inl ⟨by decide, by decide⟩

theorem pool_maxalloc_witness :
    1 ≤ 2 ∧ VALID_MEMPOOL example_pool ∧
    pool_supplied example_pool2 example_pool_mctx ∧
    isc__mempool_get example_pool2 example_pool_mctx
      = Except.ok (some 65536, (example_pool_after 1).1, (example_pool_after 1).2) ∧
    pool_supplied (example_pool_after 1).1 (example_pool_after 1).2 ∧
    isc__mempool_get (example_pool_after 1).1 (example_pool_after 1).2
      = Except.ok (some 65552, (example_pool_after 2).1, (example_pool_after 2).2) ∧
    isc__mempool_put (example_pool_after 2).1 65536 (example_pool_after 2).2
      = Except.ok example_pool_put ∧
    pool_supplied example_pool_put.1 example_pool_put.2 ∧
    ∃ p0, isc_mempool_setmaxalloc example_pool 2 = Except.ok p0 ∧ p0.maxalloc = 2 ∧
      (∀ mctx, p0.allocated ≥ 2 → isc__mempool_get p0 mctx = Except.ok (none, p0, mctx)) ∧
      (2 = 2 → p0.allocated = 0 → ∀ mctx0, pool_supplied p0 mctx0 →
        ∃ i1 p1 mctx1, isc__mempool_get p0 mctx0 = Except.ok (some i1, p1, mctx1) ∧
          (pool_supplied p1 mctx1 →
            ∃ i2 p2 mctx2, isc__mempool_get p1 mctx1 = Except.ok (some i2, p2, mctx2) ∧
              isc__mempool_get p2 mctx2 = Except.ok (none, p2, mctx2) ∧
              ∀ mem p3 mctx3, isc__mempool_put p2 mem mctx2 = Except.ok (p3, mctx3) →
                pool_supplied p3 mctx3 →
                ∃ i4 p4 mctx4,
                  isc__mempool_get p3 mctx3 = Except.ok (some i4, p4, mctx4))) :=
  ⟨by decide, rfl, example_pool2_supplied, rfl, example_pool_after_one_supplied, rfl, rfl,
    example_pool_put_supplied, pool_maxalloc example_pool 2 (by decide) rfl⟩

/-! ## Pools: the ceiling on the private free list -/

/-- C14: when the three backing allocations succeed and the sizes of the two
tables fit a `size_t`, `isc_mem_createx` asks the backing allocator for the
structure, for `max_size` list heads and for `max_size + 1` statistics records.
If the initialisation of the lock succeeds it returns `ISC_R_SUCCESS` and a
context with `max_size` the requested one, or 1100 for 0, `mem_target` the
requested one, or 4096 for 0, one reference, no quota, `total` and `inuse` 0,
every free list empty, every statistics record zero, no idle basic block, no
arena chunk and no pool.  If the initialisation of the lock fails it gives the
three blocks back, the last one first, and returns `ISC_R_UNEXPECTED` and no
context. -/
theorem createx_initial (sizeof_ctx init_max_size target_size : Nat) (b : Backing)
    (p1 p2 p3 : Nat) (rest : List (Option Nat))
    (hresp : b.responses = some p1 :: some p2 :: some p3 :: rest)
    (hfit : ((if init_max_size = 0 then 1100 else init_max_size) + 1) * SIZEOF_STATS
      < 2 ^ SIZE_BITS) :
    (∃ ctx b', isc_mem_createx sizeof_ctx init_max_size target_size b true
        = (isc_result.ISC_R_SUCCESS, some ctx, b') ∧
      VALID_CONTEXT ctx ∧
      ctx.max_size = (if init_max_size = 0 then 1100 else init_max_size) ∧
      ctx.mem_target = (if target_size = 0 then 4096 else target_size) ∧
      ctx.references = 1 ∧ ctx.quota = 0 ∧ ctx.total = 0 ∧ ctx.inuse = 0 ∧
      (∀ i, i < ctx.max_size → ctx.freelists i = []) ∧
      (∀ i, i ≤ ctx.max_size →
        ctx.stats i = { gets := 0, totalgets := 0, blocks := 0, freefrags := 0 }) ∧
      ctx.basic_blocks = [] ∧ ctx.basic_table = [] ∧ ctx.basic_table_count = 0 ∧
      ctx.lowest = none ∧ ctx.highest = none ∧ ctx.pools = [] ∧
      ctx.self = p1 ∧ ctx.freelists_ptr = p2 ∧ ctx.stats_ptr = p3 ∧
      ctx.backing = b' ∧ b'.responses = rest ∧
      b'.log = b.log ++
        [BackingCall.alloc sizeof_ctx (some p1),
          BackingCall.alloc (ctx.max_size * SIZEOF_POINTER) (some p2),
          BackingCall.alloc ((ctx.max_size + 1) * SIZEOF_STATS) (some p3)]) ∧
    isc_mem_createx sizeof_ctx init_max_size target_size b false
      = (isc_result.ISC_R_UNEXPECTED, none,
        { responses := rest
          log := b.log ++
            [BackingCall.alloc sizeof_ctx (some p1),
              BackingCall.alloc
                ((if init_max_size = 0 then 1100 else init_max_size) * SIZEOF_POINTER) (some p2),
              BackingCall.alloc
                (((if init_max_size = 0 then 1100 else init_max_size) + 1) * SIZEOF_STATS)
                (some p3),
              BackingCall.free (some p3), BackingCall.free (some p2),
              BackingCall.free (some p1)] }) := by
  have hm : ∀ m : Nat, (m + 1) * SIZEOF_STATS < 2 ^ SIZE_BITS →
      m * SIZEOF_POINTER % 2 ^ SIZE_BITS = m * SIZEOF_POINTER ∧
      (m + 1) % 2 ^ SIZE_BITS * SIZEOF_STATS % 2 ^ SIZE_BITS = (m + 1) * SIZEOF_STATS := by
    intro m h
    simp only [SIZEOF_STATS, SIZEOF_POINTER, SIZE_BITS] at h ⊢
    have h1 : (m + 1) % 2 ^ 64 = m + 1 := Nat.mod_eq_of_lt (by omega)
    rw [h1]
    exact ⟨Nat.mod_eq_of_lt (by omega), Nat.mod_eq_of_lt h⟩
  obtain ⟨e1, e2⟩ := hm _ hfit
  constructor
  · have h : ∃ ctx b', isc_mem_createx sizeof_ctx init_max_size target_size b true
        = (isc_result.ISC_R_SUCCESS, some ctx, b') ∧ ctx.self = p1 ∧ ctx.freelists_ptr = p2 ∧
          ctx.stats_ptr = p3 ∧ ctx.backing = b' ∧ b'.responses = rest ∧
          b'.log = b.log ++
            [BackingCall.alloc sizeof_ctx (some p1),
              BackingCall.alloc
                ((if init_max_size = 0 then 1100 else init_max_size) * SIZEOF_POINTER) (some p2),
              BackingCall.alloc
                (((if init_max_size = 0 then 1100 else init_max_size) + 1) * SIZEOF_STATS)
                (some p3)] := by
      unfold isc_mem_createx memalloc
      simp only [hresp, DEF_MAX_SIZE, e1, e2]
      refine ⟨_, _, rfl, rfl, rfl, rfl, rfl, rfl, ?_⟩
      simp only [List.append_assoc, List.singleton_append, List.cons_append, List.nil_append]
    obtain ⟨ctx, b', hc, s1, s2, s3, s4, s5, s6⟩ := h
    obtain ⟨q1, q2, q3, rfl⟩ := createx_success_inv hc
    exact ⟨_, _, hc, rfl, rfl, rfl, rfl, rfl, rfl, rfl, fun _ _ => rfl, fun _ _ => rfl,
      rfl, rfl, rfl, rfl, rfl, rfl, s1, s2, s3, s4, s5, s6⟩
  · unfold isc_mem_createx memalloc memfree
    simp only [hresp, DEF_MAX_SIZE, e1, e2]
    simp only [List.append_assoc, List.singleton_append, List.cons_append, List.nil_append,
      if_true]

theorem createx_initial_witness :
    example_backing.responses
      = some 4096 :: some 8192 :: some 12288 :: [some 16384, some 65536] ∧
    ((if 0 = 0 then 1100 else 0) + 1) * SIZEOF_STATS < 2 ^ SIZE_BITS ∧
    (∃ ctx b', isc_mem_createx 200 0 0 example_backing true
        = (isc_result.ISC_R_SUCCESS, some ctx, b') ∧
      VALID_CONTEXT ctx ∧
      ctx.max_size = (if 0 = 0 then 1100 else 0) ∧
      ctx.mem_target = (if 0 = 0 then 4096 else 0) ∧
      ctx.references = 1 ∧ ctx.quota = 0 ∧ ctx.total = 0 ∧ ctx.inuse = 0 ∧
      (∀ i, i < ctx.max_size → ctx.freelists i = []) ∧
      (∀ i, i ≤ ctx.max_size →
        ctx.stats i = { gets := 0, totalgets := 0, blocks := 0, freefrags := 0 }) ∧
      ctx.basic_blocks = [] ∧ ctx.basic_table = [] ∧ ctx.basic_table_count = 0 ∧
      ctx.lowest = none ∧ ctx.highest = none ∧ ctx.pools = [] ∧
      ctx.self = 4096 ∧ ctx.freelists_ptr = 8192 ∧ ctx.stats_ptr = 12288 ∧
      ctx.backing = b' ∧ b'.responses = [some 16384, some 65536] ∧
      b'.log = example_backing.log ++
        [BackingCall.alloc 200 (some 4096),
          BackingCall.alloc (ctx.max_size * SIZEOF_POINTER) (some 8192),
          BackingCall.alloc ((ctx.max_size + 1) * SIZEOF_STATS) (some 12288)]) ∧
    isc_mem_createx 200 0 0 example_backing false
      = (isc_result.ISC_R_UNEXPECTED, none,
        { responses := [some 16384, some 65536]
          log := example_backing.log ++
            [BackingCall.alloc 200 (some 4096),
              BackingCall.alloc ((if 0 = 0 then 1100 else 0) * SIZEOF_POINTER) (some 8192),
              BackingCall.alloc (((if 0 = 0 then 1100 else 0) + 1) * SIZEOF_STATS)
                (some 12288),
              BackingCall.free (some 12288), BackingCall.free (some 8192),
              BackingCall.free (some 4096)] }) :=
  ⟨rfl, by decide, createx_initial 200 0 0 example_backing 4096 8192 12288
    [some 16384, some 65536] rfl (by decide)⟩

/-- Where the products overflow, `isc_mem_createx` asks for tables that are
too short: with `init_max_size` `2 ^ 61` the requests are for 0 and for 32
bytes, and the context returned claims `2 ^ 61` size classes. -/
theorem createx_table_wraps :
    (isc_mem_createx 200 (2 ^ 61) 128 example_backing true).1 = isc_result.ISC_R_SUCCESS ∧
    (isc_mem_createx 200 (2 ^ 61) 128 example_backing true).2.2.log
      = [BackingCall.alloc 200 (some 4096), BackingCall.alloc 0 (some 8192),
          BackingCall.alloc 32 (some 12288)] ∧
    (isc_mem_createx 200 (2 ^ 61) 128 example_backing true).2.1.map (fun c => c.max_size)
      = some (2 ^ 61) :=
  ⟨rfl, by decide, rfl⟩

/-- C14 as stated fails when the lock of the context cannot be initialised:
the three backing allocations succeed, yet `isc_mem_createx` returns
`ISC_R_UNEXPECTED`, stores no context and gives the three blocks back. -/
theorem createx_lock_failure :
    example_backing.responses
      = [some 4096, some 8192, some 12288, some 16384, some 65536] ∧
    (isc_mem_createx 200 64 128 example_backing false).1 = isc_result.ISC_R_UNEXPECTED ∧
    (isc_mem_createx 200 64 128 example_backing false).2.1 = none ∧
    (isc_mem_createx 200 64 128 example_backing false).2.2.log
      = [BackingCall.alloc 200 (some 4096), BackingCall.alloc (64 * SIZEOF_POINTER) (some 8192),
          BackingCall.alloc (65 * SIZEOF_STATS) (some 12288), BackingCall.free (some 12288),
          BackingCall.free (some 8192), BackingCall.free (some 4096)] :=
  ⟨rfl, rfl, rfl, rfl⟩

/-! ## What a small get does -/

theorem freefrags_dec_count_get (t : Nat → stats) (s ns : Nat) :
    (modify (modify t s stats.count_get) ns stats.freefrags_dec ns).freefrags
      = wdec (t ns).freefrags := by
  rw [modify_same]
  show wdec (modify t s stats.count_get ns).freefrags = wdec (t ns).freefrags
  rw [modify_freefrags stats.count_get (fun _ => rfl)]

/-- C15: with `inuse + quantize s` in the range of a `size_t`, and
`total + 64 * mem_target` as well where the get has to call
`more_basic_blocks` (the free list of the class and the idle list both empty):
a successful get of a small size `s` returns the head of the free list of
class `quantize s` as it is after any refill (`c1` is the context then),
counts one more in `gets` and in `totalgets` of slot `s`, decrements
`freefrags` of slot `quantize s` from its value after the refill (the `--` of
the unsigned counter: one less whenever that value is positive), adds
`quantize s` to `inuse`, and leaves `total` alone unless the arena grew by one
chunk. -/
theorem small_get_effect (ctx ctx' : isc_mem) (s p : Nat)
    (hs : s < ctx.max_size) (hqs : quantize s < ctx.max_size)
    (hinuse : ctx.inuse + quantize s < 2 ^ SIZE_BITS)
    (htotal : ctx.freelists (quantize s) = [] → ctx.basic_blocks = [] →
      ctx.total + NUM_BASIC_BLOCKS * ctx.mem_target < 2 ^ SIZE_BITS)
    (h : mem_getunlocked ctx s = Except.ok (some p, ctx')) :
    ∃ c1 rest,
      (ctx.freelists (quantize s) ≠ [] → c1 = ctx) ∧
      (ctx.freelists (quantize s) = [] →
        more_frags ctx (quantize s) = Except.ok (true, c1)) ∧
      c1.freelists (quantize s) = p :: rest ∧
      (ctx'.stats s).gets = (ctx.stats s).gets + 1 ∧
      (ctx'.stats s).totalgets = (ctx.stats s).totalgets + 1 ∧
      (ctx'.stats (quantize s)).freefrags = wdec (c1.stats (quantize s)).freefrags ∧
      (0 < (c1.stats (quantize s)).freefrags →
        (ctx'.stats (quantize s)).freefrags + 1 = (c1.stats (quantize s)).freefrags) ∧
      ctx'.inuse = ctx.inuse + quantize s ∧ ctx'.inuse < 2 ^ SIZE_BITS ∧
      ((ctx'.total = ctx.total ∧ ctx'.basic_table_count = ctx.basic_table_count) ∨
        (ctx'.total = ctx.total + NUM_BASIC_BLOCKS * ctx.mem_target ∧
          ctx'.total < 2 ^ SIZE_BITS ∧
          ctx'.basic_table_count = ctx.basic_table_count + 1)) := by
  have hsmall : ¬ get_large ctx.max_size s := by
    unfold get_large; omega
  have hslot : get_slot ctx.max_size s = s := by
    unfold get_slot; rw [if_neg hsmall]
  obtain ⟨-, hcount⟩ := mem_getunlocked_counts h
  have hgets : (ctx'.stats s).gets = (ctx.stats s).gets + 1 ∧
      (ctx'.stats s).totalgets = (ctx.stats s).totalgets + 1 := by
    have := hcount s
    rw [hslot, if_pos ⟨rfl, rfl⟩] at this
    exact this
  have harena : (ctx'.total = ctx.total ∧ ctx'.basic_table_count = ctx.basic_table_count) ∨
      (ctx'.total = ctx.total + NUM_BASIC_BLOCKS * ctx.mem_target ∧
        ctx'.total < 2 ^ SIZE_BITS ∧
        ctx'.basic_table_count = ctx.basic_table_count + 1) := by
    rcases mem_getunlocked_arena hsmall h with h1 | ⟨h1, h2, -⟩
    · exact Or.inl h1
    · obtain ⟨e1, e2⟩ := mem_getunlocked_grew hsmall h (by omega)
      exact Or.inr ⟨h1, by rw [h1]; exact htotal e1 e2, h2⟩
  have hpop : ∀ c1 : isc_mem, c1.inuse = ctx.inuse →
      mem_get_pop c1 s (quantize s) = Except.ok (some p, ctx') →
      ∃ rest, c1.freelists (quantize s) = p :: rest ∧
        (ctx'.stats (quantize s)).freefrags = wdec (c1.stats (quantize s)).freefrags ∧
        (0 < (c1.stats (quantize s)).freefrags →
          (ctx'.stats (quantize s)).freefrags + 1 = (c1.stats (quantize s)).freefrags) ∧
        ctx'.inuse = ctx.inuse + quantize s := by
    intro c1 hin hp
    obtain ⟨p', rest, hfl, hp', rfl⟩ := mem_get_pop_inv hp
    simp only [Option.some.injEq] at hp'
    subst hp'
    have hff := freefrags_dec_count_get c1.stats s (quantize s)
    refine ⟨rest, hfl, hff, ?_, ?_⟩
    · intro hpos
      show (modify (modify c1.stats s stats.count_get) (quantize s) stats.freefrags_dec
        (quantize s)).freefrags + 1 = _
      rw [hff]
      exact wdec_pos (by omega)
    · show c1.inuse + quantize s = ctx.inuse + quantize s
      rw [hin]
  unfold mem_getunlocked at h
  unfold get_large at hsmall
  rw [if_neg hsmall] at h
  by_cases he : ctx.freelists (quantize s) = []
  · rw [if_pos he] at h
    cases hm : more_frags ctx (quantize s) with
    | error e => rw [hm] at h; simp at h
    | ok r =>
      obtain ⟨r1, c1⟩ := r
      rw [hm] at h
      cases r1
      · simp at h
      · obtain ⟨-, -, hin⟩ := more_frags_frame hm
        obtain ⟨rest, a1, a4, a5, a6⟩ := hpop c1 hin h
        exact ⟨c1, rest, fun hne => absurd he hne, fun _ => rfl, a1, hgets.1, hgets.2,
          a4, a5, a6, by rw [a6]; exact hinuse, harena⟩
  · rw [if_neg he] at h
    obtain ⟨rest, a1, a4, a5, a6⟩ := hpop ctx rfl h
    exact ⟨ctx, rest, fun _ => rfl, fun hh => absurd hh he, a1, hgets.1, hgets.2,
      a4, a5, a6, by rw [a6]; exact hinuse, harena⟩

theorem small_get_effect_witness :
    8 < example_ctx.max_size ∧ quantize 8 < example_ctx.max_size ∧
    example_ctx.inuse + quantize 8 < 2 ^ SIZE_BITS ∧
    (example_ctx.freelists (quantize 8) = [] → example_ctx.basic_blocks = [] →
      example_ctx.total + NUM_BASIC_BLOCKS * example_ctx.mem_target < 2 ^ SIZE_BITS) ∧
    mem_getunlocked example_ctx 8 = Except.ok (some 65536, example_grown) ∧
    ∃ c1 rest,
      (example_ctx.freelists (quantize 8) ≠ [] → c1 = example_ctx) ∧
      (example_ctx.freelists (quantize 8) = [] →
        more_frags example_ctx (quantize 8) = Except.ok (true, c1)) ∧
      c1.freelists (quantize 8) = 65536 :: rest ∧
      (example_grown.stats 8).gets = (example_ctx.stats 8).gets + 1 ∧
      (example_grown.stats 8).totalgets = (example_ctx.stats 8).totalgets + 1 ∧
      (example_grown.stats (quantize 8)).freefrags = wdec (c1.stats (quantize 8)).freefrags ∧
      (0 < (c1.stats (quantize 8)).freefrags →
        (example_grown.stats (quantize 8)).freefrags + 1
          = (c1.stats (quantize 8)).freefrags) ∧
      example_grown.inuse = example_ctx.inuse + quantize 8 ∧
      example_grown.inuse < 2 ^ SIZE_BITS ∧
      ((example_grown.total = example_ctx.total ∧
          example_grown.basic_table_count = example_ctx.basic_table_count) ∨
        (example_grown.total = example_ctx.total + NUM_BASIC_BLOCKS * example_ctx.mem_target ∧
          example_grown.total < 2 ^ SIZE_BITS ∧
          example_grown.basic_table_count = example_ctx.basic_table_count + 1)) :=
  ⟨by decide, by decide, by decide, fun _ _ => by decide, rfl,
    small_get_effect example_ctx example_grown 8 65536 (by decide) (by decide) (by decide)
      (fun _ _ => by decide) rfl⟩

/-! ## What a put does -/

/-- What a put of a size below `max_size` whose class is below `max_size`
does: the `INSIST` on `gets` of slot `s` fails exactly when that counter is
zero; otherwise the pointer heads free list `quantize s`. -/
theorem mem_putunlocked_small (ctx : isc_mem) (mem s : Nat)
    (hs : s < ctx.max_size) (hqs : quantize s < ctx.max_size) :
    (mem_putunlocked ctx mem s = Except.error Fault.assertion ↔ (ctx.stats s).gets = 0) ∧
    ((ctx.stats s).gets ≠ 0 →
      mem_putunlocked ctx mem s = Except.ok
        { ctx with
          freelists := modify ctx.freelists (quantize s) (fun l => mem :: l)
          stats := modify (modify ctx.stats s stats.gets_dec) (quantize s)
            (fun t => t.freefrags_add 1)
          inuse := wsub ctx.inuse (quantize s) }) := by
  have hl : ¬ (s = ctx.max_size ∨ quantize s ≥ ctx.max_size) := by omega
  have hn : ¬ ctx.max_size < s := by omega
  unfold mem_putunlocked
  dsimp only
  rw [if_neg hl, if_neg hn]
  by_cases hg : (ctx.stats s).gets = 0
  · rw [if_pos hg]
    exact ⟨⟨fun _ => hg, fun _ => rfl⟩, fun h => absurd hg h⟩
  · rw [if_neg hg]
    refine ⟨⟨fun h => ?_, fun h => absurd h hg⟩, fun _ => rfl⟩
    simp at h

/-- What a put does on the large path, taken when `size` is `max_size` or its
class is not below `max_size`. -/
theorem mem_putunlocked_large (ctx : isc_mem) (mem size : Nat)
    (hl : put_large ctx.max_size size) :
    (mem_putunlocked ctx mem size = Except.error Fault.assertion ↔
      ((ctx.stats ctx.max_size).gets = 0 ∨ ctx.total < size)) ∧
    ((ctx.stats ctx.max_size).gets ≠ 0 → size ≤ ctx.total →
      mem_putunlocked ctx mem size = Except.ok
        { ctx with
          backing := memfree ctx.backing (some mem)
          stats := modify ctx.stats ctx.max_size stats.gets_dec
          inuse := wsub ctx.inuse size
          total := ctx.total - size }) := by
  unfold put_large at hl
  unfold mem_putunlocked
  dsimp only
  rw [if_pos hl]
  by_cases hg : (ctx.stats ctx.max_size).gets = 0
  · rw [if_pos hg]
    exact ⟨⟨fun _ => Or.inl hg, fun _ => rfl⟩, fun h => absurd hg h⟩
  · rw [if_neg hg]
    by_cases ht : size ≤ ctx.total
    · rw [if_neg (not_not.mpr ht), wsub_le ht]
      refine ⟨⟨fun h => ?_, fun h => ?_⟩, fun _ _ => rfl⟩
      · simp at h
      · rcases h with h | h
        · exact absurd h hg
        · omega
    · rw [if_pos ht]
      exact ⟨⟨fun _ => Or.inr (by omega), fun _ => rfl⟩, fun _ h => absurd h ht⟩

/-- C16: a put of 4294967296 bytes on `example_ctx` after the get of that size.
The class `quantize 4294967296` is 0, below `max_size`, and the size is not
`max_size`, so the put is a small one in the terms of the claim; slot
4294967296 of the statistics table, which has `max_size + 1` records, is then
read: neither the assertion failure nor the update the claim describes. -/
theorem put_small_beyond_table :
    mem_getunlocked example_ctx 4294967296 = Except.ok (some 16384, example_huge) ∧
    example_huge.max_size = 64 ∧
    quantize 4294967296 = 0 ∧
    quantize 4294967296 < example_huge.max_size ∧ 4294967296 ≠ example_huge.max_size ∧
    mem_putunlocked example_huge 16384 4294967296 = Except.error Fault.undefined :=
  ⟨rfl, rfl, by decide, by decide, by decide, rfl⟩

/-- C17: the block of 4294967296 bytes that `example_ctx` got from the backing
allocator is large (`size >= max_size`), slot `max_size` counts it and `total`
covers it; yet the put does not take the large path, for its test is
`size == max_size || quantize (size) >= max_size` and `quantize 4294967296` is
0: the block is not handed to the backing free function. -/
theorem put_large_not_released :
    4294967296 ≥ example_huge.max_size ∧
    (example_huge.stats example_huge.max_size).gets = 1 ∧
    example_huge.total = 4294967296 ∧ example_huge.inuse = 4294967296 ∧
    example_huge.backing.log.getLast? = some (BackingCall.alloc 4294967296 (some 16384)) ∧
    ¬ put_large example_huge.max_size 4294967296 ∧
    isc__mem_put example_huge 16384 4294967296 = Except.error Fault.undefined :=
  ⟨by decide, rfl, rfl, rfl, rfl, by decide, rfl⟩

/-! ## Bytes in use and bytes drawn -/

/-- C19: on the context made with `init_max_size` 200 and `target_size` 128,
sixty-three gets of 128 bytes take the first 63 basic blocks of the one arena
chunk of 8192 bytes, and a get of 136 bytes then takes the last basic block of
128 bytes for a fragment of 136 (`frags = 128 / 136 = 0`, yet free list 136
gets one fragment): all succeed and leave `inuse` at 8200, above `total` at
8192. -/
theorem inuse_exceeds_total :
    isc_mem_createx 200 200 128 example_backing true
      = (isc_result.ISC_R_SUCCESS, some example_wide, example_wide.backing) ∧
    example_wide.max_size = 200 ∧ example_wide.mem_target = 128 ∧
    quantize 128 = 128 ∧ quantize 136 = 136 ∧
    example_wide_calls = List.replicate 63 (Call.get 128) ++ [Call.get 136] ∧
    call_run example_wide example_wide_calls = Except.ok example_wide_final ∧
    example_wide_final.total = 8192 ∧ example_wide_final.inuse = 8200 ∧
    example_wide_final.basic_table = [65536] ∧
    (example_wide_final.stats 128).gets = 63 ∧
    (example_wide_final.stats 136).gets = 1 ∧
    ¬ example_wide_final.inuse ≤ example_wide_final.total :=
  ⟨rfl, rfl, rfl, by decide, by decide, rfl, rfl, rfl, rfl, rfl, rfl, rfl, by decide⟩

/-! ## Sequences of calls -/

theorem call_run_cons_inv {ctx cN : isc_mem} {c : Call} {cs : List Call}
    (h : call_run ctx (c :: cs) = Except.ok cN) :
    ∃ c1, call_step ctx c = Except.ok c1 ∧ call_run c1 cs = Except.ok cN := by
  cases hs : call_step ctx c with
  | error e =>
    have : call_run ctx (c :: cs) = Except.error e := by
      show (match call_step ctx c with
        | Except.error e => Except.error e
        | Except.ok c1 => call_run c1 cs) = _
      rw [hs]
    rw [this] at h
    simp at h
  | ok c1 =>
    have : call_run ctx (c :: cs) = call_run c1 cs := by
      show (match call_step ctx c with
        | Except.error e => Except.error e
        | Except.ok c1 => call_run c1 cs) = _
      rw [hs]
    rw [this] at h
    exact ⟨c1, rfl, h⟩

/-- What a call that returns has done. -/
theorem call_step_inv {ctx c1 : isc_mem} {c : Call} (h : call_step ctx c = Except.ok c1) :
    VALID_CONTEXT ctx ∧
    ((∃ size r, c = Call.get size ∧ mem_getunlocked ctx size = Except.ok (r, c1)) ∨
      (∃ mem size, c = Call.put mem size ∧ mem_putunlocked ctx mem size = Except.ok c1) ∨
      (∃ quota, c = Call.setquota quota ∧ c1 = { ctx with quota := quota }) ∨
      (∃ flag, c = Call.setsplit flag ∧ c1 = { ctx with trysplit := flag }) ∨
      (∃ flag, c = Call.setdestroycheck flag ∧ c1 = { ctx with checkfree := flag })) := by
  by_cases hv : VALID_CONTEXT ctx
  · refine ⟨hv, ?_⟩
    cases c with
    | get size =>
      left
      have h1 : (isc__mem_get ctx size).map Prod.snd = Except.ok c1 := h
      unfold isc__mem_get at h1
      rw [if_neg (not_not.mpr hv)] at h1
      cases hg : mem_getunlocked ctx size with
      | error e => rw [hg] at h1; simp [Except.map] at h1
      | ok r =>
        obtain ⟨o, c2⟩ := r
        rw [hg] at h1
        simp only [Except.map, Except.ok.injEq] at h1
        subst h1
        exact ⟨size, o, rfl, hg⟩
    | put mem size =>
      right; left
      have h1 : isc__mem_put ctx mem size = Except.ok c1 := h
      unfold isc__mem_put at h1
      rw [if_neg (not_not.mpr hv)] at h1
      exact ⟨mem, size, rfl, h1⟩
    | setquota quota =>
      right; right; left
      have h1 : isc_mem_setquota ctx quota = Except.ok c1 := h
      unfold isc_mem_setquota at h1
      rw [if_neg (not_not.mpr hv)] at h1
      simp only [Except.ok.injEq] at h1
      exact ⟨quota, rfl, h1.symm⟩
    | setsplit flag =>
      right; right; right; left
      have h1 : isc_mem_setsplit ctx flag = Except.ok c1 := h
      unfold isc_mem_setsplit at h1
      rw [if_neg (not_not.mpr hv)] at h1
      simp only [Except.ok.injEq] at h1
      exact ⟨flag, rfl, h1.symm⟩
    | setdestroycheck flag =>
      right; right; right; right
      have h1 : isc_mem_setdestroycheck ctx flag = Except.ok c1 := h
      unfold isc_mem_setdestroycheck at h1
      rw [if_neg (not_not.mpr hv)] at h1
      simp only [Except.ok.injEq] at h1
      exact ⟨flag, rfl, h1.symm⟩
  · exfalso
    cases c with
    | get size =>
      have h1 : (isc__mem_get ctx size).map Prod.snd = Except.ok c1 := h
      unfold isc__mem_get at h1
      rw [if_pos hv] at h1
      simp [Except.map] at h1
    | put mem size =>
      have h1 : isc__mem_put ctx mem size = Except.ok c1 := h
      unfold isc__mem_put at h1
      rw [if_pos hv] at h1
      simp at h1
    | setquota quota =>
      have h1 : isc_mem_setquota ctx quota = Except.ok c1 := h
      unfold isc_mem_setquota at h1
      rw [if_pos hv] at h1
      simp at h1
    | setsplit flag =>
      have h1 : isc_mem_setsplit ctx flag = Except.ok c1 := h
      unfold isc_mem_setsplit at h1
      rw [if_pos hv] at h1
      simp at h1
    | setdestroycheck flag =>
      have h1 : isc_mem_setdestroycheck ctx flag = Except.ok c1 := h
      unfold isc_mem_setdestroycheck at h1
      rw [if_pos hv] at h1
      simp at h1

/-! ## The quota bounds the bytes drawn -/

theorem mem_getunlocked_quota {ctx c' : isc_mem} {size : Nat} {r : Option Nat}
    (hq : ctx.quota = 0 ∨ ctx.total ≤ ctx.quota)
    (h : mem_getunlocked ctx size = Except.ok (r, c')) :
    c'.quota = 0 ∨ c'.total ≤ c'.quota := by
  obtain ⟨hcfg, -⟩ := mem_getunlocked_counts h
  rw [hcfg.quota]
  by_cases hl : get_large ctx.max_size size
  · unfold mem_getunlocked at h
    unfold get_large at hl
    rw [if_pos hl] at h
    simp only [Except.ok.injEq] at h
    unfold mem_get_large at h
    by_cases hg : ctx.quota ≠ 0 ∧ ctx.total + size > ctx.quota
    · rw [if_pos hg] at h
      simp only [Prod.mk.injEq] at h
      obtain ⟨-, rfl⟩ := h
      exact hq
    · rw [if_neg hg] at h
      generalize memalloc ctx.backing size = m at h
      obtain ⟨o, b⟩ := m
      cases o
      · simp only [Prod.mk.injEq] at h
        obtain ⟨-, rfl⟩ := h
        exact hq
      · simp only [Prod.mk.injEq] at h
        obtain ⟨-, rfl⟩ := h
        show ctx.quota = 0 ∨ ctx.total + size ≤ ctx.quota
        by_cases h0 : ctx.quota = 0
        · exact Or.inl h0
        · right
          by_contra hgt
          exact hg ⟨h0, by omega⟩
  · rcases mem_getunlocked_arena hl h with ⟨h1, -⟩ | ⟨h1, -, h3⟩
    · rw [h1]; exact hq
    · rw [h1]; exact h3

theorem mem_putunlocked_quota {ctx c' : isc_mem} {mem size : Nat}
    (hq : ctx.quota = 0 ∨ ctx.total ≤ ctx.quota)
    (h : mem_putunlocked ctx mem size = Except.ok c') :
    c'.quota = 0 ∨ c'.total ≤ c'.quota := by
  rcases mem_putunlocked_inv h with ⟨-, -, ht, rfl⟩ | ⟨-, -, -, rfl⟩
  · show ctx.quota = 0 ∨ wsub ctx.total size ≤ ctx.quota
    rw [wsub_le ht]
    rcases hq with h0 | h1
    · exact Or.inl h0
    · exact Or.inr (by omega)
  · exact hq

theorem quota_respected_cons {ctx c1 : isc_mem} {c : Call} {cs : List Call}
    (hs : call_step ctx c = Except.ok c1) (hr : quota_respected ctx (c :: cs)) :
    quota_guard ctx c ∧ quota_respected c1 cs := by
  unfold quota_respected at hr
  rw [hs] at hr
  exact hr

theorem call_run_quota : ∀ (calls : List Call) {ctx cN : isc_mem},
    (ctx.quota = 0 ∨ ctx.total ≤ ctx.quota) → quota_respected ctx calls →
    call_run ctx calls = Except.ok cN → cN.quota = 0 ∨ cN.total ≤ cN.quota := by
  intro calls
  induction calls with
  | nil =>
    intro ctx cN hq _ h
    simp only [call_run, Except.ok.injEq] at h
    subst h
    exact hq
  | cons c cs ih =>
    intro ctx cN hq hr h
    obtain ⟨c1, hs, hrest⟩ := call_run_cons_inv h
    obtain ⟨hguard, hr2⟩ := quota_respected_cons hs hr
    refine ih ?_ hr2 hrest
    obtain ⟨-, hcase⟩ := call_step_inv hs
    rcases hcase with ⟨size, r, -, hg⟩ | ⟨mem, size, -, hp⟩ | ⟨q, rfl, rfl⟩ | ⟨f, -, rfl⟩ |
      ⟨f, -, rfl⟩
    · exact mem_getunlocked_quota hq hg
    · exact mem_putunlocked_quota hq hp
    · exact hguard
    · exact hq
    · exact hq

/-- C20: from the context `isc_mem_createx` returns, along any sequence of
gets, puts and setter calls that runs and in which every `isc_mem_setquota`
sets 0 or a value not below `total` at that time, the final context (so every
context on the way) has `total <= quota` whenever its quota is positive. -/
theorem total_within_quota (sizeof_ctx init_max_size target_size : Nat) (b b' : Backing)
    (mutex_ok : Bool) (ctx0 ctx : isc_mem) (calls : List Call)
    (hc : isc_mem_createx sizeof_ctx init_max_size target_size b mutex_ok
      = (isc_result.ISC_R_SUCCESS, some ctx0, b'))
    (hr : quota_respected ctx0 calls)
    (hrun : call_run ctx0 calls = Except.ok ctx) :
    ctx.quota > 0 → ctx.total ≤ ctx.quota := by
  intro hpos
  have h0 : ctx0.quota = 0 ∨ ctx0.total ≤ ctx0.quota := by
    obtain ⟨p1, p2, p3, rfl⟩ := createx_success_inv hc
    exact Or.inl rfl
  rcases call_run_quota calls h0 hr hrun with h | h
  · omega
  · exact h

theorem total_within_quota_witness :
    isc_mem_createx 200 64 128 example_backing true
      = (isc_result.ISC_R_SUCCESS, some example_ctx, example_ctx.backing) ∧
    quota_respected example_ctx example_kept_calls ∧
    ∃ ctx, call_run example_ctx example_kept_calls = Except.ok ctx ∧
      ctx.quota = 9000 ∧ ctx.total = 8192 ∧
      (ctx.quota > 0 → ctx.total ≤ ctx.quota) :=
  ⟨rfl, ⟨trivial, Or.inr (by decide), trivial, trivial, Or.inl rfl, Or.inr (by decide),
      trivial⟩,
    _, rfl, rfl, rfl,
    total_within_quota 200 64 128 example_backing example_ctx.backing true example_ctx _
      example_kept_calls rfl
      ⟨trivial, Or.inr (by decide), trivial, trivial, Or.inl rfl, Or.inr (by decide), trivial⟩
      rfl⟩

/-- C20 as stated fails when the quota is set below the bytes already drawn:
after one small get `total` is 8192, `isc_mem_setquota` with 100 is accepted,
and the context then has a positive quota below `total`. -/
theorem quota_below_total :
    isc_mem_createx 200 64 128 example_backing true
      = (isc_result.ISC_R_SUCCESS, some example_ctx, example_ctx.backing) ∧
    call_run example_ctx example_quota_calls
      = Except.ok { example_grown with quota := 100 } ∧
    { example_grown with quota := 100 }.quota > 0 ∧
    { example_grown with quota := 100 }.total = 8192 ∧
    ¬ { example_grown with quota := 100 }.total ≤ { example_grown with quota := 100 }.quota :=
  ⟨rfl, rfl, by decide, rfl, by decide⟩

/-! ## The address range of the arena -/

theorem arena_bounds_of_same {c c' : isc_mem} (hm : c'.magic = c.magic)
    (ht : c'.mem_target = c.mem_target) (h1 : c'.basic_table = c.basic_table)
    (h2 : c'.basic_table_count = c.basic_table_count) (h3 : c'.lowest = c.lowest)
    (h4 : c'.highest = c.highest) (h : arena_bounds c) : arena_bounds c' := by
  unfold arena_bounds at h ⊢
  rw [hm, ht, h1, h2, h3, h4]
  exact h

theorem arena_bounds_frame {c c' : isc_mem} (h1 : same_config c c') (h2 : same_arena c c')
    (h : arena_bounds c) : arena_bounds c' :=
  arena_bounds_of_same h1.magic h1.mem_target h2.basic_table h2.basic_table_count h2.lowest
    h2.highest h

theorem is_lowest_single (new : Nat) : is_lowest [new] new := by
  refine ⟨List.mem_singleton.mpr rfl, fun c hc => ?_⟩
  rw [List.mem_singleton.mp hc]

theorem is_highest_single (mt new : Nat) :
    is_highest mt [new] (new + NUM_BASIC_BLOCKS * mt - 1) := by
  refine ⟨⟨new, List.mem_singleton.mpr rfl, rfl⟩, fun c hc => ?_⟩
  rw [List.mem_singleton.mp hc]

theorem is_lowest_append {chunks : List Nat} {lo : Nat} (new : Nat)
    (h : is_lowest chunks lo) :
    is_lowest (chunks ++ [new]) (if new < lo then new else lo) := by
  obtain ⟨hm, hle⟩ := h
  by_cases hn : new < lo
  · rw [if_pos hn]
    refine ⟨List.mem_append.mpr (Or.inr (List.mem_singleton.mpr rfl)), fun c hc => ?_⟩
    rcases List.mem_append.mp hc with h1 | h1
    · have := hle c h1
      omega
    · rw [List.mem_singleton.mp h1]
  · rw [if_neg hn]
    refine ⟨List.mem_append.mpr (Or.inl hm), fun c hc => ?_⟩
    rcases List.mem_append.mp hc with h1 | h1
    · exact hle c h1
    · rw [List.mem_singleton.mp h1]
      omega

theorem is_highest_append {mt : Nat} {chunks : List Nat} {hi : Nat} (new : Nat)
    (h : is_highest mt chunks hi) :
    is_highest mt (chunks ++ [new])
      (if new + NUM_BASIC_BLOCKS * mt - 1 > hi then new + NUM_BASIC_BLOCKS * mt - 1 else hi) := by
  obtain ⟨⟨c0, hm, he⟩, hle⟩ := h
  by_cases hn : new + NUM_BASIC_BLOCKS * mt - 1 > hi
  · rw [if_pos hn]
    refine ⟨⟨new, List.mem_append.mpr (Or.inr (List.mem_singleton.mpr rfl)), rfl⟩,
      fun c hc => ?_⟩
    rcases List.mem_append.mp hc with h1 | h1
    · have := hle c h1
      omega
    · rw [List.mem_singleton.mp h1]
  · rw [if_neg hn]
    refine ⟨⟨c0, List.mem_append.mpr (Or.inl hm), he⟩, fun c hc => ?_⟩
    rcases List.mem_append.mp hc with h1 | h1
    · exact hle c h1
    · rw [List.mem_singleton.mp h1]
      omega

theorem more_basic_blocks_chunk_bounds {ctx c' : isc_mem} {r : Bool}
    (hb : arena_bounds ctx) (h : more_basic_blocks_chunk ctx = (r, c')) :
    arena_bounds c' := by
  obtain ⟨hm, ht, hc, hcase⟩ := hb
  unfold more_basic_blocks_chunk at h
  dsimp only at h
  generalize memalloc ctx.backing (NUM_BASIC_BLOCKS * ctx.mem_target) = m at h
  obtain ⟨o, b⟩ := m
  cases o with
  | none =>
    simp only [Prod.mk.injEq] at h
    obtain ⟨-, rfl⟩ := h
    exact ⟨hm, ht, hc, hcase⟩
  | some new =>
    simp only [Prod.mk.injEq] at h
    obtain ⟨-, rfl⟩ := h
    have htake : ctx.basic_table.take ctx.basic_table_count = ctx.basic_table := by
      rw [hc]
      exact List.take_length ctx.basic_table
    refine ⟨hm, ht, ?_, Or.inr ?_⟩
    · dsimp only
      rw [htake, List.length_append, hc]
      rfl
    · dsimp only
      rw [htake]
      rcases hcase with ⟨he, hl, hh⟩ | ⟨lo, hi, hl, hh, hlo, hhi⟩
      · rw [hl, hh, he]
        have hpos : new + NUM_BASIC_BLOCKS * ctx.mem_target - 1 > (none : Option Nat).getD 0 := by
          show new + NUM_BASIC_BLOCKS * ctx.mem_target - 1 > 0
          simp only [NUM_BASIC_BLOCKS]
          omega
        rw [if_pos hpos]
        exact ⟨new, _, rfl, rfl, is_lowest_single new, is_highest_single _ new⟩
      · rw [hl, hh]
        refine ⟨if new < lo then new else lo,
          if new + NUM_BASIC_BLOCKS * ctx.mem_target - 1 > hi
            then new + NUM_BASIC_BLOCKS * ctx.mem_target - 1 else hi, ?_, ?_,
          is_lowest_append new hlo, is_highest_append new hhi⟩
        · dsimp only
          split <;> rfl
        · show (if new + NUM_BASIC_BLOCKS * ctx.mem_target - 1 > hi
            then some (new + NUM_BASIC_BLOCKS * ctx.mem_target - 1) else some hi) = _
          split <;> rfl

theorem more_basic_blocks_bounds {ctx c' : isc_mem} {r : Bool}
    (hb : arena_bounds ctx) (h : more_basic_blocks ctx = Except.ok (r, c')) :
    arena_bounds c' := by
  unfold more_basic_blocks at h
  by_cases hq : ctx.quota ≠ 0 ∧ ctx.total + NUM_BASIC_BLOCKS * ctx.mem_target > ctx.quota
  · rw [if_pos hq] at h
    simp only [Except.ok.injEq, Prod.mk.injEq] at h
    obtain ⟨-, rfl⟩ := h
    exact hb
  · rw [if_neg hq] at h
    by_cases hi : ctx.basic_table_size < ctx.basic_table_count
    · rw [if_pos hi] at h
      simp at h
    · rw [if_neg hi] at h
      cases ht : more_basic_blocks_table ctx with
      | mk r1 ctx1 =>
        rw [ht] at h
        obtain ⟨k1, -, k3⟩ := more_basic_blocks_table_frame ht
        have hb1 := arena_bounds_frame k1 k3 hb
        cases r1
        · simp only [Except.ok.injEq, Prod.mk.injEq] at h
          obtain ⟨-, rfl⟩ := h
          exact hb1
        · simp only [Except.ok.injEq] at h
          exact more_basic_blocks_chunk_bounds hb1 h

theorem more_frags_chop_bounds {ctx c' : isc_mem} {new_size : Nat} {r : Bool}
    (hb : arena_bounds ctx) (h : more_frags_chop ctx new_size = Except.ok (r, c')) :
    arena_bounds c' := by
  obtain ⟨new, rest, -, -, -, rfl⟩ := more_frags_chop_inv h
  exact hb

theorem more_frags_bounds {ctx c' : isc_mem} {new_size : Nat} {r : Bool}
    (hb : arena_bounds ctx) (h : more_frags ctx new_size = Except.ok (r, c')) :
    arena_bounds c' := by
  unfold more_frags at h
  by_cases he : ctx.basic_blocks = []
  · rw [if_pos he] at h
    cases hm : more_basic_blocks ctx with
    | error e => rw [hm] at h; simp at h
    | ok p =>
      obtain ⟨r1, ctx1⟩ := p
      rw [hm] at h
      have hb1 := more_basic_blocks_bounds hb hm
      cases r1
      · obtain ⟨k1, -, k3, -, -⟩ := try_split_frame h
        exact arena_bounds_frame k1 k3 hb1
      · exact more_frags_chop_bounds hb1 h
  · rw [if_neg he] at h
    exact more_frags_chop_bounds hb h

theorem mem_getunlocked_bounds {ctx c' : isc_mem} {size : Nat} {r : Option Nat}
    (hb : arena_bounds ctx) (h : mem_getunlocked ctx size = Except.ok (r, c')) :
    arena_bounds c' := by
  have hpop : ∀ c1 : isc_mem, arena_bounds c1 →
      mem_get_pop c1 size (quantize size) = Except.ok (r, c') → arena_bounds c' := by
    intro c1 hb1 hp
    obtain ⟨p, rest, -, -, rfl⟩ := mem_get_pop_inv hp
    exact hb1
  unfold mem_getunlocked at h
  dsimp only at h
  by_cases hl : size ≥ ctx.max_size ∨ quantize size ≥ ctx.max_size
  · rw [if_pos hl] at h
    simp only [Except.ok.injEq] at h
    unfold mem_get_large at h
    by_cases hg : ctx.quota ≠ 0 ∧ ctx.total + size > ctx.quota
    · rw [if_pos hg] at h
      simp only [Prod.mk.injEq] at h
      obtain ⟨-, rfl⟩ := h
      exact hb
    · rw [if_neg hg] at h
      generalize memalloc ctx.backing size = m at h
      obtain ⟨o, b⟩ := m
      cases o <;>
      · simp only [Prod.mk.injEq] at h
        obtain ⟨-, rfl⟩ := h
        exact hb
  · rw [if_neg hl] at h
    by_cases he : ctx.freelists (quantize size) = []
    · rw [if_pos he] at h
      cases hm : more_frags ctx (quantize size) with
      | error e => rw [hm] at h; simp at h
      | ok p =>
        obtain ⟨r1, c1⟩ := p
        rw [hm] at h
        have hb1 := more_frags_bounds hb hm
        cases r1
        · simp only [Except.ok.injEq, Prod.mk.injEq] at h
          obtain ⟨-, rfl⟩ := h
          exact hb1
        · exact hpop c1 hb1 h
    · rw [if_neg he] at h
      exact hpop ctx hb h

theorem mem_putunlocked_bounds {ctx c' : isc_mem} {mem size : Nat}
    (hb : arena_bounds ctx) (h : mem_putunlocked ctx mem size = Except.ok c') :
    arena_bounds c' := by
  rcases mem_putunlocked_inv h with ⟨-, -, -, rfl⟩ | ⟨-, -, -, rfl⟩
  · exact hb
  · exact hb

theorem call_run_bounds : ∀ (calls : List Call) {ctx cN : isc_mem},
    arena_bounds ctx → call_run ctx calls = Except.ok cN → arena_bounds cN := by
  intro calls
  induction calls with
  | nil =>
    intro ctx cN hb h
    simp only [call_run, Except.ok.injEq] at h
    subst h
    exact hb
  | cons c cs ih =>
    intro ctx cN hb h
    obtain ⟨c1, hs, hrest⟩ := call_run_cons_inv h
    refine ih ?_ hrest
    obtain ⟨-, hcase⟩ := call_step_inv hs
    rcases hcase with ⟨size, r, -, hg⟩ | ⟨mem, size, -, hp⟩ | ⟨q, -, rfl⟩ | ⟨f, -, rfl⟩ |
      ⟨f, -, rfl⟩
    · exact mem_getunlocked_bounds hb hg
    · exact mem_putunlocked_bounds hb hp
    · exact hb
    · exact hb
    · exact hb

theorem createx_bounds {sizeof_ctx init_max_size target_size : Nat} {b b' : Backing}
    {mutex_ok : Bool} {ctx0 : isc_mem}
    (h : isc_mem_createx sizeof_ctx init_max_size target_size b mutex_ok
      = (isc_result.ISC_R_SUCCESS, some ctx0, b')) :
    arena_bounds ctx0 ∧ ctx0.basic_table = [] := by
  have hf := createx_fresh h
  exact ⟨⟨hf.magic, hf.mem_target_pos, by rw [hf.basic_table_count, hf.basic_table]; rfl,
    Or.inl ⟨hf.basic_table, hf.lowest, hf.highest⟩⟩, hf.basic_table⟩

theorem isc_mem_valid_of_bounds {ctx : isc_mem} (hb : arena_bounds ctx) (p : Nat) :
    (isc_mem_valid ctx p = Except.ok true ∨ isc_mem_valid ctx p = Except.ok false) ∧
    (isc_mem_valid ctx p = Except.ok true ↔
      ctx.basic_table ≠ [] ∧
      ∃ lo hi, is_lowest ctx.basic_table lo ∧ is_highest ctx.mem_target ctx.basic_table hi ∧
        lo ≤ p ∧ p ≤ hi) ∧
    (ctx.basic_table = [] → isc_mem_valid ctx p = Except.ok false) := by
  obtain ⟨hm, ht, hc, hcase⟩ := hb
  have hv : VALID_CONTEXT ctx := hm
  unfold isc_mem_valid
  rw [if_neg (not_not.mpr hv)]
  rcases hcase with ⟨he, hl, hh⟩ | ⟨lo, hi, hl, hh, hlo, hhi⟩
  · rw [hl, hh]
    dsimp only
    refine ⟨Or.inr rfl, ⟨fun h => ?_, fun h => absurd he h.1⟩, fun _ => rfl⟩
    simp at h
  · rw [hl, hh]
    dsimp only
    have hne : ctx.basic_table ≠ [] := by
      intro he
      have := hlo.1
      rw [he] at this
      simp at this
    by_cases hin : p ≥ lo ∧ p ≤ hi
    · rw [decide_eq_true hin]
      refine ⟨Or.inl rfl, ⟨fun _ => ⟨hne, lo, hi, hlo, hhi, hin.1, hin.2⟩, fun _ => rfl⟩,
        fun he => absurd he hne⟩
    · rw [decide_eq_false hin]
      refine ⟨Or.inr rfl, ⟨fun h => ?_, fun h => ?_⟩, fun he => absurd he hne⟩
      · simp at h
      · exfalso
        obtain ⟨-, lo1, hi1, hlo1, hhi1, h1, h2⟩ := h
        have e1 : lo ≤ lo1 := hlo.2 lo1 hlo1.1
        obtain ⟨⟨c1, hc1, hce⟩, -⟩ := hhi1
        have e2 := hhi.2 c1 hc1
        exact hin ⟨by omega, by omega⟩

/-- C18: on every context reached from `isc_mem_createx` by gets, puts and
setter calls, `isc_mem_valid` answers, and it answers true for `p` exactly when
the chunk table is not empty and `lo <= p <= hi`, where `lo` is the minimum
first-byte address and `hi` the maximum last-byte address
(`start + 64 * mem_target - 1`) over the chunks in the table; the fields
`lowest` and `highest` hold these two addresses.  On a context whose arena
never grew, the answer is false for every `p`. -/
theorem valid_iff_in_arena (sizeof_ctx init_max_size target_size : Nat) (b b' : Backing)
    (mutex_ok : Bool) (ctx0 ctx : isc_mem) (calls : List Call) (p : Nat)
    (hc : isc_mem_createx sizeof_ctx init_max_size target_size b mutex_ok
      = (isc_result.ISC_R_SUCCESS, some ctx0, b'))
    (hrun : call_run ctx0 calls = Except.ok ctx) :
    (isc_mem_valid ctx p = Except.ok true ∨ isc_mem_valid ctx p = Except.ok false) ∧
    (isc_mem_valid ctx p = Except.ok true ↔
      ctx.basic_table ≠ [] ∧
      ∃ lo hi, is_lowest ctx.basic_table lo ∧ is_highest ctx.mem_target ctx.basic_table hi ∧
        lo ≤ p ∧ p ≤ hi) ∧
    (ctx.basic_table = [] → isc_mem_valid ctx p = Except.ok false) ∧
    isc_mem_valid ctx0 p = Except.ok false ∧
    ctx.basic_table_count = ctx.basic_table.length ∧
    (ctx.basic_table ≠ [] →
      ∃ lo hi, ctx.lowest = some lo ∧ ctx.highest = some hi ∧
        is_lowest ctx.basic_table lo ∧ is_highest ctx.mem_target ctx.basic_table hi) := by
  obtain ⟨hb0, he0⟩ := createx_bounds hc
  have hb := call_run_bounds calls hb0 hrun
  obtain ⟨h1, h2, h3⟩ := isc_mem_valid_of_bounds hb p
  refine ⟨h1, h2, h3, (isc_mem_valid_of_bounds hb0 p).2.2 he0, hb.2.2.1, fun hne => ?_⟩
  rcases hb.2.2.2 with ⟨he, -, -⟩ | h
  · exact absurd he hne
  · exact h

theorem valid_iff_in_arena_witness :
    isc_mem_createx 200 64 128 example_backing_long true
      = (isc_result.ISC_R_SUCCESS, some example_pool_ctx, example_pool_ctx.backing) ∧
    call_run example_pool_ctx example_two_chunks_calls = Except.ok example_two_chunks ∧
    example_two_chunks.basic_table = [20480, 65536] ∧
    example_two_chunks.mem_target = 128 ∧
    example_two_chunks.lowest = some 20480 ∧ example_two_chunks.highest = some 73727 ∧
    isc_mem_valid example_two_chunks 20479 = Except.ok false ∧
    isc_mem_valid example_two_chunks 73728 = Except.ok false ∧
    ((isc_mem_valid example_two_chunks 40000 = Except.ok true ∨
        isc_mem_valid example_two_chunks 40000 = Except.ok false) ∧
    (isc_mem_valid example_two_chunks 40000 = Except.ok true ↔
      example_two_chunks.basic_table ≠ [] ∧
      ∃ lo hi, is_lowest example_two_chunks.basic_table lo ∧
        is_highest example_two_chunks.mem_target example_two_chunks.basic_table hi ∧
        lo ≤ 40000 ∧ 40000 ≤ hi) ∧
    (example_two_chunks.basic_table = [] →
      isc_mem_valid example_two_chunks 40000 = Except.ok false) ∧
    isc_mem_valid example_pool_ctx 40000 = Except.ok false ∧
    example_two_chunks.basic_table_count = example_two_chunks.basic_table.length ∧
    (example_two_chunks.basic_table ≠ [] →
      ∃ lo hi, example_two_chunks.lowest = some lo ∧ example_two_chunks.highest = some hi ∧
        is_lowest example_two_chunks.basic_table lo ∧
        is_highest example_two_chunks.mem_target example_two_chunks.basic_table hi)) :=
  ⟨rfl, rfl, rfl, rfl, rfl, rfl, rfl, rfl,
    valid_iff_in_arena 200 64 128 example_backing_long example_pool_ctx.backing true
      example_pool_ctx example_two_chunks example_two_chunks_calls 40000 rfl rfl⟩

/-! ## The resolver error strings -/

/-- C27: for every `err`, `lwres_hstrerror` returns, without reading outside
`h_errlist`, "Resolver internal error" for a negative `err`, the message of
the table for `err` from 0 to 4, and "Unknown resolver error" from 5 on. -/
theorem hstrerror_table (err : Int) :
    lwres_hstrerror err = Except.ok
      (if err < 0 then "Resolver internal error"
        else if err = 0 then "Resolver Error 0 (no error)"
        else if err = 1 then "Unknown host"
        else if err = 2 then "Host name lookup failure"
        else if err = 3 then "Unknown server error"
        else if err = 4 then "No address associated with name"
        else "Unknown resolver error") := by
  unfold lwres_hstrerror
  by_cases hneg : err < 0
  · rw [if_pos hneg, if_pos hneg]
  · rw [if_neg hneg, if_neg hneg]
    have hn : h_nerr = 5 := rfl
    rw [hn]
    by_cases h5 : err < 5
    · rw [if_pos h5]
      have hcases : err = 0 ∨ err = 1 ∨ err = 2 ∨ err = 3 ∨ err = 4 := by omega
      rcases hcases with h | h | h | h | h <;> subst h <;> rfl
    · rw [if_neg h5]
      rw [if_neg (by omega), if_neg (by omega), if_neg (by omega), if_neg (by omega),
        if_neg (by omega)]

/-! ## The tunables of a pool -/

/-- C26: on a valid pool, `isc_mempool_setmaxalloc` and
`isc_mempool_setfillcount` fail their `REQUIRE` exactly for 0 and
`isc_mempool_setfreemax` accepts every value; an accepted value is stored in
its field, the other fields staying as they were, and the getter then returns
it; `isc_mempool_associatelock` with a lock fails its `REQUIRE` exactly when the
pool has a lock already, and otherwise stores the lock. -/
theorem pool_tunables (p : isc_mempool) (v lock : Nat) (hv : VALID_MEMPOOL p) :
    (isc_mempool_setmaxalloc p v = Except.error Fault.assertion ↔ v = 0) ∧
    (v ≠ 0 → isc_mempool_setmaxalloc p v = Except.ok { p with maxalloc := v } ∧
      isc_mempool_getmaxalloc { p with maxalloc := v } = Except.ok v) ∧
    (isc_mempool_setfillcount p v = Except.error Fault.assertion ↔ v = 0) ∧
    (v ≠ 0 → isc_mempool_setfillcount p v = Except.ok { p with fillcount := v } ∧
      isc_mempool_getfillcount { p with fillcount := v } = Except.ok v) ∧
    isc_mempool_setfreemax p v = Except.ok { p with freemax := v } ∧
    isc_mempool_getfreemax { p with freemax := v } = Except.ok v ∧
    (isc_mempool_associatelock p (some lock) = Except.error Fault.assertion ↔
      p.lock ≠ none) ∧
    (p.lock = none →
      isc_mempool_associatelock p (some lock) = Except.ok { p with lock := some lock }) := by
  have hnv : ¬ ¬ VALID_MEMPOOL p := not_not.mpr hv
  refine ⟨?_, ?_, ?_, ?_, ?_, ?_, ?_, ?_⟩
  · unfold isc_mempool_setmaxalloc
    by_cases h0 : v = 0
    · rw [if_pos (by omega)]
      exact ⟨fun _ => h0, fun _ => rfl⟩
    · rw [if_neg (by omega), if_neg hnv]
      exact ⟨fun h => by simp at h, fun h => absurd h h0⟩
  · intro h0
    constructor
    · unfold isc_mempool_setmaxalloc
      rw [if_neg (by omega), if_neg hnv]
    · unfold isc_mempool_getmaxalloc
      rw [if_neg (by exact hnv)]
  · unfold isc_mempool_setfillcount
    by_cases h0 : v = 0
    · rw [if_pos (by omega)]
      exact ⟨fun _ => h0, fun _ => rfl⟩
    · rw [if_neg (by omega), if_neg hnv]
      exact ⟨fun h => by simp at h, fun h => absurd h h0⟩
  · intro h0
    constructor
    · unfold isc_mempool_setfillcount
      rw [if_neg (by omega), if_neg hnv]
    · unfold isc_mempool_getfillcount
      rw [if_neg (by exact hnv)]
  · unfold isc_mempool_setfreemax
    rw [if_neg hnv]
  · unfold isc_mempool_getfreemax
    rw [if_neg (by exact hnv)]
  · unfold isc_mempool_associatelock
    rw [if_neg hnv]
    by_cases hl : p.lock ≠ none
    · rw [if_pos hl]
      exact ⟨fun _ => hl, fun _ => rfl⟩
    · rw [if_neg hl, if_neg (by simp)]
      exact ⟨fun h => by simp at h, fun h => absurd h hl⟩
  · intro hl
    unfold isc_mempool_associatelock
    rw [if_neg hnv, if_neg (not_not.mpr hl), if_neg (by simp)]

theorem pool_tunables_witness :
    VALID_MEMPOOL example_pool ∧
    ((isc_mempool_setmaxalloc example_pool 2 = Except.error Fault.assertion ↔ 2 = 0) ∧
    (2 ≠ 0 →
      isc_mempool_setmaxalloc example_pool 2 = Except.ok { example_pool with maxalloc := 2 } ∧
      isc_mempool_getmaxalloc { example_pool with maxalloc := 2 } = Except.ok 2) ∧
    (isc_mempool_setfillcount example_pool 2 = Except.error Fault.assertion ↔ 2 = 0) ∧
    (2 ≠ 0 →
      isc_mempool_setfillcount example_pool 2
        = Except.ok { example_pool with fillcount := 2 } ∧
      isc_mempool_getfillcount { example_pool with fillcount := 2 } = Except.ok 2) ∧
    isc_mempool_setfreemax example_pool 2 = Except.ok { example_pool with freemax := 2 } ∧
    isc_mempool_getfreemax { example_pool with freemax := 2 } = Except.ok 2 ∧
    (isc_mempool_associatelock example_pool (some 24576) = Except.error Fault.assertion ↔
      example_pool.lock ≠ none) ∧
    (example_pool.lock = none →
      isc_mempool_associatelock example_pool (some 24576)
        = Except.ok { example_pool with lock := some 24576 })) :=
  ⟨rfl, pool_tunables example_pool 2 24576 rfl⟩

/-! ## The creation of a pool -/

/-- C22: on a valid context and for an item size above 0: when the context
serves the get for the control structure, at `a`, `isc_mempool_create` returns
`ISC_R_SUCCESS` and the pool at `a` with `maxalloc` at `UINT_MAX`, `freemax` 1,
`fillcount` 1, nothing allocated, nothing on the private list, no gets, no
lock and the item size given, and `a` is the last entry of the pool list of
the context, behind the entries it had; when the get returns `NULL`,
`isc_mempool_create` returns `ISC_R_NOMEMORY`, no pool, and the pool list is as
it was. -/
theorem pool_create_defaults (sizeof_pool : Nat) (mctx : isc_mem) (size : Nat)
    (hv : VALID_CONTEXT mctx) (hs : 0 < size) :
    (∀ a m1, mem_getunlocked mctx sizeof_pool = Except.ok (some a, m1) →
      isc_mempool_create sizeof_pool mctx size
        = Except.ok (isc_result.ISC_R_SUCCESS,
            some
              { magic := MEMPOOL_MAGIC
                lock := none
                size := size
                maxalloc := UINT_MAX
                allocated := 0
                freecount := 0
                freemax := 1
                fillcount := 1
                gets := 0
                name := []
                items := []
                self := a },
            { m1 with pools := mctx.pools ++ [a] })) ∧
    (∀ m1, mem_getunlocked mctx sizeof_pool = Except.ok (none, m1) →
      isc_mempool_create sizeof_pool mctx size
        = Except.ok (isc_result.ISC_R_NOMEMORY, none, m1) ∧
      m1.pools = mctx.pools) := by
  constructor
  · intro a m1 hg
    obtain ⟨hcfg, -⟩ := mem_getunlocked_counts hg
    unfold isc_mempool_create
    rw [if_neg (not_not.mpr hv), if_neg (by omega), hg]
    dsimp only
    rw [hcfg.pools]
  · intro m1 hg
    obtain ⟨hcfg, -⟩ := mem_getunlocked_counts hg
    refine ⟨?_, hcfg.pools⟩
    unfold isc_mempool_create
    rw [if_neg (not_not.mpr hv), if_neg (by omega), hg]

theorem pool_create_defaults_witness :
    VALID_CONTEXT example_pool_ctx ∧ 0 < 16 ∧
    mem_getunlocked example_pool_ctx 96
      = Except.ok (some 16384, { example_pool_mctx with pools := [] }) ∧
    isc_mempool_create 96 example_pool_ctx 16
      = Except.ok (isc_result.ISC_R_SUCCESS, some example_pool, example_pool_mctx) ∧
    example_pool_mctx.pools = [16384] ∧
    ((∀ a m1, mem_getunlocked example_pool_ctx 96 = Except.ok (some a, m1) →
      isc_mempool_create 96 example_pool_ctx 16
        = Except.ok (isc_result.ISC_R_SUCCESS,
            some
              { magic := MEMPOOL_MAGIC
                lock := none
                size := 16
                maxalloc := UINT_MAX
                allocated := 0
                freecount := 0
                freemax := 1
                fillcount := 1
                gets := 0
                name := []
                items := []
                self := a },
            { m1 with pools := example_pool_ctx.pools ++ [a] })) ∧
    (∀ m1, mem_getunlocked example_pool_ctx 96 = Except.ok (none, m1) →
      isc_mempool_create 96 example_pool_ctx 16
        = Except.ok (isc_result.ISC_R_NOMEMORY, none, m1) ∧
      m1.pools = example_pool_ctx.pools)) :=
  ⟨rfl, by decide, rfl, rfl, rfl, pool_create_defaults 96 example_pool_ctx 16 rfl (by decide)⟩

/-! ## Allocation with a hidden size header -/

/-- What a get that returns a block adds to `inuse` and, on the large path, to
`total`. -/
theorem mem_getunlocked_inuse {ctx c' : isc_mem} {size p : Nat}
    (h : mem_getunlocked ctx size = Except.ok (some p, c')) :
    (get_large ctx.max_size size → c'.inuse = ctx.inuse + size ∧ c'.total = ctx.total + size) ∧
    (¬ get_large ctx.max_size size → c'.inuse = ctx.inuse + quantize size) := by
  have hpop : ∀ c1 : isc_mem, c1.inuse = ctx.inuse →
      mem_get_pop c1 size (quantize size) = Except.ok (some p, c') →
      c'.inuse = ctx.inuse + quantize size := by
    intro c1 hin hp
    obtain ⟨p', rest, -, -, rfl⟩ := mem_get_pop_inv hp
    show c1.inuse + quantize size = _
    rw [hin]
  unfold mem_getunlocked at h
  dsimp only at h
  by_cases hl : size ≥ ctx.max_size ∨ quantize size ≥ ctx.max_size
  · refine ⟨fun _ => ?_, fun hn => absurd hl hn⟩
    rw [if_pos hl] at h
    simp only [Except.ok.injEq] at h
    unfold mem_get_large at h
    by_cases hg : ctx.quota ≠ 0 ∧ ctx.total + size > ctx.quota
    · rw [if_pos hg] at h
      simp at h
    · rw [if_neg hg] at h
      generalize memalloc ctx.backing size = m at h
      obtain ⟨o, b⟩ := m
      cases o
      · simp at h
      · simp only [Prod.mk.injEq] at h
        obtain ⟨-, rfl⟩ := h
        exact ⟨rfl, rfl⟩
  · refine ⟨fun hn => absurd hn hl, fun _ => ?_⟩
    rw [if_neg hl] at h
    by_cases he : ctx.freelists (quantize size) = []
    · rw [if_pos he] at h
      cases hm : more_frags ctx (quantize size) with
      | error e => rw [hm] at h; simp at h
      | ok r =>
        obtain ⟨r1, c1⟩ := r
        rw [hm] at h
        cases r1
        · simp at h
        · obtain ⟨-, -, hin⟩ := more_frags_frame hm
          exact hpop c1 hin h
    · rw [if_neg he] at h
      exact hpop ctx rfl h

theorem isc__mem_get_inv {ctx c' : isc_mem} {size : Nat} {r : Option Nat}
    (h : isc__mem_get ctx size = Except.ok (r, c')) :
    VALID_CONTEXT ctx ∧ mem_getunlocked ctx size = Except.ok (r, c') := by
  unfold isc__mem_get at h
  by_cases hv : VALID_CONTEXT ctx
  · rw [if_neg (not_not.mpr hv)] at h
    exact ⟨hv, h⟩
  · rw [if_pos hv] at h
    simp at h

theorem isc__mem_put_valid {ctx : isc_mem} (mem size : Nat) (hv : VALID_CONTEXT ctx) :
    isc__mem_put ctx mem size = mem_putunlocked ctx mem size := by
  unfold isc__mem_put
  rw [if_neg (not_not.mpr hv)]

theorem allocate_eq (ctx : isc_mem) (info : Nat → Nat) (n : Nat) (hn : n + 8 < 2 ^ 64) :
    isc__mem_allocate ctx info n
      = (match isc__mem_get ctx (n + 8) with
        | Except.error e => Except.error e
        | Except.ok (none, c) => Except.ok (none, c, info)
        | Except.ok (some si, c) =>
          Except.ok (some (si + 8), c, modify info si (fun _ => n + 8))) := by
  have hw : wadd n ALIGNMENT_SIZE = n + 8 := wadd_small hn
  unfold isc__mem_allocate
  dsimp only
  rw [hw]
  rfl

theorem allocate_unfold (ctx : isc_mem) (info : Nat → Nat) (n : Nat) :
    isc__mem_allocate ctx info n
      = (match isc__mem_get ctx (wadd n ALIGNMENT_SIZE) with
        | Except.error e => Except.error e
        | Except.ok (none, c) => Except.ok (none, c, info)
        | Except.ok (some si, c) =>
          Except.ok (some (si + 8), c, modify info si (fun _ => wadd n ALIGNMENT_SIZE))) := by
  unfold isc__mem_allocate
  rfl

/-- In the range where `quantize` rounds up, a size that is large for a get
is large for a put. -/
theorem classes_agree_small (m s : Nat) (hs : s + 7 < 2 ^ 31) :
    get_large m s → put_large m s := by
  intro hl
  unfold get_large at hl
  unfold put_large
  by_cases h0 : s = 0
  · subst h0
    have hq : quantize 0 = 8 := by decide
    rw [hq] at hl ⊢
    omega
  · obtain ⟨-, hq, -⟩ := quantize_small_least s (by omega) hs
    omega

/-- After a get of `s` bytes that returned `si`, a put of `si` with `s` bytes
that returns has restored `inuse` and every counter `gets`; `total` is back at
its value before the get when the request was large, and is left as the get
left it otherwise. -/
theorem put_of_get {ctx c1 c2 : isc_mem} {s si : Nat}
    (hg : mem_getunlocked ctx s = Except.ok (some si, c1))
    (hp : mem_putunlocked c1 si s = Except.ok c2) :
    c2.inuse = ctx.inuse ∧ (∀ k, (c2.stats k).gets = (ctx.stats k).gets) ∧
      (get_large ctx.max_size s → c2.total = ctx.total) ∧
      (¬ get_large ctx.max_size s → c2.total = c1.total) := by
  obtain ⟨hcfg, hcount⟩ := mem_getunlocked_counts hg
  obtain ⟨hlarge, hsmall⟩ := mem_getunlocked_inuse hg
  obtain ⟨-, hpc⟩ := mem_putunlocked_counts hp
  have hmax : c1.max_size = ctx.max_size := hcfg.max_size
  rcases mem_putunlocked_inv hp with ⟨hpl, -, hle, hc2⟩ | ⟨hpl, hlt, -, hc2⟩
  · have hl : get_large ctx.max_size s := by
      unfold put_large at hpl
      unfold get_large
      rw [hmax] at hpl
      omega
    have hslot : get_slot ctx.max_size s = ctx.max_size := by
      unfold get_slot; rw [if_pos hl]
    have hps : put_slot c1.max_size s = ctx.max_size := by
      unfold put_slot; rw [if_pos hpl, hmax]
    obtain ⟨hin, htot⟩ := hlarge hl
    refine ⟨?_, fun k => ?_, fun _ => ?_, fun hn => absurd hl hn⟩
    · rw [hc2]
      show wsub c1.inuse s = ctx.inuse
      rw [wsub_le (by omega), hin]
      omega
    · have a := (hpc k).1
      have b := (hcount k).1
      rw [hps] at a
      rw [hslot] at b
      by_cases hk : k = ctx.max_size
      · rw [if_pos hk] at a
        rw [if_pos ⟨rfl, hk⟩] at b
        omega
      · rw [if_neg hk] at a
        rw [if_neg (fun hh => hk hh.2)] at b
        omega
    · rw [hc2]
      show wsub c1.total s = ctx.total
      rw [wsub_le hle, htot]
      omega
  · have hl : ¬ get_large ctx.max_size s := by
      unfold put_large at hpl
      unfold get_large
      rw [hmax] at hpl hlt
      omega
    have hslot : get_slot ctx.max_size s = s := by
      unfold get_slot; rw [if_neg hl]
    have hps : put_slot c1.max_size s = s := by
      unfold put_slot; rw [if_neg hpl]
    have hin := hsmall hl
    refine ⟨?_, fun k => ?_, fun hn => absurd hn hl, fun _ => ?_⟩
    · rw [hc2]
      show wsub c1.inuse (quantize s) = ctx.inuse
      rw [wsub_le (by omega), hin]
      omega
    · have a := (hpc k).1
      have b := (hcount k).1
      rw [hps] at a
      rw [hslot] at b
      by_cases hk : k = s
      · rw [if_pos hk] at a
        rw [if_pos ⟨rfl, hk⟩] at b
        omega
      · rw [if_neg hk] at a
        rw [if_neg (fun hh => hk hh.2)] at b
        omega
    · rw [hc2]

/-- After a get of `s` bytes that returned `si`, the put of `si` with `s`
bytes returns when `s`, if large for the get, is large for the put; where `s`
is large for the get and small for the put, the put reads `stats[s]` behind
the table. -/
theorem put_after_get {ctx c1 : isc_mem} {s si : Nat}
    (hg : mem_getunlocked ctx s = Except.ok (some si, c1)) :
    ((get_large ctx.max_size s → put_large ctx.max_size s) →
      ∃ c2, mem_putunlocked c1 si s = Except.ok c2) ∧
    (get_large ctx.max_size s → ¬ put_large ctx.max_size s →
      mem_putunlocked c1 si s = Except.error Fault.undefined) := by
  obtain ⟨hcfg, hcount⟩ := mem_getunlocked_counts hg
  obtain ⟨hlarge, -⟩ := mem_getunlocked_inuse hg
  have hmax : c1.max_size = ctx.max_size := hcfg.max_size
  constructor
  · intro hcls
    by_cases hl : get_large ctx.max_size s
    · have hpl : put_large c1.max_size s := by rw [hmax]; exact hcls hl
      have hslot : get_slot ctx.max_size s = ctx.max_size := by
        unfold get_slot; rw [if_pos hl]
      obtain ⟨-, htot⟩ := hlarge hl
      have hgets : (c1.stats c1.max_size).gets ≠ 0 := by
        have := (hcount ctx.max_size).1
        rw [hslot, if_pos ⟨rfl, rfl⟩] at this
        rw [hmax, this]
        omega
      obtain ⟨-, hput⟩ := mem_putunlocked_large c1 si s hpl
      exact ⟨_, hput hgets (by omega)⟩
    · have hl' : ¬ (s ≥ ctx.max_size ∨ quantize s ≥ ctx.max_size) := hl
      have hslot : get_slot ctx.max_size s = s := by
        unfold get_slot; rw [if_neg hl]
      have hgets : (c1.stats s).gets ≠ 0 := by
        have := (hcount s).1
        rw [hslot, if_pos ⟨rfl, rfl⟩] at this
        rw [this]
        omega
      obtain ⟨-, hput⟩ := mem_putunlocked_small c1 si s (by rw [hmax]; omega)
        (by rw [hmax]; omega)
      exact ⟨_, hput hgets⟩
  · intro hl hpl
    unfold get_large at hl
    unfold put_large at hpl
    unfold mem_putunlocked
    dsimp only
    rw [hmax, if_neg hpl, if_pos (by omega)]

/-- C21: for every context and every `n`, where `s` is the sum `n + 8` as the
code computes it, modulo `2 ^ 64`, and with the sums of bytes that the get
forms in the range of a `size_t`: `total + s` for a large request, and
`total + 64 * mem_target` where a small one has to call `more_basic_blocks`.
`isc__mem_allocate` is the get of `s` bytes: `NULL` when the get
returns `NULL`, and otherwise the address 8 bytes past the block, with `s`
stored in the `size_info` word at the block.  `isc__mem_free` of that pointer
is the put of the block with `s` bytes.  Whenever it returns it has left
`inuse` and every counter `gets` as they were before the allocation, and
`total` as before when the request is large, or when the free list of the
class was not empty; otherwise `total` is as the allocation left it, grown by
one arena chunk at most.  It returns whenever `s`, if large for the get, is
large for the put, which is so for every `n` with `n + 15 < 2 ^ 31`; where `s`
is large for the get and small for the put it reads behind the statistics
table. -/
theorem allocate_then_free (ctx : isc_mem) (info : Nat → Nat) (n : Nat)
    (hsum : get_large ctx.max_size (wadd n ALIGNMENT_SIZE) →
      ctx.total + wadd n ALIGNMENT_SIZE < 2 ^ SIZE_BITS)
    (hchunk : ¬ get_large ctx.max_size (wadd n ALIGNMENT_SIZE) →
      ctx.freelists (quantize (wadd n ALIGNMENT_SIZE)) = [] → ctx.basic_blocks = [] →
      ctx.total + NUM_BASIC_BLOCKS * ctx.mem_target < 2 ^ SIZE_BITS) :
    (n + 8 < 2 ^ SIZE_BITS → wadd n ALIGNMENT_SIZE = n + 8) ∧
    isc__mem_allocate ctx info n
      = (match isc__mem_get ctx (wadd n ALIGNMENT_SIZE) with
        | Except.error e => Except.error e
        | Except.ok (none, c) => Except.ok (none, c, info)
        | Except.ok (some si, c) =>
          Except.ok (some (si + 8), c, modify info si (fun _ => wadd n ALIGNMENT_SIZE))) ∧
    (∀ p ctx1 info1, isc__mem_allocate ctx info n = Except.ok (some p, ctx1, info1) →
      8 ≤ p ∧ isc__mem_get ctx (wadd n ALIGNMENT_SIZE) = Except.ok (some (p - 8), ctx1) ∧
      info1 (p - 8) = wadd n ALIGNMENT_SIZE ∧
      (ctx1.total = ctx.total ∨ ctx1.total < 2 ^ SIZE_BITS) ∧
      isc__mem_free ctx1 info1 p = isc__mem_put ctx1 (p - 8) (wadd n ALIGNMENT_SIZE) ∧
      (∀ ctx2, isc__mem_free ctx1 info1 p = Except.ok ctx2 →
        ctx2.inuse = ctx.inuse ∧ (∀ k, (ctx2.stats k).gets = (ctx.stats k).gets) ∧
        (get_large ctx.max_size (wadd n ALIGNMENT_SIZE) → ctx2.total = ctx.total) ∧
        (ctx.freelists (quantize (wadd n ALIGNMENT_SIZE)) ≠ [] → ctx2.total = ctx.total) ∧
        (ctx2.total = ctx.total ∨
          ctx2.total = ctx.total + NUM_BASIC_BLOCKS * ctx.mem_target)) ∧
      ((get_large ctx.max_size (wadd n ALIGNMENT_SIZE) →
          put_large ctx.max_size (wadd n ALIGNMENT_SIZE)) →
        ∃ ctx2, isc__mem_free ctx1 info1 p = Except.ok ctx2) ∧
      (get_large ctx.max_size (wadd n ALIGNMENT_SIZE) →
        ¬ put_large ctx.max_size (wadd n ALIGNMENT_SIZE) →
        isc__mem_free ctx1 info1 p = Except.error Fault.undefined)) ∧
    (n + 15 < 2 ^ 31 →
      get_large ctx.max_size (wadd n ALIGNMENT_SIZE) →
      put_large ctx.max_size (wadd n ALIGNMENT_SIZE)) := by
  have heq := allocate_unfold ctx info n
  refine ⟨fun hn => wadd_small (by simp only [SIZE_BITS] at hn; simp only [ALIGNMENT_SIZE]; omega),
    heq, ?_, fun hn => ?_⟩
  · intro p ctx1 info1 ha
    rw [heq] at ha
    generalize hsdef : wadd n ALIGNMENT_SIZE = s at *
    cases hg : isc__mem_get ctx s with
    | error e => rw [hg] at ha; simp at ha
    | ok r =>
      obtain ⟨o, c⟩ := r
      rw [hg] at ha
      cases o with
      | none => simp at ha
      | some si =>
        simp only [Except.ok.injEq, Prod.mk.injEq, Option.some.injEq] at ha
        obtain ⟨rfl, rfl, rfl⟩ := ha
        obtain ⟨hv, hgu⟩ := isc__mem_get_inv hg
        obtain ⟨hcfg, -⟩ := mem_getunlocked_counts hgu
        obtain ⟨hlarge, -⟩ := mem_getunlocked_inuse hgu
        have hv1 : VALID_CONTEXT c := by
          show c.magic = MEM_MAGIC
          rw [hcfg.magic]
          exact hv
        have hp : si + 8 - 8 = si := by omega
        have hfree : isc__mem_free c (modify info si (fun _ => s)) (si + 8)
            = isc__mem_put c si s := by
          unfold isc__mem_free
          rw [if_neg (by simp only [ALIGNMENT_SIZE]; omega)]
          show isc__mem_put c (si + 8 - 8) (modify info si (fun _ => s) (si + 8 - 8)) = _
          rw [hp, modify_same]
        have htot : c.total = ctx.total ∨ c.total < 2 ^ SIZE_BITS := by
          by_cases hl : get_large ctx.max_size s
          · rw [(hlarge hl).2]
            exact Or.inr (hsum hl)
          · rcases mem_getunlocked_arena hl hgu with ⟨a, -⟩ | ⟨a, a2, -⟩
            · exact Or.inl a
            · obtain ⟨e1, e2⟩ := mem_getunlocked_grew hl hgu (by omega)
              rw [a]
              exact Or.inr (hchunk hl e1 e2)
        obtain ⟨hruns, hstops⟩ := @put_after_get ctx c s si hgu
        rw [hp]
        refine ⟨by omega, rfl, modify_same _ _ _, htot, hfree, ?_, ?_, ?_⟩
        · intro c2 hf
          rw [hfree, isc__mem_put_valid si s hv1] at hf
          obtain ⟨h1, h2, h3, h4⟩ := put_of_get hgu hf
          refine ⟨h1, h2, h3, ?_, ?_⟩
          · intro hne
            by_cases hl : get_large ctx.max_size s
            · exact h3 hl
            · rw [h4 hl]
              have hl' : ¬ (s ≥ ctx.max_size ∨ quantize s ≥ ctx.max_size) := hl
              rw [mem_getunlocked_nonempty ctx s hl' hne] at hgu
              obtain ⟨p', rest, -, -, rfl⟩ := mem_get_pop_inv hgu
              rfl
          · by_cases hl : get_large ctx.max_size s
            · exact Or.inl (h3 hl)
            · rw [h4 hl]
              rcases mem_getunlocked_arena hl hgu with ⟨a, -⟩ | ⟨a, -, -⟩
              · exact Or.inl a
              · exact Or.inr a
        · intro hcls
          obtain ⟨c2, hput⟩ := hruns hcls
          exact ⟨c2, by rw [hfree, isc__mem_put_valid si s hv1]; exact hput⟩
        · intro hl hpl
          rw [hfree, isc__mem_put_valid si s hv1]
          exact hstops hl hpl
  · have hw : wadd n ALIGNMENT_SIZE = n + 8 :=
      wadd_small (Nat.lt_trans (by simp only [ALIGNMENT_SIZE]; omega :
        n + ALIGNMENT_SIZE < 2 ^ 31) (by decide))
    rw [hw]
    exact classes_agree_small ctx.max_size (n + 8) (by omega)

theorem allocate_then_free_witness :
    (get_large example_ctx.max_size (wadd 8 ALIGNMENT_SIZE) →
      example_ctx.total + wadd 8 ALIGNMENT_SIZE < 2 ^ SIZE_BITS) ∧
    (¬ get_large example_ctx.max_size (wadd 8 ALIGNMENT_SIZE) →
      example_ctx.freelists (quantize (wadd 8 ALIGNMENT_SIZE)) = [] →
      example_ctx.basic_blocks = [] →
      example_ctx.total + NUM_BASIC_BLOCKS * example_ctx.mem_target < 2 ^ SIZE_BITS) ∧
    isc__mem_allocate example_ctx (fun _ => 0) 8
      = Except.ok (some 65544, example_allocated.1, example_allocated.2) ∧
    isc__mem_free example_allocated.1 example_allocated.2 65544 = Except.ok example_freed ∧
    ((8 + 8 < 2 ^ SIZE_BITS → wadd 8 ALIGNMENT_SIZE = 8 + 8) ∧
    isc__mem_allocate example_ctx (fun _ => 0) 8
      = (match isc__mem_get example_ctx (wadd 8 ALIGNMENT_SIZE) with
        | Except.error e => Except.error e
        | Except.ok (none, c) => Except.ok (none, c, fun _ => 0)
        | Except.ok (some si, c) =>
          Except.ok (some (si + 8), c,
            modify (fun _ => 0) si (fun _ => wadd 8 ALIGNMENT_SIZE))) ∧
    (∀ p ctx1 info1,
      isc__mem_allocate example_ctx (fun _ => 0) 8 = Except.ok (some p, ctx1, info1) →
      8 ≤ p ∧
      isc__mem_get example_ctx (wadd 8 ALIGNMENT_SIZE) = Except.ok (some (p - 8), ctx1) ∧
      info1 (p - 8) = wadd 8 ALIGNMENT_SIZE ∧
      (ctx1.total = example_ctx.total ∨ ctx1.total < 2 ^ SIZE_BITS) ∧
      isc__mem_free ctx1 info1 p = isc__mem_put ctx1 (p - 8) (wadd 8 ALIGNMENT_SIZE) ∧
      (∀ ctx2, isc__mem_free ctx1 info1 p = Except.ok ctx2 →
        ctx2.inuse = example_ctx.inuse ∧
        (∀ k, (ctx2.stats k).gets = (example_ctx.stats k).gets) ∧
        (get_large example_ctx.max_size (wadd 8 ALIGNMENT_SIZE) →
          ctx2.total = example_ctx.total) ∧
        (example_ctx.freelists (quantize (wadd 8 ALIGNMENT_SIZE)) ≠ [] →
          ctx2.total = example_ctx.total) ∧
        (ctx2.total = example_ctx.total ∨
          ctx2.total = example_ctx.total + NUM_BASIC_BLOCKS * example_ctx.mem_target)) ∧
      ((get_large example_ctx.max_size (wadd 8 ALIGNMENT_SIZE) →
          put_large example_ctx.max_size (wadd 8 ALIGNMENT_SIZE)) →
        ∃ ctx2, isc__mem_free ctx1 info1 p = Except.ok ctx2) ∧
      (get_large example_ctx.max_size (wadd 8 ALIGNMENT_SIZE) →
        ¬ put_large example_ctx.max_size (wadd 8 ALIGNMENT_SIZE) →
        isc__mem_free ctx1 info1 p = Except.error Fault.undefined)) ∧
    (8 + 15 < 2 ^ 31 →
      get_large example_ctx.max_size (wadd 8 ALIGNMENT_SIZE) →
      put_large example_ctx.max_size (wadd 8 ALIGNMENT_SIZE))) :=
  ⟨fun _ => by decide, fun _ _ _ => by decide, rfl, rfl,
    allocate_then_free example_ctx (fun _ => 0) 8 (fun _ => by decide)
      (fun _ _ _ => by decide)⟩

/-- C21 as stated fails for `total` on the first small allocation of a
context: the get behind `isc__mem_allocate (ctx, 8)` draws an arena chunk of
8192 bytes, and `isc__mem_free` puts the fragment back on its free list, not
the chunk back to the backing allocator; `inuse` and the counters are restored,
`total` stays at 8192. -/
theorem allocate_free_total :
    example_ctx.total = 0 ∧ example_ctx.inuse = 0 ∧
    isc__mem_allocate example_ctx (fun _ => 0) 8
      = Except.ok (some 65544, example_allocated.1, example_allocated.2) ∧
    example_allocated.2 65536 = 16 ∧
    isc__mem_free example_allocated.1 example_allocated.2 65544 = Except.ok example_freed ∧
    example_freed.inuse = 0 ∧ (example_freed.stats 16).gets = 0 ∧
    example_freed.total = 8192 ∧
    ¬ example_freed.total = example_ctx.total :=
  ⟨rfl, rfl, rfl, rfl, rfl, rfl, rfl, rfl, by decide⟩

/-! ## The destruction of a pool -/

theorem release_items_eq (size : Nat) : ∀ (items : List Nat) (fc : Nat) (m : isc_mem),
    fc = items.length →
    mempool_release_items size items fc m
      = (mem_put_all size items m).map (fun m1 => (0, m1)) := by
  intro items
  induction items with
  | nil =>
    intro fc m h
    simp only [List.length_nil] at h
    subst h
    rfl
  | cons item next ih =>
    intro fc m h
    simp only [List.length_cons] at h
    unfold mempool_release_items mem_put_all
    cases hp : mem_putunlocked m item size with
    | error e => rfl
    | ok m2 =>
      dsimp only
      rw [if_neg (by omega), wdec32_pos (by omega)]
      exact ih (fc - 1) m2 (by omega)

theorem mempool_eta_freecount (p : isc_mempool) (h : p.freecount = 0) :
    { p with freecount := 0 } = p := by
  cases p
  simp only at h
  subst h
  rfl

theorem releaseall_eq (p : isc_mempool) (mctx : isc_mem) (hc : p.freecount = p.items.length) :
    mempool_releaseall p mctx
      = (mem_put_all p.size p.items mctx).map (fun m1 => ({ p with freecount := 0 }, m1)) := by
  unfold mempool_releaseall
  by_cases h0 : p.freecount = 0
  · rw [if_pos h0]
    have hnil : p.items = [] := List.length_eq_zero.mp (by omega)
    have hm : mem_put_all p.size p.items mctx = Except.ok mctx := by
      rw [hnil]
      rfl
    rw [hm]
    show _ = Except.ok (({ p with freecount := 0 } : isc_mempool), mctx)
    rw [mempool_eta_freecount p h0]
  · rw [if_neg h0]
    have hne : p.items ≠ [] := by
      intro he
      rw [he] at hc
      simp at hc
      exact h0 hc
    rw [if_neg hne, release_items_eq p.size p.items p.freecount mctx hc]
    cases mem_put_all p.size p.items mctx <;> rfl

theorem mempool_eta_items (p : isc_mempool) :
    { p with items := [] ++ p.items, freecount := p.freecount + 0 } = p := by
  cases p
  rfl

/-- Every run of the filling loop that returns is a run of served gets up to
its end. -/
theorem fill_inv : ∀ (n : Nat) {p p1 : isc_mempool} {m m1 : isc_mem},
    mempool_fill n p m = Except.ok (p1, m1) →
    ∃ got m', gets_served p.size m got m' ∧ got.length ≤ n ∧ fill_ends p.size n got m' m1 ∧
      p1 = { p with items := got.reverse ++ p.items, freecount := p.freecount + got.length } := by
  intro n
  induction n with
  | zero =>
    intro p p1 m m1 h
    simp only [mempool_fill, Except.ok.injEq, Prod.mk.injEq] at h
    obtain ⟨rfl, rfl⟩ := h
    exact ⟨[], m, rfl, Nat.le_refl _, Or.inr ⟨rfl, rfl⟩, (mempool_eta_items p).symm⟩
  | succ k ih =>
    intro p p1 m m1 h
    unfold mempool_fill at h
    cases hg : mem_getunlocked m p.size with
    | error e => rw [hg] at h; simp at h
    | ok r =>
      obtain ⟨o, m2⟩ := r
      rw [hg] at h
      cases o with
      | none =>
        simp only [Except.ok.injEq, Prod.mk.injEq] at h
        obtain ⟨rfl, rfl⟩ := h
        exact ⟨[], m, rfl, Nat.zero_le _, Or.inl ⟨Nat.succ_pos k, hg⟩,
          (mempool_eta_items p).symm⟩
      | some item =>
        dsimp only at h
        obtain ⟨got, m', hs, hle, he, rfl⟩ := ih h
        refine ⟨item :: got, m', ⟨m2, hg, hs⟩, by simp only [List.length_cons]; omega, ?_, ?_⟩
        · rcases he with ⟨hlt, hn⟩ | ⟨hn, hm⟩
          · exact Or.inl ⟨by simp only [List.length_cons]; omega, hn⟩
          · exact Or.inr ⟨by simp only [List.length_cons]; omega, hm⟩
        · simp only [List.reverse_cons, List.append_assoc, List.singleton_append,
            List.length_cons, Nat.add_assoc, Nat.add_comm 1]

/-- What a pool get that returns has done. -/
theorem pool_get_inv {p p' : isc_mempool} {m m' : isc_mem} {r : Option Nat}
    (h : isc__mempool_get p m = Except.ok (r, p', m')) :
    VALID_MEMPOOL p ∧
    ((p.allocated ≥ p.maxalloc ∧ r = none ∧ p' = p ∧ m' = m) ∨
      (p.allocated < p.maxalloc ∧ ∃ item next, p.items = item :: next ∧ 0 < p.freecount ∧
        r = some item ∧ p' = mempool_take p next ∧ m' = m) ∨
      (p.allocated < p.maxalloc ∧ p.items = [] ∧
        ∃ p1, mempool_fill p.fillcount p m = Except.ok (p1, m') ∧
          ((p1.items = [] ∧ r = none ∧ p' = p1) ∨
            ∃ item next, p1.items = item :: next ∧ r = some item ∧
              p' = mempool_take p1 next))) := by
  unfold isc__mempool_get at h
  by_cases hv : VALID_MEMPOOL p
  · rw [if_neg (not_not.mpr hv)] at h
    refine ⟨hv, ?_⟩
    by_cases hd : p.allocated ≥ p.maxalloc
    · rw [if_pos hd] at h
      simp only [Except.ok.injEq, Prod.mk.injEq] at h
      obtain ⟨rfl, rfl, rfl⟩ := h
      exact Or.inl ⟨hd, rfl, rfl, rfl⟩
    · rw [if_neg hd] at h
      right
      cases hi : p.items with
      | cons item next =>
        rw [hi] at h
        dsimp only at h
        by_cases hf : p.freecount > 0
        · rw [if_neg (not_not.mpr hf)] at h
          simp only [Except.ok.injEq, Prod.mk.injEq] at h
          obtain ⟨rfl, rfl, rfl⟩ := h
          exact Or.inl ⟨by omega, item, next, rfl, hf, rfl, rfl, rfl⟩
        · rw [if_pos hf] at h
          simp at h
      | nil =>
        rw [hi] at h
        dsimp only at h
        right
        refine ⟨by omega, rfl, ?_⟩
        cases hfill : mempool_fill p.fillcount p m with
        | error e => rw [hfill] at h; simp at h
        | ok q =>
          obtain ⟨p1, m1⟩ := q
          rw [hfill] at h
          dsimp only at h
          cases hi1 : p1.items with
          | nil =>
            rw [hi1] at h
            simp only [Except.ok.injEq, Prod.mk.injEq] at h
            obtain ⟨rfl, rfl, rfl⟩ := h
            exact ⟨p1, rfl, Or.inl ⟨hi1, rfl, rfl⟩⟩
          | cons item next =>
            rw [hi1] at h
            simp only [Except.ok.injEq, Prod.mk.injEq] at h
            obtain ⟨rfl, rfl, rfl⟩ := h
            exact ⟨p1, rfl, Or.inr ⟨item, next, hi1, rfl, rfl⟩⟩
  · rw [if_pos hv] at h
    simp at h

/-! ## What a pool get does -/

theorem pool_run_cons_inv {s sN : isc_mempool × isc_mem} {c : PoolCall} {cs : List PoolCall}
    (h : pool_run s (c :: cs) = Except.ok sN) :
    ∃ s1, pool_step s c = Except.ok s1 ∧ pool_run s1 cs = Except.ok sN := by
  cases hs : pool_step s c with
  | error e =>
    have : pool_run s (c :: cs) = Except.error e := by
      show (match pool_step s c with
        | Except.error e => Except.error e
        | Except.ok s1 => pool_run s1 cs) = _
      rw [hs]
    rw [this] at h
    simp at h
  | ok s1 =>
    have : pool_run s (c :: cs) = pool_run s1 cs := by
      show (match pool_step s c with
        | Except.error e => Except.error e
        | Except.ok s1 => pool_run s1 cs) = _
      rw [hs]
    rw [this] at h
    exact ⟨s1, rfl, h⟩

theorem except_map_ok {α β : Type} {f : α → β} {x : Except Fault α} {y : β}
    (h : x.map f = Except.ok y) : ∃ a, x = Except.ok a ∧ y = f a := by
  cases x with
  | error e => simp [Except.map] at h
  | ok a =>
    simp only [Except.map, Except.ok.injEq] at h
    exact ⟨a, rfl, h.symm⟩

/-- What a call on a pool that returns has done. -/
theorem pool_step_inv {s s1 : isc_mempool × isc_mem} {c : PoolCall}
    (h : pool_step s c = Except.ok s1) :
    (c = PoolCall.get ∧ ∃ r, isc__mempool_get s.1 s.2 = Except.ok (r, s1.1, s1.2)) ∨
    (∃ mem, c = PoolCall.put mem ∧ isc__mempool_put s.1 mem s.2 = Except.ok (s1.1, s1.2)) ∨
    (∃ v, c = PoolCall.setfreemax v ∧ s1 = ({ s.1 with freemax := v }, s.2)) ∨
    (∃ v, c = PoolCall.setfillcount v ∧ s1 = ({ s.1 with fillcount := v }, s.2)) ∨
    (∃ v, c = PoolCall.setmaxalloc v ∧ s1 = ({ s.1 with maxalloc := v }, s.2)) ∨
    (∃ cc m, c = PoolCall.mem cc ∧ call_step s.2 cc = Except.ok m ∧ s1 = (s.1, m)) := by
  cases c with
  | get =>
    left
    have h1 : (isc__mempool_get s.1 s.2).map Prod.snd = Except.ok s1 := h
    obtain ⟨a, ha, rfl⟩ := except_map_ok h1
    exact ⟨rfl, a.1, ha⟩
  | put mem =>
    right; left
    exact ⟨mem, rfl, h⟩
  | setfreemax v =>
    right; right; left
    have h1 : (isc_mempool_setfreemax s.1 v).map (fun p => (p, s.2)) = Except.ok s1 := h
    obtain ⟨a, ha, rfl⟩ := except_map_ok h1
    unfold isc_mempool_setfreemax at ha
    by_cases hv : VALID_MEMPOOL s.1
    · rw [if_neg (not_not.mpr hv)] at ha
      simp only [Except.ok.injEq] at ha
      subst ha
      exact ⟨v, rfl, rfl⟩
    · rw [if_pos hv] at ha
      simp at ha
  | setfillcount v =>
    right; right; right; left
    have h1 : (isc_mempool_setfillcount s.1 v).map (fun p => (p, s.2)) = Except.ok s1 := h
    obtain ⟨a, ha, rfl⟩ := except_map_ok h1
    unfold isc_mempool_setfillcount at ha
    by_cases h0 : v > 0
    · rw [if_neg (not_not.mpr h0)] at ha
      by_cases hv : VALID_MEMPOOL s.1
      · rw [if_neg (not_not.mpr hv)] at ha
        simp only [Except.ok.injEq] at ha
        subst ha
        exact ⟨v, rfl, rfl⟩
      · rw [if_pos hv] at ha
        simp at ha
    · rw [if_pos h0] at ha
      simp at ha
  | setmaxalloc v =>
    right; right; right; right; left
    have h1 : (isc_mempool_setmaxalloc s.1 v).map (fun p => (p, s.2)) = Except.ok s1 := h
    obtain ⟨a, ha, rfl⟩ := except_map_ok h1
    unfold isc_mempool_setmaxalloc at ha
    by_cases h0 : v > 0
    · rw [if_neg (not_not.mpr h0)] at ha
      by_cases hv : VALID_MEMPOOL s.1
      · rw [if_neg (not_not.mpr hv)] at ha
        simp only [Except.ok.injEq] at ha
        subst ha
        exact ⟨v, rfl, rfl⟩
      · rw [if_pos hv] at ha
        simp at ha
    · rw [if_pos h0] at ha
      simp at ha
  | mem cc =>
    right; right; right; right; right
    have h1 : (call_step s.2 cc).map (fun m => (s.1, m)) = Except.ok s1 := h
    obtain ⟨a, ha, rfl⟩ := except_map_ok h1
    exact ⟨cc, a, rfl, ha, rfl⟩

/-- For a class that fits a basic block, `more_frags_chop` takes the first
idle block and leaves on the free list of the class `mem_target / c` fragments
of `c` bytes, one behind the other from the start of the block and all inside
it; `blocks` of the class grows by one and `freefrags` by `mem_target / c`. -/
theorem more_frags_chop_fits (ctx : isc_mem) (c new : Nat) (rest : List Nat)
    (hb : ctx.basic_blocks = new :: rest) (h0 : 0 < c) (hle : c ≤ ctx.mem_target) :
    ∃ c', more_frags_chop ctx c = Except.ok (true, c') ∧
      c'.basic_blocks = rest ∧
      c'.freelists c = (List.range (ctx.mem_target / c)).map (fun k => new + k * c) ∧
      (c'.freelists c).length = ctx.mem_target / c ∧
      (∀ f, f ∈ c'.freelists c → new ≤ f ∧ f + c ≤ new + ctx.mem_target) ∧
      (c'.stats c).blocks = (ctx.stats c).blocks + 1 ∧
      (c'.stats c).freefrags = wadd (ctx.stats c).freefrags (ctx.mem_target / c) := by
  have hq : 1 ≤ ctx.mem_target / c := (Nat.one_le_div_iff h0).mpr hle
  have hmax : max (ctx.mem_target / c) 1 = ctx.mem_target / c := Nat.max_eq_left hq
  have heq : more_frags_chop ctx c = Except.ok (true,
      { ctx with
        basic_blocks := rest
        stats := modify ctx.stats c (fun s => s.blocks_inc.freefrags_add (ctx.mem_target / c))
        freelists := modify ctx.freelists c
          (fun _ => (List.range (max (ctx.mem_target / c) 1)).map (fun k => new + k * c)) }) := by
    unfold more_frags_chop
    rw [hb]
    dsimp only
    rw [if_neg (by omega)]
  have hfl : modify ctx.freelists c
      (fun _ => (List.range (max (ctx.mem_target / c) 1)).map (fun k => new + k * c)) c
      = (List.range (ctx.mem_target / c)).map (fun k => new + k * c) := by
    rw [modify_same, hmax]
  refine ⟨_, heq, rfl, hfl, ?_, ?_, ?_, ?_⟩
  · have hlen := congrArg List.length hfl
    rw [List.length_map, List.length_range] at hlen
    exact hlen
  · intro f hf
    have hf' : f ∈ (List.range (ctx.mem_target / c)).map (fun k => new + k * c) := by
      rw [← hfl]
      exact hf
    obtain ⟨k, hk, rfl⟩ := List.mem_map.mp hf'
    have hk' : k < ctx.mem_target / c := List.mem_range.mp hk
    have h1 : (k + 1) * c ≤ ctx.mem_target / c * c := Nat.mul_le_mul_right c hk'
    have h2 : ctx.mem_target / c * c ≤ ctx.mem_target := Nat.div_mul_le_self _ _
    have h3 : (k + 1) * c = k * c + c := by ring
    constructor
    · omega
    · omega
  · show (modify ctx.stats c (fun s => s.blocks_inc.freefrags_add (ctx.mem_target / c)) c).blocks
      = _
    rw [modify_same]
    rfl
  · show (modify ctx.stats c (fun s => s.blocks_inc.freefrags_add (ctx.mem_target / c))
      c).freefrags = _
    rw [modify_same]
    rfl

/-- C28: on the context made with `init_max_size` 200 and `target_size` 128,
after the arena has grown, a basic block is chopped for the class 136, a
multiple of 8 below `max_size`.  `mem_target / 136` is 0 and `freefrags` grows by
0, yet the free list of the class holds one fragment, the block itself, and the
136 bytes of that fragment reach 8 bytes into the next idle block. -/
theorem chop_block_too_small :
    example_wide_grown.max_size = 200 ∧ example_wide_grown.mem_target = 128 ∧
    example_wide_grown.basic_blocks.head? = some 65536 ∧
    136 % 8 = 0 ∧ 8 ≤ 136 ∧ 136 < example_wide_grown.max_size ∧
    example_wide_grown.freelists 136 = [] ∧
    more_frags_chop example_wide_grown 136 = Except.ok (true, example_wide_chopped) ∧
    example_wide_grown.mem_target / 136 = 0 ∧
    example_wide_chopped.freelists 136 = [65536] ∧
    (example_wide_chopped.freelists 136).length = 1 ∧
    example_wide_chopped.basic_blocks = example_wide_grown.basic_blocks.tail ∧
    example_wide_chopped.basic_blocks.head? = some 65664 ∧
    (example_wide_chopped.stats 136).blocks = 1 ∧
    (example_wide_chopped.stats 136).freefrags = 0 ∧
    ¬ 65536 + 136 ≤ 65536 + example_wide_grown.mem_target :=
  ⟨rfl, rfl, rfl, rfl, by decide, by decide, rfl, rfl, rfl, rfl, rfl, rfl, rfl, rfl, rfl,
    by decide⟩

/-! ## The search of `try_split` -/

theorem find_frag_in_bounds (ctx : isc_mem) : ∀ (l : List Nat),
    (∀ i, i ∈ l → i < ctx.max_size) →
    find_frag ctx l = Except.ok (l.find? (fun i => decide (ctx.freelists i ≠ []))) := by
  intro l
  induction l with
  | nil => intro _; rfl
  | cons j rest ih =>
    intro hb
    have hj : j < ctx.max_size := hb j (List.mem_cons_self j rest)
    unfold find_frag
    rw [if_neg (by omega)]
    by_cases he : ctx.freelists j = []
    · rw [if_pos he, ih (fun i hi => hb i (List.mem_cons_of_mem j hi))]
      rw [List.find?_cons_of_neg]
      simp [he]
    · rw [if_neg he, List.find?_cons_of_pos]
      simp [he]

theorem loop_indices_mem {start stop i : Nat} :
    i ∈ loop_indices start stop ↔ start ≤ i ∧ i < stop ∧ (i - start) % 8 = 0 := by
  unfold loop_indices
  rw [List.mem_range']
  simp only [ALIGNMENT_SIZE]
  constructor
  · rintro ⟨k, hk, rfl⟩
    omega
  · rintro ⟨h1, h2, h3⟩
    refine ⟨(i - start) / 8, ?_, ?_⟩
    · omega
    · omega

/-- When the second loop of `try_split` stays inside the table of free lists
(`2 * n <= max_size + 7`), the class to split is the first class with a
fragment among `2 * n, 2 * n + 8, ...` below `max_size` and, when there is none,
the first among `n + 8, n + 16, ...` below `2 * n`. -/
theorem split_candidate_in_bounds (ctx : isc_mem) (n : Nat) (h : n * 2 ≤ ctx.max_size + 7)
    (h8 : n % 8 = 0) :
    split_candidate ctx n = Except.ok
      (match (loop_indices (n * 2) ctx.max_size).find? (fun i => decide (ctx.freelists i ≠ [])) with
        | some i => some i
        | none => (loop_indices (n + ALIGNMENT_SIZE) (n * 2)).find?
            (fun i => decide (ctx.freelists i ≠ []))) := by
  have h1 : ∀ i, i ∈ loop_indices (n * 2) ctx.max_size → i < ctx.max_size :=
    fun i hi => (loop_indices_mem.mp hi).2.1
  have h2 : ∀ i, i ∈ loop_indices (n + ALIGNMENT_SIZE) (n * 2) → i < ctx.max_size := by
    intro i hi
    obtain ⟨a, b, c⟩ := loop_indices_mem.mp hi
    simp only [ALIGNMENT_SIZE] at a c
    omega
  unfold split_candidate
  dsimp only
  rw [find_frag_in_bounds ctx _ h1]
  cases (loop_indices (n * 2) ctx.max_size).find? (fun i => decide (ctx.freelists i ≠ [])) with
  | some i => rfl
  | none =>
    dsimp only
    rw [find_frag_in_bounds ctx _ h2]

/-- C30: on a context with `max_size` 64, splitting on and no room under the
quota, with every free list empty: no class above 56 and below `max_size` has a
fragment, and `try_split` for the class 56 does not return false.  Its second
loop runs `i` from 64 while `i < 112` and reads `freelists[64]`, past the 64
slots of the table; so does the get of 56 bytes that calls it. -/
theorem try_split_reads_beyond :
    call_run example_ctx [Call.setquota 1, Call.setsplit true] = Except.ok example_tight ∧
    example_tight.max_size = 64 ∧ example_tight.trysplit = true ∧
    56 % 8 = 0 ∧ 56 < example_tight.max_size ∧
    (∀ i, example_tight.freelists i = []) ∧
    loop_indices (56 * 2) example_tight.max_size = [] ∧
    loop_indices (56 + ALIGNMENT_SIZE) (56 * 2) = [64, 72, 80, 88, 96, 104] ∧
    try_split example_tight 56 = Except.error Fault.undefined ∧
    more_basic_blocks example_tight = Except.ok (false, example_tight) ∧
    mem_getunlocked example_tight 56 = Except.error Fault.undefined ∧
    call_run example_ctx [Call.setquota 1, Call.setsplit true, Call.get 56]
      = Except.error Fault.undefined :=
  ⟨rfl, rfl, rfl, rfl, by decide, fun _ => rfl, rfl, rfl, rfl, rfl, rfl, rfl⟩

/-! ## Arena growth -/

/-- The table step of `more_basic_blocks`: it fails exactly when the table is
full and the allocation of a longer one fails; otherwise the table has room for
one more chunk. -/
theorem more_basic_blocks_table_cases {ctx c1 : isc_mem} {t : Bool}
    (h : more_basic_blocks_table ctx = (t, c1))
    (hroom : ctx.basic_table_count ≤ ctx.basic_table_size) :
    (t = false ↔ (ctx.basic_table_count = ctx.basic_table_size ∧
      (memalloc ctx.backing
        ((ctx.basic_table_size + TABLE_INCREMENT) * SIZEOF_POINTER)).1 = none)) ∧
    (t = false → c1.basic_table_size = ctx.basic_table_size) ∧
    (t = true → c1.basic_table_count < c1.basic_table_size ∧
      c1.basic_table_size = (if ctx.basic_table_count = ctx.basic_table_size
        then ctx.basic_table_size + TABLE_INCREMENT else ctx.basic_table_size)) := by
  unfold more_basic_blocks_table at h
  by_cases hc : ctx.basic_table_count = ctx.basic_table_size
  · rw [if_pos hc] at h
    dsimp only at h
    rw [if_pos hc]
    generalize memalloc ctx.backing ((ctx.basic_table_size + TABLE_INCREMENT) * SIZEOF_POINTER)
      = a at h
    obtain ⟨o, b⟩ := a
    cases o with
    | none =>
      simp only [Prod.mk.injEq] at h
      obtain ⟨rfl, rfl⟩ := h
      exact ⟨⟨fun _ => ⟨hc, rfl⟩, fun _ => rfl⟩, fun _ => rfl, fun hh => by simp at hh⟩
    | some table =>
      simp only [Prod.mk.injEq] at h
      obtain ⟨rfl, rfl⟩ := h
      refine ⟨⟨fun hh => by simp at hh, fun hh => by simp at hh⟩, fun hh => by simp at hh,
        fun _ => ⟨?_, rfl⟩⟩
      show ctx.basic_table_count < ctx.basic_table_size + TABLE_INCREMENT
      simp only [TABLE_INCREMENT]
      omega
  · rw [if_neg hc] at h
    rw [if_neg hc]
    simp only [Prod.mk.injEq] at h
    obtain ⟨rfl, rfl⟩ := h
    exact ⟨⟨fun hh => by simp at hh, fun hh => absurd hh.1 hc⟩, fun _ => rfl,
      fun _ => ⟨by omega, rfl⟩⟩

/-- The chunk step of `more_basic_blocks`: it fails exactly when the backing
allocator has no chunk, and then leaves the arena as it is; otherwise the chunk
is recorded behind the chunks there, its 64 blocks are the idle list, and
`lowest` and `highest` take the chunk in. -/
theorem more_basic_blocks_chunk_cases {ctx c' : isc_mem} {r : Bool}
    (h : more_basic_blocks_chunk ctx = (r, c')) (hmt : 0 < ctx.mem_target)
    (hlen : ctx.basic_table_count = ctx.basic_table.length) :
    (r = false ↔ (memalloc ctx.backing (NUM_BASIC_BLOCKS * ctx.mem_target)).1 = none) ∧
    c'.basic_table_size = ctx.basic_table_size ∧
    (r = false → same_arena ctx c') ∧
    (r = true → ∃ new,
      (memalloc ctx.backing (NUM_BASIC_BLOCKS * ctx.mem_target)).1 = some new ∧
      c'.total = ctx.total + NUM_BASIC_BLOCKS * ctx.mem_target ∧
      c'.basic_table_count = ctx.basic_table_count + 1 ∧
      c'.basic_table = ctx.basic_table ++ [new] ∧
      c'.basic_blocks = (List.range NUM_BASIC_BLOCKS).map (fun k => new + k * ctx.mem_target) ∧
      ∃ lo hi, c'.lowest = some lo ∧ c'.highest = some hi ∧
        lo ≤ new ∧ new + NUM_BASIC_BLOCKS * ctx.mem_target - 1 ≤ hi ∧
        (lo = new ∨ ctx.lowest = some lo) ∧
        (hi = new + NUM_BASIC_BLOCKS * ctx.mem_target - 1 ∨ ctx.highest = some hi) ∧
        (∀ l, ctx.lowest = some l → lo ≤ l) ∧ (∀ g, ctx.highest = some g → g ≤ hi)) := by
  unfold more_basic_blocks_chunk at h
  dsimp only at h
  generalize memalloc ctx.backing (NUM_BASIC_BLOCKS * ctx.mem_target) = a at h
  obtain ⟨o, b⟩ := a
  cases o with
  | none =>
    simp only [Prod.mk.injEq] at h
    obtain ⟨rfl, rfl⟩ := h
    exact ⟨⟨fun _ => rfl, fun _ => rfl⟩, rfl, fun _ => by constructor <;> rfl,
      fun hh => by simp at hh⟩
  | some new =>
    simp only [Prod.mk.injEq] at h
    obtain ⟨rfl, rfl⟩ := h
    have htake : ctx.basic_table.take ctx.basic_table_count = ctx.basic_table := by
      rw [hlen]
      exact List.take_length ctx.basic_table
    refine ⟨⟨fun hh => by simp at hh, fun hh => by simp at hh⟩, rfl, fun hh => by simp at hh,
      fun _ => ⟨new, rfl, rfl, rfl, ?_, rfl, ?_⟩⟩
    · show ctx.basic_table.take ctx.basic_table_count ++ [new] = _
      rw [htake]
    · have hlast : 0 < new + NUM_BASIC_BLOCKS * ctx.mem_target - 1 := by
        simp only [NUM_BASIC_BLOCKS]
        omega
      dsimp only
      cases hl : ctx.lowest with
      | none =>
        cases hh : ctx.highest with
        | none =>
          refine ⟨new, new + NUM_BASIC_BLOCKS * ctx.mem_target - 1, rfl, ?_, Nat.le_refl _,
            Nat.le_refl _, Or.inl rfl, Or.inl rfl, fun l hl' => by simp at hl',
            fun g hg => by simp at hg⟩
          show (if new + NUM_BASIC_BLOCKS * ctx.mem_target - 1 > (none : Option Nat).getD 0
            then some (new + NUM_BASIC_BLOCKS * ctx.mem_target - 1) else none) = _
          exact if_pos hlast
        | some g =>
          by_cases hg : new + NUM_BASIC_BLOCKS * ctx.mem_target - 1 > g
          · refine ⟨new, new + NUM_BASIC_BLOCKS * ctx.mem_target - 1, rfl, ?_, Nat.le_refl _,
              Nat.le_refl _, Or.inl rfl, Or.inl rfl, fun l hl' => by simp at hl',
              fun g' hg' => ?_⟩
            · show (if new + NUM_BASIC_BLOCKS * ctx.mem_target - 1 > (some g).getD 0
                then some (new + NUM_BASIC_BLOCKS * ctx.mem_target - 1) else some g) = _
              exact if_pos hg
            · simp only [Option.some.injEq] at hg'
              omega
          · refine ⟨new, g, rfl, ?_, Nat.le_refl _, by omega, Or.inl rfl, Or.inr rfl,
              fun l hl' => by simp at hl', fun g' hg' => ?_⟩
            · show (if new + NUM_BASIC_BLOCKS * ctx.mem_target - 1 > (some g).getD 0
                then some (new + NUM_BASIC_BLOCKS * ctx.mem_target - 1) else some g) = _
              exact if_neg hg
            · simp only [Option.some.injEq] at hg'
              omega
      | some l =>
        have hlow : ∃ lo, (if new < l then some new else some l) = some lo ∧ lo ≤ new ∧
            (lo = new ∨ some l = some lo) ∧ ∀ l', some l = some l' → lo ≤ l' := by
          by_cases hn : new < l
          · rw [if_pos hn]
            refine ⟨new, rfl, Nat.le_refl _, Or.inl rfl, fun l' hl' => ?_⟩
            simp only [Option.some.injEq] at hl'
            omega
          · rw [if_neg hn]
            refine ⟨l, rfl, by omega, Or.inr rfl, fun l' hl' => ?_⟩
            simp only [Option.some.injEq] at hl'
            omega
        obtain ⟨lo, e1, e2, e3, e4⟩ := hlow
        cases hh : ctx.highest with
        | none =>
          refine ⟨lo, new + NUM_BASIC_BLOCKS * ctx.mem_target - 1, e1, ?_, e2, Nat.le_refl _,
            e3, Or.inl rfl, e4, fun g hg => by simp at hg⟩
          show (if new + NUM_BASIC_BLOCKS * ctx.mem_target - 1 > (none : Option Nat).getD 0
            then some (new + NUM_BASIC_BLOCKS * ctx.mem_target - 1) else none) = _
          exact if_pos hlast
        | some g =>
          by_cases hg : new + NUM_BASIC_BLOCKS * ctx.mem_target - 1 > g
          · refine ⟨lo, new + NUM_BASIC_BLOCKS * ctx.mem_target - 1, e1, ?_, e2, Nat.le_refl _,
              e3, Or.inl rfl, e4, fun g' hg' => ?_⟩
            · show (if new + NUM_BASIC_BLOCKS * ctx.mem_target - 1 > (some g).getD 0
                then some (new + NUM_BASIC_BLOCKS * ctx.mem_target - 1) else some g) = _
              exact if_pos hg
            · simp only [Option.some.injEq] at hg'
              omega
          · refine ⟨lo, g, e1, ?_, e2, by omega, e3, Or.inr rfl, e4, fun g' hg' => ?_⟩
            · show (if new + NUM_BASIC_BLOCKS * ctx.mem_target - 1 > (some g).getD 0
                then some (new + NUM_BASIC_BLOCKS * ctx.mem_target - 1) else some g) = _
              exact if_neg hg
            · simp only [Option.some.injEq] at hg'
              omega

/-- What `more_basic_blocks` does to the modelled state, on a context with
`mem_target` above 0 whose chunk table holds `basic_table_count` entries and
has passed the `INSIST` on its size.  The idle list of the model is the list
of the addresses at which the loop stores its links. -/
theorem arena_growth_blocks (ctx : isc_mem) (hmt : 0 < ctx.mem_target)
    (hlen : ctx.basic_table_count = ctx.basic_table.length)
    (hroom : ctx.basic_table_count ≤ ctx.basic_table_size) :
    ∃ r c', more_basic_blocks ctx = Except.ok (r, c') ∧
      (r = false ↔
        ((ctx.quota ≠ 0 ∧ ctx.total + NUM_BASIC_BLOCKS * ctx.mem_target > ctx.quota) ∨
          (ctx.basic_table_count = ctx.basic_table_size ∧
            (memalloc ctx.backing
              ((ctx.basic_table_size + TABLE_INCREMENT) * SIZEOF_POINTER)).1 = none) ∨
          (memalloc (more_basic_blocks_table ctx).2.backing
            (NUM_BASIC_BLOCKS * ctx.mem_target)).1 = none)) ∧
      (r = false → same_arena ctx c') ∧
      (r = true → ∃ new,
        (memalloc (more_basic_blocks_table ctx).2.backing
          (NUM_BASIC_BLOCKS * ctx.mem_target)).1 = some new ∧
        c'.total = ctx.total + NUM_BASIC_BLOCKS * ctx.mem_target ∧
        c'.basic_table_count = ctx.basic_table_count + 1 ∧
        c'.basic_table = ctx.basic_table ++ [new] ∧
        c'.basic_table_size = (if ctx.basic_table_count = ctx.basic_table_size
          then ctx.basic_table_size + TABLE_INCREMENT else ctx.basic_table_size) ∧
        c'.basic_blocks
          = (List.range NUM_BASIC_BLOCKS).map (fun k => new + k * ctx.mem_target) ∧
        ∃ lo hi, c'.lowest = some lo ∧ c'.highest = some hi ∧
          lo ≤ new ∧ new + NUM_BASIC_BLOCKS * ctx.mem_target - 1 ≤ hi ∧
          (lo = new ∨ ctx.lowest = some lo) ∧
          (hi = new + NUM_BASIC_BLOCKS * ctx.mem_target - 1 ∨ ctx.highest = some hi) ∧
          (∀ l, ctx.lowest = some l → lo ≤ l) ∧ (∀ g, ctx.highest = some g → g ≤ hi)) := by
  by_cases hq : ctx.quota ≠ 0 ∧ ctx.total + NUM_BASIC_BLOCKS * ctx.mem_target > ctx.quota
  · refine ⟨false, ctx, ?_, ⟨fun _ => Or.inl hq, fun _ => rfl⟩, fun _ => same_arena_refl _,
      fun hh => by simp at hh⟩
    unfold more_basic_blocks
    rw [if_pos hq]
  · cases ht : more_basic_blocks_table ctx with
    | mk t c1 =>
      obtain ⟨k1, -, k3⟩ := more_basic_blocks_table_frame ht
      obtain ⟨t1, -, t3⟩ := more_basic_blocks_table_cases ht hroom
      have hmbb : more_basic_blocks ctx
          = (match (t, c1) with
            | (false, ctx1) => Except.ok (false, ctx1)
            | (true, ctx1) => Except.ok (more_basic_blocks_chunk ctx1)) := by
        unfold more_basic_blocks
        rw [if_neg hq, if_neg (by omega), ht]
      cases t with
      | false =>
        refine ⟨false, c1, hmbb, ⟨fun _ => Or.inr (Or.inl (t1.mp rfl)), fun _ => rfl⟩,
          fun _ => k3, fun hh => by simp at hh⟩
      | true =>
        have htf : ¬ (ctx.basic_table_count = ctx.basic_table_size ∧
            (memalloc ctx.backing
              ((ctx.basic_table_size + TABLE_INCREMENT) * SIZEOF_POINTER)).1 = none) := by
          intro hh
          have := t1.mpr hh
          simp at this
        obtain ⟨-, hsize⟩ := t3 rfl
        cases hk : more_basic_blocks_chunk c1 with
        | mk r c' =>
          have hmt1 : 0 < c1.mem_target := by rw [k1.mem_target]; exact hmt
          have hlen1 : c1.basic_table_count = c1.basic_table.length := by
            rw [k3.basic_table_count, k3.basic_table]
            exact hlen
          obtain ⟨c1', c2', c3', c4'⟩ := more_basic_blocks_chunk_cases hk hmt1 hlen1
          rw [k1.mem_target] at c1' c4'
          rw [k3.total, k3.basic_table_count, k3.basic_table, k3.lowest, k3.highest] at c4'
          refine ⟨r, c', ?_, ⟨fun hr => Or.inr (Or.inr (c1'.mp hr)), fun hh => ?_⟩,
            fun hr => same_arena_trans k3 (c3' hr), fun hr => ?_⟩
          · rw [hmbb]
            show Except.ok (more_basic_blocks_chunk c1) = _
            rw [hk]
          · rcases hh with h1 | h1 | h1
            · exact absurd h1 hq
            · exact absurd h1 htf
            · exact c1'.mpr h1
          · obtain ⟨new, a1, a2, a3, a4, a5, a6⟩ := c4' hr
            exact ⟨new, a1, a2, a3, a4, by rw [c2', hsize], a5, a6⟩

/-- On a context whose basic blocks hold a pointer (`mem_target` at least 8),
with `total + 64 * mem_target` in the range of a `size_t`, whose chunk table
holds `basic_table_count` entries and has passed the `INSIST` on its size:
`more_basic_blocks` returns, and it returns false exactly when the quota is
not 0 and `total + 64 * mem_target` exceeds it, or the table is full and the
allocation of a longer table fails, or the allocation of the chunk fails; it
then leaves `total`, the chunk table and its count, the idle list and
`lowest`/`highest` as they were.  When it returns true, `total` has grown by
`64 * mem_target`, the chunk is the last entry of the table behind the entries
there (the table 1024 entries longer if it was full), the idle list is the 64
blocks at `chunk + k * mem_target`, `k` from 0 to 63 in this order, each link
inside its block, and `lowest`/`highest` are the old bounds widened to hold
the chunk. -/
theorem arena_growth (ctx : isc_mem) (h8 : SIZEOF_POINTER ≤ ctx.mem_target)
    (htotal : ctx.total + NUM_BASIC_BLOCKS * ctx.mem_target < 2 ^ SIZE_BITS)
    (hlen : ctx.basic_table_count = ctx.basic_table.length)
    (hroom : ctx.basic_table_count ≤ ctx.basic_table_size) :
    ∃ r c', more_basic_blocks ctx = Except.ok (r, c') ∧
      (r = false ↔
        ((ctx.quota ≠ 0 ∧ ctx.total + NUM_BASIC_BLOCKS * ctx.mem_target > ctx.quota) ∨
          (ctx.basic_table_count = ctx.basic_table_size ∧
            (memalloc ctx.backing
              ((ctx.basic_table_size + TABLE_INCREMENT) * SIZEOF_POINTER)).1 = none) ∨
          (memalloc (more_basic_blocks_table ctx).2.backing
            (NUM_BASIC_BLOCKS * ctx.mem_target)).1 = none)) ∧
      (r = false → same_arena ctx c') ∧
      (r = true → ∃ new,
        (memalloc (more_basic_blocks_table ctx).2.backing
          (NUM_BASIC_BLOCKS * ctx.mem_target)).1 = some new ∧
        c'.total = ctx.total + NUM_BASIC_BLOCKS * ctx.mem_target ∧
        c'.basic_table_count = ctx.basic_table_count + 1 ∧
        c'.basic_table = ctx.basic_table ++ [new] ∧
        c'.basic_table_size = (if ctx.basic_table_count = ctx.basic_table_size
          then ctx.basic_table_size + TABLE_INCREMENT else ctx.basic_table_size) ∧
        c'.basic_blocks
          = (List.range NUM_BASIC_BLOCKS).map (fun k => new + k * ctx.mem_target) ∧
        ∃ lo hi, c'.lowest = some lo ∧ c'.highest = some hi ∧
          lo ≤ new ∧ new + NUM_BASIC_BLOCKS * ctx.mem_target - 1 ≤ hi ∧
          (lo = new ∨ ctx.lowest = some lo) ∧
          (hi = new + NUM_BASIC_BLOCKS * ctx.mem_target - 1 ∨ ctx.highest = some hi) ∧
          (∀ l, ctx.lowest = some l → lo ≤ l) ∧ (∀ g, ctx.highest = some g → g ≤ hi)) ∧
      c'.total < 2 ^ SIZE_BITS ∧
      (∀ k, k < NUM_BASIC_BLOCKS →
        k * ctx.mem_target + SIZEOF_POINTER ≤ (k + 1) * ctx.mem_target) := by
  have hmt : 0 < ctx.mem_target := by
    unfold SIZEOF_POINTER at h8
    omega
  obtain ⟨r, c', h1, h2, h3, h4⟩ := arena_growth_blocks ctx hmt hlen hroom
  refine ⟨r, c', h1, h2, h3, h4, ?_, fun k _ => ?_⟩
  · cases r with
    | false =>
      have e := (h3 rfl).total
      have hle : ctx.total < 2 ^ SIZE_BITS := Nat.lt_of_le_of_lt (Nat.le_add_right _ _) htotal
      omega
    | true =>
      obtain ⟨new, -, e, -⟩ := h4 rfl
      rw [e]
      exact htotal
  · have e : (k + 1) * ctx.mem_target = k * ctx.mem_target + ctx.mem_target := by ring
    rw [e]
    omega

theorem arena_growth_witness :
    SIZEOF_POINTER ≤ example_ctx.mem_target ∧
    example_ctx.total + NUM_BASIC_BLOCKS * example_ctx.mem_target < 2 ^ SIZE_BITS ∧
    example_ctx.basic_table_count = example_ctx.basic_table.length ∧
    example_ctx.basic_table_count ≤ example_ctx.basic_table_size ∧
    (∃ c', more_basic_blocks example_ctx = Except.ok (true, c') ∧
      c'.total = 8192 ∧ c'.basic_table = [65536] ∧ c'.basic_table_size = 1024 ∧
      c'.basic_blocks.length = 64 ∧ c'.basic_blocks.take 3 = [65536, 65664, 65792] ∧
      c'.lowest = some 65536 ∧ c'.highest = some 73727) ∧
    more_basic_blocks example_tight = Except.ok (false, example_tight) ∧
    (∃ c', more_basic_blocks example_quota_short = Except.ok (false, c') ∧
      c'.total = 0 ∧ c'.basic_table = []) ∧
    ∃ r c', more_basic_blocks example_ctx = Except.ok (r, c') ∧
      (r = false ↔
        ((example_ctx.quota ≠ 0 ∧ example_ctx.total + NUM_BASIC_BLOCKS * example_ctx.mem_target > example_ctx.quota) ∨
          (example_ctx.basic_table_count = example_ctx.basic_table_size ∧
            (memalloc example_ctx.backing
              ((example_ctx.basic_table_size + TABLE_INCREMENT) * SIZEOF_POINTER)).1 = none) ∨
          (memalloc (more_basic_blocks_table example_ctx).2.backing
            (NUM_BASIC_BLOCKS * example_ctx.mem_target)).1 = none)) ∧
      (r = false → same_arena example_ctx c') ∧
      (r = true → ∃ new,
        (memalloc (more_basic_blocks_table example_ctx).2.backing
          (NUM_BASIC_BLOCKS * example_ctx.mem_target)).1 = some new ∧
        c'.total = example_ctx.total + NUM_BASIC_BLOCKS * example_ctx.mem_target ∧
        c'.basic_table_count = example_ctx.basic_table_count + 1 ∧
        c'.basic_table = example_ctx.basic_table ++ [new] ∧
        c'.basic_table_size = (if example_ctx.basic_table_count = example_ctx.basic_table_size
          then example_ctx.basic_table_size + TABLE_INCREMENT else example_ctx.basic_table_size) ∧
        c'.basic_blocks
          = (List.range NUM_BASIC_BLOCKS).map (fun k => new + k * example_ctx.mem_target) ∧
        ∃ lo hi, c'.lowest = some lo ∧ c'.highest = some hi ∧
          lo ≤ new ∧ new + NUM_BASIC_BLOCKS * example_ctx.mem_target - 1 ≤ hi ∧
          (lo = new ∨ example_ctx.lowest = some lo) ∧
          (hi = new + NUM_BASIC_BLOCKS * example_ctx.mem_target - 1 ∨ example_ctx.highest = some hi) ∧
          (∀ l, example_ctx.lowest = some l → lo ≤ l) ∧ (∀ g, example_ctx.highest = some g → g ≤ hi)) ∧
      c'.total < 2 ^ SIZE_BITS ∧
      (∀ k, k < NUM_BASIC_BLOCKS →
        k * example_ctx.mem_target + SIZEOF_POINTER ≤ (k + 1) * example_ctx.mem_target) :=
  ⟨by decide, by decide, rfl, by decide, ⟨_, rfl, rfl, rfl, rfl, rfl, rfl, rfl, rfl⟩, rfl,
    ⟨_, rfl, rfl, rfl⟩, arena_growth example_ctx (by decide) (by decide) rfl (by decide)⟩

/-- C29: on the context made with `init_max_size` 64 and `target_size` 4,
`more_basic_blocks` succeeds with a chunk of 256 bytes at 65536, last byte
65791, and its loop visits the 64 block addresses `65536 + 4 * k`, storing at
each a link of 8 bytes.  The blocks are 4 bytes apart: the link stored at one
block covers the next block, where the following store overwrites its upper
half, and the last store, at 65788, ends at byte 65795, 4 bytes behind the
chunk.  The chain left in memory is not the list of the 64 blocks. -/
theorem arena_blocks_overlap :
    isc_mem_createx 200 64 4 example_backing true
      = (isc_result.ISC_R_SUCCESS, some example_narrow, example_narrow.backing) ∧
    example_narrow.mem_target = 4 ∧ SIZEOF_POINTER = 8 ∧
    more_basic_blocks example_narrow = Except.ok (true, example_narrow_grown) ∧
    example_narrow_grown.basic_table = [65536] ∧ example_narrow_grown.total = 256 ∧
    example_narrow_grown.lowest = some 65536 ∧ example_narrow_grown.highest = some 65791 ∧
    example_narrow_grown.basic_blocks = (List.range 64).map (fun k => 65536 + k * 4) ∧
    example_narrow_grown.basic_blocks.take 3 = [65536, 65540, 65544] ∧
    example_narrow_grown.basic_blocks.getLast? = some 65788 ∧
    65540 < 65536 + SIZEOF_POINTER ∧
    65791 < 65788 + SIZEOF_POINTER - 1 :=
  ⟨rfl, rfl, rfl, rfl, rfl, rfl, rfl, rfl, by decide, by decide, by decide, by decide,
    by decide⟩

/-! ## The room in the chunk table -/

theorem split_table {ctx c' : isc_mem} {size new_size : Nat}
    (h : split ctx size new_size = Except.ok c') :
    c'.basic_table_size = ctx.basic_table_size ∧
    c'.basic_table_count = ctx.basic_table_count := by
  unfold split at h
  cases hb : ctx.freelists size with
  | nil => rw [hb] at h; simp at h
  | cons ptr rest =>
    rw [hb] at h
    simp only [Except.ok.injEq] at h
    subst h
    exact ⟨rfl, rfl⟩

theorem more_basic_blocks_chunk_size {ctx c' : isc_mem} {r : Bool}
    (h : more_basic_blocks_chunk ctx = (r, c')) :
    c'.basic_table_size = ctx.basic_table_size ∧
    c'.basic_table_count = ctx.basic_table_count + (if r = true then 1 else 0) := by
  unfold more_basic_blocks_chunk at h
  dsimp only at h
  generalize memalloc ctx.backing (NUM_BASIC_BLOCKS * ctx.mem_target) = a at h
  obtain ⟨o, b⟩ := a
  cases o <;>
  · simp only [Prod.mk.injEq] at h
    obtain ⟨rfl, rfl⟩ := h
    exact ⟨rfl, rfl⟩

theorem more_basic_blocks_room {ctx c' : isc_mem} {r : Bool}
    (hroom : ctx.basic_table_count ≤ ctx.basic_table_size)
    (h : more_basic_blocks ctx = Except.ok (r, c')) :
    c'.basic_table_count ≤ c'.basic_table_size := by
  unfold more_basic_blocks at h
  by_cases hq : ctx.quota ≠ 0 ∧ ctx.total + NUM_BASIC_BLOCKS * ctx.mem_target > ctx.quota
  · rw [if_pos hq] at h
    simp only [Except.ok.injEq, Prod.mk.injEq] at h
    obtain ⟨-, rfl⟩ := h
    exact hroom
  · rw [if_neg hq, if_neg (by omega)] at h
    cases ht : more_basic_blocks_table ctx with
    | mk t c1 =>
      rw [ht] at h
      obtain ⟨-, -, k3⟩ := more_basic_blocks_table_frame ht
      obtain ⟨-, t2, t3⟩ := more_basic_blocks_table_cases ht hroom
      cases t with
      | false =>
        simp only [Except.ok.injEq, Prod.mk.injEq] at h
        obtain ⟨-, rfl⟩ := h
        rw [t2 rfl, k3.basic_table_count]
        exact hroom
      | true =>
        simp only [Except.ok.injEq] at h
        obtain ⟨s1, s2⟩ := more_basic_blocks_chunk_size h
        obtain ⟨hlt, -⟩ := t3 rfl
        rw [s1, s2]
        split <;> omega

theorem more_frags_room {ctx c' : isc_mem} {new_size : Nat} {r : Bool}
    (hroom : ctx.basic_table_count ≤ ctx.basic_table_size)
    (h : more_frags ctx new_size = Except.ok (r, c')) :
    c'.basic_table_count ≤ c'.basic_table_size := by
  have hchop : ∀ c1 : isc_mem, c1.basic_table_count ≤ c1.basic_table_size →
      more_frags_chop c1 new_size = Except.ok (r, c') →
      c'.basic_table_count ≤ c'.basic_table_size := by
    intro c1 h1 hc
    obtain ⟨new, rest, -, -, -, rfl⟩ := more_frags_chop_inv hc
    exact h1
  unfold more_frags at h
  by_cases he : ctx.basic_blocks = []
  · rw [if_pos he] at h
    cases hm : more_basic_blocks ctx with
    | error e => rw [hm] at h; simp at h
    | ok p =>
      obtain ⟨r1, ctx1⟩ := p
      rw [hm] at h
      have h1 := more_basic_blocks_room hroom hm
      cases r1
      · rcases try_split_inv h with ⟨-, rfl⟩ | ⟨-, -, i, -, hs⟩
        · exact h1
        · obtain ⟨s1, s2⟩ := split_table hs
          rw [s1, s2]
          exact h1
      · exact hchop ctx1 h1 h
  · rw [if_neg he] at h
    exact hchop ctx hroom h

theorem mem_getunlocked_room {ctx c' : isc_mem} {size : Nat} {r : Option Nat}
    (hroom : ctx.basic_table_count ≤ ctx.basic_table_size)
    (h : mem_getunlocked ctx size = Except.ok (r, c')) :
    c'.basic_table_count ≤ c'.basic_table_size := by
  have hpop : ∀ c1 : isc_mem, c1.basic_table_count ≤ c1.basic_table_size →
      mem_get_pop c1 size (quantize size) = Except.ok (r, c') →
      c'.basic_table_count ≤ c'.basic_table_size := by
    intro c1 h1 hp
    obtain ⟨p, rest, -, -, rfl⟩ := mem_get_pop_inv hp
    exact h1
  unfold mem_getunlocked at h
  dsimp only at h
  by_cases hl : size ≥ ctx.max_size ∨ quantize size ≥ ctx.max_size
  · rw [if_pos hl] at h
    simp only [Except.ok.injEq] at h
    unfold mem_get_large at h
    by_cases hg : ctx.quota ≠ 0 ∧ ctx.total + size > ctx.quota
    · rw [if_pos hg] at h
      simp only [Prod.mk.injEq] at h
      obtain ⟨-, rfl⟩ := h
      exact hroom
    · rw [if_neg hg] at h
      generalize memalloc ctx.backing size = a at h
      obtain ⟨o, b⟩ := a
      cases o <;>
      · simp only [Prod.mk.injEq] at h
        obtain ⟨-, rfl⟩ := h
        exact hroom
  · rw [if_neg hl] at h
    by_cases he : ctx.freelists (quantize size) = []
    · rw [if_pos he] at h
      cases hm : more_frags ctx (quantize size) with
      | error e => rw [hm] at h; simp at h
      | ok p =>
        obtain ⟨r1, c1⟩ := p
        rw [hm] at h
        have h1 := more_frags_room hroom hm
        cases r1
        · simp only [Except.ok.injEq, Prod.mk.injEq] at h
          obtain ⟨-, rfl⟩ := h
          exact h1
        · exact hpop c1 h1 h
    · rw [if_neg he] at h
      exact hpop ctx hroom h

theorem call_run_room : ∀ (calls : List Call) {ctx cN : isc_mem},
    ctx.basic_table_count ≤ ctx.basic_table_size → call_run ctx calls = Except.ok cN →
    cN.basic_table_count ≤ cN.basic_table_size := by
  intro calls
  induction calls with
  | nil =>
    intro ctx cN hroom h
    simp only [call_run, Except.ok.injEq] at h
    subst h
    exact hroom
  | cons c cs ih =>
    intro ctx cN hroom h
    obtain ⟨c1, hs, hrest⟩ := call_run_cons_inv h
    refine ih ?_ hrest
    obtain ⟨-, hcase⟩ := call_step_inv hs
    rcases hcase with ⟨size, r, -, hg⟩ | ⟨mem, size, -, hp⟩ | ⟨q, -, rfl⟩ | ⟨f, -, rfl⟩ |
      ⟨f, -, rfl⟩
    · exact mem_getunlocked_room hroom hg
    · rcases mem_putunlocked_inv hp with ⟨-, -, -, rfl⟩ | ⟨-, -, -, rfl⟩
      · exact hroom
      · exact hroom
    · exact hroom
    · exact hroom
    · exact hroom

/-- Every context reached from `isc_mem_createx` by gets, puts and setter calls
has `mem_target` above 0, a chunk table holding `basic_table_count` entries, and
room for them. -/
theorem call_run_arena_ready {sizeof_ctx init_max_size target_size : Nat} {b b' : Backing}
    {mutex_ok : Bool} {ctx0 ctx : isc_mem} (calls : List Call)
    (hc : isc_mem_createx sizeof_ctx init_max_size target_size b mutex_ok
      = (isc_result.ISC_R_SUCCESS, some ctx0, b'))
    (hrun : call_run ctx0 calls = Except.ok ctx) :
    0 < ctx.mem_target ∧ ctx.basic_table_count = ctx.basic_table.length ∧
    ctx.basic_table_count ≤ ctx.basic_table_size := by
  obtain ⟨hb0, -⟩ := createx_bounds hc
  have hb := call_run_bounds calls hb0 hrun
  have hf := createx_fresh hc
  have h0 : ctx0.basic_table_count ≤ ctx0.basic_table_size := by
    rw [hf.basic_table_count]
    exact Nat.zero_le _
  exact ⟨hb.2.1, hb.2.2.1, call_run_room calls h0 hrun⟩

/-! ## Splitting is off until it is switched on -/

theorem call_step_trysplit {ctx c1 : isc_mem} {c : Call} (h : call_step ctx c = Except.ok c1)
    (hc : c ≠ Call.setsplit true) (ht : ctx.trysplit = false) : c1.trysplit = false := by
  obtain ⟨-, hcase⟩ := call_step_inv h
  rcases hcase with ⟨size, r, -, hg⟩ | ⟨mem, size, -, hp⟩ | ⟨q, -, rfl⟩ | ⟨f, rfl, rfl⟩ |
    ⟨f, -, rfl⟩
  · obtain ⟨k, -⟩ := mem_getunlocked_counts hg
    rw [k.trysplit]
    exact ht
  · obtain ⟨k, -⟩ := mem_putunlocked_counts hp
    rw [k.trysplit]
    exact ht
  · exact ht
  · cases f with
    | false => rfl
    | true => exact absurd rfl hc
  · exact ht

theorem call_run_trysplit : ∀ (calls : List Call) {ctx cN : isc_mem},
    Call.setsplit true ∉ calls → ctx.trysplit = false → call_run ctx calls = Except.ok cN →
    cN.trysplit = false := by
  intro calls
  induction calls with
  | nil =>
    intro ctx cN _ ht h
    simp only [call_run, Except.ok.injEq] at h
    subst h
    exact ht
  | cons c cs ih =>
    intro ctx cN hn ht h
    obtain ⟨c1, hs, hrest⟩ := call_run_cons_inv h
    have h1 : c ≠ Call.setsplit true := fun e => hn (by rw [e]; exact List.mem_cons_self _ _)
    have h2 : Call.setsplit true ∉ cs := fun e => hn (List.mem_cons_of_mem _ e)
    exact ih h2 (call_step_trysplit hs h1 ht) hrest

/-- C40: the context `isc_mem_createx` returns has splitting off and leak
checking on.  After any sequence of calls without `isc_mem_setsplit` with true
that runs, splitting is still off: `try_split` returns false for every size and
leaves the context as it is, and a small get that finds its free list empty,
no idle basic block and arena growth refused returns `NULL`, whatever the other
free lists hold; these stay as they are. -/
theorem split_off_by_default (sizeof_ctx init_max_size target_size : Nat) (b b' : Backing)
    (mutex_ok : Bool) (ctx0 ctx : isc_mem) (calls : List Call)
    (hc : isc_mem_createx sizeof_ctx init_max_size target_size b mutex_ok
      = (isc_result.ISC_R_SUCCESS, some ctx0, b'))
    (hn : Call.setsplit true ∉ calls)
    (hrun : call_run ctx0 calls = Except.ok ctx) :
    ctx0.trysplit = false ∧ ctx0.checkfree = true ∧ ctx.trysplit = false ∧
    (∀ n, try_split ctx n = Except.ok (false, ctx)) ∧
    (∀ s c1, s < ctx.max_size → quantize s < ctx.max_size →
      ctx.freelists (quantize s) = [] → ctx.basic_blocks = [] →
      more_basic_blocks ctx = Except.ok (false, c1) →
      mem_getunlocked ctx s = Except.ok (none, c1) ∧ c1.freelists = ctx.freelists ∧
      c1.stats = ctx.stats ∧ c1.inuse = ctx.inuse ∧ c1.total = ctx.total) := by
  have hf := createx_fresh hc
  have ht := call_run_trysplit calls hn hf.trysplit hrun
  refine ⟨hf.trysplit, hf.checkfree, ht, fun n => try_split_off n ht, ?_⟩
  intro s c1 hs hqs he hb hm
  obtain ⟨k1, k2, k3, -⟩ := more_basic_blocks_frame hm
  refine ⟨?_, k2.freelists, k2.stats, k2.inuse, (k3 rfl).total⟩
  have ht1 : c1.trysplit = false := by rw [k1.trysplit]; exact ht
  have hmf : more_frags ctx (quantize s) = Except.ok (false, c1) := by
    unfold more_frags
    rw [if_pos hb, hm]
    exact try_split_off _ ht1
  unfold mem_getunlocked
  dsimp only
  rw [if_neg (by omega), if_pos he, hmf]

theorem split_off_by_default_witness :
    isc_mem_createx 200 64 128 example_backing true
      = (isc_result.ISC_R_SUCCESS, some example_ctx, example_ctx.backing) ∧
    Call.setsplit true ∉ example_unsplit_calls ∧
    call_run example_ctx example_unsplit_calls = Except.ok example_unsplit ∧
    example_unsplit.freelists 56 = [65536] ∧ example_unsplit.freelists (quantize 8) = [] ∧
    example_unsplit.basic_blocks = [] ∧
    more_basic_blocks example_unsplit = Except.ok (false, example_unsplit) ∧
    mem_getunlocked example_unsplit 8 = Except.ok (none, example_unsplit) ∧
    (example_ctx.trysplit = false ∧ example_ctx.checkfree = true ∧
    example_unsplit.trysplit = false ∧
    (∀ n, try_split example_unsplit n = Except.ok (false, example_unsplit)) ∧
    (∀ s c1, s < example_unsplit.max_size → quantize s < example_unsplit.max_size →
      example_unsplit.freelists (quantize s) = [] → example_unsplit.basic_blocks = [] →
      more_basic_blocks example_unsplit = Except.ok (false, c1) →
      mem_getunlocked example_unsplit s = Except.ok (none, c1) ∧
      c1.freelists = example_unsplit.freelists ∧
      c1.stats = example_unsplit.stats ∧ c1.inuse = example_unsplit.inuse ∧
      c1.total = example_unsplit.total)) :=
  ⟨rfl, by decide, rfl, rfl, rfl, rfl, rfl, rfl,
    split_off_by_default 200 64 128 example_backing example_ctx.backing true example_ctx
      example_unsplit example_unsplit_calls rfl (by decide) rfl⟩

/-! ## The large-request tests of get and put -/

/-- In the range where `quantize` rounds up, and for the size 0, the tests of
get and put agree. -/
theorem classify_same (max_size size : Nat) (h : size + 7 < 2 ^ 31) :
    get_large max_size size ↔ put_large max_size size := by
  unfold get_large put_large
  by_cases h0 : size = 0
  · subst h0
    rw [quantize_zero]
    omega
  · obtain ⟨-, hq, -⟩ := quantize_small_least size (by omega) h
    omega

/-- C34: the tests of get and put do not agree on every size.  For a size of
`2 ^ 32` and `max_size` 64, `quantize` returns 0: the test of get holds by
`size >= max_size`, the test of put (`size == max_size` or
`quantize (size) >= max_size`) does not, and the put of the block that the large
path of get returned takes the small path and reads slot `2 ^ 32` of the
statistics table. -/
theorem classify_differs :
    quantize 4294967296 = 0 ∧
    get_large 64 4294967296 ∧ ¬ put_large 64 4294967296 ∧
    ¬ (get_large 64 4294967296 ↔ put_large 64 4294967296) ∧
    example_ctx.max_size = 64 ∧
    (∃ c, mem_getunlocked example_ctx 4294967296 = Except.ok (some 16384, c) ∧
      (c.stats c.max_size).gets = 1 ∧
      mem_putunlocked c 16384 4294967296 = Except.error Fault.undefined) := by
  refine ⟨by decide, by decide, by decide, by decide, rfl, ⟨_, rfl, rfl, rfl⟩⟩

/-! ## The free-fragment counter -/

/-- C33: on the context made with `init_max_size` 200 and `target_size` 128, a
get of 136 bytes and the put of the block leave one fragment on free list 136
while `freefrags` of the class is 0; between the two calls the list is empty
and the counter is `2 ^ 64 - 1`. -/
theorem freefrags_miscounts :
    isc_mem_createx 200 200 128 example_backing true
      = (isc_result.ISC_R_SUCCESS, some example_wide, example_wide.backing) ∧
    (∃ c1, call_run example_wide [Call.get 136] = Except.ok c1 ∧
      c1.freelists 136 = [] ∧ (c1.stats 136).freefrags = 2 ^ 64 - 1) ∧
    (∃ c2, call_run example_wide example_wide_pair = Except.ok c2 ∧
      c2.freelists 136 = [65536] ∧ (c2.stats 136).freefrags = 0 ∧
      ¬ (c2.stats 136).freefrags = (c2.freelists 136).length) :=
  ⟨rfl, ⟨_, rfl, rfl, rfl⟩, ⟨_, rfl, rfl, rfl, by decide⟩⟩

/-! ## The count of the private free list -/

theorem stats_get_put (st : Nat → stats) (s ns : Nat) (hg : ∀ k, (st k).freefrags < 2 ^ 64) :
    modify (modify (modify (modify st s stats.count_get) ns stats.freefrags_dec) s
        stats.gets_dec) ns (fun t => t.freefrags_add 1)
      = modify st s (fun t => { t with totalgets := t.totalgets + 1 }) := by
  have hw : ∀ x, x < 2 ^ 64 → wadd (wdec x) 1 = x := by
    intro x hx
    unfold wadd wdec wsub
    simp only [SIZE_BITS]
    split <;> omega
  have hd : ∀ x : Nat, wdec (x + 1) = x := by
    intro x
    unfold wdec wsub
    rw [if_pos (by omega)]
    omega
  funext k
  have hk := hg k
  by_cases h1 : k = ns
  · by_cases h2 : k = s
    · subst h1
      subst h2
      simp [modify, stats.count_get, stats.freefrags_dec, stats.gets_dec,
        stats.freefrags_add, hd, hw _ hk]
    · subst h1
      have h3 : s ≠ k := fun e => h2 e.symm
      simp [modify, h2, h3, stats.freefrags_dec, stats.freefrags_add, hw _ hk]
  · by_cases h2 : k = s
    · subst h2
      have h3 : ns ≠ k := fun e => h1 e.symm
      simp [modify, h1, h3, stats.count_get, stats.gets_dec, hd]
    · simp [modify, h1, h2]

theorem freelists_pop_push (fl : Nat → List Nat) (ns p : Nat) (rest : List Nat)
    (h : fl ns = p :: rest) :
    modify (modify fl ns (fun _ => rest)) ns (fun l => p :: l) = fl := by
  funext k
  by_cases hk : k = ns
  · subst hk
    simp only [modify, if_true]
    exact h.symm
  · simp only [modify, hk, if_false]

/-- On a context with `max_size` not above `mem_target`, so that a fragment
fits a basic block, whose counters `freefrags` are in the range of an
`unsigned long`, for a small size `s` whose class free list is not empty: the
get returns the head of the list, the put of that block with `s` bytes runs,
and the context is then the one before the get in every field, but for
`totalgets` of slot `s`, which is one more. -/
theorem get_put_restores (ctx : isc_mem) (s p : Nat) (rest : List Nat)
    (hs : s < ctx.max_size) (hqs : quantize s < ctx.max_size)
    (hfl : ctx.freelists (quantize s) = p :: rest)
    (hff : ∀ k, (ctx.stats k).freefrags < 2 ^ 64)
    (hle : ctx.max_size ≤ ctx.mem_target) :
    quantize s ≤ ctx.mem_target ∧
    ∃ c1, mem_getunlocked ctx s = Except.ok (some p, c1) ∧
      mem_putunlocked c1 p s = Except.ok
        { ctx with stats := modify ctx.stats s (fun t => { t with totalgets := t.totalgets + 1 }) } ∧
      (modify ctx.stats s (fun t => { t with totalgets := t.totalgets + 1 }) s).totalgets
        = (ctx.stats s).totalgets + 1 ∧
      (∀ k, (modify ctx.stats s (fun t => { t with totalgets := t.totalgets + 1 }) k).gets
          = (ctx.stats k).gets ∧
        (modify ctx.stats s (fun t => { t with totalgets := t.totalgets + 1 }) k).freefrags
          = (ctx.stats k).freefrags ∧
        (modify ctx.stats s (fun t => { t with totalgets := t.totalgets + 1 }) k).blocks
          = (ctx.stats k).blocks) ∧
      (∀ k, k ≠ s →
        modify ctx.stats s (fun t => { t with totalgets := t.totalgets + 1 }) k = ctx.stats k) := by
  have hsmall : ¬ (s ≥ ctx.max_size ∨ quantize s ≥ ctx.max_size) := by omega
  have hne : ctx.freelists (quantize s) ≠ [] := by rw [hfl]; simp
  have hget : mem_getunlocked ctx s = Except.ok (some p,
      { ctx with
        freelists := modify ctx.freelists (quantize s) (fun _ => rest)
        stats := modify (modify ctx.stats s stats.count_get) (quantize s) stats.freefrags_dec
        inuse := ctx.inuse + quantize s }) := by
    rw [mem_getunlocked_nonempty ctx s hsmall hne]
    exact mem_get_pop_cons ctx s (quantize s) p rest hfl
  refine ⟨by omega, _, hget, ?_, ?_, fun k => ?_, fun k hk => modify_other _ _ _ _ hk⟩
  · have hgets : (modify (modify ctx.stats s stats.count_get) (quantize s) stats.freefrags_dec
        s).gets ≠ 0 := by
      rw [modify_gets stats.freefrags_dec (fun _ => rfl)]
      have := (count_get_gets ctx.stats s s).1
      rw [if_pos rfl] at this
      omega
    obtain ⟨-, hput⟩ := mem_putunlocked_small
      { ctx with
        freelists := modify ctx.freelists (quantize s) (fun _ => rest)
        stats := modify (modify ctx.stats s stats.count_get) (quantize s) stats.freefrags_dec
        inuse := ctx.inuse + quantize s } p s hs hqs
    rw [hput hgets]
    dsimp only
    rw [stats_get_put ctx.stats s (quantize s) hff,
      freelists_pop_push ctx.freelists (quantize s) p rest hfl, wsub_le (by omega)]
    have hin : ctx.inuse + quantize s - quantize s = ctx.inuse := by omega
    rw [hin]
  · rw [modify_same]
  · unfold modify
    split
    · next hk => subst hk; exact ⟨rfl, rfl, rfl⟩
    · exact ⟨rfl, rfl, rfl⟩

theorem example_grown_stats (k : Nat) (hk : k ≠ 8) :
    example_grown.stats k = { gets := 0, totalgets := 0, blocks := 0, freefrags := 0 } := by
  show modify (modify (modify example_ctx.stats 8
    (fun s => s.blocks_inc.freefrags_add (128 / 8))) 8 stats.count_get) 8
    stats.freefrags_dec k = _
  simp only [modify, if_neg hk]
  rfl

theorem example_grown_freefrags (k : Nat) : (example_grown.stats k).freefrags < 2 ^ 64 := by
  by_cases hk : k = 8
  · subst hk
    decide
  · rw [example_grown_stats k hk]
    decide

theorem get_put_restores_witness :
    5 < example_grown.max_size ∧ quantize 5 < example_grown.max_size ∧
    example_grown.freelists (quantize 5) = 65544 :: (example_grown.freelists 8).tail ∧
    (∀ k, (example_grown.stats k).freefrags < 2 ^ 64) ∧
    example_grown.max_size ≤ example_grown.mem_target ∧
    quantize 5 ≤ example_grown.mem_target ∧
    ∃ c1, mem_getunlocked example_grown 5 = Except.ok (some 65544, c1) ∧
      mem_putunlocked c1 65544 5 = Except.ok
        { example_grown with
          stats := modify example_grown.stats 5
            (fun t => { t with totalgets := t.totalgets + 1 }) } ∧
      (modify example_grown.stats 5 (fun t => { t with totalgets := t.totalgets + 1 })
        5).totalgets = (example_grown.stats 5).totalgets + 1 ∧
      (∀ k, (modify example_grown.stats 5 (fun t => { t with totalgets := t.totalgets + 1 })
            k).gets = (example_grown.stats k).gets ∧
        (modify example_grown.stats 5 (fun t => { t with totalgets := t.totalgets + 1 })
            k).freefrags = (example_grown.stats k).freefrags ∧
        (modify example_grown.stats 5 (fun t => { t with totalgets := t.totalgets + 1 })
            k).blocks = (example_grown.stats k).blocks) ∧
      (∀ k, k ≠ 5 →
        modify example_grown.stats 5 (fun t => { t with totalgets := t.totalgets + 1 }) k
          = example_grown.stats k) :=
  ⟨by decide, by decide, rfl, example_grown_freefrags, by decide,
    get_put_restores example_grown 5 65544 _ (by decide) (by decide) rfl
      example_grown_freefrags (by decide)⟩

/-- C36: on the context made with `init_max_size` 200 and `target_size` 128,
after a get of 8 bytes, a get of 136 bytes and the put of its block, a get of
16 bytes and the put of its block: free list 136 holds the fragment 65664,
which the code chopped from one basic block of 128 bytes, and free list 16 is
headed by the fragment 65792, the start of the next basic block.  A get of 136
bytes returns 65664; the 136 bytes at 65664 that it hands out, and that the
get and the put fill with `0xbe` and `0xde` (`ISC_MEM_FILL`), reach to 65800
and take in the 8 bytes at 65792 in which free list 16 keeps the link to its
second fragment. -/
theorem get_put_overlap :
    isc_mem_createx 200 200 128 example_backing true
      = (isc_result.ISC_R_SUCCESS, some example_wide, example_wide.backing) ∧
    example_wide.max_size = 200 ∧ example_wide.mem_target = 128 ∧
    call_run example_wide example_overlap_calls = Except.ok example_overlap ∧
    quantize 136 = 136 ∧ 136 < example_overlap.max_size ∧
    example_overlap.mem_target < quantize 136 ∧
    example_overlap.freelists 136 = [65664] ∧
    example_overlap.freelists 16 = (List.range 8).map (fun k => 65792 + k * 16) ∧
    (∃ c1, mem_getunlocked example_overlap 136 = Except.ok (some 65664, c1)) ∧
    65664 ≤ 65792 ∧ 65792 + SIZEOF_POINTER ≤ 65664 + quantize 136 :=
  ⟨rfl, rfl, rfl, rfl, by decide, by decide, by decide, rfl, by decide, ⟨_, rfl⟩,
    by decide, by decide⟩

/-! ## What a split does -/

/-- C31: the split of the head fragment `p` of a class `i` with a fragment
into a needed size `n`, `0 < n < i`, runs: list `i` loses its head; `p` is
linked at the head of list `n` and then `p + n` at the head of list `i - n`,
the two pieces `[p, p + n)` and `[p + n, p + i)` making up the `i` bytes at `p`;
so for `i - n` other than `n` the two lists have the pieces in front of what
they held, and for `i = 2 * n` list `n` has `p + n`, then `p`, in front of what
it held.  `freefrags` of `i` is decremented (the `--` of the unsigned counter:
one less whenever it is positive), `freefrags` of `n` and of `i - n` are one
more each, two more for `i - n = n` (modulo `2 ^ 64`).  `total`, `inuse` and
every counter `gets` and `totalgets` are unchanged. -/
theorem split_effect (ctx : isc_mem) (i n p : Nat) (rest : List Nat)
    (hn : 0 < n) (hlt : n < i) (hfl : ctx.freelists i = p :: rest) :
    ∃ c', split ctx i n = Except.ok c' ∧
      c'.freelists = modify (modify (modify ctx.freelists i (fun _ => rest)) n
        (fun l => p :: l)) (i - n) (fun l => (p + n) :: l) ∧
      c'.freelists i = rest ∧
      (i - n ≠ n → c'.freelists n = p :: ctx.freelists n ∧
        c'.freelists (i - n) = (p + n) :: ctx.freelists (i - n)) ∧
      (i - n = n → c'.freelists n = (p + n) :: p :: ctx.freelists n) ∧
      (∀ k, k ≠ i → k ≠ n → k ≠ i - n → c'.freelists k = ctx.freelists k) ∧
      p + n + (i - n) = p + i ∧
      (c'.stats i).freefrags = wdec (ctx.stats i).freefrags ∧
      (0 < (ctx.stats i).freefrags → (c'.stats i).freefrags + 1 = (ctx.stats i).freefrags) ∧
      (c'.stats n).freefrags
        = ((ctx.stats n).freefrags + (if i - n = n then 2 else 1)) % 2 ^ 64 ∧
      (c'.stats (i - n)).freefrags
        = ((ctx.stats (i - n)).freefrags + (if i - n = n then 2 else 1)) % 2 ^ 64 ∧
      (∀ k, k ≠ i → k ≠ n → k ≠ i - n → (c'.stats k).freefrags = (ctx.stats k).freefrags) ∧
      c'.total = ctx.total ∧ c'.inuse = ctx.inuse ∧
      (∀ k, (c'.stats k).gets = (ctx.stats k).gets ∧
        (c'.stats k).totalgets = (ctx.stats k).totalgets) := by
  have hex : ∃ c', split ctx i n = Except.ok c' := by
    unfold split
    rw [hfl]
    exact ⟨_, rfl⟩
  obtain ⟨c', hs⟩ := hex
  obtain ⟨-, hg, ha, hin, -⟩ := split_frame hs
  obtain ⟨p', rest', hfl', e1, -⟩ := split_inv hs
  rw [hfl] at hfl'
  simp only [List.cons.injEq] at hfl'
  obtain ⟨rfl, rfl⟩ := hfl'
  rw [wsub_le (by omega)] at e1
  obtain ⟨f1, f2, f3, f4, f5⟩ := split_freefrags hs hn hlt
  have hA1 : i ≠ i - n := by omega
  have hA2 : i ≠ n := by omega
  have hBA : n ≠ i := by omega
  have hRA : i - n ≠ i := by omega
  refine ⟨c', hs, e1, ?_, ?_, ?_, ?_, by omega, f1, f2, f3, f4, f5, ha.total, hin, hg⟩
  · rw [e1, modify_other _ _ _ _ hA1, modify_other _ _ _ _ hA2, modify_same]
  · intro hne
    rw [e1]
    constructor
    · rw [modify_other _ _ _ _ (fun e => hne e.symm), modify_same, modify_other _ _ _ _ hBA]
    · rw [modify_same, modify_other _ _ _ _ hne, modify_other _ _ _ _ hRA]
  · intro he
    rw [e1, he, modify_same, modify_same, modify_other _ _ _ _ hBA]
  · intro k h1 h2 h3
    rw [e1, modify_other _ _ _ _ h3, modify_other _ _ _ _ h2, modify_other _ _ _ _ h1]

theorem split_effect_witness :
    0 < 8 ∧ 8 < 56 ∧ example_split_before.freelists 56 = [65536] ∧
    ∃ c', split example_split_before 56 8 = Except.ok c' ∧
      c'.freelists = modify (modify (modify example_split_before.freelists 56 (fun _ => [])) 8
        (fun l => 65536 :: l)) (56 - 8) (fun l => (65536 + 8) :: l) ∧
      c'.freelists 56 = [] ∧
      (56 - 8 ≠ 8 → c'.freelists 8 = 65536 :: example_split_before.freelists 8 ∧
        c'.freelists (56 - 8) = (65536 + 8) :: example_split_before.freelists (56 - 8)) ∧
      (56 - 8 = 8 → c'.freelists 8 = (65536 + 8) :: 65536 :: example_split_before.freelists 8) ∧
      (∀ k, k ≠ 56 → k ≠ 8 → k ≠ 56 - 8 →
        c'.freelists k = example_split_before.freelists k) ∧
      65536 + 8 + (56 - 8) = 65536 + 56 ∧
      (c'.stats 56).freefrags = wdec (example_split_before.stats 56).freefrags ∧
      (0 < (example_split_before.stats 56).freefrags →
        (c'.stats 56).freefrags + 1 = (example_split_before.stats 56).freefrags) ∧
      (c'.stats 8).freefrags
        = ((example_split_before.stats 8).freefrags + (if 56 - 8 = 8 then 2 else 1)) % 2 ^ 64 ∧
      (c'.stats (56 - 8)).freefrags
        = ((example_split_before.stats (56 - 8)).freefrags
            + (if 56 - 8 = 8 then 2 else 1)) % 2 ^ 64 ∧
      (∀ k, k ≠ 56 → k ≠ 8 → k ≠ 56 - 8 →
        (c'.stats k).freefrags = (example_split_before.stats k).freefrags) ∧
      c'.total = example_split_before.total ∧ c'.inuse = example_split_before.inuse ∧
      (∀ k, (c'.stats k).gets = (example_split_before.stats k).gets ∧
        (c'.stats k).totalgets = (example_split_before.stats k).totalgets) :=
  ⟨by decide, by decide, rfl,
    split_effect example_split_before 56 8 65536 [] (by decide) (by decide) rfl⟩

/-! ## The order of the refill attempts -/

/-- C32: for a small get that finds the free list of its class empty.  With
an idle basic block, `more_frags` is the chop of that block alone: the
backing allocator is not called and no other free list changes.  With no idle
block, `more_basic_blocks` is called; when it returns true a block of the new
chunk is chopped, and only when it returns false `try_split` is called.  The
get returns `NULL` exactly when all of this fails, and `total`, `inuse`, the
statistics, the free lists and the idle list are then as they were. -/
theorem refill_order (ctx : isc_mem) (s : Nat)
    (hs : s < ctx.max_size) (hqs : quantize s < ctx.max_size)
    (he : ctx.freelists (quantize s) = []) :
    mem_getunlocked ctx s
      = (match more_frags ctx (quantize s) with
        | Except.error e => Except.error e
        | Except.ok (false, c1) => Except.ok (none, c1)
        | Except.ok (true, c1) => mem_get_pop c1 s (quantize s)) ∧
    (ctx.basic_blocks ≠ [] →
      more_frags ctx (quantize s) = more_frags_chop ctx (quantize s) ∧
      ∀ r c1, more_frags_chop ctx (quantize s) = Except.ok (r, c1) →
        r = true ∧ c1.backing = ctx.backing ∧ c1.total = ctx.total ∧
        c1.basic_table = ctx.basic_table ∧ c1.basic_blocks = ctx.basic_blocks.tail ∧
        ∀ k, k ≠ quantize s → c1.freelists k = ctx.freelists k) ∧
    (ctx.basic_blocks = [] →
      (∀ c1, more_basic_blocks ctx = Except.ok (true, c1) →
        more_frags ctx (quantize s) = more_frags_chop c1 (quantize s) ∧
        c1.freelists = ctx.freelists) ∧
      (∀ c1, more_basic_blocks ctx = Except.ok (false, c1) →
        more_frags ctx (quantize s) = try_split c1 (quantize s)) ∧
      (∀ c1 c2, more_basic_blocks ctx = Except.ok (false, c1) →
        try_split c1 (quantize s) = Except.ok (false, c2) →
        mem_getunlocked ctx s = Except.ok (none, c2) ∧
        c2.total = ctx.total ∧ c2.inuse = ctx.inuse ∧ c2.stats = ctx.stats ∧
        c2.freelists = ctx.freelists ∧ c2.basic_blocks = ctx.basic_blocks)) ∧
    (∀ c', mem_getunlocked ctx s = Except.ok (none, c') →
      ctx.basic_blocks = [] ∧
      ∃ c1, more_basic_blocks ctx = Except.ok (false, c1) ∧
        try_split c1 (quantize s) = Except.ok (false, c')) := by
  have hget : mem_getunlocked ctx s
      = (match more_frags ctx (quantize s) with
        | Except.error e => Except.error e
        | Except.ok (false, c1) => Except.ok (none, c1)
        | Except.ok (true, c1) => mem_get_pop c1 s (quantize s)) := by
    unfold mem_getunlocked
    dsimp only
    rw [if_neg (by omega), if_pos he]
  have hgrow : ∀ c1, ctx.basic_blocks = [] → more_basic_blocks ctx = Except.ok (true, c1) →
      more_frags ctx (quantize s) = more_frags_chop c1 (quantize s) := by
    intro c1 hb hm
    unfold more_frags
    rw [if_pos hb, hm]
  have hsplit : ∀ c1, ctx.basic_blocks = [] → more_basic_blocks ctx = Except.ok (false, c1) →
      more_frags ctx (quantize s) = try_split c1 (quantize s) := by
    intro c1 hb hm
    unfold more_frags
    rw [if_pos hb, hm]
  refine ⟨hget, fun hb => ⟨?_, fun r c1 hc => ?_⟩,
    fun hb => ⟨fun c1 hm => ⟨hgrow c1 hb hm, (more_basic_blocks_frame hm).2.1.freelists⟩,
      fun c1 hm => hsplit c1 hb hm, fun c1 c2 hm ht => ?_⟩, fun c' hnull => ?_⟩
  · unfold more_frags
    rw [if_neg hb]
  · obtain ⟨new, rest, hbb, -, hr, rfl⟩ := more_frags_chop_inv hc
    refine ⟨hr, rfl, rfl, rfl, ?_, fun k hk => ?_⟩
    · show rest = ctx.basic_blocks.tail
      rw [hbb]
      rfl
    · dsimp only
      exact modify_other _ _ _ _ hk
  · obtain ⟨-, k2, k3, -⟩ := more_basic_blocks_frame hm
    have ha := k3 rfl
    rcases try_split_inv ht with ⟨-, rfl⟩ | ⟨hr, -⟩
    · refine ⟨?_, ha.total, k2.inuse, k2.stats, k2.freelists, ha.basic_blocks⟩
      rw [hget, hsplit c2 hb hm, ht]
    · simp at hr
  · rw [hget] at hnull
    cases hm : more_frags ctx (quantize s) with
    | error e => rw [hm] at hnull; simp at hnull
    | ok q =>
      obtain ⟨r, c1⟩ := q
      rw [hm] at hnull
      cases r with
      | true =>
        dsimp only at hnull
        obtain ⟨p, rest, -, hp, -⟩ := mem_get_pop_inv hnull
        simp at hp
      | false =>
        simp only [Except.ok.injEq, Prod.mk.injEq, true_and] at hnull
        subst hnull
        by_cases hb : ctx.basic_blocks = []
        · refine ⟨hb, ?_⟩
          cases hmb : more_basic_blocks ctx with
          | error e =>
            unfold more_frags at hm
            rw [if_pos hb, hmb] at hm
            simp at hm
          | ok q2 =>
            obtain ⟨r2, c2⟩ := q2
            cases r2 with
            | false =>
              rw [hsplit c2 hb hmb] at hm
              exact ⟨c2, rfl, hm⟩
            | true =>
              rw [hgrow c2 hb hmb] at hm
              obtain ⟨-, -, -, -, hr, -⟩ := more_frags_chop_inv hm
              simp at hr
        · unfold more_frags at hm
          rw [if_neg hb] at hm
          obtain ⟨-, -, -, -, hr, -⟩ := more_frags_chop_inv hm
          simp at hr

theorem refill_order_witness :
    8 < example_unsplit.max_size ∧ quantize 8 < example_unsplit.max_size ∧
    example_unsplit.freelists (quantize 8) = [] ∧
    example_unsplit.basic_blocks = [] ∧
    more_basic_blocks example_unsplit = Except.ok (false, example_unsplit) ∧
    try_split example_unsplit (quantize 8) = Except.ok (false, example_unsplit) ∧
    (mem_getunlocked example_unsplit 8
      = (match more_frags example_unsplit (quantize 8) with
        | Except.error e => Except.error e
        | Except.ok (false, c1) => Except.ok (none, c1)
        | Except.ok (true, c1) => mem_get_pop c1 8 (quantize 8)) ∧
    (example_unsplit.basic_blocks ≠ [] →
      more_frags example_unsplit (quantize 8) = more_frags_chop example_unsplit (quantize 8) ∧
      ∀ r c1, more_frags_chop example_unsplit (quantize 8) = Except.ok (r, c1) →
        r = true ∧ c1.backing = example_unsplit.backing ∧ c1.total = example_unsplit.total ∧
        c1.basic_table = example_unsplit.basic_table ∧
        c1.basic_blocks = example_unsplit.basic_blocks.tail ∧
        ∀ k, k ≠ quantize 8 → c1.freelists k = example_unsplit.freelists k) ∧
    (example_unsplit.basic_blocks = [] →
      (∀ c1, more_basic_blocks example_unsplit = Except.ok (true, c1) →
        more_frags example_unsplit (quantize 8) = more_frags_chop c1 (quantize 8) ∧
        c1.freelists = example_unsplit.freelists) ∧
      (∀ c1, more_basic_blocks example_unsplit = Except.ok (false, c1) →
        more_frags example_unsplit (quantize 8) = try_split c1 (quantize 8)) ∧
      (∀ c1 c2, more_basic_blocks example_unsplit = Except.ok (false, c1) →
        try_split c1 (quantize 8) = Except.ok (false, c2) →
        mem_getunlocked example_unsplit 8 = Except.ok (none, c2) ∧
        c2.total = example_unsplit.total ∧ c2.inuse = example_unsplit.inuse ∧
        c2.stats = example_unsplit.stats ∧
        c2.freelists = example_unsplit.freelists ∧
        c2.basic_blocks = example_unsplit.basic_blocks)) ∧
    (∀ c', mem_getunlocked example_unsplit 8 = Except.ok (none, c') →
      example_unsplit.basic_blocks = [] ∧
      ∃ c1, more_basic_blocks example_unsplit = Except.ok (false, c1) ∧
        try_split c1 (quantize 8) = Except.ok (false, c'))) :=
  ⟨by decide, by decide, rfl, rfl, rfl, rfl,
    refill_order example_unsplit 8 (by decide) (by decide) rfl⟩

theorem held_step_inv {ctx c1 : isc_mem} {held held1 : List (Nat × Nat)} {c : Call}
    (h : held_step (ctx, held) c = Except.ok (c1, held1)) :
    call_step ctx c = Except.ok c1 ∧
    ((∃ size r, c = Call.get size ∧ mem_getunlocked ctx size = Except.ok (r, c1) ∧
        ((r = none ∧ held1 = held) ∨ ∃ p, r = some p ∧ held1 = (p, size) :: held)) ∨
      (∃ mem size, c = Call.put mem size ∧ mem_putunlocked ctx mem size = Except.ok c1 ∧
        held1 = held.erase (mem, size)) ∨
      (held1 = held ∧
        ((∃ quota, c = Call.setquota quota ∧ c1 = { ctx with quota := quota }) ∨
          (∃ flag, c = Call.setsplit flag ∧ c1 = { ctx with trysplit := flag }) ∨
          (∃ flag, c = Call.setdestroycheck flag ∧ c1 = { ctx with checkfree := flag })))) := by
  cases c with
  | get size =>
    simp only [held_step] at h
    generalize hg : isc__mem_get ctx size = g at h
    cases g with
    | error e => simp at h
    | ok v =>
      obtain ⟨r, c2⟩ := v
      have hm := (isc__mem_get_inv hg).2
      cases r with
      | none =>
        simp only [Except.ok.injEq, Prod.mk.injEq] at h
        obtain ⟨h1, h2⟩ := h
        subst h1; subst h2
        refine ⟨?_, Or.inl ⟨size, none, rfl, hm, Or.inl ⟨rfl, rfl⟩⟩⟩
        simp [call_step, hg, Except.map]
      | some p =>
        simp only [Except.ok.injEq, Prod.mk.injEq] at h
        obtain ⟨h1, h2⟩ := h
        subst h1; subst h2
        refine ⟨?_, Or.inl ⟨size, some p, rfl, hm, Or.inr ⟨p, rfl, rfl⟩⟩⟩
        simp [call_step, hg, Except.map]
  | put mem size =>
    simp only [held_step] at h
    generalize hg : isc__mem_put ctx mem size = g at h
    cases g with
    | error e => simp [Except.map] at h
    | ok v =>
      simp only [Except.map, Except.ok.injEq, Prod.mk.injEq] at h
      obtain ⟨h1, h2⟩ := h
      subst h1; subst h2
      have hs : call_step ctx (Call.put mem size) = Except.ok v := hg
      obtain ⟨_, hc⟩ := call_step_inv hs
      rcases hc with ⟨_, _, he, _⟩ | ⟨m, s, he, hp⟩ | ⟨_, he, _⟩ | ⟨_, he, _⟩ | ⟨_, he, _⟩
      · cases he
      · cases he
        exact ⟨hs, Or.inr (Or.inl ⟨mem, size, rfl, hp, rfl⟩)⟩
      · cases he
      · cases he
      · cases he
  | setquota quota =>
    simp only [held_step] at h
    generalize hg : isc_mem_setquota ctx quota = g at h
    cases g with
    | error e => simp [Except.map] at h
    | ok v =>
      simp only [Except.map, Except.ok.injEq, Prod.mk.injEq] at h
      obtain ⟨h1, h2⟩ := h
      subst h1; subst h2
      have hs : call_step ctx (Call.setquota quota) = Except.ok v := hg
      obtain ⟨_, hc⟩ := call_step_inv hs
      rcases hc with ⟨_, _, he, _⟩ | ⟨_, _, he, _⟩ | ⟨q, he, hp⟩ | ⟨_, he, _⟩ | ⟨_, he, _⟩
      · cases he
      · cases he
      · cases he
        exact ⟨hs, Or.inr (Or.inr ⟨rfl, Or.inl ⟨quota, rfl, hp⟩⟩)⟩
      · cases he
      · cases he
  | setsplit flag =>
    simp only [held_step] at h
    generalize hg : isc_mem_setsplit ctx flag = g at h
    cases g with
    | error e => simp [Except.map] at h
    | ok v =>
      simp only [Except.map, Except.ok.injEq, Prod.mk.injEq] at h
      obtain ⟨h1, h2⟩ := h
      subst h1; subst h2
      have hs : call_step ctx (Call.setsplit flag) = Except.ok v := hg
      obtain ⟨_, hc⟩ := call_step_inv hs
      rcases hc with ⟨_, _, he, _⟩ | ⟨_, _, he, _⟩ | ⟨_, he, _⟩ | ⟨q, he, hp⟩ | ⟨_, he, _⟩
      · cases he
      · cases he
      · cases he
      · cases he
        exact ⟨hs, Or.inr (Or.inr ⟨rfl, Or.inr (Or.inl ⟨flag, rfl, hp⟩)⟩)⟩
      · cases he
  | setdestroycheck flag =>
    simp only [held_step] at h
    generalize hg : isc_mem_setdestroycheck ctx flag = g at h
    cases g with
    | error e => simp [Except.map] at h
    | ok v =>
      simp only [Except.map, Except.ok.injEq, Prod.mk.injEq] at h
      obtain ⟨h1, h2⟩ := h
      subst h1; subst h2
      have hs : call_step ctx (Call.setdestroycheck flag) = Except.ok v := hg
      obtain ⟨_, hc⟩ := call_step_inv hs
      rcases hc with ⟨_, _, he, _⟩ | ⟨_, _, he, _⟩ | ⟨_, he, _⟩ | ⟨_, he, _⟩ | ⟨q, he, hp⟩
      · cases he
      · cases he
      · cases he
      · cases he
      · cases he
        exact ⟨hs, Or.inr (Or.inr ⟨rfl, Or.inr (Or.inr ⟨flag, rfl, hp⟩)⟩)⟩

theorem held_run_cons_inv {s sN : isc_mem × List (Nat × Nat)} {c : Call} {cs : List Call}
    (h : held_run s (c :: cs) = Except.ok sN) :
    ∃ s1, held_step s c = Except.ok s1 ∧ held_run s1 cs = Except.ok sN := by
  simp only [held_run] at h
  generalize hg : held_step s c = g at h
  cases g with
  | error e => simp at h
  | ok s1 => exact ⟨s1, rfl, h⟩

theorem held_run_ctx : ∀ (calls : List Call) {s sN : isc_mem × List (Nat × Nat)},
    held_run s calls = Except.ok sN → call_run s.1 calls = Except.ok sN.1 := by
  intro calls
  induction calls with
  | nil =>
    intro s sN h
    simp only [held_run, Except.ok.injEq] at h
    subst h
    rfl
  | cons c cs ih =>
    intro s sN h
    obtain ⟨s1, h1, h2⟩ := held_run_cons_inv h
    obtain ⟨ctx, held⟩ := s
    obtain ⟨c1, held1⟩ := s1
    have hs := (held_step_inv h1).1
    show call_run ctx (c :: cs) = _
    simp only [call_run, hs]
    exact ih h2

theorem mem_getunlocked_small_cases {ctx c' : isc_mem} {size : Nat} {r : Option Nat}
    (hs : ¬ get_large ctx.max_size size)
    (h : mem_getunlocked ctx size = Except.ok (r, c')) :
    (ctx.freelists (quantize size) ≠ [] ∧
      mem_get_pop ctx size (quantize size) = Except.ok (r, c')) ∨
    (ctx.freelists (quantize size) = [] ∧
      ∃ c1 b, more_frags ctx (quantize size) = Except.ok (b, c1) ∧
        ((b = false ∧ r = none ∧ c' = c1) ∨
          (b = true ∧ mem_get_pop c1 size (quantize size) = Except.ok (r, c')))) := by
  have hs' : ¬ (size ≥ ctx.max_size ∨ quantize size ≥ ctx.max_size) := hs
  by_cases he : ctx.freelists (quantize size) = []
  · right
    refine ⟨he, ?_⟩
    simp only [mem_getunlocked, if_neg hs', if_pos he] at h
    generalize hg : more_frags ctx (quantize size) = g at h
    cases g with
    | error e => simp at h
    | ok v =>
      obtain ⟨b, c1⟩ := v
      cases b with
      | false =>
        simp only [Except.ok.injEq, Prod.mk.injEq] at h
        exact ⟨c1, false, rfl, Or.inl ⟨rfl, h.1.symm, h.2.symm⟩⟩
      | true => exact ⟨c1, true, rfl, Or.inr ⟨rfl, h⟩⟩
  · left
    refine ⟨he, ?_⟩
    rw [mem_getunlocked_nonempty ctx size hs' he] at h
    exact h

theorem mem_getunlocked_large_cases {ctx c' : isc_mem} {size : Nat} {r : Option Nat}
    (hl : get_large ctx.max_size size)
    (h : mem_getunlocked ctx size = Except.ok (r, c')) :
    (r = none ∧ ∃ b, c' = { ctx with backing := b }) ∨
    (∃ p b, r = some p ∧
      c' = { ctx with
        backing := b
        total := ctx.total + size
        inuse := ctx.inuse + size
        stats := modify ctx.stats ctx.max_size stats.count_get }) := by
  have hl' : size ≥ ctx.max_size ∨ quantize size ≥ ctx.max_size := hl
  simp only [mem_getunlocked, if_pos hl', Except.ok.injEq] at h
  unfold mem_get_large at h
  by_cases hq : ctx.quota ≠ 0 ∧ ctx.total + size > ctx.quota
  · rw [if_pos hq] at h
    simp only [Prod.mk.injEq] at h
    exact Or.inl ⟨h.1.symm, ctx.backing, h.2.symm⟩
  · rw [if_neg hq] at h
    generalize memalloc ctx.backing size = m at h
    obtain ⟨o, b⟩ := m
    cases o with
    | none =>
      simp only [Prod.mk.injEq] at h
      exact Or.inl ⟨h.1.symm, b, h.2.symm⟩
    | some p =>
      simp only [Prod.mk.injEq] at h
      exact Or.inr ⟨p, b, h.1.symm, h.2.symm⟩

theorem put_large_get_large {max_size size : Nat} (h : put_large max_size size) :
    get_large max_size size := by
  rcases h with h | h
  · exact Or.inl (Nat.le_of_eq h.symm)
  · exact Or.inr h

theorem put_small_get_small {max_size size : Nat} (h : ¬ put_large max_size size)
    (hlt : size < max_size) : ¬ get_large max_size size := by
  intro hg
  rcases hg with hg | hg
  · exact absurd hg (Nat.not_le_of_lt hlt)
  · exact h (Or.inr hg)

theorem mem_getunlocked_null {ctx c' : isc_mem} {size : Nat}
    (h : mem_getunlocked ctx size = Except.ok (none, c')) : c'.inuse = ctx.inuse := by
  by_cases hl : get_large ctx.max_size size
  · rcases mem_getunlocked_large_cases hl h with ⟨_, b, hc⟩ | ⟨p, b, hr, _⟩
    · subst hc; rfl
    · cases hr
  · rcases mem_getunlocked_small_cases hl h with ⟨_, hp⟩ | ⟨_, c1, b, hm, hb⟩
    · obtain ⟨p, rest, _, hr, _⟩ := mem_get_pop_inv hp
      cases hr
    · rcases hb with ⟨_, _, hc⟩ | ⟨_, hp⟩
      · subst hc
        exact (more_frags_frame hm).2.2
      · obtain ⟨p, rest, _, hr, _⟩ := mem_get_pop_inv hp
        cases hr

/-- C39 fails for a pool of items of 4294967296 bytes: the pool is created on
`example_pool_ctx`, one item is got (a large request of the context, which
counts it in `stats[max_size]` and in `inuse`) and put back (kept on the
private free list), so that `allocated + freecount` is 1, the one item drawn
from the context; `isc_mempool_destroy` then puts the item back with
`mem_putunlocked`, which takes the size for a small one and indexes the
statistics table beyond its end. -/
theorem pool_destroy_giant :
    isc_mempool_create 96 example_pool_ctx 4294967296
      = Except.ok (isc_result.ISC_R_SUCCESS, some example_pool_giant, example_pool_mctx) ∧
    pool_run (example_pool_giant, example_pool_mctx) example_giant_calls
      = Except.ok example_pool_giant_idle ∧
    example_pool_giant_idle.1.allocated = 0 ∧ example_pool_giant_idle.1.freecount = 1 ∧
    example_pool_giant_idle.1.items = [20480] ∧
    (example_pool_ctx.stats 64).gets = 0 ∧ example_pool_ctx.inuse = 0 ∧
    (example_pool_giant_idle.2.stats 64).gets = 2 ∧
    example_pool_giant_idle.2.inuse = 96 + 4294967296 ∧
    get_large 64 4294967296 ∧ ¬ put_large 64 4294967296 ∧
    mem_putunlocked example_pool_giant_idle.2 20480 4294967296
      = Except.error Fault.undefined ∧
    isc_mempool_destroy 96 example_pool_giant_idle.1 example_pool_giant_idle.2
      = Except.error Fault.undefined :=
  ⟨rfl, rfl, rfl, rfl, rfl, rfl, rfl, rfl, rfl, by decide, by decide, rfl, rfl⟩


/-! ## Counting the pieces that hold an address -/

theorem covers_iff (x : Nat × Nat) (a : Nat) :
    covers x a = true ↔ x.1 ≤ a ∧ a < x.1 + x.2 := by
  unfold covers
  exact decide_eq_true_iff

theorem countP_covers_disjoint : ∀ (l : List (Nat × Nat)),
    (∀ a, l.countP (fun x => covers x a) ≤ 1) → l.Pairwise ranges_disjoint := by
  intro l
  induction l with
  | nil => intro _; exact List.Pairwise.nil
  | cons x r ih =>
    intro h
    refine List.Pairwise.cons ?_ (ih ?_)
    · intro y hy
      by_contra hnd
      unfold ranges_disjoint at hnd
      generalize ha : max x.1 y.1 = a at *
      have hx : covers x a = true := by
        rw [covers_iff]; omega
      have hyc : covers y a = true := by
        rw [covers_iff]; omega
      have h1 := h a
      rw [List.countP_cons, if_pos hx] at h1
      have h2 : 0 < r.countP (fun z => covers z a) :=
        List.countP_pos_iff.mpr ⟨y, hy, hyc⟩
      omega
    · intro a
      have h1 := h a
      rw [List.countP_cons] at h1
      omega

theorem cover_eq (ctx : isc_mem) (held : List (Nat × Nat)) (a : Nat) :
    cover ctx held a = free_cover ctx.max_size ctx.freelists a
      + held_cover ctx.max_size held a + idle_cover ctx.mem_target ctx.basic_blocks a := by
  unfold cover pieces free_pieces held_pieces idle_pieces free_cover held_cover idle_cover
  rw [List.countP_append, List.countP_append, List.countP_flatMap, List.countP_map,
    List.countP_map, List.countP_filter, Nat.add_assoc]
  have e1 : ((fun x => covers x a) |> List.countP) ∘
      (fun c => (ctx.freelists c).map (fun p => (p, c)))
      = fun c => (ctx.freelists c).countP (fun p => covers (p, c) a) := by
    funext c
    simp only [Function.comp, List.countP_map]
    rfl
  have e2 : (fun x : Nat × Nat => ((fun x => covers x a) ∘ fun x => (x.1, quantize x.2)) x &&
      decide (¬ get_large ctx.max_size x.2))
      = fun x => decide (¬ get_large ctx.max_size x.2) && covers (x.1, quantize x.2) a := by
    funext x
    simp only [Function.comp, Bool.and_comm]
  have e3 : ((fun x => covers x a) ∘ fun b => (b, ctx.mem_target))
      = fun b => covers (b, ctx.mem_target) a := rfl
  rw [e1, e2, e3]

theorem mem_free_pieces (ctx : isc_mem) (x : Nat × Nat) :
    x ∈ free_pieces ctx ↔ x.2 < ctx.max_size ∧ x.1 ∈ ctx.freelists x.2 := by
  unfold free_pieces
  rw [List.mem_flatMap]
  constructor
  · rintro ⟨c, hc, hx⟩
    rw [List.mem_map] at hx
    obtain ⟨p, hp, he⟩ := hx
    subst he
    exact ⟨List.mem_range.mp hc, hp⟩
  · rintro ⟨h1, h2⟩
    exact ⟨x.2, List.mem_range.mpr h1, List.mem_map.mpr ⟨x.1, h2, rfl⟩⟩

theorem mem_held_pieces (max_size : Nat) (held : List (Nat × Nat)) (x : Nat × Nat) :
    x ∈ held_pieces max_size held ↔
      ∃ s, (x.1, s) ∈ held ∧ ¬ get_large max_size s ∧ x.2 = quantize s := by
  unfold held_pieces
  rw [List.mem_map]
  constructor
  · rintro ⟨y, hy, he⟩
    rw [List.mem_filter] at hy
    subst he
    exact ⟨y.2, hy.1, by simpa using hy.2, rfl⟩
  · rintro ⟨s, h1, h2, h3⟩
    refine ⟨(x.1, s), List.mem_filter.mpr ⟨h1, by simpa using h2⟩, ?_⟩
    rw [← h3]

theorem mem_idle_pieces (ctx : isc_mem) (x : Nat × Nat) :
    x ∈ idle_pieces ctx ↔ x.2 = ctx.mem_target ∧ x.1 ∈ ctx.basic_blocks := by
  unfold idle_pieces
  rw [List.mem_map]
  constructor
  · rintro ⟨b, hb, he⟩
    subst he
    exact ⟨rfl, hb⟩
  · rintro ⟨h1, h2⟩
    refine ⟨x.1, h2, ?_⟩
    rw [← h1]

theorem sum_range_update (f : Nat → Nat) (n j v : Nat) (hj : j < n) :
    ((List.range n).map (fun s => if s = j then v else f s)).sum + f j
      = ((List.range n).map f).sum + v := by
  have h1 := sum_range_add (fun s => (if s = j then v else f s) + (if s = j then f j else 0))
    (fun s => if s = j then v else f s) (fun s => if s = j then f j else 0) n
    (fun _ _ => rfl)
  have h2 := sum_range_add (fun s => (if s = j then v else f s) + (if s = j then f j else 0))
    f (fun s => if s = j then v else 0) n (by
      intro s _
      dsimp only
      by_cases e : s = j
      · subst e; simp [Nat.add_comm]
      · simp [e])
  rw [sum_range_single, if_pos hj] at h1 h2
  omega

theorem free_cover_modify (max_size : Nat) (fl : Nat → List Nat) (j : Nat)
    (g : List Nat → List Nat) (a : Nat) (hj : j < max_size) :
    free_cover max_size (modify fl j g) a + (fl j).countP (fun p => covers (p, j) a)
      = free_cover max_size fl a + (g (fl j)).countP (fun p => covers (p, j) a) := by
  unfold free_cover
  have h := sum_range_update (fun c => (fl c).countP (fun p => covers (p, c) a)) max_size j
    ((g (fl j)).countP (fun p => covers (p, j) a)) hj
  have e : ((List.range max_size).map
        (fun c => (modify fl j g c).countP (fun p => covers (p, c) a))).sum
      = ((List.range max_size).map (fun s => if s = j
          then (g (fl j)).countP (fun p => covers (p, j) a)
          else (fl s).countP (fun p => covers (p, s) a))).sum := by
    apply sum_range_congr
    intro s _
    dsimp only
    by_cases e : s = j
    · subst e
      rw [modify_same, if_pos rfl]
    · rw [modify_other _ _ _ _ e, if_neg e]
  rw [e]
  exact h

theorem free_cover_modify_out (max_size : Nat) (fl : Nat → List Nat) (j : Nat)
    (g : List Nat → List Nat) (a : Nat) (hj : max_size ≤ j) :
    free_cover max_size (modify fl j g) a = free_cover max_size fl a := by
  unfold free_cover
  apply sum_range_congr
  intro s hs
  dsimp only
  rw [modify_other _ _ _ _ (by omega)]

theorem free_cover_pos {max_size : Nat} {fl : Nat → List Nat} {a : Nat}
    (h : 0 < free_cover max_size fl a) :
    ∃ c p, c < max_size ∧ p ∈ fl c ∧ covers (p, c) a = true := by
  unfold free_cover at h
  by_contra hn
  have hz : ((List.range max_size).map
      (fun c => (fl c).countP (fun p => covers (p, c) a))).sum
      = ((List.range max_size).map (fun _ => 0)).sum := by
    apply sum_range_congr
    intro c hc
    dsimp only
    rw [List.countP_eq_zero]
    intro p hp hcov
    exact hn ⟨c, p, hc, hp, hcov⟩
  rw [hz] at h
  simp at h

theorem frags_cover (b n a : Nat) : ∀ (F : Nat),
    ((List.range F).map (fun k => b + k * n)).countP (fun p => covers (p, n) a)
      ≤ if covers (b, F * n) a = true then 1 else 0 := by
  intro F
  induction F with
  | zero => simp
  | succ F ih =>
    rw [List.range_succ, List.map_append, List.countP_append]
    simp only [List.map_cons, List.map_nil, List.countP_cons, List.countP_nil, Nat.zero_add]
    rw [Nat.succ_mul]
    generalize F * n = m at ih ⊢
    generalize ((List.range F).map (fun k => b + k * n)).countP (fun p => covers (p, n) a)
      = cnt at ih ⊢
    by_cases h1 : covers (b, m) a = true
    · have h2 : ¬ covers (b + m, n) a = true := by
        rw [covers_iff] at h1 ⊢
        dsimp only at h1 ⊢
        omega
      have h3 : covers (b, m + n) a = true := by
        rw [covers_iff] at h1 ⊢
        dsimp only at h1 ⊢
        omega
      rw [if_pos h1] at ih
      rw [if_neg h2, if_pos h3]
      omega
    · rw [if_neg h1] at ih
      by_cases h2 : covers (b + m, n) a = true
      · have h3 : covers (b, m + n) a = true := by
          rw [covers_iff] at h2 ⊢
          dsimp only at h2 ⊢
          omega
        rw [if_pos h2, if_pos h3]
        omega
      · rw [if_neg h2]
        have : cnt = 0 := by omega
        rw [this]
        split <;> omega

theorem countP_erase_mem {α : Type} [BEq α] [LawfulBEq α] (q : α → Bool) (x : α) :
    ∀ (l : List α), x ∈ l →
      (l.erase x).countP q + (if q x = true then 1 else 0) = l.countP q := by
  intro l
  induction l with
  | nil => intro h; cases h
  | cons y rest ih =>
    intro hmem
    rw [List.erase_cons]
    by_cases e : (y == x) = true
    · rw [if_pos e]
      have e' : y = x := by simpa using e
      subst e'
      rw [List.countP_cons]
    · rw [if_neg e]
      have hne : y ≠ x := by simpa using e
      have hr : x ∈ rest := by
        rcases List.mem_cons.mp hmem with h | h
        · exact absurd h.symm hne
        · exact h
      have := ih hr
      rw [List.countP_cons, List.countP_cons]
      omega

theorem held_cover_cons (max_size p s : Nat) (held : List (Nat × Nat)) (a : Nat) :
    held_cover max_size ((p, s) :: held) a = held_cover max_size held a +
      (if (decide (¬ get_large max_size s) && covers (p, quantize s) a) = true
        then 1 else 0) := by
  unfold held_cover
  rw [List.countP_cons]

theorem held_cover_erase (max_size p s : Nat) (held : List (Nat × Nat)) (a : Nat)
    (hmem : (p, s) ∈ held) :
    held_cover max_size (held.erase (p, s)) a +
      (if (decide (¬ get_large max_size s) && covers (p, quantize s) a) = true
        then 1 else 0) = held_cover max_size held a := by
  unfold held_cover
  exact countP_erase_mem _ (p, s) held hmem

theorem in_chunk_congr {ctx c' : isc_mem} (htab : c'.basic_table = ctx.basic_table)
    (ht : c'.mem_target = ctx.mem_target) (x : Nat × Nat) (h : in_chunk ctx x) :
    in_chunk c' x := by
  unfold in_chunk at h ⊢
  rw [htab, ht]
  exact h

theorem tidy_frame {ctx c' : isc_mem} {held held' : List (Nat × Nat)} (h : tidy ctx held)
    (hm : c'.max_size = ctx.max_size) (ht : c'.mem_target = ctx.mem_target)
    (hf : c'.freelists = ctx.freelists) (hb : c'.basic_blocks = ctx.basic_blocks)
    (htab : c'.basic_table = ctx.basic_table)
    (hcov : ∀ a, held_cover ctx.max_size held' a = held_cover ctx.max_size held a)
    (hin : ∀ p s, (p, s) ∈ held' → ¬ get_large ctx.max_size s → (p, s) ∈ held) :
    tidy c' held' := by
  refine ⟨?_, ?_, ?_, ?_, ?_, ?_⟩
  · rw [hm, ht]; exact h.bound
  · rw [hm, hf]; exact h.beyond
  · intro c p hc hp
    rw [hm] at hc
    rw [hf] at hp
    exact in_chunk_congr htab ht _ (h.free_in c p hc hp)
  · intro p s hp hs
    rw [hm] at hs
    exact in_chunk_congr htab ht _ (h.held_in p s (hin p s hp hs) hs)
  · intro b hbm
    rw [hb] at hbm
    rw [ht]
    exact in_chunk_congr htab ht _ (h.idle_in b hbm)
  · intro a
    rw [hm, ht, hf, hb, hcov a]
    exact h.once a

theorem tidy_pop {c1 c' : isc_mem} {held : List (Nat × Nat)} {size : Nat} {r : Option Nat}
    (h : tidy c1 held) (hs : ¬ get_large c1.max_size size)
    (hp : mem_get_pop c1 size (quantize size) = Except.ok (r, c')) :
    ∃ p, r = some p ∧ tidy c' ((p, size) :: held) := by
  obtain ⟨p, rest, hfl, hr, hc⟩ := mem_get_pop_inv hp
  refine ⟨p, hr, ?_⟩
  have hq : quantize size < c1.max_size := by
    by_contra hge
    exact hs (Or.inr (Nat.le_of_not_lt hge))
  have hm : c'.max_size = c1.max_size := by rw [hc]
  have ht : c'.mem_target = c1.mem_target := by rw [hc]
  have hf : c'.freelists = modify c1.freelists (quantize size) (fun _ => rest) := by rw [hc]
  have hb : c'.basic_blocks = c1.basic_blocks := by rw [hc]
  have htab : c'.basic_table = c1.basic_table := by rw [hc]
  have hpm : p ∈ c1.freelists (quantize size) := by rw [hfl]; exact List.mem_cons_self _ _
  refine ⟨?_, ?_, ?_, ?_, ?_, ?_⟩
  · rw [hm, ht]; exact h.bound
  · intro c hcm
    rw [hm] at hcm
    rw [hf, modify_other _ _ _ _ (by omega)]
    exact h.beyond c hcm
  · intro c q hcm hqm
    rw [hm] at hcm
    rw [hf] at hqm
    apply in_chunk_congr htab ht
    by_cases e : c = quantize size
    · subst e
      rw [modify_same] at hqm
      exact h.free_in _ q hcm (by rw [hfl]; exact List.mem_cons_of_mem _ hqm)
    · rw [modify_other _ _ _ _ e] at hqm
      exact h.free_in c q hcm hqm
  · intro q s hqm hns
    rw [hm] at hns
    apply in_chunk_congr htab ht
    rcases List.mem_cons.mp hqm with e | hmem
    · cases e
      exact h.free_in _ p hq hpm
    · exact h.held_in q s hmem hns
  · intro b hbm
    rw [hb] at hbm
    rw [ht]
    exact in_chunk_congr htab ht _ (h.idle_in b hbm)
  · intro a
    rw [hm, ht, hf, hb, held_cover_cons]
    have h1 := free_cover_modify c1.max_size c1.freelists (quantize size) (fun _ => rest) a hq
    rw [hfl, List.countP_cons] at h1
    have h2 := h.once a
    have e : (decide (¬ get_large c1.max_size size) && covers (p, quantize size) a)
        = covers (p, quantize size) a := by
      simp [hs]
    rw [e]
    generalize (if covers (p, quantize size) a = true then 1 else 0) = v at h1 ⊢
    dsimp only at h1
    omega

theorem tidy_put {ctx c' : isc_mem} {held : List (Nat × Nat)} {mem size : Nat}
    (h : tidy ctx held) (hmem : (mem, size) ∈ held)
    (hp : mem_putunlocked ctx mem size = Except.ok c') :
    tidy c' (held.erase (mem, size)) := by
  rcases mem_putunlocked_inv hp with ⟨hl, _, _, hc⟩ | ⟨hs, hlt, _, hc⟩
  · have hgl := put_large_get_large hl
    apply tidy_frame h (by rw [hc]) (by rw [hc]) (by rw [hc]) (by rw [hc]) (by rw [hc])
    · intro a
      have h1 := held_cover_erase ctx.max_size mem size held a hmem
      have e : (decide (¬ get_large ctx.max_size size) && covers (mem, quantize size) a)
          = false := by simp [hgl]
      rw [e] at h1
      simpa using h1
    · intro p s hps _
      exact List.mem_of_mem_erase hps
  · have hgs := put_small_get_small hs hlt
    have hq : quantize size < ctx.max_size := by
      by_contra hge
      exact hs (Or.inr (Nat.le_of_not_lt hge))
    have hm : c'.max_size = ctx.max_size := by rw [hc]
    have ht : c'.mem_target = ctx.mem_target := by rw [hc]
    have hf : c'.freelists = modify ctx.freelists (quantize size) (fun l => mem :: l) := by
      rw [hc]
    have hb : c'.basic_blocks = ctx.basic_blocks := by rw [hc]
    have htab : c'.basic_table = ctx.basic_table := by rw [hc]
    refine ⟨?_, ?_, ?_, ?_, ?_, ?_⟩
    · rw [hm, ht]; exact h.bound
    · intro c hcm
      rw [hm] at hcm
      rw [hf, modify_other _ _ _ _ (by omega)]
      exact h.beyond c hcm
    · intro c q hcm hqm
      rw [hm] at hcm
      rw [hf] at hqm
      apply in_chunk_congr htab ht
      by_cases e : c = quantize size
      · subst e
        rw [modify_same] at hqm
        rcases List.mem_cons.mp hqm with e1 | hmem1
        · subst e1
          exact h.held_in q size hmem hgs
        · exact h.free_in _ q hcm hmem1
      · rw [modify_other _ _ _ _ e] at hqm
        exact h.free_in c q hcm hqm
    · intro q s hqm hns
      rw [hm] at hns
      exact in_chunk_congr htab ht _ (h.held_in q s (List.mem_of_mem_erase hqm) hns)
    · intro b hbm
      rw [hb] at hbm
      rw [ht]
      exact in_chunk_congr htab ht _ (h.idle_in b hbm)
    · intro a
      rw [hm, ht, hf, hb]
      have h1 := free_cover_modify ctx.max_size ctx.freelists (quantize size)
        (fun l => mem :: l) a hq
      rw [List.countP_cons] at h1
      have h2 := h.once a
      have h3 := held_cover_erase ctx.max_size mem size held a hmem
      have e : (decide (¬ get_large ctx.max_size size) && covers (mem, quantize size) a)
          = covers (mem, quantize size) a := by
        simp [hgs]
      rw [e] at h3
      generalize (if covers (mem, quantize size) a = true then 1 else 0) = v at h1 h3
      omega

theorem tidy_large_get {ctx c' : isc_mem} {held : List (Nat × Nat)} {size : Nat}
    {r : Option Nat} (h : tidy ctx held) (hl : get_large ctx.max_size size)
    (hg : mem_getunlocked ctx size = Except.ok (r, c')) :
    (r = none → tidy c' held) ∧ (∀ p, r = some p → tidy c' ((p, size) :: held)) := by
  rcases mem_getunlocked_large_cases hl hg with ⟨hn, b, hc⟩ | ⟨p, b, hp, hc⟩
  · constructor
    · intro _
      exact tidy_frame h (by rw [hc]) (by rw [hc]) (by rw [hc]) (by rw [hc]) (by rw [hc])
        (fun _ => rfl) (fun _ _ hm _ => hm)
    · intro p hp
      rw [hn] at hp; cases hp
  · constructor
    · intro hn
      rw [hp] at hn; cases hn
    · intro q hq
      rw [hp] at hq
      cases hq
      apply tidy_frame h (by rw [hc]) (by rw [hc]) (by rw [hc]) (by rw [hc]) (by rw [hc])
      · intro a
        rw [held_cover_cons]
        have e : (decide (¬ get_large ctx.max_size size) && covers (p, quantize size) a)
            = false := by simp [hl]
        rw [e]
        simp
      · intro q s hqm hns
        rcases List.mem_cons.mp hqm with e | hmem
        · cases e
          exact absurd hl hns
        · exact hmem

theorem tidy_chop {ctx c' : isc_mem} {held : List (Nat × Nat)} {ns : Nat} {r : Bool}
    (h : tidy ctx held) (he : ctx.freelists ns = []) (hq : ns < ctx.max_size)
    (hp : more_frags_chop ctx ns = Except.ok (r, c')) : tidy c' held := by
  obtain ⟨new, rest, hbb, hne, _, hc⟩ := more_frags_chop_inv hp
  have hns : 0 < ns := Nat.pos_of_ne_zero hne
  have hle : ns ≤ ctx.mem_target := Nat.le_trans (Nat.le_of_lt hq) h.bound
  have hF : 0 < ctx.mem_target / ns := Nat.div_pos hle hns
  have hmax : max (ctx.mem_target / ns) 1 = ctx.mem_target / ns := Nat.max_eq_left hF
  have hFle : ctx.mem_target / ns * ns ≤ ctx.mem_target := Nat.div_mul_le_self _ _
  have hm : c'.max_size = ctx.max_size := by rw [hc]
  have ht : c'.mem_target = ctx.mem_target := by rw [hc]
  have hf : c'.freelists = modify ctx.freelists ns
      (fun _ => (List.range (ctx.mem_target / ns)).map (fun k => new + k * ns)) := by
    rw [hc, hmax]
  have hb : c'.basic_blocks = rest := by rw [hc]
  have htab : c'.basic_table = ctx.basic_table := by rw [hc]
  have hnew := h.idle_in new (by rw [hbb]; exact List.mem_cons_self _ _)
  refine ⟨?_, ?_, ?_, ?_, ?_, ?_⟩
  · rw [hm, ht]; exact h.bound
  · intro c hcm
    rw [hm] at hcm
    rw [hf, modify_other _ _ _ _ (by omega)]
    exact h.beyond c hcm
  · intro c q hcm hqm
    rw [hm] at hcm
    rw [hf] at hqm
    apply in_chunk_congr htab ht
    by_cases e : c = ns
    · subst e
      rw [modify_same, List.mem_map] at hqm
      obtain ⟨k, hk, hkq⟩ := hqm
      have hk' : k + 1 ≤ ctx.mem_target / c := List.mem_range.mp hk
      have h1 : (k + 1) * c ≤ ctx.mem_target / c * c := Nat.mul_le_mul_right c hk'
      rw [Nat.succ_mul] at h1
      obtain ⟨ch, hch, h2, h3⟩ := hnew
      refine ⟨ch, hch, ?_, ?_⟩
      · dsimp only at h2 ⊢
        omega
      · dsimp only at h3 ⊢
        omega
    · rw [modify_other _ _ _ _ e] at hqm
      exact h.free_in c q hcm hqm
  · intro q s hqm hnl
    rw [hm] at hnl
    exact in_chunk_congr htab ht _ (h.held_in q s hqm hnl)
  · intro b hbm
    rw [hb] at hbm
    rw [ht]
    exact in_chunk_congr htab ht _
      (h.idle_in b (by rw [hbb]; exact List.mem_cons_of_mem _ hbm))
  · intro a
    rw [hm, ht, hf, hb]
    have h1 := free_cover_modify ctx.max_size ctx.freelists ns
      (fun _ => (List.range (ctx.mem_target / ns)).map (fun k => new + k * ns)) a hq
    rw [he] at h1
    have h2 := h.once a
    rw [hbb] at h2
    unfold idle_cover at h2 ⊢
    rw [List.countP_cons] at h2
    have h3 := frags_cover new ns a (ctx.mem_target / ns)
    have h4 : (if covers (new, ctx.mem_target / ns * ns) a = true then 1 else 0)
        ≤ (if covers (new, ctx.mem_target) a = true then 1 else 0) := by
      by_cases c1 : covers (new, ctx.mem_target / ns * ns) a = true
      · have c2 : covers (new, ctx.mem_target) a = true := by
          rw [covers_iff] at c1 ⊢
          dsimp only at c1 ⊢
          omega
        rw [if_pos c1, if_pos c2]
      · rw [if_neg c1]
        exact Nat.zero_le _
    simp only [List.countP_nil, Nat.add_zero] at h1
    generalize (if covers (new, ctx.mem_target / ns * ns) a = true then 1 else 0) = v1 at h3 h4
    generalize (if covers (new, ctx.mem_target) a = true then 1 else 0) = v2 at h2 h4
    omega

theorem mem_modify_cons {fl : Nat → List Nat} {j x c q : Nat}
    (h : q ∈ modify fl j (fun l => x :: l) c) : (c = j ∧ q = x) ∨ q ∈ fl c := by
  by_cases e : c = j
  · subst e
    rw [modify_same] at h
    rcases List.mem_cons.mp h with h1 | h1
    · exact Or.inl ⟨rfl, h1⟩
    · exact Or.inr h1
  · rw [modify_other _ _ _ _ e] at h
    exact Or.inr h

theorem tidy_split {ctx c' : isc_mem} {held : List (Nat × Nat)} {i n : Nat}
    (h : tidy ctx held) (hn : n ≤ i) (hi : i < ctx.max_size)
    (hp : split ctx i n = Except.ok c') : tidy c' held := by
  obtain ⟨ptr, rest, hfl, hf, _⟩ := split_inv hp
  obtain ⟨hcfg, _, har, _, _⟩ := split_frame hp
  rw [wsub_le hn] at hf
  have hm : c'.max_size = ctx.max_size := hcfg.max_size
  have ht : c'.mem_target = ctx.mem_target := hcfg.mem_target
  have hb : c'.basic_blocks = ctx.basic_blocks := har.basic_blocks
  have htab : c'.basic_table = ctx.basic_table := har.basic_table
  have hpi := h.free_in i ptr hi (by rw [hfl]; exact List.mem_cons_self _ _)
  refine ⟨?_, ?_, ?_, ?_, ?_, ?_⟩
  · rw [hm, ht]; exact h.bound
  · intro c hcm
    rw [hm] at hcm
    rw [hf, modify_other _ _ _ _ (by omega), modify_other _ _ _ _ (by omega),
      modify_other _ _ _ _ (by omega)]
    exact h.beyond c hcm
  · intro c q hcm hqm
    rw [hm] at hcm
    rw [hf] at hqm
    apply in_chunk_congr htab ht
    rcases mem_modify_cons hqm with ⟨e1, e2⟩ | hqm1
    · subst e1; subst e2
      obtain ⟨ch, hch, h2, h3⟩ := hpi
      refine ⟨ch, hch, ?_, ?_⟩
      · dsimp only at h2 ⊢
        omega
      · dsimp only at h3 ⊢
        omega
    · rcases mem_modify_cons hqm1 with ⟨e1, e2⟩ | hqm2
      · subst e1; subst e2
        obtain ⟨ch, hch, h2, h3⟩ := hpi
        refine ⟨ch, hch, ?_, ?_⟩
        · dsimp only at h2 ⊢
          omega
        · dsimp only at h3 ⊢
          omega
      · by_cases e : c = i
        · subst e
          rw [modify_same] at hqm2
          exact h.free_in _ q hcm (by rw [hfl]; exact List.mem_cons_of_mem _ hqm2)
        · rw [modify_other _ _ _ _ e] at hqm2
          exact h.free_in c q hcm hqm2
  · intro q s hqm hnl
    rw [hm] at hnl
    exact in_chunk_congr htab ht _ (h.held_in q s hqm hnl)
  · intro b hbm
    rw [hb] at hbm
    rw [ht]
    exact in_chunk_congr htab ht _ (h.idle_in b hbm)
  · intro a
    rw [hm, ht, hf, hb]
    have h1 := free_cover_modify ctx.max_size ctx.freelists i (fun _ => rest) a hi
    rw [hfl, List.countP_cons] at h1
    have h2 := free_cover_modify ctx.max_size (modify ctx.freelists i (fun _ => rest)) n
      (fun l => ptr :: l) a (by omega)
    rw [List.countP_cons] at h2
    have h3 := free_cover_modify ctx.max_size
      (modify (modify ctx.freelists i (fun _ => rest)) n (fun l => ptr :: l)) (i - n)
      (fun l => (ptr + n) :: l) a (by omega)
    rw [List.countP_cons] at h3
    have h4 := h.once a
    have h5 : (if covers (ptr, n) a = true then 1 else 0)
        + (if covers (ptr + n, i - n) a = true then 1 else 0)
        ≤ (if covers (ptr, i) a = true then 1 else 0) := by
      by_cases c1 : covers (ptr, n) a = true
      · have c2 : ¬ covers (ptr + n, i - n) a = true := by
          rw [covers_iff] at c1 ⊢
          dsimp only at c1 ⊢
          omega
        have c3 : covers (ptr, i) a = true := by
          rw [covers_iff] at c1 ⊢
          dsimp only at c1 ⊢
          omega
        rw [if_pos c1, if_neg c2, if_pos c3]
      · by_cases c2 : covers (ptr + n, i - n) a = true
        · have c3 : covers (ptr, i) a = true := by
            rw [covers_iff] at c2 ⊢
            dsimp only at c2 ⊢
            omega
          rw [if_neg c1, if_pos c2, if_pos c3]
        · rw [if_neg c1, if_neg c2]
          exact Nat.zero_le _
    generalize (if covers (ptr, n) a = true then 1 else 0) = v1 at h2 h5
    generalize (if covers (ptr + n, i - n) a = true then 1 else 0) = v2 at h3 h5
    generalize (if covers (ptr, i) a = true then 1 else 0) = v3 at h1 h5
    dsimp only at h1
    omega

theorem more_basic_blocks_grown {ctx c1 : isc_mem}
    (h : more_basic_blocks ctx = Except.ok (true, c1)) (hmt : 0 < ctx.mem_target)
    (hlen : ctx.basic_table_count = ctx.basic_table.length) :
    ∃ new, c1.basic_table = ctx.basic_table ++ [new] ∧
      c1.basic_blocks = (List.range NUM_BASIC_BLOCKS).map (fun k => new + k * ctx.mem_target) ∧
      c1.max_size = ctx.max_size ∧ c1.mem_target = ctx.mem_target ∧
      c1.freelists = ctx.freelists := by
  obtain ⟨hcfg, hfr, _, _⟩ := more_basic_blocks_frame h
  unfold more_basic_blocks at h
  dsimp only at h
  split at h
  · simp at h
  · split at h
    · simp at h
    · generalize ht : more_basic_blocks_table ctx = t at h
      obtain ⟨tb, ctx1⟩ := t
      cases tb with
      | false => simp at h
      | true =>
        dsimp only at h
        have hch : more_basic_blocks_chunk ctx1 = (true, c1) := by
          simpa using h
        obtain ⟨hc1, _, ha1⟩ := more_basic_blocks_table_frame ht
        have hmt1 : 0 < ctx1.mem_target := by rw [hc1.mem_target]; exact hmt
        have hlen1 : ctx1.basic_table_count = ctx1.basic_table.length := by
          rw [ha1.basic_table_count, ha1.basic_table]; exact hlen
        obtain ⟨new, _, _, _, htab, hblk, _⟩ :=
          (more_basic_blocks_chunk_cases hch hmt1 hlen1).2.2.2 rfl
        refine ⟨new, ?_, ?_, hcfg.max_size, hcfg.mem_target, hfr.freelists⟩
        · rw [htab, ha1.basic_table]
        · rw [hblk, hc1.mem_target]

theorem held_cover_pos {max_size : Nat} {held : List (Nat × Nat)} {a : Nat}
    (h : 0 < held_cover max_size held a) :
    ∃ p s, (p, s) ∈ held ∧ ¬ get_large max_size s ∧ covers (p, quantize s) a = true := by
  unfold held_cover at h
  obtain ⟨x, hx, hp⟩ := List.countP_pos_iff.mp h
  simp only [Bool.and_eq_true, decide_eq_true_eq] at hp
  exact ⟨x.1, x.2, hx, hp.1, hp.2⟩

theorem tidy_grow {ctx c1 : isc_mem} {held : List (Nat × Nat)}
    (h : tidy ctx held) (hbb : ctx.basic_blocks = []) (hmt : 0 < ctx.mem_target)
    (hlen : ctx.basic_table_count = ctx.basic_table.length)
    (hp : more_basic_blocks ctx = Except.ok (true, c1)) (hap : chunks_apart c1) :
    tidy c1 held := by
  obtain ⟨new, htab, hblk, hm, ht, hf⟩ := more_basic_blocks_grown hp hmt hlen
  have hmono : ∀ x, in_chunk ctx x → in_chunk c1 x := by
    intro x hx
    obtain ⟨ch, hch, h2, h3⟩ := hx
    refine ⟨ch, ?_, h2, ?_⟩
    · rw [htab]; exact List.mem_append_left _ hch
    · rw [ht]; exact h3
  have hfar : ∀ x a, in_chunk ctx x → covers x a = true →
      ¬ covers (new, NUM_BASIC_BLOCKS * ctx.mem_target) a = true := by
    intro x a hx hxa hna
    obtain ⟨ch, hch, h2, h3⟩ := hx
    unfold chunks_apart at hap
    rw [htab, ht, List.pairwise_append] at hap
    have hd := hap.2.2 ch hch new (List.mem_singleton.mpr rfl)
    unfold ranges_disjoint at hd
    rw [covers_iff] at hxa hna
    dsimp only at hd hxa hna
    omega
  refine ⟨?_, ?_, ?_, ?_, ?_, ?_⟩
  · rw [hm, ht]; exact h.bound
  · rw [hm, hf]; exact h.beyond
  · intro c q hcm hqm
    rw [hm] at hcm
    rw [hf] at hqm
    exact hmono _ (h.free_in c q hcm hqm)
  · intro q s hqm hnl
    rw [hm] at hnl
    exact hmono _ (h.held_in q s hqm hnl)
  · intro b hbm
    rw [hblk, List.mem_map] at hbm
    obtain ⟨k, hk, hkb⟩ := hbm
    have hk' : k + 1 ≤ NUM_BASIC_BLOCKS := List.mem_range.mp hk
    have h1 : (k + 1) * ctx.mem_target ≤ NUM_BASIC_BLOCKS * ctx.mem_target :=
      Nat.mul_le_mul_right _ hk'
    rw [Nat.succ_mul] at h1
    refine ⟨new, ?_, ?_, ?_⟩
    · rw [htab]; exact List.mem_append_right _ (List.mem_singleton.mpr rfl)
    · dsimp only; omega
    · rw [ht]; dsimp only; omega
  · intro a
    rw [hm, ht, hf, hblk]
    have h2 := h.once a
    rw [hbb] at h2
    unfold idle_cover at h2 ⊢
    simp only [List.countP_nil, Nat.add_zero] at h2
    have h3 := frags_cover new ctx.mem_target a NUM_BASIC_BLOCKS
    by_cases c1 : covers (new, NUM_BASIC_BLOCKS * ctx.mem_target) a = true
    · rw [if_pos c1] at h3
      have z1 : free_cover ctx.max_size ctx.freelists a = 0 := by
        by_contra hne
        obtain ⟨c, p, hcm, hpm, hcov⟩ := free_cover_pos (Nat.pos_of_ne_zero hne)
        exact hfar _ a (h.free_in c p hcm hpm) hcov c1
      have z2 : held_cover ctx.max_size held a = 0 := by
        by_contra hne
        obtain ⟨p, s, hps, hns, hcov⟩ := held_cover_pos (Nat.pos_of_ne_zero hne)
        exact hfar _ a (h.held_in p s hps hns) hcov c1
      omega
    · rw [if_neg c1] at h3
      omega

theorem more_frags_cases {ctx c1 : isc_mem} {ns : Nat} {b : Bool}
    (h : more_frags ctx ns = Except.ok (b, c1)) :
    (ctx.basic_blocks ≠ [] ∧ more_frags_chop ctx ns = Except.ok (b, c1)) ∨
    (ctx.basic_blocks = [] ∧ ∃ c0,
      (more_basic_blocks ctx = Except.ok (true, c0) ∧
        more_frags_chop c0 ns = Except.ok (b, c1)) ∨
      (more_basic_blocks ctx = Except.ok (false, c0) ∧
        try_split c0 ns = Except.ok (b, c1))) := by
  unfold more_frags at h
  by_cases hbb : ctx.basic_blocks = []
  · rw [if_pos hbb] at h
    right
    refine ⟨hbb, ?_⟩
    generalize hg : more_basic_blocks ctx = g at h
    cases g with
    | error e => simp at h
    | ok v =>
      obtain ⟨gb, c0⟩ := v
      cases gb with
      | false => exact ⟨c0, Or.inr ⟨rfl, h⟩⟩
      | true => exact ⟨c0, Or.inl ⟨rfl, h⟩⟩
  · rw [if_neg hbb] at h
    exact Or.inl ⟨hbb, h⟩

theorem chunks_apart_congr {c c' : isc_mem} (htab : c.basic_table = c'.basic_table)
    (ht : c.mem_target = c'.mem_target) (h : chunks_apart c') : chunks_apart c := by
  unfold chunks_apart at h ⊢
  rw [htab, ht]
  exact h

theorem more_frags_chop_table {ctx c1 : isc_mem} {ns : Nat} {b : Bool}
    (h : more_frags_chop ctx ns = Except.ok (b, c1)) :
    c1.basic_table = ctx.basic_table ∧ c1.mem_target = ctx.mem_target ∧
      c1.max_size = ctx.max_size := by
  obtain ⟨new, rest, _, _, _, hc⟩ := more_frags_chop_inv h
  rw [hc]
  exact ⟨rfl, rfl, rfl⟩

theorem tidy_more_frags {ctx c1 : isc_mem} {held : List (Nat × Nat)} {ns : Nat} {b : Bool}
    (h : tidy ctx held) (he : ctx.freelists ns = []) (hq : ns < ctx.max_size)
    (hmt : 0 < ctx.mem_target) (hlen : ctx.basic_table_count = ctx.basic_table.length)
    (hp : more_frags ctx ns = Except.ok (b, c1)) (hap : chunks_apart c1) :
    tidy c1 held := by
  rcases more_frags_cases hp with ⟨_, hch⟩ | ⟨hbb, c0, ⟨hg, hch⟩ | ⟨hg, hts⟩⟩
  · exact tidy_chop h he hq hch
  · obtain ⟨htab, ht, _⟩ := more_frags_chop_table hch
    have hap0 : chunks_apart c0 := chunks_apart_congr htab.symm ht.symm hap
    have h0 := tidy_grow h hbb hmt hlen hg hap0
    obtain ⟨_, _, _, hm0, _, hf0⟩ := more_basic_blocks_grown hg hmt hlen
    exact tidy_chop h0 (by rw [hf0]; exact he) (by rw [hm0]; exact hq) hch
  · obtain ⟨hcfg, hfr, har, _⟩ := more_basic_blocks_frame hg
    have har0 := har rfl
    have h0 : tidy c0 held := tidy_frame h hcfg.max_size hcfg.mem_target hfr.freelists
      har0.basic_blocks har0.basic_table (fun _ => rfl) (fun _ _ hm _ => hm)
    rcases try_split_inv hts with ⟨_, hc⟩ | ⟨_, _, i, hsc, hsp⟩
    · rw [hc]; exact h0
    · obtain ⟨hni, hi, _⟩ := split_candidate_some hsc
      exact tidy_split h0 hni hi hsp

theorem more_frags_table {ctx c1 : isc_mem} {ns : Nat} {b : Bool}
    (hmt : 0 < ctx.mem_target) (hlen : ctx.basic_table_count = ctx.basic_table.length)
    (hp : more_frags ctx ns = Except.ok (b, c1)) :
    ctx.basic_table <+: c1.basic_table := by
  rcases more_frags_cases hp with ⟨_, hch⟩ | ⟨hbb, c0, ⟨hg, hch⟩ | ⟨hg, hts⟩⟩
  · rw [(more_frags_chop_table hch).1]
  · obtain ⟨new, htab, _⟩ := more_basic_blocks_grown hg hmt hlen
    rw [(more_frags_chop_table hch).1, htab]
    exact List.prefix_append _ _
  · obtain ⟨_, _, har, _⟩ := more_basic_blocks_frame hg
    obtain ⟨_, _, har1, _⟩ := try_split_frame hts
    rw [har1.basic_table, (har rfl).basic_table]

theorem mem_get_pop_table {ctx c' : isc_mem} {size ns : Nat} {r : Option Nat}
    (h : mem_get_pop ctx size ns = Except.ok (r, c')) :
    c'.basic_table = ctx.basic_table ∧ c'.mem_target = ctx.mem_target := by
  obtain ⟨p, rest, _, _, hc⟩ := mem_get_pop_inv h
  rw [hc]
  exact ⟨rfl, rfl⟩

theorem mem_getunlocked_table {ctx c' : isc_mem} {size : Nat} {r : Option Nat}
    (hmt : 0 < ctx.mem_target) (hlen : ctx.basic_table_count = ctx.basic_table.length)
    (hg : mem_getunlocked ctx size = Except.ok (r, c')) :
    ctx.basic_table <+: c'.basic_table := by
  by_cases hl : get_large ctx.max_size size
  · rcases mem_getunlocked_large_cases hl hg with ⟨_, b, hc⟩ | ⟨p, b, _, hc⟩
    · rw [hc]
    · rw [hc]
  · rcases mem_getunlocked_small_cases hl hg with ⟨_, hp⟩ | ⟨_, c1, b, hm, hb⟩
    · rw [(mem_get_pop_table hp).1]
    · have h1 := more_frags_table hmt hlen hm
      rcases hb with ⟨_, _, hc⟩ | ⟨_, hp⟩
      · rw [hc]; exact h1
      · rw [(mem_get_pop_table hp).1]; exact h1

theorem tidy_get {ctx c' : isc_mem} {held : List (Nat × Nat)} {size : Nat} {r : Option Nat}
    (h : tidy ctx held) (hmt : 0 < ctx.mem_target)
    (hlen : ctx.basic_table_count = ctx.basic_table.length)
    (hg : mem_getunlocked ctx size = Except.ok (r, c')) (hap : chunks_apart c') :
    (r = none → tidy c' held) ∧ (∀ p, r = some p → tidy c' ((p, size) :: held)) := by
  by_cases hl : get_large ctx.max_size size
  · exact tidy_large_get h hl hg
  · have hq : quantize size < ctx.max_size := by
      by_contra hge
      exact hl (Or.inr (Nat.le_of_not_lt hge))
    rcases mem_getunlocked_small_cases hl hg with ⟨_, hp⟩ | ⟨he, c1, b, hm, hb⟩
    · obtain ⟨p, hr, ht⟩ := tidy_pop h hl hp
      constructor
      · intro hn; rw [hr] at hn; cases hn
      · intro q hq'; rw [hr] at hq'; cases hq'; exact ht
    · rcases hb with ⟨_, hn, hc⟩ | ⟨_, hp⟩
      · subst hc
        constructor
        · intro _
          exact tidy_more_frags h he hq hmt hlen hm hap
        · intro q hq'; rw [hn] at hq'; cases hq'
      · obtain ⟨htab, ht⟩ := mem_get_pop_table hp
        have hap1 : chunks_apart c1 := chunks_apart_congr htab.symm ht.symm hap
        have h1 := tidy_more_frags h he hq hmt hlen hm hap1
        have hm1 : c1.max_size = ctx.max_size := (more_frags_frame hm).1.max_size
        obtain ⟨p, hr, ht1⟩ := tidy_pop h1 (by rw [hm1]; exact hl) hp
        constructor
        · intro hn; rw [hr] at hn; cases hn
        · intro q hq'; rw [hr] at hq'; cases hq'; exact ht1

theorem held_step_tidy {ctx c1 : isc_mem} {held held1 : List (Nat × Nat)} {c : Call}
    (h : tidy ctx held) (hb : arena_bounds ctx) (hg : put_guard (ctx, held) c)
    (hs : held_step (ctx, held) c = Except.ok (c1, held1)) (hap : chunks_apart c1) :
    tidy c1 held1 := by
  obtain ⟨_, hc⟩ := held_step_inv hs
  rcases hc with ⟨size, r, _, hget, hr⟩ | ⟨mem, size, hcall, hput, hh⟩ | ⟨hh, hset⟩
  · have ht := tidy_get h hb.2.1 hb.2.2.1 hget hap
    rcases hr with ⟨hn, hh⟩ | ⟨p, hp, hh⟩
    · rw [hh]; exact ht.1 hn
    · rw [hh]; exact ht.2 p hp
  · subst hcall
    rw [hh]
    exact tidy_put h hg hput
  · rw [hh]
    rcases hset with ⟨q, _, hc⟩ | ⟨f, _, hc⟩ | ⟨f, _, hc⟩
    · exact tidy_frame h (by rw [hc]) (by rw [hc]) (by rw [hc]) (by rw [hc]) (by rw [hc])
        (fun _ => rfl) (fun _ _ hm _ => hm)
    · exact tidy_frame h (by rw [hc]) (by rw [hc]) (by rw [hc]) (by rw [hc]) (by rw [hc])
        (fun _ => rfl) (fun _ _ hm _ => hm)
    · exact tidy_frame h (by rw [hc]) (by rw [hc]) (by rw [hc]) (by rw [hc]) (by rw [hc])
        (fun _ => rfl) (fun _ _ hm _ => hm)

theorem call_step_table {ctx c1 : isc_mem} {c : Call} (hb : arena_bounds ctx)
    (hs : call_step ctx c = Except.ok c1) :
    ctx.basic_table <+: c1.basic_table ∧ c1.mem_target = ctx.mem_target := by
  obtain ⟨_, hc⟩ := call_step_inv hs
  rcases hc with ⟨size, r, _, hget⟩ | ⟨mem, size, _, hput⟩ | ⟨q, _, hc⟩ | ⟨f, _, hc⟩ |
    ⟨f, _, hc⟩
  · exact ⟨mem_getunlocked_table hb.2.1 hb.2.2.1 hget,
      (mem_getunlocked_counts hget).1.mem_target⟩
  · refine ⟨?_, (mem_putunlocked_counts hput).1.mem_target⟩
    rcases mem_putunlocked_inv hput with ⟨_, _, _, hc⟩ | ⟨_, _, _, hc⟩
    · rw [hc]
    · rw [hc]
  · rw [hc]; exact ⟨List.prefix_refl _, rfl⟩
  · rw [hc]; exact ⟨List.prefix_refl _, rfl⟩
  · rw [hc]; exact ⟨List.prefix_refl _, rfl⟩

theorem call_run_table : ∀ (calls : List Call) {ctx cN : isc_mem},
    arena_bounds ctx → call_run ctx calls = Except.ok cN →
    ctx.basic_table <+: cN.basic_table ∧ cN.mem_target = ctx.mem_target := by
  intro calls
  induction calls with
  | nil =>
    intro ctx cN _ h
    simp only [call_run, Except.ok.injEq] at h
    subst h
    exact ⟨List.prefix_refl _, rfl⟩
  | cons c cs ih =>
    intro ctx cN hb h
    obtain ⟨c1, h1, h2⟩ := call_run_cons_inv h
    have hb1 : arena_bounds c1 := by
      apply call_run_bounds [c] hb
      simp only [call_run, h1]
    obtain ⟨hp1, ht1⟩ := call_step_table hb h1
    obtain ⟨hp2, ht2⟩ := ih hb1 h2
    exact ⟨List.IsPrefix.trans hp1 hp2, by rw [ht2, ht1]⟩

theorem held_run_tidy : ∀ (calls : List Call) {s sN : isc_mem × List (Nat × Nat)},
    tidy s.1 s.2 → arena_bounds s.1 → puts_matched s calls →
    held_run s calls = Except.ok sN → chunks_apart sN.1 → tidy sN.1 sN.2 := by
  intro calls
  induction calls with
  | nil =>
    intro s sN ht _ _ h _
    simp only [held_run, Except.ok.injEq] at h
    subst h
    exact ht
  | cons c cs ih =>
    intro s sN ht hb hm h hap
    obtain ⟨s1, h1, h2⟩ := held_run_cons_inv h
    have hg : put_guard s c := hm.1
    have hm1 : puts_matched s1 cs := by
      have := hm.2
      rw [h1] at this
      exact this
    obtain ⟨ctx, held⟩ := s
    obtain ⟨c1, held1⟩ := s1
    have hs1 := (held_step_inv h1).1
    have hb1 : arena_bounds c1 := by
      apply call_run_bounds [c] hb
      simp only [call_run, hs1]
    obtain ⟨hpre, hmt⟩ := call_run_table cs hb1 (held_run_ctx cs h2)
    have hap1 : chunks_apart c1 := by
      unfold chunks_apart at hap ⊢
      rw [hmt] at hap
      exact List.Pairwise.sublist hpre.sublist hap
    exact ih (held_step_tidy ht hb hg h1 hap1) hb1 hm1 h2 hap


/-! ## No two pieces of the arena overlap -/

/-- C35: in every state reached from `isc_mem_createx` with `max_size` not
above `mem_target` by calls whose puts give back blocks held, with the size of
their get, and whose arena chunks, as the backing allocator gave them out, do
not overlap: the free lists of the classes from `max_size` on are empty, the
byte ranges of the fragments on the free lists, of the small blocks held and
of the idle basic blocks are pairwise disjoint, and each lies inside one
arena chunk of the context. -/
theorem fragments_disjoint (sizeof_ctx init_max_size target_size : Nat) (b b' : Backing)
    (mutex_ok : Bool) (ctx0 ctx : isc_mem) (held : List (Nat × Nat)) (calls : List Call)
    (hc : isc_mem_createx sizeof_ctx init_max_size target_size b mutex_ok
      = (isc_result.ISC_R_SUCCESS, some ctx0, b'))
    (hle : ctx0.max_size ≤ ctx0.mem_target)
    (hm : puts_matched (ctx0, []) calls)
    (hrun : held_run (ctx0, []) calls = Except.ok (ctx, held))
    (hap : chunks_apart ctx) :
    call_run ctx0 calls = Except.ok ctx ∧
    (∀ c, ctx.max_size ≤ c → ctx.freelists c = []) ∧
    (pieces ctx held).Pairwise ranges_disjoint ∧
    (∀ x, x ∈ pieces ctx held → in_chunk ctx x) ∧
    (∀ a, cover ctx held a ≤ 1) := by
  have hf := createx_fresh hc
  have h0 : tidy ctx0 [] := by
    refine ⟨hle, ?_, ?_, ?_, ?_, ?_⟩
    · intro c _
      rw [hf.freelists]
    · intro c p _ hp
      rw [hf.freelists] at hp
      cases hp
    · intro p s hp _
      cases hp
    · intro b hb
      rw [hf.basic_blocks] at hb
      cases hb
    · intro a
      rw [hf.freelists, hf.basic_blocks]
      simp [free_cover, held_cover, idle_cover]
  have ht := held_run_tidy calls h0 (createx_bounds hc).1 hm hrun hap
  have hcov : ∀ a, cover ctx held a ≤ 1 := by
    intro a
    rw [cover_eq]
    exact ht.once a
  refine ⟨held_run_ctx calls hrun, ht.beyond, countP_covers_disjoint _ hcov, ?_, hcov⟩
  intro x hx
  unfold pieces at hx
  rcases List.mem_append.mp hx with h1 | h1
  · obtain ⟨h2, h3⟩ := (mem_free_pieces ctx x).mp h1
    exact ht.free_in x.2 x.1 h2 h3
  · rcases List.mem_append.mp h1 with h2 | h2
    · obtain ⟨s, h3, h4, h5⟩ := (mem_held_pieces ctx.max_size held x).mp h2
      have := ht.held_in x.1 s h3 h4
      rw [← h5] at this
      exact this
    · obtain ⟨h3, h4⟩ := (mem_idle_pieces ctx x).mp h2
      have := ht.idle_in x.1 h4
      rw [← h3] at this
      exact this

theorem fragments_disjoint_witness :
    isc_mem_createx 200 64 128 example_backing_long true
      = (isc_result.ISC_R_SUCCESS, some example_pool_ctx, example_pool_ctx.backing) ∧
    example_pool_ctx.max_size ≤ example_pool_ctx.mem_target ∧
    puts_matched (example_pool_ctx, []) example_held_calls ∧
    held_run (example_pool_ctx, []) example_held_calls = Except.ok example_held ∧
    chunks_apart example_held.1 ∧
    example_held.1.basic_table = [20480] ∧
    example_held.1.freelists 8 = (List.range 14).map (fun k => 20496 + k * 8) ∧
    example_held.2 = [(20480, 3), (65536, 100), (20488, 5)] ∧
    example_held.1.basic_blocks = (List.range 63).map (fun k => 20608 + k * 128) ∧
    (call_run example_pool_ctx example_held_calls = Except.ok example_held.1 ∧
    (∀ c, example_held.1.max_size ≤ c → example_held.1.freelists c = []) ∧
    (pieces example_held.1 example_held.2).Pairwise ranges_disjoint ∧
    (∀ x, x ∈ pieces example_held.1 example_held.2 → in_chunk example_held.1 x) ∧
    (∀ a, cover example_held.1 example_held.2 a ≤ 1)) :=
  ⟨rfl, by decide,
    ⟨trivial, trivial, trivial,
      (by decide : ((20480, 8) : Nat × Nat) ∈ [(65536, 100), (20488, 5), (20480, 8)]),
      trivial, trivial⟩,
    rfl, List.pairwise_singleton _ _, rfl, rfl, rfl, rfl,
    fragments_disjoint 200 64 128 example_backing_long example_pool_ctx.backing true
      example_pool_ctx example_held.1 example_held.2 example_held_calls rfl (by decide)
      ⟨trivial, trivial, trivial,
        (by decide : ((20480, 8) : Nat × Nat) ∈ [(65536, 100), (20488, 5), (20480, 8)]),
        trivial, trivial⟩
      rfl (List.pairwise_singleton _ _)⟩


/-! ## Pools and the counters of their context -/

theorem get_books {m m' : isc_mem} {size : Nat} {r : Option Nat}
    (h : mem_getunlocked m size = Except.ok (r, m')) :
    m'.max_size = m.max_size ∧
    (∀ k, (m'.stats k).gets = (m.stats k).gets +
      (if k = get_slot m.max_size size then (if r.isSome = true then 1 else 0) else 0)) ∧
    m'.inuse = m.inuse + (if r.isSome = true then get_unit m.max_size size else 0) := by
  obtain ⟨hcfg, hcnt⟩ := mem_getunlocked_counts h
  refine ⟨hcfg.max_size, ?_, ?_⟩
  · intro k
    rw [(hcnt k).1]
    by_cases e : k = get_slot m.max_size size
    · by_cases e2 : r.isSome = true
      · simp [e, e2]
      · simp [e, e2]
    · simp [e]
  · cases r with
    | none => simpa using mem_getunlocked_null h
    | some p =>
      obtain ⟨h1, h2⟩ := mem_getunlocked_inuse h
      unfold get_unit
      by_cases hl : get_large m.max_size size
      · simp only [Option.isSome_some, if_true, if_pos hl]
        exact (h1 hl).1
      · simp only [Option.isSome_some, if_true, if_neg hl]
        exact h2 hl

theorem put_books {m m' : isc_mem} {mem size : Nat}
    (h : mem_putunlocked m mem size = Except.ok m') :
    m'.max_size = m.max_size ∧
    (∀ k, (m'.stats k).gets + (if k = get_slot m.max_size size then 1 else 0)
      = (m.stats k).gets) ∧
    (get_unit m.max_size size ≤ m.inuse → m'.inuse + get_unit m.max_size size = m.inuse) := by
  obtain ⟨hcfg, hcnt⟩ := mem_putunlocked_counts h
  rcases mem_putunlocked_inv h with ⟨hl, _, _, hc⟩ | ⟨hs, hlt, _, hc⟩
  · have hgl := put_large_get_large hl
    have e1 : get_slot m.max_size size = put_slot m.max_size size := by
      unfold get_slot put_slot
      rw [if_pos hgl, if_pos hl]
    refine ⟨hcfg.max_size, fun k => ?_, fun hle => ?_⟩
    · rw [e1]; exact (hcnt k).1
    · unfold get_unit at hle ⊢
      rw [if_pos hgl] at hle ⊢
      have : m'.inuse = wsub m.inuse size := by rw [hc]
      rw [this, wsub_le hle]
      omega
  · have hgs := put_small_get_small hs hlt
    have e1 : get_slot m.max_size size = put_slot m.max_size size := by
      unfold get_slot put_slot
      rw [if_neg hgs, if_neg hs]
    refine ⟨hcfg.max_size, fun k => ?_, fun hle => ?_⟩
    · rw [e1]; exact (hcnt k).1
    · unfold get_unit at hle ⊢
      rw [if_neg hgs] at hle ⊢
      have : m'.inuse = wsub m.inuse (quantize size) := by rw [hc]
      rw [this, wsub_le hle]
      omega

theorem gets_served_books (size : Nat) : ∀ (got : List Nat) {m m' : isc_mem},
    gets_served size m got m' →
    m'.max_size = m.max_size ∧
    (∀ k, (m'.stats k).gets = (m.stats k).gets +
      (if k = get_slot m.max_size size then got.length else 0)) ∧
    m'.inuse = m.inuse + got.length * get_unit m.max_size size := by
  intro got
  induction got with
  | nil =>
    intro m m' h
    have e : m' = m := h
    subst e
    simp
  | cons item rest ih =>
    intro m m' h
    obtain ⟨m1, hg, hr⟩ := h
    obtain ⟨a1, a2, a3⟩ := get_books hg
    obtain ⟨b1, b2, b3⟩ := ih hr
    rw [a1] at b1 b2 b3
    refine ⟨b1, fun k => ?_, ?_⟩
    · rw [b2 k, a2 k]
      by_cases e : k = get_slot m.max_size size
      · simp only [e, if_true, Option.isSome_some, List.length_cons]
        omega
      · simp [e]
    · rw [b3, a3]
      simp only [Option.isSome_some, if_true, List.length_cons, Nat.succ_mul]
      omega

theorem mem_put_all_books (size : Nat) : ∀ (items : List Nat) {m m1 : isc_mem},
    mem_put_all size items m = Except.ok m1 →
    items.length * get_unit m.max_size size ≤ m.inuse →
    m1.max_size = m.max_size ∧
    (∀ k, (m1.stats k).gets + (if k = get_slot m.max_size size then items.length else 0)
      = (m.stats k).gets) ∧
    m1.inuse + items.length * get_unit m.max_size size = m.inuse := by
  intro items
  induction items with
  | nil =>
    intro m m1 h _
    simp only [mem_put_all, Except.ok.injEq] at h
    subst h
    simp
  | cons item rest ih =>
    intro m m1 h hle
    simp only [mem_put_all] at h
    generalize hg : mem_putunlocked m item size = g at h
    cases g with
    | error e => simp at h
    | ok m2 =>
      dsimp only at h
      simp only [List.length_cons, Nat.succ_mul] at hle
      obtain ⟨a1, a2, a3⟩ := put_books hg
      have a3' := a3 (by omega)
      obtain ⟨b1, b2, b3⟩ := ih h (by rw [a1]; omega)
      rw [a1] at b1 b2 b3
      refine ⟨b1, fun k => ?_, ?_⟩
      · have := a2 k
        have := b2 k
        by_cases e : k = get_slot m.max_size size
        · simp only [e, if_true, List.length_cons] at *
          omega
        · simp only [e, if_false] at *
          omega
      · simp only [List.length_cons, Nat.succ_mul]
        omega

theorem take_books {size max_size : Nat} {g0 : Nat → Nat} {i0 : Nat} {p : isc_mempool}
    {m : isc_mem} {item : Nat} {next : List Nat}
    (h : pool_books size max_size g0 i0 (p, m)) (hi : p.items = item :: next) :
    pool_books size max_size g0 i0 (mempool_take p next, m) := by
  have hc : p.freecount = next.length + 1 := by
    have := h.count
    dsimp only at this
    rw [this, hi]
    rfl
  have hf : (mempool_take p next).freecount = p.freecount - 1 := by
    show wdec32 p.freecount = _
    exact wdec32_pos (by omega)
  have ha : (mempool_take p next).allocated = p.allocated + 1 := rfl
  have hsum : (mempool_take p next).allocated + (mempool_take p next).freecount
      = p.allocated + p.freecount := by
    rw [hf, ha]; omega
  refine ⟨h.size_eq, h.max_eq, ?_, ?_, ?_⟩
  · show (mempool_take p next).freecount = next.length
    rw [hf]; omega
  · intro k
    dsimp only
    rw [hsum]
    exact h.gets k
  · dsimp only
    rw [hsum]
    exact h.inuse

theorem fill_books {size max_size : Nat} {g0 : Nat → Nat} {i0 : Nat} {p p1 : isc_mempool}
    {m m1 : isc_mem} (n : Nat)
    (h : pool_books size max_size g0 i0 (p, m))
    (hf : mempool_fill n p m = Except.ok (p1, m1)) :
    pool_books size max_size g0 i0 (p1, m1) := by
  obtain ⟨got, mm, hserved, _, hends, hp1⟩ := fill_inv n hf
  have hsz : p.size = size := h.size_eq
  have hmx : m.max_size = max_size := h.max_eq
  rw [hsz] at hserved hends
  obtain ⟨a1, a2, a3⟩ := gets_served_books size got hserved
  rw [hmx] at a1 a2 a3
  have hm1 : m1.max_size = max_size ∧ (∀ k, (m1.stats k).gets = (mm.stats k).gets) ∧
      m1.inuse = mm.inuse := by
    rcases hends with ⟨_, hg⟩ | ⟨_, he⟩
    · obtain ⟨b1, b2, b3⟩ := get_books hg
      refine ⟨by rw [b1, a1], fun k => ?_, ?_⟩
      · rw [b2 k]; simp
      · rw [b3]; simp
    · rw [he]
      exact ⟨a1, fun _ => rfl, rfl⟩
  obtain ⟨c1, c2, c3⟩ := hm1
  have hfc : p1.freecount = p.freecount + got.length := by rw [hp1]
  have hal : p1.allocated = p.allocated := by rw [hp1]
  have hit : p1.items = got.reverse ++ p.items := by rw [hp1]
  refine ⟨?_, c1, ?_, ?_, ?_⟩
  · show p1.size = size
    rw [hp1]; exact hsz
  · show p1.freecount = p1.items.length
    have := h.count
    dsimp only at this
    rw [hfc, hit, List.length_append, List.length_reverse, this]
    omega
  · intro k
    dsimp only
    rw [c2 k, a2 k, h.gets k, hfc, hal]
    dsimp only
    by_cases e : k = get_slot max_size size
    · simp only [e, if_true]; omega
    · simp [e]
  · dsimp only
    rw [c3, a3, h.inuse, hfc, hal]
    dsimp only
    rw [← Nat.add_assoc p.allocated, Nat.add_mul (p.allocated + p.freecount)]
    omega

theorem pool_step_books {size max_size : Nat} {g0 : Nat → Nat} {i0 : Nat}
    {s s1 : isc_mempool × isc_mem} {c : PoolCall}
    (h : pool_books size max_size g0 i0 s) (ho : pool_only c)
    (hs : pool_step s c = Except.ok s1) : pool_books size max_size g0 i0 s1 := by
  obtain ⟨p, m⟩ := s
  obtain ⟨p', m'⟩ := s1
  rcases pool_step_inv hs with ⟨_, r, hg⟩ | ⟨mem, _, hp⟩ | ⟨v, _, he⟩ | ⟨v, _, he⟩ |
    ⟨v, _, he⟩ | ⟨cc, mm, hc, _, _⟩
  · dsimp only at hg
    obtain ⟨_, hcases⟩ := pool_get_inv hg
    rcases hcases with ⟨_, _, hp, hm⟩ | ⟨_, item, next, hi, _, _, hp, hm⟩ |
      ⟨_, _, p1, hfill, hrest⟩
    · rw [hp, hm]; exact h
    · rw [hp, hm]; exact take_books h hi
    · have h1 := fill_books p.fillcount h hfill
      rcases hrest with ⟨_, _, hp⟩ | ⟨item, next, hi, _, hp⟩
      · rw [hp]; exact h1
      · rw [hp]; exact take_books h1 hi
  · dsimp only at hp
    obtain ⟨_, hpos, hcases⟩ := pool_put_inv hp
    have hsz : p.size = size := h.size_eq
    have hmx : m.max_size = max_size := h.max_eq
    have hcnt : p.freecount = p.items.length := h.count
    have hgets := h.gets
    have hin := h.inuse
    dsimp only at hgets hin
    have hsplit : p.allocated + p.freecount = (p.allocated - 1 + p.freecount) + 1 := by omega
    rcases hcases with ⟨_, hput, hp'⟩ | ⟨_, hm, hp'⟩
    · have hput' : mem_putunlocked m mem p.size = Except.ok m' := by
        unfold isc__mem_put at hput
        by_cases hv : VALID_CONTEXT m
        · rw [if_neg (not_not.mpr hv)] at hput
          exact hput
        · rw [if_pos hv] at hput
          cases hput
      rw [hsz] at hput'
      obtain ⟨a1, a2, a3⟩ := put_books hput'
      rw [hmx] at a1 a2 a3
      have hle : get_unit max_size size ≤ m.inuse := by
        rw [hin, hsplit, Nat.add_mul, Nat.one_mul]
        omega
      have a3' := a3 hle
      refine ⟨by rw [hp']; exact hsz, a1, by rw [hp']; exact hcnt, ?_, ?_⟩
      · intro k
        have := a2 k
        have := hgets k
        rw [hp']
        dsimp only
        by_cases e : k = get_slot max_size size
        · simp only [e, if_true] at *
          omega
        · simp only [e, if_false] at *
          omega
      · rw [hp']
        dsimp only
        rw [hin, hsplit, Nat.add_mul, Nat.one_mul] at a3'
        omega
    · have hsum : p.allocated - 1 + (p.freecount + 1) = p.allocated + p.freecount := by omega
      refine ⟨by rw [hp']; exact hsz, by rw [hm]; exact hmx, ?_, ?_, ?_⟩
      · rw [hp']
        show p.freecount + 1 = (mem :: p.items).length
        rw [List.length_cons, hcnt]
      · intro k
        rw [hp', hm]
        dsimp only
        rw [hsum]
        exact hgets k
      · rw [hp', hm]
        dsimp only
        rw [hsum]
        exact hin
  · cases he
    exact ⟨h.size_eq, h.max_eq, h.count, h.gets, h.inuse⟩
  · cases he
    exact ⟨h.size_eq, h.max_eq, h.count, h.gets, h.inuse⟩
  · cases he
    exact ⟨h.size_eq, h.max_eq, h.count, h.gets, h.inuse⟩
  · subst hc
    exact absurd ho (fun x => x)

theorem pool_run_books {size max_size : Nat} {g0 : Nat → Nat} {i0 : Nat} :
    ∀ (calls : List PoolCall) {s sN : isc_mempool × isc_mem},
    pool_books size max_size g0 i0 s → (∀ c, c ∈ calls → pool_only c) →
    pool_run s calls = Except.ok sN → pool_books size max_size g0 i0 sN := by
  intro calls
  induction calls with
  | nil =>
    intro s sN h _ hr
    simp only [pool_run, Except.ok.injEq] at hr
    subst hr
    exact h
  | cons c cs ih =>
    intro s sN h ho hr
    obtain ⟨s1, h1, h2⟩ := pool_run_cons_inv hr
    exact ih (pool_step_books h (ho c (List.mem_cons_self _ _)) h1)
      (fun c' hc' => ho c' (List.mem_cons_of_mem _ hc')) h2

theorem pool_create_get {sizeof_pool size : Nat} {mctx m0 : isc_mem} {p0 : isc_mempool}
    (h : isc_mempool_create sizeof_pool mctx size
      = Except.ok (isc_result.ISC_R_SUCCESS, some p0, m0)) :
    ∃ self mctx1, mem_getunlocked mctx sizeof_pool = Except.ok (some self, mctx1) ∧
      m0 = { mctx1 with pools := mctx1.pools ++ [self] } ∧
      p0.size = size ∧ p0.self = self ∧ p0.allocated = 0 ∧ p0.freecount = 0 ∧
      p0.items = [] := by
  unfold isc_mempool_create at h
  split at h
  · cases h
  · split at h
    · cases h
    · generalize hg : mem_getunlocked mctx sizeof_pool = g at h
      cases g with
      | error e => simp at h
      | ok v =>
        obtain ⟨r, mctx1⟩ := v
        cases r with
        | none => simp at h
        | some self =>
          simp only [Except.ok.injEq, Prod.mk.injEq, Option.some.injEq, true_and] at h
          obtain ⟨hp, hm⟩ := h
          refine ⟨self, mctx1, rfl, hm.symm, ?_, ?_, ?_, ?_, ?_⟩ <;> rw [← hp]

/-- Pools do not leak where the release runs: on every pool reached from
`isc_mempool_create` by calls on the pool, the slot of the item size has
counted `allocated + freecount` more gets than puts since the creation, and
`inuse` has grown by as many items; and whenever `isc_mempool_destroy` returns,
`inuse` and every counter `gets` of the context are as they were before the
pool was made. -/
theorem pool_no_leak (sizeof_pool size : Nat) (mctx m0 m : isc_mem) (p0 p : isc_mempool)
    (calls : List PoolCall)
    (hc : isc_mempool_create sizeof_pool mctx size
      = Except.ok (isc_result.ISC_R_SUCCESS, some p0, m0))
    (ho : ∀ c, c ∈ calls → pool_only c)
    (hrun : pool_run (p0, m0) calls = Except.ok (p, m)) :
    (∀ k, (m.stats k).gets = (m0.stats k).gets +
      (if k = get_slot m0.max_size size then p.allocated + p.freecount else 0)) ∧
    m.inuse = m0.inuse + (p.allocated + p.freecount) * get_unit m0.max_size size ∧
    (∀ r m3, isc_mempool_destroy sizeof_pool p m = Except.ok (r, m3) →
      m3.inuse = mctx.inuse ∧ ∀ k, (m3.stats k).gets = (mctx.stats k).gets) := by
  obtain ⟨self, mctx1, hget, hm0, hsz, _, hal, hfc, hit⟩ := pool_create_get hc
  have h0 : pool_books size m0.max_size (fun k => (m0.stats k).gets) m0.inuse (p0, m0) := by
    refine ⟨hsz, rfl, ?_, ?_, ?_⟩
    · show p0.freecount = p0.items.length
      rw [hfc, hit]; rfl
    · intro k
      dsimp only
      rw [hal, hfc]
      simp
    · dsimp only
      rw [hal, hfc]
      simp
  have hb := pool_run_books calls h0 ho hrun
  have hgets := hb.gets
  have hin := hb.inuse
  have hcnt : p.freecount = p.items.length := hb.count
  have hpsz : p.size = size := hb.size_eq
  have hmx : m.max_size = m0.max_size := hb.max_eq
  dsimp only at hgets hin
  refine ⟨hgets, hin, ?_⟩
  intro r m3 hd
  unfold isc_mempool_destroy at hd
  split at hd
  · cases hd
  · rename_i hv
    split at hd
    · cases hd
    · rename_i ha
      have ha0 : p.allocated = 0 := not_not.mp ha
      rw [releaseall_eq p m hcnt] at hd
      generalize hpa : mem_put_all p.size p.items m = g at hd
      cases g with
      | error e => simp [Except.map] at hd
      | ok m1 =>
        simp only [Except.map] at hd
        generalize hpp : mem_putunlocked
          { m1 with pools := m1.pools.erase ({ p with freecount := 0 } : isc_mempool).self }
          ({ p with freecount := 0 } : isc_mempool).self sizeof_pool = g2 at hd
        cases g2 with
        | error e => simp at hd
        | ok m4 =>
          simp only [Except.ok.injEq, Prod.mk.injEq] at hd
          obtain ⟨_, hm4⟩ := hd
          subst hm4
          rw [hpsz] at hpa
          have hin' : m.inuse = m0.inuse + p.items.length * get_unit m0.max_size size := by
            rw [hin, ha0, hcnt, Nat.zero_add]
          have hgets' : ∀ k, (m.stats k).gets = (m0.stats k).gets +
              (if k = get_slot m0.max_size size then p.items.length else 0) := by
            intro k
            rw [hgets k, ha0, hcnt, Nat.zero_add]
          clear hin hgets
          have hle : p.items.length * get_unit m.max_size size ≤ m.inuse := by
            rw [hin', hmx]
            omega
          obtain ⟨a1, a2, a3⟩ := mem_put_all_books size p.items hpa hle
          obtain ⟨b1, b2, b3⟩ := put_books hpp
          obtain ⟨c1, c2, c3⟩ := get_books hget
          have hm0x : m0.max_size = mctx1.max_size := by rw [hm0]
          have hm0g : ∀ k, (m0.stats k).gets = (mctx1.stats k).gets := by
            intro k; rw [hm0]
          have hm0i : m0.inuse = mctx1.inuse := by rw [hm0]
          have hmax1 : m1.max_size = mctx.max_size := by rw [a1, hmx, hm0x, c1]
          have hm1i : m1.inuse = m0.inuse := by
            rw [hin', hmx] at a3
            omega
          have hm1g : ∀ k, (m1.stats k).gets = (m0.stats k).gets := by
            intro k
            have h1 := a2 k
            have h2 := hgets' k
            rw [hmx] at h1
            by_cases e : k = get_slot m0.max_size size
            · simp only [e, if_true] at h1 h2 ⊢
              omega
            · simp only [e, if_false] at h1 h2 ⊢
              omega
          dsimp only at b1 b2 b3
          rw [hmax1] at b2 b3
          simp only [Option.isSome_some, if_true] at c2 c3
          constructor
          · have := b3 (by rw [hm1i, hm0i, c3]; omega)
            rw [hm1i, hm0i, c3] at this
            omega
          · intro k
            have h1 := b2 k
            have h2 := c2 k
            rw [hm1g k, hm0g k, h2] at h1
            by_cases e : k = get_slot mctx.max_size sizeof_pool
            · simp only [e, if_true] at h1 ⊢
              omega
            · simp only [e, if_false] at h1 ⊢
              omega


/-! ## The counter `freefrags` where no class exceeds a basic block -/

theorem agree_modify {fl : Nat → List Nat} {st : Nat → stats} (j : Nat)
    (gl : List Nat → List Nat) (gs : stats → stats)
    (h : ∀ c, (st c).freefrags = (fl c).length % 2 ^ SIZE_BITS)
    (hg : (gs (st j)).freefrags = (gl (fl j)).length % 2 ^ SIZE_BITS) :
    ∀ c, (modify st j gs c).freefrags = (modify fl j gl c).length % 2 ^ SIZE_BITS := by
  intro c
  by_cases e : c = j
  · subst e
    rw [modify_same, modify_same]
    exact hg
  · rw [modify_other _ _ _ _ e, modify_other _ _ _ _ e]
    exact h c

theorem agree_stats {fl : Nat → List Nat} {st : Nat → stats} (j : Nat) (gs : stats → stats)
    (h : ∀ c, (st c).freefrags = (fl c).length % 2 ^ SIZE_BITS)
    (hg : ∀ s, (gs s).freefrags = s.freefrags) :
    ∀ c, (modify st j gs c).freefrags = (fl c).length % 2 ^ SIZE_BITS := by
  intro c
  rw [modify_freefrags gs hg]
  exact h c

theorem wdec_mod (n : Nat) (h : 0 < n) :
    wdec (n % 2 ^ SIZE_BITS) = (n - 1) % 2 ^ SIZE_BITS := by
  unfold wdec wsub SIZE_BITS
  norm_num
  split <;> omega

theorem wadd_mod (n k : Nat) :
    wadd (n % 2 ^ SIZE_BITS) k = (n + k) % 2 ^ SIZE_BITS := by
  unfold wadd
  rw [Nat.mod_add_mod]

theorem agree_pop {c1 c' : isc_mem} {size ns : Nat} {r : Option Nat}
    (h : freefrags_agree c1) (hp : mem_get_pop c1 size ns = Except.ok (r, c')) :
    freefrags_agree c' := by
  obtain ⟨p, rest, hfl, _, hc⟩ := mem_get_pop_inv hp
  have hf : c'.freelists = modify c1.freelists ns (fun _ => rest) := by rw [hc]
  have hs : c'.stats = modify (modify c1.stats size stats.count_get) ns stats.freefrags_dec := by
    rw [hc]
  unfold freefrags_agree
  rw [hf, hs]
  apply agree_modify ns _ _ (agree_stats size stats.count_get h (fun _ => rfl))
  show wdec (modify c1.stats size stats.count_get ns).freefrags = _
  rw [modify_freefrags stats.count_get (fun _ => rfl), h ns, hfl]
  exact wdec_mod _ (Nat.succ_pos _)

theorem agree_put {ctx c' : isc_mem} {mem size : Nat}
    (h : freefrags_agree ctx) (hp : mem_putunlocked ctx mem size = Except.ok c') :
    freefrags_agree c' := by
  rcases mem_putunlocked_inv hp with ⟨_, _, _, hc⟩ | ⟨_, _, _, hc⟩
  · have hf : c'.freelists = ctx.freelists := by rw [hc]
    have hs : c'.stats = modify ctx.stats ctx.max_size stats.gets_dec := by rw [hc]
    unfold freefrags_agree
    rw [hf, hs]
    exact agree_stats _ _ h (fun _ => rfl)
  · have hf : c'.freelists = modify ctx.freelists (quantize size) (fun l => mem :: l) := by
      rw [hc]
    have hs : c'.stats = modify (modify ctx.stats size stats.gets_dec) (quantize size)
        (fun s => s.freefrags_add 1) := by rw [hc]
    unfold freefrags_agree
    rw [hf, hs]
    apply agree_modify _ _ _ (agree_stats size stats.gets_dec h (fun _ => rfl))
    show wadd (modify ctx.stats size stats.gets_dec (quantize size)).freefrags 1 = _
    rw [modify_freefrags stats.gets_dec (fun _ => rfl), h (quantize size), wadd_mod]
    rfl

theorem agree_chop {ctx c' : isc_mem} {ns : Nat} {r : Bool}
    (h : freefrags_agree ctx) (he : ctx.freelists ns = []) (hle : ns ≤ ctx.mem_target)
    (hp : more_frags_chop ctx ns = Except.ok (r, c')) : freefrags_agree c' := by
  obtain ⟨new, rest, _, hne, _, hc⟩ := more_frags_chop_inv hp
  have hF : 0 < ctx.mem_target / ns := Nat.div_pos hle (Nat.pos_of_ne_zero hne)
  have hmax : max (ctx.mem_target / ns) 1 = ctx.mem_target / ns := Nat.max_eq_left hF
  have hf : c'.freelists = modify ctx.freelists ns
      (fun _ => (List.range (ctx.mem_target / ns)).map (fun k => new + k * ns)) := by
    rw [hc, hmax]
  have hs : c'.stats = modify ctx.stats ns
      (fun s => s.blocks_inc.freefrags_add (ctx.mem_target / ns)) := by rw [hc]
  unfold freefrags_agree
  rw [hf, hs]
  apply agree_modify _ _ _ h
  show wadd (ctx.stats ns).freefrags (ctx.mem_target / ns) = _
  rw [h ns, he, wadd_mod, List.length_map, List.length_range]
  simp

theorem agree_split {ctx c' : isc_mem} {i n : Nat}
    (h : freefrags_agree ctx) (hp : split ctx i n = Except.ok c') : freefrags_agree c' := by
  obtain ⟨ptr, rest, hfl, hf, hs⟩ := split_inv hp
  unfold freefrags_agree
  rw [hf, hs]
  have h1 := agree_modify i (fun _ => rest) stats.freefrags_dec h (by
    show wdec (ctx.stats i).freefrags = _
    rw [h i, hfl]
    exact wdec_mod _ (Nat.succ_pos _))
  have h2 := agree_modify n (fun l => ptr :: l) (fun s => s.freefrags_add 1) h1 (by
    show wadd _ 1 = _
    rw [h1 n, wadd_mod]
    rfl)
  exact agree_modify (wsub i n) (fun l => (ptr + n) :: l) (fun s => s.freefrags_add 1) h2 (by
    show wadd _ 1 = _
    rw [h2 (wsub i n), wadd_mod]
    rfl)

theorem agree_more_frags {ctx c1 : isc_mem} {ns : Nat} {b : Bool}
    (h : freefrags_agree ctx) (he : ctx.freelists ns = []) (hle : ns ≤ ctx.mem_target)
    (hp : more_frags ctx ns = Except.ok (b, c1)) : freefrags_agree c1 := by
  rcases more_frags_cases hp with ⟨_, hch⟩ | ⟨hbb, c0, ⟨hg, hch⟩ | ⟨hg, hts⟩⟩
  · exact agree_chop h he hle hch
  · obtain ⟨hcfg, hfr, _⟩ := more_basic_blocks_frame hg
    have h0 : freefrags_agree c0 := by
      unfold freefrags_agree
      rw [hfr.freelists, hfr.stats]
      exact h
    exact agree_chop h0 (by rw [hfr.freelists]; exact he) (by rw [hcfg.mem_target]; exact hle)
      hch
  · obtain ⟨_, hfr, _⟩ := more_basic_blocks_frame hg
    have h0 : freefrags_agree c0 := by
      unfold freefrags_agree
      rw [hfr.freelists, hfr.stats]
      exact h
    rcases try_split_inv hts with ⟨_, hc⟩ | ⟨_, _, i, _, hsp⟩
    · rw [hc]; exact h0
    · exact agree_split h0 hsp

theorem agree_get {ctx c' : isc_mem} {size : Nat} {r : Option Nat}
    (h : freefrags_agree ctx) (hb : ctx.max_size ≤ ctx.mem_target)
    (hg : mem_getunlocked ctx size = Except.ok (r, c')) : freefrags_agree c' := by
  by_cases hl : get_large ctx.max_size size
  · rcases mem_getunlocked_large_cases hl hg with ⟨_, b, hc⟩ | ⟨p, b, _, hc⟩
    · rw [hc]; exact h
    · have hf : c'.freelists = ctx.freelists := by rw [hc]
      have hs : c'.stats = modify ctx.stats ctx.max_size stats.count_get := by rw [hc]
      unfold freefrags_agree
      rw [hf, hs]
      exact agree_stats _ _ h (fun _ => rfl)
  · have hq : quantize size ≤ ctx.mem_target := by
      have : quantize size < ctx.max_size := by
        by_contra hge
        exact hl (Or.inr (Nat.le_of_not_lt hge))
      omega
    rcases mem_getunlocked_small_cases hl hg with ⟨_, hp⟩ | ⟨he, c1, b, hm, hcase⟩
    · exact agree_pop h hp
    · have h1 := agree_more_frags h he hq hm
      rcases hcase with ⟨_, _, hc⟩ | ⟨_, hp⟩
      · rw [hc]; exact h1
      · exact agree_pop h1 hp

theorem call_step_agree {ctx c1 : isc_mem} {c : Call}
    (h : freefrags_agree ctx) (hb : ctx.max_size ≤ ctx.mem_target)
    (hs : call_step ctx c = Except.ok c1) :
    freefrags_agree c1 ∧ c1.max_size ≤ c1.mem_target := by
  obtain ⟨_, hc⟩ := call_step_inv hs
  rcases hc with ⟨size, r, _, hget⟩ | ⟨mem, size, _, hput⟩ | ⟨q, _, hc⟩ | ⟨f, _, hc⟩ |
    ⟨f, _, hc⟩
  · obtain ⟨hcfg, _⟩ := mem_getunlocked_counts hget
    exact ⟨agree_get h hb hget, by rw [hcfg.max_size, hcfg.mem_target]; exact hb⟩
  · obtain ⟨hcfg, _⟩ := mem_putunlocked_counts hput
    exact ⟨agree_put h hput, by rw [hcfg.max_size, hcfg.mem_target]; exact hb⟩
  · rw [hc]; exact ⟨h, hb⟩
  · rw [hc]; exact ⟨h, hb⟩
  · rw [hc]; exact ⟨h, hb⟩

theorem call_run_agree : ∀ (calls : List Call) {ctx cN : isc_mem},
    freefrags_agree ctx → ctx.max_size ≤ ctx.mem_target →
    call_run ctx calls = Except.ok cN → freefrags_agree cN := by
  intro calls
  induction calls with
  | nil =>
    intro ctx cN h _ hr
    simp only [call_run, Except.ok.injEq] at hr
    subst hr
    exact h
  | cons c cs ih =>
    intro ctx cN h hb hr
    obtain ⟨c1, h1, h2⟩ := call_run_cons_inv hr
    obtain ⟨a1, a2⟩ := call_step_agree h hb h1
    exact ih a1 a2 h2

/-- Where no class exceeds a basic block the counter `freefrags` is right: in
every state reached from `isc_mem_createx` with `max_size` not above
`mem_target`, `freefrags` of every class is the length of the free list of the
class modulo `2 ^ 64`. -/
theorem freefrags_counts (sizeof_ctx init_max_size target_size : Nat) (b b' : Backing)
    (mutex_ok : Bool) (ctx0 ctx : isc_mem) (calls : List Call)
    (hc : isc_mem_createx sizeof_ctx init_max_size target_size b mutex_ok
      = (isc_result.ISC_R_SUCCESS, some ctx0, b'))
    (hle : ctx0.max_size ≤ ctx0.mem_target)
    (hrun : call_run ctx0 calls = Except.ok ctx) :
    ∀ c, (ctx.stats c).freefrags = (ctx.freelists c).length % 2 ^ 64 := by
  have hf := createx_fresh hc
  have h0 : freefrags_agree ctx0 := by
    intro c
    rw [hf.stats, hf.freelists]
    rfl
  exact call_run_agree calls h0 hle hrun

end IscMem
